import Mathlib

/-!
hdl-cmp: a shallow embedding of the HDL compiler.

The development follows the three stages of the program:

* `hdl-parse.c`: the block splitter `_HDL_ParseDataToBlocks` and the
  recursive-descent parser (`_HDL_ParseValue`, `_HDL_ParseAttribute`,
  `_HDL_ParseImage`, `_HDL_ParseVariable`, `_HDL_ParseElement`,
  `_HDL_ParseBlocks`, `HDL_Parse`);
* `hdl-cmp.c`: the binary encoder (`findTag`, `findAttr`, `compileElement`,
  `compileBitmap`, `compile`).

Modelling conventions.

* A C `char`/`uint8_t` is a `Nat` below 256; a C string is the `List Nat` of
  its bytes without the terminating NUL.
* A `float` is its IEEE-754 binary32 bit pattern (a `Nat` below `2^32`); in
  memory it is four little-endian bytes.
* A heap block is the list of the bytes written to it.  A pointer is `Ptr`:
  `null`, `own mem` (the slot owns the block) or `var i` (the pointer is a copy
  of the pointer held by constant `i`, so both name the same block).
* The output buffer is a total map `Nat → Nat` together with the cursor `pc`;
  the source never compares `pc` with the capacity of the buffer.
* A run ends in `Res.ret code s` (the C function returned `code`), in `Res.ub`
  (the C program reads or writes outside an object, or reads memory that was
  never written) or in `Res.nofuel` (the recursion budget of the model ran out).
* `printf` diagnostics are not part of the state.
-/

namespace Hdl

/-! ## Bytes, strings, memory -/

/-- Bytes of an ASCII literal: the C string without its terminator. -/
def str (s : String) : List Nat := s.toList.map Char.toNat

/-- Outcome of a run of a C function on state `α`. -/
inductive Res (α : Type) where
  | ret (code : Nat) (s : α)
  | ub
  | nofuel
deriving Repr

/-- The enumeration `HDL_Type` of `hdl-parse.h`. -/
inductive HDL_Type where
  | NULL | BOOL | FLOAT | STRING | I8 | I16 | I32 | IMG | BIND
deriving DecidableEq, Repr

/-- Ordinal of a type tag, as stored in a byte. -/
def HDL_Type.toNat : HDL_Type → Nat
  | .NULL => 0 | .BOOL => 1 | .FLOAT => 2 | .STRING => 3 | .I8 => 4
  | .I16 => 5 | .I32 => 6 | .IMG => 7 | .BIND => 8

/-- The table `HDL_TYPE_SIZES` of `hdl-parse.c`. -/
def HDL_TYPE_SIZES : HDL_Type → Nat
  | .NULL => 0 | .BOOL => 1 | .FLOAT => 4 | .STRING => 0 | .I8 => 1
  | .I16 => 2 | .I32 => 4 | .IMG => 1 | .BIND => 1

/-- A `void *` of the document. -/
inductive Ptr where
  | null
  | own (mem : List Nat)
  | var (i : Nat)
deriving DecidableEq, Repr

/-- The C string that starts at offset `off` of a block: the bytes up to the
first NUL, or `none` when the block ends before a NUL is met. -/
def cstrAt : List Nat → Nat → Option (List Nat)
  | [], _ => none
  | b :: rest, 0 => if b = 0 then some [] else (cstrAt rest 0).map (fun t => b :: t)
  | _ :: rest, off + 1 => cstrAt rest off

/-- Little-endian bytes of an unsigned value, `n` of them. -/
def leBytes : Nat → Nat → List Nat
  | 0, _ => []
  | n + 1, v => v % 256 :: leBytes n (v / 256)

/-- Value of a little-endian byte sequence. -/
def leValue : List Nat → Nat
  | [] => 0
  | b :: rest => b % 256 + 256 * leValue rest

/-- Two's-complement representation of an integer in `w` bits. -/
def twos (w : Nat) (v : Int) : Nat := (v % (2 : Int) ^ w).toNat

/-! ## binary32 -/

/-- Biased exponent field of a binary32 pattern. -/
def f32Exp (b : Nat) : Nat := b / 2 ^ 23 % 256

/-- Fraction field of a binary32 pattern. -/
def f32Man (b : Nat) : Nat := b % 2 ^ 23

/-- Sign bit of a binary32 pattern. -/
def f32Neg (b : Nat) : Bool := b / 2 ^ 31 % 2 = 1

/-- The test `fmodf(x, 1) == 0`: `x` is finite and has no fractional part. -/
def fmodf1IsZero (b : Nat) : Bool :=
  if f32Exp b = 255 then false
  else if f32Exp b = 0 then f32Man b = 0
  else if 150 ≤ f32Exp b then true
  else (2 ^ 23 + f32Man b) % 2 ^ (150 - f32Exp b) = 0

/-- Magnitude of a finite binary32 value truncated toward zero. -/
def f32TruncMag (b : Nat) : Nat :=
  if f32Exp b = 0 then 0
  else if 150 ≤ f32Exp b then (2 ^ 23 + f32Man b) * 2 ^ (f32Exp b - 150)
  else (2 ^ 23 + f32Man b) / 2 ^ (150 - f32Exp b)

/-- The conversion `(int32_t)x`.  For a value outside the range of `int32_t`
(and for infinities and NaN) C leaves the result undefined; the model takes
the x86 result `INT32_MIN`. -/
def f32ToI32 (b : Nat) : Int :=
  let t : Int := if f32Neg b then - (f32TruncMag b : Int) else (f32TruncMag b : Int)
  if f32Exp b = 255 then - (2 : Int) ^ 31
  else if - (2 : Int) ^ 31 ≤ t ∧ t < (2 : Int) ^ 31 then t
  else - (2 : Int) ^ 31

/-- Index of the highest set bit, by halving at most `fuel` times. -/
def ilog2 : Nat → Nat → Nat
  | 0, _ => 0
  | fuel + 1, n => if n < 2 then 0 else ilog2 fuel (n / 2) + 1

/-- The conversion of a `uint8_t` to `float` (exact). -/
def f32OfNat (n : Nat) : Nat :=
  if n = 0 then 0
  else
    let e := ilog2 32 n
    (127 + e) * 2 ^ 23 + (n * 2 ^ (23 - e) - 2 ^ 23)

/-! ## The document (`hdl-parse.h`) -/

/-- `struct HDL_Attr`. -/
structure HDL_Attr where
  key : List Nat
  value : Ptr
  type : HDL_Type
  count : Nat
deriving DecidableEq, Repr

/-- `struct HDL_Variable`. -/
structure HDL_Variable where
  name : List Nat
  value : Ptr
  type : HDL_Type
  count : Nat
  isConst : Nat
deriving DecidableEq, Repr

/-- `struct HDL_Element`; `attrCount` and `childCount` are the lengths of the
two lists, `content = none` is the NULL pointer. -/
structure HDL_Element where
  tag : List Nat
  content : Option (List Nat)
  attrs : List HDL_Attr
  parent : Int
  children : List Nat
deriving DecidableEq, Repr

/-- `struct HDL_Bitmap`; `data = none` before the pixel block is allocated. -/
structure HDL_Bitmap where
  name : List Nat
  size : Nat
  width : Nat
  height : Nat
  sprite_width : Nat
  sprite_height : Nat
  colorMode : Nat
  data : Option (List Nat)
deriving DecidableEq, Repr

/-- `struct HDL_Document`; the three counts are the lengths of the lists.  In a
C state every count fits its field: `attrCount` and an attribute's `count` are
below `2^8`, the other counts and a bitmap's `size` are below `2^16`. -/
structure HDL_Document where
  elements : List HDL_Element
  vars : List HDL_Variable
  bitmaps : List HDL_Bitmap
deriving DecidableEq, Repr

/-- The block a document pointer names, when it names one. -/
def deref (doc : HDL_Document) : Ptr → Option (List Nat)
  | .null => none
  | .own mem => some mem
  | .var i =>
    match doc.vars[i]? with
    | some v => (match v.value with
      | .own mem => some mem
      | _ => none)
    | none => none

/-! ## The encoder (`hdl-cmp.c`) -/

/-- The table `tagnames`. -/
def tagnames : List (List Nat) := [str "box", str "text"]

/-- The table `attrnames`. -/
def attrnames : List (List Nat) :=
  [str "x", str "y", str "width", str "height", str "flex", str "flexdir",
   str "bind", str "img", str "padding", str "align", str "size", str "disabled"]

/-- The table `alignment_x`. -/
def alignment_x : List (List Nat) := [str "center", str "left", str "right"]

/-- The table `alignment_y`. -/
def alignment_y : List (List Nat) := [str "middle", str "top", str "bottom"]

def HDL_ATTR_FLEX_DIR : Nat := 5
def HDL_ATTR_ALIGN : Nat := 9

/-- The search loop shared by `findTag`, `findAttr` and the two alignment
lookups: the index (counted from `x`) of the first name equal to `s` under
`strcmp`, or `none` when the loop runs to its end. -/
def findName : List (List Nat) → List Nat → Nat → Option Nat
  | [], _, _ => none
  | n :: rest, s, x => if s = n then some x else findName rest s (x + 1)

/-- `findTag`: index in `tagnames`, or `0xFF`. -/
def findTag (tagname : List Nat) : Nat := (findName tagnames tagname 0).getD 0xFF

/-- `findAttr`: index in `attrnames`, or `0xFF`. -/
def findAttr (attrname : List Nat) : Nat := (findName attrnames attrname 0).getD 0xFF

/-- State of the encoder: the document (the encoder rewrites parts of it), the
output buffer and the cursor `*pc`. -/
structure CState where
  doc : HDL_Document
  buffer : Nat → Nat
  pc : Nat

/-- The store `buffer[i] = v`. -/
def setB (b : Nat → Nat) (i v : Nat) : Nat → Nat := fun j => if j = i then v else b j

/-- The copy `memcpy(&buffer[i], bs, len bs)`. -/
def setBytes (b : Nat → Nat) : Nat → List Nat → Nat → Nat
  | _, [] => b
  | i, v :: rest => setBytes (setB b i v) (i + 1) rest

/-- The store `buffer[(*pc)++] = v`. -/
def emit (s : CState) (v : Nat) : CState :=
  { s with buffer := setB s.buffer s.pc (v % 256), pc := s.pc + 1 }

/-- A copy of `bs` to `&buffer[*pc]` followed by `(*pc) += len bs`. -/
def emitBytes (s : CState) (bs : List Nat) : CState :=
  { s with buffer := setBytes s.buffer s.pc bs, pc := s.pc + bs.length }

/-- The `n` bytes `buffer[lo .. lo+n-1]`. -/
def segN (b : Nat → Nat) : Nat → Nat → List Nat
  | _, 0 => []
  | lo, n + 1 => b lo :: segN b (lo + 1) n

/-- The bytes `buffer[lo .. hi-1]`. -/
def seg (b : Nat → Nat) (lo hi : Nat) : List Nat := segN b lo (hi - lo)

/-- The load `*(float*)&buffer[pc]`. -/
def readF32 (b : Nat → Nat) (pc : Nat) : Nat := leValue (seg b pc (pc + 4))

/-- The load `((float*)val)[z]`; `none` when the block is shorter. -/
def valF32 (val : List Nat) (z : Nat) : Option Nat :=
  if 4 * z + 4 ≤ val.length then some (leValue ((val.drop (4 * z)).take 4)) else none

/-- Replace attribute `i` of element `ei`. -/
def setAttr (doc : HDL_Document) (ei i : Nat) (a : HDL_Attr) : HDL_Document :=
  match doc.elements[ei]? with
  | some e => { doc with elements := doc.elements.set ei { e with attrs := e.attrs.set i a } }
  | none => doc

/-- Store `mem` into the block named by attribute pointer `p`: into the
attribute's own block, or into the block of the constant it aliases. -/
def writeBack (doc : HDL_Document) (ei i : Nat) (a : HDL_Attr) (mem : List Nat) : HDL_Document :=
  match a.value with
  | .own _ => setAttr doc ei i { a with value := .own mem }
  | .var j =>
    match doc.vars[j]? with
    | some v => { doc with vars := doc.vars.set j { v with value := .own mem } }
    | none => doc
  | .null => doc

/-- Lines 211-228: the emitted type chosen from the float found in the output
buffer at the cursor. -/
def narrowType (b : Nat → Nat) (pc : Nat) : HDL_Type :=
  if fmodf1IsZero (readF32 b pc) then
    let nval := f32ToI32 (readF32 b pc)
    if nval < 0x80 ∧ nval > -0x80 then .I8
    else if nval < 0x8000 ∧ nval > -0x8000 then .I16
    else .I32
  else .FLOAT

/-- One iteration of the loop of lines 229-256: the bytes stored for a float
`f` under emitted type `ntype`.  A conversion to `int8_t` or `int16_t` keeps
the low bits of the `int32_t` conversion. -/
def narrowBytes (ntype : HDL_Type) (f : Nat) : List Nat :=
  match ntype with
  | .FLOAT => leBytes 4 f
  | .I8 => leBytes 1 (twos 8 (f32ToI32 f))
  | .I16 => leBytes 2 (twos 16 (f32ToI32 f))
  | .I32 => leBytes 4 (twos 32 (f32ToI32 f))
  | _ => []

/-- The loop of lines 229-256 from index `z`, `n` iterations. -/
def emitFloats (ntype : HDL_Type) (val : List Nat) : Nat → Nat → CState → Option CState
  | 0, _, s => some s
  | n + 1, z, s =>
    match valF32 val z with
    | none => none
    | some f => emitFloats ntype val n (z + 1) (emitBytes s (narrowBytes ntype f))

/-- Index of the first space met by the scan `for(int i = 0; slen; i++)` of
line 151, whose condition never becomes false once `slen` is non-zero. -/
def scanSpace (mem : List Nat) : Option Nat :=
  if mem.indexOf 32 < mem.length then some (mem.indexOf 32) else none

/-- Lines 123-139: the `flexdir` rewrite of a STRING value.  Returns the value
of `ftemp`; `none` when `value` is not a terminated string, and `none` for a
word other than `col` and `row`: there line 136 calls `printf` with a `%s`
conversion and no argument, which is undefined behaviour. -/
def flexdirTemp (mem : Option (List Nat)) : Option Nat :=
  match mem.bind (fun m => cstrAt m 0) with
  | none => none
  | some v =>
    if v = str "col" then some (f32OfNat 1)
    else if v = str "row" then some (f32OfNat 2)
    else none

/-- Lines 158-191: the two table lookups and the packing, on the two halves of
the split string.  The x half is read only when the y half was found. -/
def alignPack (y_string : List Nat) (x_string : Option (List Nat)) : Option Nat :=
  match findName alignment_y y_string 0 with
  | none => some 0
  | some y_align =>
    match x_string with
    | none => none
    | some xs =>
      match findName alignment_x xs 0 with
      | none => some 0
      | some x_align => some (f32OfNat ((y_align ||| (x_align <<< 4)) % 256))

/-- Lines 144-192: the `align` rewrite of a STRING value held in block `mem`.
Returns the block after the store `y_string[i] = 0` and the value of `ftemp`;
`none` when the string is not terminated or when the scan for the space leaves
the block. -/
def alignTemp (mem : List Nat) : Option (List Nat × Nat) :=
  match cstrAt mem 0 with
  | none => none
  | some y0 =>
    if y0.length = 0 then some (mem, 0)
    else
      match scanSpace mem with
      | none => none
      | some i =>
        let mem1 := mem.set i 0
        match cstrAt mem1 0 with
        | none => none
        | some y_string => (alignPack y_string (cstrAt mem1 (i + 1))).map (fun f => (mem1, f))

/-- Lines 195-267: the type byte, the count byte and the payload of attribute
`a` (already rewritten), whose value is read from `val`. -/
def compilePayload (s : CState) (a : HDL_Attr) (val : Option (List Nat)) : Option CState :=
  let type_addr := s.pc
  let s := emit s a.type.toNat
  let s := emit s a.count
  match a.type with
  | .NULL => some (emit s 0)
  | .IMG | .BOOL | .BIND =>
    (match val with
     | some (v :: _) => some (emit s v)
     | _ => none)
  | .FLOAT =>
    let ntype := narrowType s.buffer s.pc
    (match val with
     | none => if a.count = 0 then
         some { s with buffer := setB s.buffer type_addr ntype.toNat } else none
     | some v =>
       (emitFloats ntype v a.count 0 s).map
         (fun s1 => { s1 with buffer := setB s1.buffer type_addr ntype.toNat }))
  | .STRING =>
    (match val.bind (fun m => cstrAt m 0) with
     | none => none
     | some v => some (emitBytes s (v ++ [0])))
  | _ => some s

/-- Body of the attribute loop of `compileElement` (lines 113-268) for
attribute `i` of element `ei`. -/
def compileAttr (s : CState) (ei attrCountAddr i : Nat) : Option CState :=
  match s.doc.elements[ei]? with
  | none => none
  | some element =>
    match element.attrs[i]? with
    | none => none
    | some a =>
      let attr := findAttr a.key
      if attr = 0xFF then
        some { s with buffer := setB s.buffer attrCountAddr ((s.buffer attrCountAddr + 255) % 256) }
      else
        let s := emit s attr
        if attr = HDL_ATTR_FLEX_DIR ∧ a.type = .STRING then
          match flexdirTemp (deref s.doc a.value) with
          | none => none
          | some ftemp =>
            let a1 := { a with type := HDL_Type.FLOAT }
            compilePayload { s with doc := setAttr s.doc ei i a1 } a1 (some (leBytes 4 ftemp))
        else if attr = HDL_ATTR_ALIGN ∧ a.type = .STRING then
          match (deref s.doc a.value).bind alignTemp with
          | none => none
          | some (mem1, ftemp) =>
            let a1 := { a with type := HDL_Type.FLOAT }
            let doc1 := setAttr s.doc ei i a1
            compilePayload { s with doc := writeBack doc1 ei i a1 mem1 } a1 (some (leBytes 4 ftemp))
        else
          compilePayload s a (deref s.doc a.value)

/-- The attribute loop of `compileElement`: `n` iterations from index `i`. -/
def compileAttrs (ei attrCountAddr : Nat) : Nat → Nat → CState → Option CState
  | 0, _, s => some s
  | n + 1, i, s =>
    match compileAttr s ei attrCountAddr i with
    | none => none
    | some s1 => compileAttrs ei attrCountAddr n (i + 1) s1

/-- The child loop of `compileElement` (lines 271-273); `rec` is the recursive
call, whose return value the loop discards. -/
def compileChildren (rec : CState → Nat → Res CState) : List Nat → CState → Res CState
  | [], s => .ret 0 s
  | c :: cs, s =>
    match rec s c with
    | .ret _ s1 => compileChildren rec cs s1
    | .ub => .ub
    | .nofuel => .nofuel

/-- `compileElement(doc, &doc->elements[ei], buffer, pc)`. -/
def compileElement : Nat → CState → Nat → Res CState
  | 0, _, _ => .nofuel
  | fuel + 1, s, ei =>
    match s.doc.elements[ei]? with
    | none => .ub
    | some element =>
      let tagc := findTag element.tag
      if tagc = 0xFF then .ret 1 s
      else
        let s := emit s tagc
        let s := emitBytes s (element.content.getD [] ++ [0])
        let attrCountAddr := s.pc
        let s := emit s element.attrs.length
        match compileAttrs ei attrCountAddr element.attrs.length 0 s with
        | none => .ub
        | some s =>
          let s := emit s element.children.length
          compileChildren (compileElement fuel) element.children s

/-- `compileBitmap`; `none` when the pixel block is shorter than `size`. -/
def compileBitmap (bmp : HDL_Bitmap) (s : CState) : Option CState :=
  let s := emitBytes s (leBytes 2 bmp.size)
  let s := emitBytes s (leBytes 2 bmp.width)
  let s := emitBytes s (leBytes 2 bmp.height)
  let s := emit s bmp.colorMode
  if bmp.size = 0 then some s
  else
    match bmp.data with
    | none => none
    | some d => if bmp.size ≤ d.length then some (emitBytes s (d.take bmp.size)) else none

/-- The bitmap loop of `compile` (lines 322-327). -/
def compileBitmaps : List HDL_Bitmap → CState → Option CState
  | [], s => some s
  | bmp :: rest, s =>
    match compileBitmap bmp s with
    | none => none
    | some s1 => compileBitmaps rest s1

/-- Lines 302-319 of `compile`: the sixteen header bytes. -/
def compileHeader (s : CState) : CState :=
  let s := { s with buffer := setBytes s.buffer 0 (List.replicate 16 0) }
  let s := emit s 0
  let s := emit s 1
  let s := emit s s.doc.bitmaps.length
  let s := emit s 0
  let s := emitBytes s (leBytes 2 s.doc.elements.length)
  { s with pc := 16 }

/-- `compile(doc, buffer, pc)` for a non-NULL `doc`. -/
def compile (fuel : Nat) (s : CState) : Res CState :=
  let s := compileHeader s
  match compileBitmaps s.doc.bitmaps s with
  | none => .ub
  | some s =>
    match compileElement fuel s 0 with
    | .ret 0 s1 => .ret 0 s1
    | .ret _ s1 => .ret 1 s1
    | .ub => .ub
    | .nofuel => .nofuel

/-! ## The block splitter (`hdl-parse.c`) -/

def HDL_BLOCKBUFFER_REALLOC_SIZE : Nat := 32

/-- The table `delimiters`: `# \n \r \t space < > / * = [ ] , ( ) $`. -/
def delimiters : List Nat := [35, 10, 13, 9, 32, 60, 62, 47, 42, 61, 91, 93, 44, 40, 41, 36]

/-- `isDelimiter`. -/
def isDelimiter (c : Nat) : Bool := delimiters.contains c

/-- `isWhitespace`. -/
def isWhitespace (c : Nat) : Bool := c = 32 || c = 10 || c = 13 || c = 9

/-- `isNumeric`. -/
def isNumeric (c : Nat) : Bool := 48 ≤ c && c ≤ 57

/-- `isAlphabetical`. -/
def isAlphabetical (c : Nat) : Bool := (65 ≤ c && c ≤ 90) || (97 ≤ c && c ≤ 122)

/-- Locals and globals of `_HDL_ParseDataToBlocks`: `data` is
`data_buffer[0 .. dbi-1]`, `blocks` holds the offsets into `data_buffer` stored
in `blocks[0 .. block_count-1]`. -/
structure SplitState where
  data : List Nat
  blocks : List Nat
  blocks_allocated : Nat
  lastChar : Nat
  blocklen : Nat
  inquotes : Nat
deriving DecidableEq, Repr

/-- The store `blocks[block_count++] = &data_buffer[dbi]`; `none` when the
slot lies outside the allocated array. -/
def pushBlock (st : SplitState) : Option SplitState :=
  if st.blocks.length < st.blocks_allocated then
    some { st with blocks := st.blocks ++ [st.data.length] }
  else none

/-- Lines 233-264: the quote state after looking at `c`. -/
def quoteStep (lastChar inquotes c : Nat) : Nat :=
  if lastChar ≠ 92 then
    if c = 39 then (if inquotes = 0 then 1 else if inquotes = 1 then 0 else inquotes)
    else if c = 34 then (if inquotes = 0 then 2 else if inquotes = 2 then 0 else inquotes)
    else if c = 60 then (if inquotes = 3 then 0 else inquotes)
    else inquotes
  else inquotes

/-- Lines 319-325: entering text-content mode after `>` and saving `lastChar`. -/
def splitFinish (st : SplitState) (c : Nat) : SplitState :=
  { st with
    inquotes := if c = 62 ∧ st.lastChar ≠ 92 then (if st.inquotes = 0 then 3 else st.inquotes)
                else st.inquotes
    lastChar := c }

/-- Lines 233-325: the loop body after the capacity test, for character `c`;
`none` when a store leaves its array. -/
def splitChar (st : SplitState) (c : Nat) : Option SplitState :=
  let st := { st with inquotes := quoteStep st.lastChar st.inquotes c }
  if isWhitespace c ∧ isWhitespace st.lastChar then
    some { st with lastChar := c }
  else if isDelimiter c ∧ st.inquotes = 0 then
    let st1 : Option SplitState :=
      if st.blocklen > 0 then
        let st := { st with data := st.data ++ [0] }
        let st := if st.blocks_allocated - 2 ≤ st.blocks.length then
            { st with blocks_allocated := st.blocks_allocated + HDL_BLOCKBUFFER_REALLOC_SIZE }
          else st
        pushBlock st
      else some st
    match st1 with
    | none => none
    | some st =>
      let st := { st with blocklen := 0 }
      if ¬ isWhitespace c then
        (pushBlock { st with data := st.data ++ [c, 0] }).map (fun st => splitFinish st c)
      else some (splitFinish st c)
  else
    if ¬ isWhitespace c ∨ (st.inquotes ≠ 0 ∧ c ≠ 10) then
      if st.lastChar = 92 then
        if c = 110 then
          (if st.data = [] then none else some (splitFinish { st with data := st.data.dropLast ++ [10] } c))
        else if c = 116 then
          (if st.data = [] then none else some (splitFinish { st with data := st.data.dropLast ++ [9] } c))
        else some (splitFinish st c)
      else some (splitFinish { st with data := st.data ++ [c], blocklen := st.blocklen + 1 } c)
    else some (splitFinish st c)

/-- The loop of `_HDL_ParseDataToBlocks` over the rest of the input;
`ret 1` is the capacity failure of line 223. -/
def splitLoop (dalloc : Nat) : List Nat → SplitState → Res SplitState
  | [], st => .ret 0 st
  | c :: rest, st =>
    if (dalloc : Int) - 2 ≤ (st.data.length : Int) then .ret 1 st
    else
      match splitChar st c with
      | none => .ub
      | some st1 => splitLoop dalloc rest st1

/-- The globals left by the splitter: the bytes written to `data_buffer`, the
offsets written to the `blocks` array (one more than `block_count` of them when
the slot after the last block was written) and `block_count`. -/
structure Blocks where
  data : List Nat
  blocks : List Nat
  block_count : Nat
deriving DecidableEq, Repr

/-- `_HDL_ParseDataToBlocks(data)`. -/
def _HDL_ParseDataToBlocks (data : List Nat) : Res Blocks :=
  let dalloc := 2 * data.length
  match splitLoop dalloc data ⟨[], [0], HDL_BLOCKBUFFER_REALLOC_SIZE, 32, 0, 0⟩ with
  | .ret 0 st =>
    if st.data.length < dalloc then
      .ret 0 ⟨st.data ++ [0], st.blocks,
              if st.blocklen = 0 then st.blocks.length - 1 else st.blocks.length⟩
    else .ub
  | .ret c st => .ret c ⟨st.data, st.blocks, st.blocks.length⟩
  | .ub => .ub
  | .nofuel => .nofuel

/-- The pointer `blocks[i]`, as an offset; `none` for a slot never written. -/
def Blocks.ptr (B : Blocks) (i : Nat) : Option Nat := B.blocks[i]?

/-- The string `blocks[i]`; `none` when the slot was never written or the
string is not terminated inside the written part of `data_buffer`. -/
def Blocks.get (B : Blocks) (i : Nat) : Option (List Nat) :=
  (B.ptr i).bind (fun off => cstrAt B.data off)

/-- The first character `s[0]` of a string (the terminator when it is empty). -/
def c0 (s : List Nat) : Nat := s.headD 0

/-- The blocks below `block_count`, as strings. -/
def Blocks.list (B : Blocks) : List (Option (List Nat)) :=
  (List.range B.block_count).map B.get

/-! ## Literals: `isNumberString`, `isIntString`, `atoi`, `atof` -/

/-- The loop of `isNumberString` from index `i`, with the flags `p` and
`hasnum`; `none` is an early `return 0`. -/
def isNumberStringLoop : List Nat → Nat → Bool → Bool → Option (Bool × Bool)
  | [], _, p, hasnum => some (p, hasnum)
  | c :: rest, i, p, hasnum =>
    if i ≠ 0 ∧ c = 45 then none
    else if isAlphabetical c then none
    else if c = 46 then (if p = false then isNumberStringLoop rest (i + 1) true hasnum else none)
    else isNumberStringLoop rest (i + 1) p (hasnum || isNumeric c)

/-- `isNumberString`. -/
def isNumberString (s : List Nat) : Bool :=
  match isNumberStringLoop s 0 false false with
  | none => false
  | some (p, hasnum) => if p = true ∧ s.getLast? = some 46 then false else hasnum

/-- The loop of `isIntString`; `none` is an early `return 0`. -/
def isIntStringLoop : List Nat → Nat → Bool → Option Bool
  | [], _, hasnum => some hasnum
  | c :: rest, i, hasnum =>
    if i ≠ 0 ∧ c = 45 then none
    else if isNumeric c then isIntStringLoop rest (i + 1) true
    else if c = 45 then isIntStringLoop rest (i + 1) hasnum
    else none

/-- `isIntString`. -/
def isIntString (s : List Nat) : Bool := (isIntStringLoop s 0 false).getD false

/-- The C library's `isspace` in the "C" locale. -/
def isspace (c : Nat) : Bool := c = 32 || (9 ≤ c && c ≤ 13)

/-- Value of the leading run of decimal digits, continuing from `acc`. -/
def digitsValue : List Nat → Nat → Nat
  | [], acc => acc
  | c :: rest, acc => if isNumeric c then digitsValue rest (10 * acc + (c - 48)) else acc

/-- The C library's `atoi` (the result is not reduced to the range of `int`). -/
def atoi (s : List Nat) : Int :=
  match s.dropWhile isspace with
  | 45 :: rest => - (digitsValue rest 0 : Int)
  | 43 :: rest => (digitsValue rest 0 : Int)
  | rest => (digitsValue rest 0 : Int)

/-- Quotient `num / den` rounded to the nearest integer, ties to even. -/
def divNE (num den : Nat) : Nat :=
  let q := num / den
  let r := num % den
  if 2 * r < den then q else if den < 2 * r then q + 1 else if q % 2 = 0 then q else q + 1

/-- The exponent `e` with `2^e ≤ num/den < 2^(e+1)`, for `num, den > 0`. -/
def floorLog2 (num den : Nat) : Int :=
  let l : Int := (ilog2 (num + 1) num : Int) - (ilog2 (den + 1) den : Int)
  if 0 ≤ l then (if den * 2 ^ l.toNat ≤ num then l else l - 1)
  else (if den ≤ num * 2 ^ (-l).toNat then l else l - 1)

/-- Round the positive rational `num/den` to a binary floating-point number
with `p` significant bits whose least exponent of the last place is `emin`:
the result `(m, u)` stands for `m * 2^u`, with `m ≤ 2^p - 1` and `emin ≤ u`. -/
def roundBin (p : Nat) (emin : Int) (num den : Nat) : Nat × Int :=
  let u : Int := max emin (floorLog2 num den - ((p : Int) - 1))
  let m := if 0 ≤ u then divNE num (den * 2 ^ u.toNat) else divNE (num * 2 ^ (-u).toNat) den
  if m = 2 ^ p then (2 ^ (p - 1), u + 1) else (m, u)

/-- The binary32 pattern (without sign) of the positive rational `num/den`
reached through a `double`, as in `(float)atof(..)`. -/
def f32OfRat (num den : Nat) : Nat :=
  if num = 0 then 0
  else
    let d := roundBin 53 (-1074) num den
    if d.1 = 0 then 0
    else if 1025 ≤ d.2 + 53 ∧ 2 ^ 52 ≤ d.1 then 0x7f800000
    else
      let f := if 0 ≤ d.2 then roundBin 24 (-149) (d.1 * 2 ^ d.2.toNat) 1
               else roundBin 24 (-149) d.1 (2 ^ (-d.2).toNat)
      if 129 ≤ f.2 + 24 ∧ 2 ^ 23 ≤ f.1 then 0x7f800000
      else if f.1 < 2 ^ 23 then f.1
      else ((f.2 + 150).toNat) * 2 ^ 23 + (f.1 - 2 ^ 23)

/-- The digits accepted by `strtod` after the sign, for a string without
letters: the integer digits, and the fraction digits when a point follows.
Returns the decimal numerator, the number of fraction digits and whether any
digit was read. -/
def decimalParts (s : List Nat) : Nat × Nat × Bool :=
  let ip := s.takeWhile isNumeric
  let rest := s.dropWhile isNumeric
  match rest with
  | 46 :: r =>
    let fp := r.takeWhile isNumeric
    (digitsValue (ip ++ fp) 0, fp.length, ip ≠ [] ∨ fp ≠ [])
  | _ => (digitsValue ip 0, 0, ip ≠ [])

/-- The conversion `(float)atof(s)` for a string without letters (the only
strings `_HDL_ParseValue` passes): binary32 pattern of the result. -/
def atofF32 (s : List Nat) : Nat :=
  let t := s.dropWhile isspace
  let neg := t.head? = some 45
  let body := if t.head? = some 45 ∨ t.head? = some 43 then t.drop 1 else t
  let d := decimalParts body
  if d.2.2 = false then 0
  else (if neg then 2 ^ 31 else 0) + f32OfRat d.1 (10 ^ d.2.1)

/-! ## The parser (`hdl-parse.c`) -/

/-- The character `blocks[i][0]`; `none` when the slot or the byte was never
written. -/
def Blocks.c0 (B : Blocks) (i : Nat) : Option Nat :=
  (B.ptr i).bind (fun off => B.data[off]?)

/-- The character `blocks[i][1]`. -/
def Blocks.c1 (B : Blocks) (i : Nat) : Option Nat :=
  (B.ptr i).bind (fun off => B.data[off + 1]?)

/-- What `*val_out` points to while `_HDL_ParseValue` runs: nothing, the
caller's array `tmp_val[64]`, a block obtained from `malloc` (with its size), or
the block of constant `i`. -/
inductive VPtr where
  | null
  | tmp (mem : List Nat)
  | heap (mem : List Nat) (cap : Nat)
  | var (i : Nat)
deriving DecidableEq, Repr

/-- The three out-parameters `*len_out`, `*type_out`, `*val_out`. -/
structure Slot where
  len : Nat
  type : HDL_Type
  val : VPtr
deriving DecidableEq, Repr

/-- The document pointer stored for a parsed value. -/
def VPtr.toPtr : VPtr → Ptr
  | .null => .null
  | .tmp mem => .own mem
  | .heap mem _ => .own mem
  | .var i => .var i

/-- The out-parameters written through to constant `i` when they are its
fields (`dst = some i`), so that a lookup during the parse sees them. -/
def syncVar (doc : HDL_Document) (dst : Option Nat) (out : Slot) : HDL_Document :=
  match dst with
  | none => doc
  | some i =>
    match doc.vars[i]? with
    | none => doc
    | some v =>
      let v1 : HDL_Variable := { v with count := out.len, type := out.type, value := out.val.toPtr }
      { doc with vars := doc.vars.set i v1 }

/-- The idiom `if(*val_out == NULL) *val_out = malloc(msize);` followed by a
store of the bytes `b` at `*val_out`; `none` when the store leaves the block. -/
def storeVal (v : VPtr) (msize : Nat) (b : List Nat) : Option VPtr :=
  match v with
  | .null => if b.length ≤ msize then some (.heap b msize) else none
  | .tmp mem => if b.length ≤ 64 then some (.tmp (b ++ mem.drop b.length)) else none
  | .heap mem cap => if b.length ≤ cap then some (.heap (b ++ mem.drop b.length) cap) else none
  | .var _ => none

/-- The pointer copied by `*val_out = doc->vars[i].value`. -/
def aliasOf (v : HDL_Variable) (i : Nat) : VPtr :=
  match v.value with
  | .null => .null
  | .own _ => .var i
  | .var j => .var j

/-- Index of the first constant named `name` (lines 484-498 and 517-538). -/
def findVar (vars : List HDL_Variable) (name : List Nat) : Option Nat :=
  let i := vars.findIdx (fun v => v.name = name)
  if i < vars.length then some i else none

/-- Index of the first bitmap named `name` (lines 541-553). -/
def findBitmap (bitmaps : List HDL_Bitmap) (name : List Nat) : Option Nat :=
  let i := bitmaps.findIdx (fun b => b.name = name)
  if i < bitmaps.length then some i else none

/-- Locals of the array branch of `_HDL_ParseValue`. -/
structure ArrLocals where
  tmp_len : Nat
  tmp_type : HDL_Type
  tmp_val : List Nat
  val_addr : VPtr
  alloc_len : Nat
deriving DecidableEq, Repr

/-- Lines 424-563 of `_HDL_ParseValue`: every branch but the array. -/
def parseScalar (B : Blocks) (doc : HDL_Document) (bi : Nat) (out : Slot)
    (blk : List Nat) : Res (Nat × Slot) :=
  if c0 blk = 34 ∨ c0 blk = 39 then
    let quoteType := c0 blk = 34
    let slen := blk.length
    if slen < 2 then .ub
    else
      match storeVal out.val (slen - 1) ((blk.drop 1).dropLast ++ [0]) with
      | none => .ub
      | some v =>
        let out1 : Slot := ⟨1, .STRING, v⟩
        if ¬ quoteType ∧ blk.getLast? = some 39 then .ret 0 (bi, out1)
        else if quoteType ∧ blk.getLast? = some 34 then .ret 0 (bi, out1)
        else .ret 1 (bi, out1)
  else if isNumberString blk then
    match storeVal out.val 4 (leBytes 4 (atofF32 blk)) with
    | none => .ub
    | some v => .ret 0 (bi, ⟨1, .FLOAT, v⟩)
  else if blk = str "true" then
    match storeVal out.val 1 [1] with
    | none => .ub
    | some v => .ret 0 (bi, ⟨1, .BOOL, v⟩)
  else if blk = str "false" then
    match storeVal out.val 1 [0] with
    | none => .ub
    | some v => .ret 0 (bi, ⟨1, .BOOL, v⟩)
  else if c0 blk = 36 then
    match B.get (bi + 1) with
    | none => .ub
    | some nb =>
      if ¬ isIntString nb then
        match findVar doc.vars nb with
        | some i =>
          (match doc.vars[i]? with
           | none => .ub
           | some var =>
             match (deref doc var.value).bind (fun m => valF32 m 0) with
             | none => .ub
             | some f =>
               match storeVal out.val 1 [twos 8 (f32ToI32 f)] with
               | none => .ub
               | some v => .ret 0 (bi + 1, ⟨var.count, .BIND, v⟩))
        | none =>
          match storeVal out.val 1 [0xFF] with
          | none => .ub
          | some v => .ret 0 (bi + 1, ⟨1, .BIND, v⟩)
      else
        match storeVal out.val 1 [twos 8 (atoi nb)] with
        | none => .ub
        | some v => .ret 0 (bi + 1, ⟨1, .BIND, v⟩)
  else
    match findVar doc.vars blk with
    | some i =>
      (match doc.vars[i]? with
       | none => .ub
       | some var =>
         if out.val = .null then .ret 0 (bi, ⟨var.count, var.type, aliasOf var i⟩)
         else if var.type = .STRING then
           match (deref doc var.value).bind (fun m => cstrAt m 0) with
           | none => .ub
           | some sv =>
             (match storeVal out.val 0 (sv ++ [0]) with
              | none => .ub
              | some v => .ret 0 (bi, ⟨var.count, var.type, v⟩))
         else if HDL_TYPE_SIZES var.type = 0 then .ret 0 (bi, ⟨var.count, var.type, out.val⟩)
         else
           match deref doc var.value with
           | none => .ub
           | some m =>
             if m.length < HDL_TYPE_SIZES var.type then .ub
             else
               match storeVal out.val 0 (m.take (HDL_TYPE_SIZES var.type)) with
               | none => .ub
               | some v => .ret 0 (bi, ⟨var.count, var.type, v⟩))
    | none =>
      match findBitmap doc.bitmaps blk with
      | some i =>
        (match storeVal out.val 1 [i % 256] with
         | none => .ub
         | some v => .ret 0 (bi, ⟨1, .IMG, v⟩))
      | none => .ret 1 (bi, out)

/-- The loop of lines 370-422; `rec` is the recursive call of
`_HDL_ParseValue` on the locals `tmp_len`, `tmp_type`, `val_addr`. -/
def arrayLoop (rec : HDL_Document → Nat → Slot → Res (Nat × Slot)) (B : Blocks)
    (doc : HDL_Document) (dst : Option Nat) :
    Nat → Nat → Slot → ArrLocals → Res (Nat × Slot)
  | 0, _, _, _ => .nofuel
  | n + 1, bi, out, loc =>
    if ¬ bi < B.block_count then .ret 0 (bi, out)
    else
      match B.c0 bi with
      | none => .ub
      | some c =>
        if c = 93 then .ret 0 (bi, out)
        else
          match rec (syncVar doc dst out) bi ⟨loc.tmp_len, loc.tmp_type, loc.val_addr⟩ with
          | .ub => .ub
          | .nofuel => .nofuel
          | .ret code (bi1, t) =>
            if code ≠ 0 then .ret 1 (bi1, out)
            else
              let loc1 : ArrLocals :=
                { loc with
                  tmp_len := t.len, tmp_type := t.type, val_addr := t.val,
                  tmp_val := (match t.val with
                    | .tmp m => m
                    | _ => loc.tmp_val) }
              if t.type = .STRING then .ret 1 (bi1, out)
              else if out.len > 0 ∧ out.type ≠ t.type then .ret 1 (bi1, out)
              else
                let sz := HDL_TYPE_SIZES t.type
                let loc2 : ArrLocals :=
                  if out.len ≠ 0 ∧ out.len ≥ loc1.alloc_len then
                    { loc1 with alloc_len := loc1.alloc_len + 8 } else loc1
                let mem0 : List Nat :=
                  if out.len = 0 then [] else
                    (match out.val with
                     | .heap m _ => m
                     | _ => [])
                if loc2.tmp_val.length < sz then .ub
                else
                  let out1 : Slot :=
                    ⟨(out.len + 1) % 256, t.type,
                     .heap (mem0 ++ loc2.tmp_val.take sz) (sz * loc2.alloc_len)⟩
                  match B.c0 (bi1 + 1) with
                  | none => .ub
                  | some c2 =>
                    if c2 = 93 then .ret 0 (bi1 + 1, out1)
                    else if c2 = 44 then arrayLoop rec B doc dst n (bi1 + 2) out1 loc2
                    else .ret 1 (bi1 + 1, out1)

/-- `_HDL_ParseValue(doc, blockIndex, len_out, type_out, val_out)`: returns
the new `*blockIndex` and the out-parameters.  `dst = some i` when the
out-parameters are the fields of constant `i`. -/
def _HDL_ParseValue (B : Blocks) : Nat → HDL_Document → Option Nat → Nat → Slot →
    Res (Nat × Slot)
  | 0, _, _, _, _ => .nofuel
  | fuel + 1, doc, dst, bi, out =>
    match B.c0 bi with
    | none => .ub
    | some c =>
      if c = 91 then
        arrayLoop (fun d b t => _HDL_ParseValue B fuel d none b t) B doc dst fuel (bi + 1)
          ⟨0, .NULL, out.val⟩ ⟨0, .NULL, [], .tmp [], 8⟩
      else
        match B.get bi with
        | none => .ub
        | some blk => parseScalar B doc bi out blk

/-- The parser's view of its state: the document and the cursor `*blockIndex`. -/
structure PState where
  doc : HDL_Document
  blockIndex : Nat
deriving DecidableEq, Repr

/-- Apply `f` to element `ei` of the document. -/
def updElem (doc : HDL_Document) (ei : Nat) (f : HDL_Element → HDL_Element) : HDL_Document :=
  match doc.elements[ei]? with
  | some e => { doc with elements := doc.elements.set ei (f e) }
  | none => doc

/-- `_HDL_ParseAttribute(doc, &doc->elements[ei], blockIndex)`.  The attribute
array is reallocated in steps of 8 with an 8-bit size, which wraps at the 249th
attribute. -/
def _HDL_ParseAttribute (B : Blocks) (fuel : Nat) (st : PState) (ei : Nat) : Res PState :=
  match B.c0 st.blockIndex with
  | none => .ub
  | some c =>
    if isDelimiter c then .ret 1 st
    else
      match st.doc.elements[ei]?, B.get st.blockIndex with
      | some element, some key =>
        if element.attrs.length ≥ 248 ∨ key.length ≥ 32 then .ub
        else
          let put (a : HDL_Attr) : HDL_Document :=
            updElem st.doc ei (fun e => { e with attrs := e.attrs ++ [a] })
          let bi := st.blockIndex + 1
          match B.c0 bi with
          | none => .ub
          | some c1 =>
            if ¬ isDelimiter c1 ∨ c1 = 62 ∨ c1 = 47 then
              .ret 0 ⟨put ⟨key, .own [1], .BOOL, 1⟩, bi - 1⟩
            else if c1 = 61 then
              match _HDL_ParseValue B fuel (put ⟨key, .null, .NULL, 0⟩) none (bi + 1)
                  ⟨0, .NULL, .null⟩ with
              | .ub => .ub
              | .nofuel => .nofuel
              | .ret code (bi2, out) =>
                .ret (if code ≠ 0 then 1 else 0) ⟨put ⟨key, out.val.toPtr, out.type, out.len⟩, bi2⟩
            else .ret 1 ⟨put ⟨key, .null, .NULL, 0⟩, bi⟩
      | _, _ => .ub

/-- The external loader `HDL_BitmapFromBMP` of `hdl-util.c`, which reads a
file: given the path and the bitmap record it returns the filled record, or
`none` when it fails. -/
abbrev Loader := List Nat → HDL_Bitmap → Option HDL_Bitmap

/-- `_HDL_ParseImageFromPath`: the block without its quotes is copied to a
128-byte buffer and handed to the loader. -/
def _HDL_ParseImageFromPath (L : Loader) (B : Blocks) (doc : HDL_Document) (k : Nat)
    (bmp : HDL_Bitmap) (bi : Nat) : Res PState :=
  match B.get bi with
  | none => .ub
  | some blk =>
    if blk.length < 2 ∨ blk.length - 1 ≥ 128 then .ub
    else
      match L (blk.drop 1).dropLast bmp with
      | some b1 => .ret 0 ⟨{ doc with bitmaps := doc.bitmaps.set k b1 }, bi⟩
      | none => .ret 1 ⟨{ doc with bitmaps := doc.bitmaps.set k bmp }, bi⟩

/-- Locals of the pixel loop of `_HDL_ParseImage`. -/
structure BitLocals where
  x : Nat
  y : Nat
  data : List Nat
deriving DecidableEq, Repr

/-- The loop of lines 712-734 over the characters of one block; `none` is
`return 1`. -/
def bitChars (width size pad_width : Nat) : List Nat → BitLocals → Option BitLocals
  | [], l => some l
  | c :: rest, l =>
    if l.y * pad_width + l.x / 8 ≥ size then none
    else
      let idx := l.y * pad_width + l.x / 8
      let data1 :=
        if c = 49 then l.data.set idx ((l.data.getD idx 0) ||| (1 <<< (7 - l.x % 8))) else l.data
      if c ≠ 49 ∧ c ≠ 48 then none
      else
        let x1 := l.x + 1
        if x1 ≥ width then bitChars width size pad_width rest ⟨0, l.y + 1, data1⟩
        else bitChars width size pad_width rest ⟨x1, l.y, data1⟩

/-- The loop of lines 703-737 over the blocks up to `;`.  Returns the code,
the cursor and the locals. -/
def bitBlocks (B : Blocks) (width size pad_width : Nat) :
    Nat → Nat → BitLocals → Res (Nat × BitLocals)
  | 0, _, _ => .nofuel
  | n + 1, bi, l =>
    if ¬ bi < B.block_count then .ret 0 (bi, l)
    else
      match B.c0 bi with
      | none => .ub
      | some c =>
        if c = 59 then .ret 0 (bi, l)
        else
          match B.get bi with
          | none => .ub
          | some blk =>
            match bitChars width size pad_width blk l with
            | none => .ret 1 (bi, l)
            | some l1 => bitBlocks B width size pad_width n (bi + 1) l1

/-- `_HDL_ParseImage(doc, blockIndex)`.  The record taken from the bitmap
array is not cleared by the source; the model starts it from zeroes. -/
def _HDL_ParseImage (L : Loader) (B : Blocks) (fuel : Nat) (st : PState) : Res PState :=
  let bi := st.blockIndex + 1
  if st.doc.bitmaps.length ≥ 65528 then .ub
  else
    let k := st.doc.bitmaps.length
    let bmp0 : HDL_Bitmap := ⟨[], 0, 0, 0, 0, 0, 0, none⟩
    let doc := { st.doc with bitmaps := st.doc.bitmaps ++ [bmp0] }
    let fin (code : Nat) (b : HDL_Bitmap) (i : Nat) : Res PState :=
      .ret code ⟨{ doc with bitmaps := doc.bitmaps.set k b }, i⟩
    match B.c0 bi, (if (B.c0 bi).all isDelimiter then some [] else B.get bi) with
    | some c, some name =>
      if isDelimiter c then fin 1 bmp0 bi
      else if name.length ≥ 32 then .ub
      else
        let bmp := { bmp0 with name := name, colorMode := 1 }
        let bi := bi + 1
        match B.c0 bi with
        | none => .ub
        | some c =>
          if c = 34 then _HDL_ParseImageFromPath L B doc k bmp bi
          else if c ≠ 40 then fin 1 bmp bi
          else
            match B.get (bi + 1), B.c0 (bi + 2) with
            | some w, some comma =>
              let bmp := { bmp with width := twos 16 (atoi w) }
              if comma ≠ 44 then fin 1 bmp (bi + 2)
              else
                match B.get (bi + 3), B.c0 (bi + 4) with
                | some h, some c4 =>
                  let bmp := { bmp with height := twos 16 (atoi h) }
                  let sprite : Res (HDL_Bitmap × Nat) :=
                    if c4 = 44 then
                      match B.get (bi + 5), B.c0 (bi + 6) with
                      | some sw, some c6 =>
                        let bmp := { bmp with sprite_width := twos 8 (atoi sw) }
                        if c6 ≠ 44 then .ret 1 (bmp, bi + 6)
                        else
                          (match B.get (bi + 7) with
                           | some sh => .ret 0 ({ bmp with sprite_height := twos 8 (atoi sh) }, bi + 8)
                           | none => .ub)
                      | _, _ => .ub
                    else
                      .ret 0 ({ bmp with sprite_height := bmp.height % 256,
                                         sprite_width := bmp.width % 256 }, bi + 4)
                  (match sprite with
                   | .ub => .ub
                   | .nofuel => .nofuel
                   | .ret code (bmp, bi) =>
                     if code ≠ 0 then fin 1 bmp bi
                     else
                       match B.c0 bi with
                       | none => .ub
                       | some c =>
                         if c ≠ 41 then fin 1 bmp bi
                         else
                           match B.c0 (bi + 1) with
                           | none => .ub
                           | some c =>
                             if c = 34 then _HDL_ParseImageFromPath L B doc k bmp (bi + 1)
                             else
                               let size := ((bmp.width + 7) / 8 * bmp.height) % 65536
                               let pad_width := (bmp.width + 7) / 8
                               match bitBlocks B bmp.width size pad_width fuel (bi + 1)
                                   ⟨0, 0, List.replicate size 0⟩ with
                               | .ub => .ub
                               | .nofuel => .nofuel
                               | .ret code (bi, l) =>
                                 fin (if code ≠ 0 then 1 else 0)
                                   { bmp with size := size, data := some l.data } bi)
                | _, _ => .ub
            | _, _ => .ub
    | _, _ => .ub

/-- `_HDL_ParseVariable(doc, blockIndex)`. -/
def _HDL_ParseVariable (L : Loader) (B : Blocks) (fuel : Nat) (st : PState) : Res PState :=
  let bi := st.blockIndex + 1
  match B.get bi with
  | none => .ub
  | some kw =>
    if kw = str "const" then
      if st.doc.vars.length ≥ 65520 then .ub
      else
        match B.c0 (bi + 1), (if (B.c0 (bi + 1)).all isDelimiter then some [] else B.get (bi + 1)) with
        | some c, some name =>
          if isDelimiter c then .ret 1 ⟨st.doc, bi + 1⟩
          else if name.length ≥ 32 then .ub
          else
            let k := st.doc.vars.length
            let doc := { st.doc with vars := st.doc.vars ++ [⟨name, .null, .NULL, 0, 1⟩] }
            match _HDL_ParseValue B fuel doc (some k) (bi + 2) ⟨0, .NULL, .null⟩ with
            | .ub => .ub
            | .nofuel => .nofuel
            | .ret code (bi2, out) =>
              if code ≠ 0 then .ret 1 ⟨syncVar doc (some k) out, bi2⟩
              else .ret 0 ⟨syncVar doc (some k) out, bi2 + 1⟩
        | _, _ => .ub
    else if kw = str "img" then
      match _HDL_ParseImage L B fuel ⟨st.doc, bi⟩ with
      | .ret 0 st1 => .ret 0 { st1 with blockIndex := st1.blockIndex + 1 }
      | .ret _ st1 => .ret 1 st1
      | .ub => .ub
      | .nofuel => .nofuel
    else .ret 1 ⟨st.doc, bi⟩

/-- The attribute loop of `_HDL_ParseElement` (lines 831-871).  Returns the
state and `tagType`; a non-zero code is `return 1`. -/
def attrLoop (B : Blocks) (fuel : Nat) (ei : Nat) : Nat → PState → Res (PState × Nat)
  | 0, _ => .nofuel
  | n + 1, st =>
    if ¬ st.blockIndex < B.block_count then .ret 0 (st, 0)
    else
      match B.c0 st.blockIndex with
      | none => .ub
      | some c =>
        if isDelimiter c then
          if c = 47 then
            match B.c0 (st.blockIndex + 1) with
            | none => .ub
            | some c1 =>
              if c1 ≠ 62 then .ret 1 ({ st with blockIndex := st.blockIndex + 1 }, 0)
              else .ret 0 ({ st with blockIndex := st.blockIndex + 2 }, 1)
          else if c = 62 then .ret 0 ({ st with blockIndex := st.blockIndex + 1 }, 2)
          else .ret 1 (st, 0)
        else
          match _HDL_ParseAttribute B fuel st ei with
          | .ub => .ub
          | .nofuel => .nofuel
          | .ret code st1 =>
            if code ≠ 0 then .ret 1 (st1, 0)
            else attrLoop B fuel ei n { st1 with blockIndex := st1.blockIndex + 1 }

/-- The loop of lines 901-969 over the body of element `ei`; `rec` is the
recursive call `_HDL_ParseElement(doc, ei, blockIndex)`. -/
def bodyLoop (rec : PState → Res PState) (B : Blocks) (ei : Nat) : Nat → PState → Res PState
  | 0, _ => .nofuel
  | n + 1, st =>
    let bi := st.blockIndex
    if ¬ bi < B.block_count then .ret 0 st
    else
      match B.c0 bi with
      | none => .ub
      | some c =>
        if c = 60 then
          match B.c0 (bi + 1) with
          | none => .ub
          | some c1 =>
            if c1 = 47 then
              match B.get (bi + 2), st.doc.elements[ei]? with
              | some name, some element =>
                if name = element.tag then
                  match B.c0 (bi + 3) with
                  | none => .ub
                  | some c3 =>
                    if c3 = 62 then .ret 0 { st with blockIndex := bi + 4 }
                    else .ret 1 { st with blockIndex := bi + 3 }
                else .ret 1 { st with blockIndex := bi + 2 }
              | _, _ => .ub
            else if isDelimiter c1 then .ret 1 { st with blockIndex := bi + 1 }
            else
              match rec st with
              | .ret 0 st1 => bodyLoop rec B ei n st1
              | .ret _ st1 => .ret 1 st1
              | .ub => .ub
              | .nofuel => .nofuel
        else if ¬ isDelimiter c then
          match B.get bi, st.doc.elements[ei]? with
          | some blk, some element =>
            if element.content = none then
              bodyLoop rec B ei n
                ⟨updElem st.doc ei (fun e => { e with content := some blk }), bi + 1⟩
            else .ret 1 st
          | _, _ => .ub
        else .ret 1 st

/-- `_HDL_ParseElement(doc, parentIndex, blockIndex)`; `parentIndex = none`
stands for `-1`.  The element array is reallocated in steps of 16 with a
16-bit size. -/
def _HDL_ParseElement (B : Blocks) : Nat → Option Nat → PState → Res PState
  | 0, _, _ => .nofuel
  | fuel + 1, parentIndex, st =>
    let bi := st.blockIndex + 1
    match B.c0 bi with
    | none => .ub
    | some c =>
      if isDelimiter c then .ret 1 { st with blockIndex := bi }
      else if st.doc.elements.length ≥ 65520 then .ub
      else
        match B.get bi with
        | none => .ub
        | some tag =>
          if tag.length ≥ 32 then .ub
          else
            let elementIndex := st.doc.elements.length
            let doc := { st.doc with elements := st.doc.elements ++ [⟨tag, none, [], 0, []⟩] }
            match attrLoop B fuel elementIndex fuel ⟨doc, bi + 1⟩ with
            | .ub => .ub
            | .nofuel => .nofuel
            | .ret code (st1, tagType) =>
              if code ≠ 0 then .ret 1 st1
              else
                let doc1 :=
                  match parentIndex with
                  | none => updElem st1.doc elementIndex (fun e => { e with parent := -1 })
                  | some pi => updElem st1.doc pi
                      (fun e => { e with children := e.children ++ [elementIndex] })
                let st2 : PState := { st1 with doc := doc1 }
                if tagType = 0 then .ret 1 st2
                else if tagType = 1 then .ret 0 st2
                else
                  bodyLoop (fun s => _HDL_ParseElement B fuel (some elementIndex) s)
                    B elementIndex fuel st2

/-- The inner loop of line 1006, which is meant to skip a comment. -/
def skipComment (B : Blocks) : Nat → Nat → Option Nat
  | 0, bi => some bi
  | n + 1, bi =>
    if ¬ bi < B.block_count then some bi
    else
      match B.c0 bi with
      | none => none
      | some c =>
        if c ≠ 42 then
          match B.c1 bi with
          | none => none
          | some d => if d = 47 then skipComment B n (bi + 1) else some bi
        else some bi

/-- The loop of `_HDL_ParseBlocks`, with the flag `rootCreated`. -/
def parseBlocksLoop (L : Loader) (B : Blocks) (fuel : Nat) : Nat → Bool → PState → Res PState
  | 0, _, _ => .nofuel
  | n + 1, rootCreated, st =>
    let bi := st.blockIndex
    if ¬ bi < B.block_count then .ret 0 st
    else
      match B.c0 bi with
      | none => .ub
      | some c =>
        if c = 35 then
          match _HDL_ParseVariable L B fuel st with
          | .ret 0 st1 => parseBlocksLoop L B fuel n rootCreated st1
          | r => r
        else if c = 60 then
          if rootCreated then .ret 1 st
          else
            match _HDL_ParseElement B fuel none st with
            | .ret 0 st1 => parseBlocksLoop L B fuel n true st1
            | r => r
        else
          match (if c = 47 then B.c1 bi else some 0) with
          | none => .ub
          | some d =>
            if c = 47 ∧ d = 42 then
              match skipComment B (B.block_count - bi) bi with
              | none => .ub
              | some bi1 => parseBlocksLoop L B fuel n rootCreated { st with blockIndex := bi1 }
            else .ret 1 st

/-- `_HDL_ParseBlocks(doc)`. -/
def _HDL_ParseBlocks (L : Loader) (B : Blocks) (fuel : Nat) (doc : HDL_Document) : Res PState :=
  parseBlocksLoop L B fuel fuel false ⟨doc, 0⟩

/-- `HDL_Parse(data, doc)`: the return code and the document.  The parser runs
on the blocks even when the splitter reported a failure. -/
def HDL_Parse (L : Loader) (fuel : Nat) (data : List Nat) : Res HDL_Document :=
  match _HDL_ParseDataToBlocks data with
  | .ub => .ub
  | .nofuel => .nofuel
  | .ret e1 B =>
    match _HDL_ParseBlocks L B fuel ⟨[], [], []⟩ with
    | .ub => .ub
    | .nofuel => .nofuel
    | .ret e2 st => .ret (if e1 ≠ 0 ∨ e2 ≠ 0 then 1 else 0) st.doc

/-! ## Specification vocabulary -/

/-- The part of an element that the encoder never rewrites: tag, content,
attribute keys and children. -/
def shapeOf (doc : HDL_Document) :
    List (List Nat × Option (List Nat) × List (List Nat) × List Nat) :=
  doc.elements.map (fun e => (e.tag, e.content, e.attrs.map (fun a => a.key), e.children))

/-- A run from `s` to `s1` appended exactly the bytes `out` at the cursor: the
cursor advanced by their number, the buffer below the old cursor is unchanged
and the document kept its shape. -/
def Emits (s s1 : CState) (out : List Nat) : Prop :=
  shapeOf s1.doc = shapeOf s.doc ∧ s1.pc = s.pc + out.length ∧
  (∀ k, k < s.pc → s1.buffer k = s.buffer k) ∧ segN s1.buffer s.pc out.length = out

/-- Like `Emits`, but the byte at address `a` (below the cursor) may have been
overwritten. -/
def EmitsP (a : Nat) (s s1 : CState) (out : List Nat) : Prop :=
  shapeOf s1.doc = shapeOf s.doc ∧ s1.pc = s.pc + out.length ∧
  (∀ k, k < s.pc → k ≠ a → s1.buffer k = s.buffer k) ∧ segN s1.buffer s.pc out.length = out

/-- The bytes stored by the loop of lines 229-256 (`emitFloats`), as a list. -/
def floatsPayload (ntype : HDL_Type) (val : List Nat) : Nat → Nat → Option (List Nat)
  | 0, _ => some []
  | n + 1, z =>
    match valF32 val z with
    | none => none
    | some f => (floatsPayload ntype val n (z + 1)).map (fun t => narrowBytes ntype f ++ t)

/-- An attribute record: key index, type byte, count byte, payload. -/
def IsRecord (key : List Nat) (r : List Nat) : Prop :=
  ∃ ty cnt payload, r = findAttr key :: ty :: cnt :: payload

/-- The layout of an element record over a document shape: tag index, content
and terminator, attribute count, one record per recognized attribute in source
order, child count, then the records of the children in list order. -/
inductive Layout (sh : List (List Nat × Option (List Nat) × List (List Nat) × List Nat)) :
    Nat → List Nat → Prop where
  | mk (ei : Nat) (tag : List Nat) (content : Option (List Nat)) (keys : List (List Nat))
      (children : List Nat) (recs kids : List (List Nat))
      (h : sh[ei]? = some (tag, content, keys, children))
      (ht : findTag tag ≠ 0xFF)
      (hrecs : List.Forall₂ IsRecord (keys.filter (fun k => findAttr k ≠ 0xFF)) recs)
      (hkids : List.Forall₂ (Layout sh) children kids) :
      Layout sh ei
        (findTag tag :: (content.getD [] ++ [0]) ++ [recs.length % 256] ++ recs.flatten ++
          [children.length % 256] ++ kids.flatten)

/-- Every element of the subtree of `ei` that lies in the document has a
recognized tag, and the subtree is at most `fuel` levels deep. -/
def subtreeOK (sh : List (List Nat × Option (List Nat) × List (List Nat) × List Nat)) :
    Nat → Nat → Bool
  | 0, _ => false
  | fuel + 1, ei =>
    match sh[ei]? with
    | none => true
    | some (tag, _, _, children) =>
      findTag tag ≠ 0xFF && children.all (fun c => subtreeOK sh fuel c)

/-- A run from `s` to `s1` kept the document shape and the buffer below the
old cursor, and did not move the cursor back. -/
def Frame (s s1 : CState) : Prop :=
  shapeOf s1.doc = shapeOf s.doc ∧ s.pc ≤ s1.pc ∧ ∀ k, k < s.pc → s1.buffer k = s.buffer k

/-- The all-zero output buffer (the program's static `output_buffer`). -/
def zeroBuf : Nat → Nat := fun _ => 0

/-- A loader that finds no file. -/
def noLoader : Loader := fun _ _ => none

/-- The document of `<box/>`. -/
def boxDoc : HDL_Document := ⟨[⟨str "box", none, [], -1, []⟩], [], []⟩

/-- A document with attributes (one of them unknown), content and children:
`<box x=5 foo flexdir="row"><text>hi</text><box/></box>`. -/
def treeDoc : HDL_Document :=
  ⟨[⟨str "box", none,
      [⟨str "x", .own (leBytes 4 0x40a00000), .FLOAT, 1⟩, ⟨str "foo", .own [1], .BOOL, 1⟩,
       ⟨str "flexdir", .own (str "row" ++ [0]), .STRING, 1⟩], -1, [1, 2]⟩,
    ⟨str "text", some (str "hi"), [], 0, []⟩,
    ⟨str "box", none, [], 0, []⟩], [], []⟩

/-- Whether a run ended in undefined behaviour. -/
def Res.isUb {α : Type} : Res α → Bool
  | .ub => true
  | _ => false

/-- The document of `<box x=5/>`. -/
def x5Doc : HDL_Document :=
  ⟨[⟨str "box", none, [⟨str "x", .own (leBytes 4 0x40a00000), .FLOAT, 1⟩], -1, []⟩], [], []⟩

/-- The document with one element `box` carrying the attributes `attrs`. -/
def boxWith (attrs : List HDL_Attr) : HDL_Document := ⟨[⟨str "box", none, attrs, -1, []⟩], [], []⟩

/-- A FLOAT attribute `key` holding the floats (bit patterns) `fs`. -/
def floatAttr (key : String) (fs : List Nat) : HDL_Attr :=
  ⟨str key, .own (fs.flatMap (leBytes 4)), .FLOAT, fs.length⟩

/-- A STRING attribute `key` holding `v`. -/
def stringAttr (key v : String) : HDL_Attr := ⟨str key, .own (str v ++ [0]), .STRING, 1⟩

/-- Signed value of a little-endian two's-complement byte sequence of `w` bits. -/
def sval (w : Nat) (bytes : List Nat) : Int :=
  if leValue bytes < 2 ^ (w - 1) then (leValue bytes : Int) else (leValue bytes : Int) - 2 ^ w

/-- A character that is neither NUL, a delimiter (whitespace included), a
quote nor a backslash. -/
def plainChar (c : Nat) : Bool :=
  c ≠ 0 && !isDelimiter c && c ≠ 39 && c ≠ 34 && c ≠ 92

/-- Text after the character `prev`: plain characters, and single spaces each
of which follows a plain character. -/
def textFrom : Nat → List Nat → Bool
  | _, [] => true
  | prev, c :: rest => (plainChar c || (c = 32 && plainChar prev)) && textFrom c rest

/-- Element text: it starts with a plain character and continues with plain
characters and single spaces. -/
def textOK : List Nat → Bool
  | [] => false
  | c :: rest => plainChar c && textFrom c rest

/-- The bytes of `data_buffer` holding the strings `ws`, each with its
terminator. -/
def joinZ : List (List Nat) → List Nat
  | [] => []
  | w :: ws => w ++ 0 :: joinZ ws

/-- The offsets at which the strings `ws` start when the first one starts at
`o`, followed by the offset after the last one. -/
def offsets : Nat → List (List Nat) → List Nat
  | o, [] => [o]
  | o, w :: ws => o :: offsets (o + w.length + 1) ws

/-- The globals left by a split that produced the blocks `ws` and ended on a
delimiter: the slot after the last block points at the final terminator. -/
def mkBlocks (ws : List (List Nat)) : Blocks := ⟨joinZ ws ++ [0], offsets 0 ws, ws.length⟩

/-- The blocks of `<text>s</text>`. -/
def textWords (s : List Nat) : List (List Nat) :=
  [str "<", str "text", str ">", s, str "<", str "/", str "text", str ">"]

/-- The document of `<text>s</text>`. -/
def textDoc (s : List Nat) : HDL_Document := ⟨[⟨str "text", some s, [], -1, []⟩], [], []⟩

/-- The capacity of the program's `output_buffer`. -/
def HDL_COMPILER_OUTPUT_BUFFER_SIZE : Nat := 4096

/-- The record of a bitmap in the output: size, width and height as
little-endian 16-bit values, the colour mode, then the first `size` bytes of
the pixel block. -/
def bitmapRecord (bmp : HDL_Bitmap) : List Nat :=
  [bmp.size % 256, bmp.size / 256 % 256, bmp.width % 256, bmp.width / 256 % 256,
   bmp.height % 256, bmp.height / 256 % 256, bmp.colorMode % 256] ++
    (bmp.data.getD []).take bmp.size

/-- The bitmap of `#img im (3,2) 101 010 ;`. -/
def imBitmap : HDL_Bitmap := ⟨str "im", 2, 3, 2, 3, 2, 1, some [160, 64]⟩

/-- The document of `<box foo=1 x=5 bar=2/>`. -/
def unkDoc : HDL_Document :=
  boxWith [floatAttr "foo" [0x3f800000], floatAttr "x" [0x40a00000], floatAttr "bar" [0x40000000]]

/-- A BOOL attribute `key` holding the bytes `bs`. -/
def boolAttr (key : String) (bs : List Nat) : HDL_Attr := ⟨str key, .own bs, .BOOL, bs.length⟩

/-- The document of `<box><foo/></box>`. -/
def fooDoc : HDL_Document :=
  ⟨[⟨str "box", none, [], -1, [1]⟩, ⟨str "foo", none, [], 0, []⟩], [], []⟩

/-- The characters of the interior of a quoted literal that the splitter
stores, `prev` being the character before: a newline is dropped, and so is a
whitespace character that directly follows a whitespace character. -/
def keptQ : Nat → List Nat → List Nat
  | _, [] => []
  | prev, c :: rest =>
    if (isWhitespace c && isWhitespace prev) || c = 10 then keptQ c rest
    else c :: keptQ c rest

/-- No newline and no whitespace character directly after a whitespace
character, `prev` being the character before. -/
def singleSpaced : Nat → List Nat → Bool
  | _, [] => true
  | prev, c :: rest =>
    !((isWhitespace c && isWhitespace prev) || c = 10) && singleSpaced c rest

/-- The blocks of `<box x=` + literal + `/>`. -/
def litWords (lit : List Nat) : List (List Nat) :=
  [str "<", str "box", str "x", str "=", lit, str "/", str ">"]

/-- The pixel block `d` of a `W` by `H` bitmap after the first `n` characters
of the bit string `b` were read: it has `ceil(W/8) * H` bytes, and bit `k` of
byte `i` is set exactly when `k < 8`, the bit stands for a pixel `x < W` of row
`i / ceil(W/8)` (`x = 8 * (i mod ceil(W/8)) + 7 - k`), that pixel was read
already and its character is `1`. -/
def BitsOf (W H : Nat) (b : List Nat) (n : Nat) (d : List Nat) : Prop :=
  d.length = (W + 7) / 8 * H ∧
  ∀ i k, (d.getD i 0).testBit k = true ↔
    (k < 8 ∧ i < (W + 7) / 8 * H ∧ 8 * (i % ((W + 7) / 8)) + (7 - k) < W ∧
      i / ((W + 7) / 8) * W + (8 * (i % ((W + 7) / 8)) + (7 - k)) < n ∧
      b[i / ((W + 7) / 8) * W + (8 * (i % ((W + 7) / 8)) + (7 - k))]? = some 49)

/-- The blocks of `B` from index `i` on are the strings `ws`, all below
`block_count`. -/
def BlocksAt (B : Blocks) (i : Nat) (ws : List (List Nat)) : Prop :=
  i + ws.length ≤ B.block_count ∧
  ∀ k w, ws[k]? = some w → B.get (i + k) = some w ∧ B.c0 (i + k) = some (c0 w)

/-- A non-empty string of the characters `0` and `1`. -/
def isBitRun (r : List Nat) : Bool := r ≠ [] && r.all (fun c => c = 48 || c = 49)

/-- The blocks of `#img im (3,2) 101 010 ;`. -/
def imWords : List (List Nat) :=
  [str "#", str "img", str "im", [40], str "3", [44], str "2", [41], str "101", str "010", [59]]

/-- The blocks of `#img im (2,1) 101 ;`. -/
def ovWords : List (List Nat) :=
  [str "#", str "img", str "im", [40], str "2", [44], str "1", [41], str "101", [59]]

/-- The children lists of a document shape, by element index. -/
def chsOf (sh : List (List Nat × Option (List Nat) × List (List Nat) × List Nat)) :
    List (List Nat) :=
  sh.map (fun p => p.2.2.2)

/-- The elements `k .. j-1` are exactly the subtrees of the siblings `cs`, laid
out one after the other in creation order: each sibling `c` is the first index
of its part, and its children span the rest of the part. -/
inductive SpanL (chs : List (List Nat)) : List Nat → Nat → Nat → Prop where
  | nil (k : Nat) : SpanL chs [] k k
  | cons (c m j : Nat) (cs kids : List Nat) (h : chs[c]? = some kids)
      (hk : SpanL chs kids (c + 1) m) (hr : SpanL chs cs m j) : SpanL chs (c :: cs) c j

/-- The sum of the child counts modulo 256 of the `n` elements from index
`k`. -/
def ccSum (chs : List (List Nat)) : Nat → Nat → Nat
  | _, 0 => 0
  | k, n + 1 => ((chs[k]?).getD []).length % 256 + ccSum chs (k + 1) n

/-- The layout of an element record together with the list of its child-count
bytes: `p.1` is the record of element `ei` (as in `Layout`) and `p.2` lists the
child-count bytes of the record and of the records nested in it, in the order
in which they stand in `p.1`. -/
inductive LayoutCC (sh : List (List Nat × Option (List Nat) × List (List Nat) × List Nat)) :
    Nat → List Nat × List Nat → Prop where
  | mk (ei : Nat) (tag : List Nat) (content : Option (List Nat)) (keys : List (List Nat))
      (children : List Nat) (recs : List (List Nat)) (kids : List (List Nat × List Nat))
      (h : sh[ei]? = some (tag, content, keys, children))
      (ht : findTag tag ≠ 0xFF)
      (hrecs : List.Forall₂ IsRecord (keys.filter (fun k => findAttr k ≠ 0xFF)) recs)
      (hkids : List.Forall₂ (LayoutCC sh) children kids) :
      LayoutCC sh ei
        (findTag tag :: (content.getD [] ++ [0]) ++ [recs.length % 256] ++ recs.flatten ++
          [children.length % 256] ++ (kids.map Prod.fst).flatten,
         (children.length % 256) :: (kids.map Prod.snd).flatten)

/-- The children lists of a document, by element index. -/
def chOf (doc : HDL_Document) : List (List Nat) := doc.elements.map (fun e => e.children)

/-- What a successful `_HDL_ParseElement` does to the children lists: with `n`
elements before the call, the element `n` and its descendants are appended as a
subtree, the parent's list gets `n` appended, and nothing else changes. -/
def ElemSpec (parent : Option Nat) (st st1 : PState) : Prop :=
  st.doc.elements.length < st1.doc.elements.length ∧
  (∀ i, i < st.doc.elements.length → parent ≠ some i →
    (chOf st1.doc)[i]? = (chOf st.doc)[i]?) ∧
  (∀ p, parent = some p →
    (chOf st1.doc)[p]? = ((chOf st.doc)[p]?).map (fun l => l ++ [st.doc.elements.length])) ∧
  SpanL (chOf st1.doc) [st.doc.elements.length] st.doc.elements.length
    st1.doc.elements.length

/-- Every state returned by the run `r` has the elements `els`. -/
def KeepsElems (els : List HDL_Element) (r : Res PState) : Prop :=
  ∀ c s, r = .ret c s → s.doc.elements = els

/-- The elements of a document form one tree rooted at element 0 that holds
every element, each subtree being a run of consecutive indices. -/
def IsTree (doc : HDL_Document) : Prop :=
  SpanL (chOf doc) [0] 0 doc.elements.length

/-- The document of `<box><box/><text>hi</text></box>`. -/
def kidsDoc : HDL_Document :=
  ⟨[⟨str "box", none, [], -1, [1, 2]⟩, ⟨str "box", none, [], 0, []⟩,
    ⟨str "text", some (str "hi"), [], 0, []⟩], [], []⟩

/-- The blocks of a childless element `<box/>`. -/
def leafWords : List (List Nat) := [str "<", str "box", str "/", str ">"]

/-- The source `<box x>`, then `n` times `<box/>`, then `</box>`. -/
def manySrc (n : Nat) : List Nat :=
  str "<box x>" ++ ((List.replicate n (str "<box/>")).flatten ++ str "</box>")

/-- The blocks of `manySrc n`. -/
def manyWords (n : Nat) : List (List Nat) :=
  [str "<", str "box", str "x", str ">"] ++ (List.replicate n leafWords).flatten ++
    [str "<", str "/", str "box", str ">"]

/-- The document of `manySrc n`: a root with the attribute `x` and `n`
childless children. -/
def manyDoc (n : Nat) : HDL_Document :=
  ⟨⟨str "box", none, [⟨str "x", .own [1], .BOOL, 1⟩], -1, List.range' 1 n⟩ ::
    List.replicate n ⟨str "box", none, [], 0, []⟩, [], []⟩

/-- The document after `_HDL_ParseElement` has read one `<box/>` as a child of
element 0. -/
def addLeaf (doc : HDL_Document) : HDL_Document :=
  updElem { doc with elements := doc.elements ++ [⟨str "box", none, [], 0, []⟩] } 0
    (fun e => { e with children := e.children ++ [doc.elements.length] })

/-- The document after `m` such children. -/
def addLeaves : Nat → HDL_Document → HDL_Document
  | 0, doc => doc
  | m + 1, doc => addLeaves m (addLeaf doc)

/-- One successful step of the loop of `_HDL_ParseBlocks` from a state whose
cursor is below `block_count`: a definition (`#`) that parsed, or the root
element (`<` while `rootCreated` is 0) that parsed. -/
inductive TopStep (L : Loader) (B : Blocks) (fuel : Nat) :
    Bool × PState → Bool × PState → Prop where
  | definition (r : Bool) (st st1 : PState) (hlt : st.blockIndex < B.block_count)
      (h0 : B.c0 st.blockIndex = some 35)
      (h : _HDL_ParseVariable L B fuel st = .ret 0 st1) : TopStep L B fuel (r, st) (r, st1)
  | root (st st1 : PState) (hlt : st.blockIndex < B.block_count)
      (h0 : B.c0 st.blockIndex = some 60)
      (h : _HDL_ParseElement B fuel none st = .ret 0 st1) :
      TopStep L B fuel (false, st) (true, st1)

/-- A run of `k` successful top-level steps. -/
inductive TopSteps (L : Loader) (B : Blocks) (fuel : Nat) :
    Nat → Bool × PState → Bool × PState → Prop where
  | done (p : Bool × PState) : TopSteps L B fuel 0 p p
  | next (k : Nat) (p q r : Bool × PState) (h : TopStep L B fuel p q)
      (t : TopSteps L B fuel k q r) : TopSteps L B fuel (k + 1) p r

/-- The block under the cursor is rejected at top level: it starts an element
although the root exists already, or it starts with a character other than
`#` and `<` and is not the comment opener `/*`. -/
def TopBad (B : Blocks) (r : Bool) (st : PState) : Prop :=
  st.blockIndex < B.block_count ∧
  ∃ c, B.c0 st.blockIndex = some c ∧
    ((c = 60 ∧ r = true) ∨ (c ≠ 35 ∧ c ≠ 60 ∧ c ≠ 47) ∨
      (c = 47 ∧ ∃ d, B.c1 st.blockIndex = some d ∧ d ≠ 42))

/-- The globals left by the splitter on `<box/><box/>`. -/
def twoRoots : Blocks :=
  ⟨[60, 0, 98, 111, 120, 0, 47, 0, 62, 0, 60, 0, 98, 111, 120, 0, 47, 0, 62, 0, 0],
   [0, 2, 6, 8, 10, 12, 16, 18, 20], 8⟩

/-- The globals left by the splitter on `<box></text>`. -/
def badClose : Blocks :=
  ⟨[60, 0, 98, 111, 120, 0, 62, 0, 60, 0, 47, 0, 116, 101, 120, 116, 0, 62, 0, 0],
   [0, 2, 6, 8, 10, 12, 17, 19], 7⟩

/-- The globals left by the splitter on `<box></box>`. -/
def goodClose : Blocks :=
  ⟨[60, 0, 98, 111, 120, 0, 62, 0, 60, 0, 47, 0, 98, 111, 120, 0, 62, 0, 0],
   [0, 2, 6, 8, 10, 12, 16, 18], 7⟩

/-- The globals left by the splitter on `<box/>/* c */`. -/
def tailComment : Blocks :=
  ⟨[60, 0, 98, 111, 120, 0, 47, 0, 62, 0, 47, 42, 32, 99, 32, 42, 47, 0],
   [0, 2, 6, 8, 10], 5⟩

/-- An empty bitmap called `name`. -/
def bmNamed (name : List Nat) : HDL_Bitmap := ⟨name, 0, 0, 0, 0, 0, 0, none⟩

/-- A document with `n + 1` bitmaps: `n` called `a`, then one called `b`. -/
def manyBitmaps (n : Nat) : HDL_Document :=
  ⟨[], [], List.replicate n (bmNamed (str "a")) ++ [bmNamed (str "b")]⟩

/-- A block in the last branch of `_HDL_ParseValue`: it starts with none of
`[`, a quote and `$`, and is neither a number string nor `true` nor `false`. -/
def isIdentBlock (blk : List Nat) : Bool :=
  c0 blk ≠ 91 && c0 blk ≠ 34 && c0 blk ≠ 39 && c0 blk ≠ 36 && !isNumberString blk &&
    blk ≠ str "true" && blk ≠ str "false"

/-- The document after `#const a 5`, `#img b (3,2) 101 010 ;` and
`#img a (3,2) 101 010 ;`. -/
def lookupDoc : HDL_Document :=
  ⟨[], [⟨str "a", .own [0, 0, 160, 64], .FLOAT, 1, 1⟩], [imBitmap, { imBitmap with name := str "a" }]⟩

/-- The attribute stored for a key without a value: BOOL, count 1, one byte 1. -/
def bareAttr (key : List Nat) : HDL_Attr := ⟨key, .own [1], .BOOL, 1⟩

/-- The globals left by the splitter on `<box x y/>`. -/
def bareBlocks : Blocks :=
  ⟨[60, 0, 98, 111, 120, 0, 120, 0, 121, 0, 47, 0, 62, 0, 0], [0, 2, 6, 8, 10, 12, 14], 6⟩

/-- The splitter is outside quotes and text content, the last character was
no backslash, and no whitespace character is stored in `data_buffer`. -/
def PlainSplit (st : SplitState) : Prop :=
  st.inquotes = 0 ∧ st.lastChar ≠ 92 ∧ ∀ c ∈ st.data, isWhitespace c = false

/-- A piece of the interior of a quoted literal in the source: a character, or
one of the escapes backslash + `n` and backslash + `t`. -/
inductive QTok where
  | ch (c : Nat)
  | nl
  | tab
deriving DecidableEq, Repr

/-- The source text of the pieces. -/
def qSrc : List QTok → List Nat
  | [] => []
  | .ch c :: rest => c :: qSrc rest
  | .nl :: rest => 92 :: 110 :: qSrc rest
  | .tab :: rest => 92 :: 116 :: qSrc rest

/-- The characters the pieces stand for, every character kept: an escape is
one newline or tab byte. -/
def qPlain : List QTok → List Nat
  | [] => []
  | .ch c :: rest => c :: qPlain rest
  | .nl :: rest => 10 :: qPlain rest
  | .tab :: rest => 9 :: qPlain rest

/-- The characters of the pieces that the splitter stores, `prev` being the
source character before: an escape is one newline or tab byte; a newline
character is dropped, and so is a whitespace character that directly follows a
whitespace character. -/
def qVal : Nat → List QTok → List Nat
  | _, [] => []
  | prev, .ch c :: rest =>
    if (isWhitespace c && isWhitespace prev) || c = 10 then qVal c rest else c :: qVal c rest
  | _, .nl :: rest => 10 :: qVal 110 rest
  | _, .tab :: rest => 9 :: qVal 116 rest

/-- The last source character of the pieces (`prev` when there is none). -/
def qLast : Nat → List QTok → Nat
  | prev, [] => prev
  | _, .ch c :: rest => qLast c rest
  | _, .nl :: rest => qLast 110 rest
  | _, .tab :: rest => qLast 116 rest

/-- No newline character and no whitespace character directly after a
whitespace character among the pieces. -/
def qSingle : Nat → List QTok → Bool
  | _, [] => true
  | prev, .ch c :: rest => !((isWhitespace c && isWhitespace prev) || c = 10) && qSingle c rest
  | _, .nl :: rest => qSingle 110 rest
  | _, .tab :: rest => qSingle 116 rest

/-- The characters of the pieces are neither a backslash, nor the quote `q`,
nor NUL. -/
def qOK (q : Nat) : List QTok → Bool
  | [] => true
  | .ch c :: rest => c ≠ 92 && c ≠ q && c ≠ 0 && qOK q rest
  | _ :: rest => qOK q rest

/-- A number block: `isNumberString` accepts it and none of its characters is
NUL, a delimiter or a quote. -/
def isNumLit (v : List Nat) : Bool :=
  isNumberString v && v.all (fun c => c ≠ 0 && !isDelimiter c && c ≠ 34 && c ≠ 39)

/-- A literal array element that is no string: a number block, `true` or
`false`. -/
def isLit (w : List Nat) : Bool := isNumLit w || w = str "true" || w = str "false"

/-- The type `_HDL_ParseValue` gives a literal that is no string. -/
def litType (w : List Nat) : HDL_Type := if isNumberString w then .FLOAT else .BOOL

/-- The bytes `_HDL_ParseValue` stores for a literal that is no string. -/
def litBytes (w : List Nat) : List Nat :=
  if isNumberString w then leBytes 4 (atofF32 w) else if w = str "true" then [1] else [0]

/-- The payload of an array of literals. -/
def litPayload : List (List Nat) → List Nat
  | [] => []
  | w :: rest => litBytes w ++ litPayload rest

/-- The blocks of array elements that are each followed by a comma. -/
def commaSep : List (List Nat) → List (List Nat)
  | [] => []
  | w :: rest => w :: str "," :: commaSep rest

/-- A quoted block that fits the 64-byte scratch array of the array branch:
it starts with a quote, has at least two characters and at most 65. -/
def isShortQuoted (w : List Nat) : Bool :=
  (c0 w = 34 || c0 w = 39) && 2 ≤ w.length && w.length ≤ 65

/-- The state of the array loop after `k` elements of type `t` with payload
`p`: the count, the type and the heap block of the out-parameters, and the
scratch pointer `val_addr`, which still points at `tmp_val`. -/
def ArrInv (t : HDL_Type) (k : Nat) (p : List Nat) (out : Slot) (loc : ArrLocals) : Prop :=
  out.len = k ∧ (k = 0 → p = []) ∧ (0 < k → out.type = t ∧ ∃ cap, out.val = .heap p cap) ∧
  ∃ m, loc.val_addr = .tmp m ∧ (m = [] ∨ (0 < k ∧ m.length = HDL_TYPE_SIZES t))

/-- The blocks of `<box x=[1, 2.5, -3]/>`. -/
def arrBlocks : Blocks :=
  mkBlocks ([str "<", str "box", str "x", str "="] ++
    (str "[" :: (commaSep [str "1", str "2.5"] ++ [str "-3", str "]"])) ++ [str "/", str ">"])

/-- The blocks of `<box x=[1, 2.5, true]/>`. -/
def mixBlocks : Blocks :=
  mkBlocks ([str "<", str "box", str "x", str "="] ++
    (str "[" :: (commaSep [str "1", str "2.5"] ++ [str "true"])) ++ [str "]", str "/", str ">"])

/-- The decimal digits of `n`, as a block. -/
def decimal (n : Nat) : List Nat := (toString n).toList.map Char.toNat

/-- The document after `#const a 7`. -/
def sevenDoc : HDL_Document := ⟨[], [⟨str "a", .own [0, 0, 224, 64], .FLOAT, 1, 1⟩], []⟩

/-- The number of times `x` stands in the children lists of the `n` elements
from index `k`. -/
def occSum (chs : List (List Nat)) (x : Nat) : Nat → Nat → Nat
  | _, 0 => 0
  | k, n + 1 => ((chs[k]?).getD []).count x + occSum chs x (k + 1) n

/-- The number of times `x` stands in the children lists of the document, all
lists taken together. -/
def childOcc (doc : HDL_Document) (x : Nat) : Nat :=
  (doc.elements.map (fun e => e.children.count x)).sum

/-- The `parent` fields of a document, by element index. -/
def parOf (doc : HDL_Document) : List Int := doc.elements.map (fun e => e.parent)

/-- Element `x` is element `i` or a descendant of it through the children
lists. -/
inductive Reach (chs : List (List Nat)) : Nat → Nat → Prop where
  | refl (i : Nat) : Reach chs i i
  | step (i c x : Nat) (kids : List Nat) (h : chs[i]? = some kids) (hc : c ∈ kids)
      (hr : Reach chs c x) : Reach chs i x

/-- A `box` with attribute `a` holding a `box` with attribute `b`, over the
constants `vars`. -/
def nestDoc (a b : HDL_Attr) (vars : List HDL_Variable) : HDL_Document :=
  ⟨[⟨str "box", none, [a], -1, [1]⟩, ⟨str "box", none, [b], 0, []⟩], vars, []⟩

/-- The constant of `#const a 'top left'`. -/
def topLeft : HDL_Variable := ⟨str "a", .own (str "top left" ++ [0]), .STRING, 1, 1⟩

/-- The document of `#const a 5` followed by `<box x=a/>`. -/
def fiveAlias : HDL_Document :=
  ⟨[⟨str "box", none, [⟨str "x", .var 0, .FLOAT, 1⟩], -1, []⟩],
   [⟨str "a", .own [0, 0, 160, 64], .FLOAT, 1, 1⟩], []⟩

/-- An attribute whose STRING value is the block of constant 0. -/
def aliasAttr (key : String) : HDL_Attr := ⟨str key, .var 0, .STRING, 1⟩

/-- The splitter has completed the blocks `ws` and is collecting the block
`cur`: `data_buffer` holds the completed blocks with their terminators and then
`cur`, the `blocks` array holds the offsets of the completed blocks and of
`cur`, no block contains a terminator, no completed block is empty, and after a
backslash the current block is not empty. -/
def SplitAt (st : SplitState) (ws : List (List Nat)) (cur : List Nat) : Prop :=
  st.data = joinZ ws ++ cur ∧ st.blocks = offsets 0 ws ∧ st.blocklen = cur.length ∧
  (∀ w ∈ ws, w ≠ [] ∧ ∀ c ∈ w, c ≠ 0) ∧ (∀ c ∈ cur, c ≠ 0) ∧
  (st.lastChar = 92 → cur ≠ [])

/-- Block `m1` is block `m` with some of its spaces (byte 32) replaced by a
terminator (byte 0); every other byte is the same. -/
def Nulled (m m1 : List Nat) : Prop :=
  m1.length = m.length ∧ ∀ i : Nat, m1[i]? = m[i]? ∨ (m[i]? = some 32 ∧ m1[i]? = some 0)

/-- Document `d` has a STRING attribute `align` whose value is the block of
constant `j`. -/
def AlignAlias (d : HDL_Document) (j : Nat) : Prop :=
  ∃ e ∈ d.elements, ∃ a ∈ e.attrs,
    findAttr a.key = HDL_ATTR_ALIGN ∧ a.type = .STRING ∧ a.value = .var j

/-- Attribute `a1` is attribute `a` after encoding: same key and count; the
type is the same, or `a` was a STRING `flexdir` or `align` and is now FLOAT;
the value is the same, or `a` was a STRING `align` owning its block and some
spaces of the block are now terminators. -/
def AttrKept (a a1 : HDL_Attr) : Prop :=
  a1.key = a.key ∧ a1.count = a.count ∧
  (a1.type = a.type ∨ (a.type = .STRING ∧ a1.type = .FLOAT ∧
    (findAttr a.key = HDL_ATTR_FLEX_DIR ∨ findAttr a.key = HDL_ATTR_ALIGN))) ∧
  (a1.value = a.value ∨ (findAttr a.key = HDL_ATTR_ALIGN ∧ a.type = .STRING ∧
    ∃ m m1, a.value = .own m ∧ a1.value = .own m1 ∧ Nulled m m1))

/-- Element `e1` is element `e` after encoding: tag, content, parent and
children are the same and the attributes correspond one by one. -/
def ElemKept (e e1 : HDL_Element) : Prop :=
  e1.tag = e.tag ∧ e1.content = e.content ∧ e1.parent = e.parent ∧ e1.children = e.children ∧
  e1.attrs.length = e.attrs.length ∧
  ∀ (i : Nat) (a a1 : HDL_Attr), e.attrs[i]? = some a → e1.attrs[i]? = some a1 → AttrKept a a1

/-- Constant `v1` is constant `v` (number `j` of document `d`) after encoding:
everything is the same, except that when a STRING `align` attribute of `d`
aliases the constant, some spaces of its block may now be terminators. -/
def VarKept (d : HDL_Document) (j : Nat) (v v1 : HDL_Variable) : Prop :=
  v1.name = v.name ∧ v1.type = v.type ∧ v1.count = v.count ∧ v1.isConst = v.isConst ∧
  (v1.value = v.value ∨
    (AlignAlias d j ∧ ∃ m m1, v.value = .own m ∧ v1.value = .own m1 ∧ Nulled m m1))

/-- Document `d1` is document `d` after encoding. -/
def Kept (d d1 : HDL_Document) : Prop :=
  d1.bitmaps = d.bitmaps ∧
  d1.elements.length = d.elements.length ∧
  (∀ (i : Nat) (e e1 : HDL_Element), d.elements[i]? = some e → d1.elements[i]? = some e1 →
    ElemKept e e1) ∧
  d1.vars.length = d.vars.length ∧
  (∀ (j : Nat) (v v1 : HDL_Variable), d.vars[j]? = some v → d1.vars[j]? = some v1 →
    VarKept d j v v1)

theorem segN_length (b : Nat → Nat) (n lo : Nat) : (segN b lo n).length = n := by
  induction n generalizing lo with
  | zero => rfl
  | succ n ih => simp [segN, ih]

theorem segN_congr (b b1 : Nat → Nat) (n lo : Nat)
    (h : ∀ k, lo ≤ k → k < lo + n → b k = b1 k) : segN b lo n = segN b1 lo n := by
  induction n generalizing lo with
  | zero => rfl
  | succ n ih =>
    simp only [segN]
    rw [h lo (le_refl _) (by omega), ih (lo + 1) (fun k h1 h2 => h k (by omega) (by omega))]

theorem segN_add (b : Nat → Nat) (m n lo : Nat) :
    segN b lo (m + n) = segN b lo m ++ segN b (lo + m) n := by
  induction m generalizing lo with
  | zero => simp [segN]
  | succ m ih =>
    have : m + 1 + n = (m + n) + 1 := by omega
    rw [this]
    simp only [segN, List.cons_append]
    rw [ih (lo + 1)]
    have e : lo + 1 + m = lo + (m + 1) := by omega
    rw [e]

theorem setBytes_lt (bs : List Nat) (b : Nat → Nat) (i k : Nat) (h : k < i) :
    setBytes b i bs k = b k := by
  induction bs generalizing b i with
  | nil => rfl
  | cons v rest ih =>
    simp only [setBytes]
    rw [ih (setB b i v) (i + 1) (by omega)]
    simp [setB]; omega

theorem segN_setBytes (bs : List Nat) (b : Nat → Nat) (i : Nat) :
    segN (setBytes b i bs) i bs.length = bs := by
  induction bs generalizing b i with
  | nil => rfl
  | cons v rest ih =>
    simp only [setBytes, List.length_cons, segN]
    rw [ih (setB b i v) (i + 1), setBytes_lt rest _ (i + 1) i (by omega)]
    simp [setB]

theorem Emits.nil (s : CState) : Emits s s [] := by
  simp [Emits, segN]

theorem Emits.trans {s s1 s2 : CState} {o1 o2 : List Nat}
    (h1 : Emits s s1 o1) (h2 : Emits s1 s2 o2) : Emits s s2 (o1 ++ o2) := by
  obtain ⟨a1, b1, c1, d1⟩ := h1
  obtain ⟨a2, b2, c2, d2⟩ := h2
  refine ⟨a2.trans a1, by simp [b2, b1]; omega, fun k hk => ?_, ?_⟩
  · rw [c2 k (by omega), c1 k hk]
  · rw [List.length_append, segN_add]
    rw [← b1, d2]
    rw [segN_congr s2.buffer s1.buffer o1.length s.pc (fun k _ hk => c2 k (by omega)), d1]

theorem Emits.emit (s : CState) (v : Nat) : Emits s (emit s v) [v % 256] := by
  refine ⟨rfl, rfl, fun k hk => ?_, ?_⟩
  · simp [Hdl.emit, setB]; omega
  · simp [Hdl.emit, setB, segN]

theorem Emits.emitBytes (s : CState) (bs : List Nat) : Emits s (emitBytes s bs) bs := by
  refine ⟨rfl, rfl, fun k hk => ?_, ?_⟩
  · simp only [Hdl.emitBytes]; exact setBytes_lt bs _ _ _ hk
  · simp only [Hdl.emitBytes]; exact segN_setBytes bs _ _

/-- Overwriting the first emitted byte. -/
theorem Emits.patchHead {s s1 : CState} {x : Nat} {rest : List Nat} (v : Nat)
    (h : Emits s s1 (x :: rest)) :
    Emits s { s1 with buffer := setB s1.buffer s.pc v } (v :: rest) := by
  obtain ⟨a1, b1, c1, d1⟩ := h
  refine ⟨a1, by simpa using b1, fun k hk => ?_, ?_⟩
  · simp only [setB]; rw [if_neg (by omega)]; exact c1 k hk
  · simp only [List.length_cons, segN] at d1 ⊢
    rw [List.cons.injEq] at d1
    simp only [setB, if_true, List.cons.injEq, true_and]
    refine Eq.trans (segN_congr _ _ _ _ (fun k hk _ => ?_)) d1.2
    have hne : k ≠ s.pc := by omega
    simp [setB, hne]

theorem Emits.seg {s s1 : CState} {out : List Nat} (h : Emits s s1 out) :
    seg s1.buffer s.pc s1.pc = out := by
  obtain ⟨_, b1, _, d1⟩ := h
  simp [Hdl.seg, b1, d1]

theorem Emits.toP {s s1 : CState} {out : List Nat} (a : Nat) (h : Emits s s1 out) :
    EmitsP a s s1 out :=
  ⟨h.1, h.2.1, fun k hk _ => h.2.2.1 k hk, h.2.2.2⟩

theorem EmitsP.append {a : Nat} {s s1 s2 : CState} {o1 o2 : List Nat} (ha : a < s.pc)
    (h1 : EmitsP a s s1 o1) (h2 : EmitsP a s1 s2 o2) : EmitsP a s s2 (o1 ++ o2) := by
  obtain ⟨a1, b1, c1, d1⟩ := h1
  obtain ⟨a2, b2, c2, d2⟩ := h2
  refine ⟨a2.trans a1, by simp [b2, b1]; omega, fun k hk hne => ?_, ?_⟩
  · rw [c2 k (by omega) hne, c1 k hk hne]
  · rw [List.length_append, segN_add]
    rw [← b1, d2]
    rw [segN_congr s2.buffer s1.buffer o1.length s.pc
      (fun k hk1 hk => c2 k (by omega) (by omega)), d1]

theorem findName_lt (names : List (List Nat)) (s : List Nat) (x r : Nat)
    (h : findName names s x = some r) : x ≤ r ∧ r < x + names.length := by
  induction names generalizing x with
  | nil => simp [findName] at h
  | cons n rest ih =>
    simp only [findName] at h
    split at h
    · simp at h; subst h; simp
    · have := ih (x + 1) h
      simp only [List.length_cons]; omega

theorem findAttr_le (k : List Nat) : findAttr k = 0xFF ∨ findAttr k < 12 := by
  unfold findAttr
  cases h : findName attrnames k 0 with
  | none => left; rfl
  | some r =>
    right
    have := findName_lt _ _ _ _ h
    simp [attrnames] at this
    simpa using this

theorem findTag_le (k : List Nat) : findTag k = 0xFF ∨ findTag k < 2 := by
  unfold findTag
  cases h : findName tagnames k 0 with
  | none => left; rfl
  | some r =>
    right
    have := findName_lt _ _ _ _ h
    simp [tagnames] at this
    simpa using this

theorem set_idem {α : Type} (l : List α) (i : Nat) (x : α) (h : l[i]? = some x) :
    l.set i x = l := by
  apply List.ext_getElem?
  intro n
  rw [List.getElem?_set]
  split
  · next h1 =>
    rw [← h1, h]
    have hlt : i < l.length := by
      rcases Nat.lt_or_ge i l.length with h2 | h2
      · exact h2
      · rw [List.getElem?_eq_none h2] at h; cases h
    simp [hlt]
  · rfl

theorem shapeOf_setAttr (doc : HDL_Document) (ei i : Nat) (e : HDL_Element) (a a1 : HDL_Attr)
    (he : doc.elements[ei]? = some e) (ha : e.attrs[i]? = some a) (hk : a1.key = a.key) :
    shapeOf (setAttr doc ei i a1) = shapeOf doc := by
  unfold setAttr shapeOf
  rw [he]
  simp only [List.map_set]
  apply set_idem
  simp only [List.getElem?_map, he, Option.map_some', Option.some.injEq, Prod.mk.injEq,
    true_and, and_true]
  symm
  apply set_idem
  simp [ha, hk]

theorem shapeOf_writeBack (doc : HDL_Document) (ei i : Nat) (e : HDL_Element) (a a1 : HDL_Attr)
    (mem : List Nat)
    (he : doc.elements[ei]? = some e) (ha : e.attrs[i]? = some a) (hk : a1.key = a.key) :
    shapeOf (writeBack doc ei i a1 mem) = shapeOf doc := by
  unfold writeBack
  split
  · exact shapeOf_setAttr doc ei i e a _ he ha hk
  · split
    · rfl
    · rfl
  · rfl

theorem setBytes_append (p1 p2 : List Nat) (b : Nat → Nat) (i : Nat) :
    setBytes (setBytes b i p1) (i + p1.length) p2 = setBytes b i (p1 ++ p2) := by
  induction p1 generalizing b i with
  | nil => simp [setBytes]
  | cons v rest ih =>
    have e : i + (v :: rest).length = i + 1 + rest.length := by simp; omega
    rw [e]
    exact ih (setB b i v) (i + 1)

theorem emitBytes_append (s : CState) (p1 p2 : List Nat) :
    emitBytes (emitBytes s p1) p2 = emitBytes s (p1 ++ p2) := by
  simp only [emitBytes, setBytes_append, List.length_append, Nat.add_assoc]

theorem emitBytes_nil (s : CState) : emitBytes s [] = s := by
  simp [emitBytes, setBytes]

theorem emitFloats_eq (ntype : HDL_Type) (val : List Nat) (n z : Nat) (s : CState) :
    emitFloats ntype val n z s = (floatsPayload ntype val n z).map (emitBytes s) := by
  induction n generalizing z s with
  | zero => simp [emitFloats, floatsPayload, emitBytes_nil]
  | succ n ih =>
    simp only [emitFloats, floatsPayload]
    cases valF32 val z with
    | none => rfl
    | some f =>
      simp only [ih]
      cases floatsPayload ntype val n (z + 1) with
      | none => rfl
      | some t => simp [emitBytes_append]

theorem Emits.of_doc {s s1 : CState} {out : List Nat} (h : Emits s s1 out) (s2 : CState)
    (hb : s2.buffer = s1.buffer) (hp : s2.pc = s1.pc) (hd : shapeOf s2.doc = shapeOf s.doc) :
    Emits s s2 out := by
  obtain ⟨_, b1, c1, d1⟩ := h
  exact ⟨hd, by rw [hp, b1], by rw [hb]; exact c1, by rw [hb]; exact d1⟩

/-- What `compilePayload` appends: a type byte, the count byte and a payload. -/
theorem compilePayload_emits (s s1 : CState) (a : HDL_Attr) (val : Option (List Nat))
    (h : compilePayload s a val = some s1) :
    s1.doc = s.doc ∧ ∃ ty payload, Emits s s1 (ty :: (a.count % 256) :: payload) := by
  have E2 : Emits s (emit (emit s a.type.toNat) a.count) [a.type.toNat % 256, a.count % 256] :=
    (Emits.emit s _).trans (Emits.emit _ _)
  have hpc : (emit s a.type.toNat).pc = s.pc + 1 := rfl
  unfold compilePayload at h
  simp only at h
  split at h
  · -- NULL
    simp only [Option.some.injEq] at h; subst h
    exact ⟨rfl, _, _, E2.trans (Emits.emit _ _)⟩
  · -- IMG, BOOL, BIND
    split at h
    · simp only [Option.some.injEq] at h; subst h
      exact ⟨rfl, _, _, E2.trans (Emits.emit _ _)⟩
    · cases h
  · split at h
    · simp only [Option.some.injEq] at h; subst h
      exact ⟨rfl, _, _, E2.trans (Emits.emit _ _)⟩
    · cases h
  · split at h
    · simp only [Option.some.injEq] at h; subst h
      exact ⟨rfl, _, _, E2.trans (Emits.emit _ _)⟩
    · cases h
  · -- FLOAT
    split at h
    · split at h
      · simp only [Option.some.injEq] at h; subst h
        exact ⟨rfl, _, _, Emits.patchHead _ E2⟩
      · cases h
    · rw [emitFloats_eq] at h
      cases hp : floatsPayload (narrowType (emit (emit s a.type.toNat) a.count).buffer
          (emit (emit s a.type.toNat) a.count).pc) _ a.count 0 with
      | none => rw [hp] at h; cases h
      | some p =>
        rw [hp] at h
        simp only [Option.map_some', Option.some.injEq] at h; subst h
        exact ⟨rfl, _, _, Emits.patchHead _ (E2.trans (Emits.emitBytes _ p))⟩
  · -- STRING
    split at h
    · cases h
    · simp only [Option.some.injEq] at h; subst h
      exact ⟨rfl, _, _, E2.trans (Emits.emitBytes _ _)⟩
  · simp only [Option.some.injEq] at h; subst h
    exact ⟨rfl, _, [], E2⟩

theorem shapeOf_get (doc : HDL_Document) (ei : Nat) :
    (shapeOf doc)[ei]? =
      (doc.elements[ei]?).map
        (fun e => (e.tag, e.content, e.attrs.map (fun a => a.key), e.children)) := by
  simp [shapeOf]

theorem compileAttr_spec (s s1 : CState) (ei addr i : Nat) (e : HDL_Element) (a : HDL_Attr)
    (he : s.doc.elements[ei]? = some e) (ha : e.attrs[i]? = some a)
    (h : compileAttr s ei addr i = some s1) :
    (findAttr a.key = 0xFF →
      EmitsP addr s s1 [] ∧ s1.buffer addr = (s.buffer addr + 255) % 256) ∧
    (findAttr a.key ≠ 0xFF → ∃ r, IsRecord a.key r ∧ Emits s s1 r) := by
  unfold compileAttr at h
  rw [he] at h
  simp only [ha] at h
  constructor
  · intro hf
    rw [if_pos hf] at h
    simp only [Option.some.injEq] at h
    subst h
    refine ⟨⟨rfl, rfl, fun k _ hne => ?_, rfl⟩, ?_⟩
    · simp [setB, hne]
    · simp [setB]
  · intro hf
    rw [if_neg hf] at h
    have hmod : findAttr a.key % 256 = findAttr a.key := by
      rcases findAttr_le a.key with h1 | h1
      · exact absurd h1 hf
      · omega
    have E1 : Emits s (emit s (findAttr a.key)) [findAttr a.key] := by
      have := Emits.emit s (findAttr a.key)
      rwa [hmod] at this
    split at h
    · -- flexdir
      split at h
      · cases h
      · next ftemp _ =>
        obtain ⟨hd, ty, payload, E⟩ := compilePayload_emits _ _ _ _ h
        have E1' := E1.of_doc
          { emit s (findAttr a.key) with
            doc := setAttr (emit s (findAttr a.key)).doc ei i { a with type := HDL_Type.FLOAT } }
          rfl rfl (shapeOf_setAttr s.doc ei i e a _ he ha rfl)
        exact ⟨_, ⟨ty, _, payload, rfl⟩, E1'.trans E⟩
    · split at h
      · -- align
        split at h
        · cases h
        · next mem1 ftemp _ =>
          obtain ⟨hd, ty, payload, E⟩ := compilePayload_emits _ _ _ _ h
          have hs1 := shapeOf_setAttr s.doc ei i e a { a with type := HDL_Type.FLOAT } he ha rfl
          have he1 : ∃ e1, (setAttr s.doc ei i { a with type := HDL_Type.FLOAT }).elements[ei]? = some e1
              ∧ ∃ a0, e1.attrs[i]? = some a0 ∧ a0.key = a.key := by
            unfold setAttr
            rw [he]
            have hlt : ei < s.doc.elements.length := by
              rcases Nat.lt_or_ge ei s.doc.elements.length with h2 | h2
              · exact h2
              · rw [List.getElem?_eq_none h2] at he; cases he
            have hlt2 : i < e.attrs.length := by
              rcases Nat.lt_or_ge i e.attrs.length with h2 | h2
              · exact h2
              · rw [List.getElem?_eq_none h2] at ha; cases ha
            exact ⟨{ e with attrs := e.attrs.set i { a with type := HDL_Type.FLOAT } },
              by simp [hlt], { a with type := HDL_Type.FLOAT }, by simp [hlt2], rfl⟩
          obtain ⟨e1, he1, a0, ha0, hk0⟩ := he1
          have hs2 := shapeOf_writeBack _ ei i e1 a0 { a with type := HDL_Type.FLOAT } mem1
            he1 ha0 (by simp [hk0])
          have E1' := E1.of_doc
            { emit s (findAttr a.key) with
              doc := writeBack (setAttr (emit s (findAttr a.key)).doc ei i
                { a with type := HDL_Type.FLOAT }) ei i { a with type := HDL_Type.FLOAT } mem1 }
            rfl rfl (hs2.trans hs1)
          exact ⟨_, ⟨ty, _, payload, rfl⟩, E1'.trans E⟩
      · obtain ⟨hd, ty, payload, E⟩ := compilePayload_emits _ _ _ _ h
        exact ⟨_, ⟨ty, _, payload, rfl⟩, E1.trans E⟩

theorem shapeOf_elem {doc : HDL_Document} {ei : Nat} {tag : List Nat}
    {content : Option (List Nat)} {keys : List (List Nat)} {children : List Nat}
    (h : (shapeOf doc)[ei]? = some (tag, content, keys, children)) :
    ∃ e, doc.elements[ei]? = some e ∧ e.tag = tag ∧ e.content = content ∧
      e.attrs.map (fun a => a.key) = keys ∧ e.children = children := by
  rw [shapeOf_get] at h
  cases he : doc.elements[ei]? with
  | none => rw [he] at h; cases h
  | some e =>
    rw [he] at h
    simp only [Option.map_some', Option.some.injEq, Prod.mk.injEq] at h
    exact ⟨e, rfl, h.1, h.2.1, h.2.2.1, h.2.2.2⟩

theorem compileAttrs_spec (ei addr : Nat) (tag : List Nat) (content : Option (List Nat))
    (keys : List (List Nat)) (children : List Nat) :
    ∀ (n i : Nat) (s s1 : CState),
      (shapeOf s.doc)[ei]? = some (tag, content, keys, children) →
      i + n = keys.length → addr < s.pc →
      compileAttrs ei addr n i s = some s1 →
      ∃ recs u, EmitsP addr s s1 recs.flatten ∧
        List.Forall₂ IsRecord ((keys.drop i).filter (fun k => findAttr k ≠ 0xFF)) recs ∧
        u + recs.length = n ∧ s1.buffer addr % 256 = (s.buffer addr + 255 * u) % 256 ∧
        (s.buffer addr < 256 → s1.buffer addr < 256) := by
  intro n
  induction n with
  | zero =>
    intro i s s1 hsh hn _ h
    simp only [compileAttrs, Option.some.injEq] at h
    subst h
    refine ⟨[], 0, ⟨rfl, rfl, fun _ _ _ => rfl, rfl⟩, ?_, rfl, by simp, fun hh => hh⟩
    have : keys.drop i = [] := List.drop_eq_nil_of_le (by omega)
    rw [this]; exact List.Forall₂.nil
  | succ n ih =>
    intro i s s1 hsh hn haddr h
    simp only [compileAttrs] at h
    cases hc : compileAttr s ei addr i with
    | none => rw [hc] at h; cases h
    | some s2 =>
      rw [hc] at h
      simp only at h
      obtain ⟨e, he, _, _, hkeys, _⟩ := shapeOf_elem hsh
      have hi : i < keys.length := by omega
      have hia : i < e.attrs.length := by
        have := congrArg List.length hkeys
        simp at this; omega
      have ha : e.attrs[i]? = some e.attrs[i] := List.getElem?_eq_getElem hia
      have hkey : e.attrs[i].key = keys[i] := by
        have : (e.attrs.map (fun a => a.key))[i]? = keys[i]? := by rw [hkeys]
        simp [hia, hi] at this
        exact this
      have hdrop : keys.drop i = keys[i] :: keys.drop (i + 1) := List.drop_eq_getElem_cons hi
      obtain ⟨hunk, hrec⟩ := compileAttr_spec s s2 ei addr i e _ he ha hc
      by_cases hf : findAttr keys[i] = 0xFF
      · obtain ⟨E, hb⟩ := hunk (by rw [hkey]; exact hf)
        have hsh2 : (shapeOf s2.doc)[ei]? = some (tag, content, keys, children) := by
          rw [E.1]; exact hsh
        have hpc2 : s2.pc = s.pc := by simpa using E.2.1
        obtain ⟨recs, u, E2, hF, hu, hb2, hlt2⟩ := ih (i + 1) s2 s1 hsh2 (by omega) (by omega) h
        refine ⟨recs, u + 1, ?_, ?_, by omega, ?_, fun _ => hlt2 (by rw [hb]; omega)⟩
        · have := EmitsP.append haddr E E2
          simpa using this
        · rw [hdrop, List.filter_cons_of_neg (by simpa using hf)]
          exact hF
        · rw [hb2, hb]; omega
      · obtain ⟨r, hr, E⟩ := hrec (by rw [hkey]; exact hf)
        have hsh2 : (shapeOf s2.doc)[ei]? = some (tag, content, keys, children) := by
          rw [E.1]; exact hsh
        have hpc2 : s.pc ≤ s2.pc := by have := E.2.1; omega
        obtain ⟨recs, u, E2, hF, hu, hb2, hlt2⟩ := ih (i + 1) s2 s1 hsh2 (by omega) (by omega) h
        refine ⟨r :: recs, u, ?_, ?_, by simp; omega, ?_,
          fun hh => hlt2 (by rw [E.2.2.1 addr haddr]; exact hh)⟩
        · have := EmitsP.append haddr (E.toP addr) E2
          simpa using this
        · rw [hdrop, List.filter_cons_of_pos (by simpa using hf)]
          exact List.Forall₂.cons (by rw [← hkey]; exact hr) hF
        · rw [hb2, E.2.2.1 addr haddr]

theorem compileChildren_spec (sh : List (List Nat × Option (List Nat) × List (List Nat) × List Nat))
    (fuel : Nat)
    (IH : ∀ (s : CState) (ei : Nat), shapeOf s.doc = sh → subtreeOK sh fuel ei = true →
      compileElement fuel s ei = .ub ∨
      ∃ s1 out, compileElement fuel s ei = .ret 0 s1 ∧ Emits s s1 out ∧ Layout sh ei out) :
    ∀ (cs : List Nat) (s : CState), shapeOf s.doc = sh →
      (∀ c ∈ cs, subtreeOK sh fuel c = true) →
      compileChildren (compileElement fuel) cs s = .ub ∨
      ∃ s1 kids, compileChildren (compileElement fuel) cs s = .ret 0 s1 ∧
        Emits s s1 kids.flatten ∧ List.Forall₂ (Layout sh) cs kids := by
  intro cs
  induction cs with
  | nil =>
    intro s _ _
    exact Or.inr ⟨s, [], rfl, Emits.nil s, List.Forall₂.nil⟩
  | cons c cs ih =>
    intro s hs hall
    simp only [compileChildren]
    rcases IH s c hs (hall c (List.mem_cons_self _ _)) with h | ⟨s1, out, h, E, L⟩
    · rw [h]; exact Or.inl rfl
    · rw [h]
      simp only
      rcases ih s1 (E.1.trans hs) (fun c' hc' => hall c' (List.mem_cons_of_mem _ hc')) with
        h2 | ⟨s2, kids, h2, E2, L2⟩
      · exact Or.inl h2
      · refine Or.inr ⟨s2, out :: kids, h2, ?_, List.Forall₂.cons L L2⟩
        simpa using E.trans E2

theorem compileElement_spec (fuel : Nat) :
    ∀ (s : CState) (ei : Nat), subtreeOK (shapeOf s.doc) fuel ei = true →
      compileElement fuel s ei = .ub ∨
      ∃ s1 out, compileElement fuel s ei = .ret 0 s1 ∧ Emits s s1 out ∧
        Layout (shapeOf s.doc) ei out := by
  induction fuel with
  | zero => intro s ei h; simp [subtreeOK] at h
  | succ fuel ih =>
    intro s ei hok
    unfold subtreeOK at hok
    cases hsh : (shapeOf s.doc)[ei]? with
    | none =>
      left
      unfold compileElement
      rw [shapeOf_get] at hsh
      cases he : s.doc.elements[ei]? with
      | none => rfl
      | some e => rw [he] at hsh; cases hsh
    | some sp =>
      obtain ⟨tag, content, keys, children⟩ := sp
      rw [hsh] at hok
      simp only [Bool.and_eq_true, decide_eq_true_eq, List.all_eq_true, ne_eq] at hok
      obtain ⟨htag, hkids⟩ := hok
      obtain ⟨e, he, het, hec, hek, hech⟩ := shapeOf_elem hsh
      unfold compileElement
      rw [he]
      simp only
      rw [het, if_neg htag]
      have hmod : findTag tag % 256 = findTag tag := by
        rcases findTag_le tag with h1 | h1
        · exact absurd h1 htag
        · omega
      have Ea : Emits s (emit s (findTag tag)) [findTag tag] := by
        have := Emits.emit s (findTag tag); rwa [hmod] at this
      have Eb := Ea.trans (Emits.emitBytes (emit s (findTag tag)) (e.content.getD [] ++ [0]))
      generalize hsb : emitBytes (emit s (findTag tag)) (e.content.getD [] ++ [0]) = sb at Eb
      have Ec := Emits.emit sb e.attrs.length
      cases hca : compileAttrs ei sb.pc e.attrs.length 0 (emit sb e.attrs.length) with
      | none => exact Or.inl rfl
      | some sd =>
        simp only
        have hshc : (shapeOf (emit sb e.attrs.length).doc)[ei]? =
            some (tag, content, keys, children) := by
          rw [Ec.1, Eb.1]; exact hsh
        have hlen : e.attrs.length = keys.length := by
          have := congrArg List.length hek; simpa using this
        obtain ⟨recs, u, EP, hF, hu, hb, hlt⟩ := compileAttrs_spec ei sb.pc tag content keys
          children e.attrs.length 0 (emit sb e.attrs.length) sd hshc (by omega)
          (by simp [emit]) hca
        have hcb : (emit sb e.attrs.length).buffer sb.pc = e.attrs.length % 256 := by
          simp [emit, setB]
        have hac : sd.buffer sb.pc = recs.length % 256 := by
          have h1 := hlt (by rw [hcb]; omega)
          rw [hcb] at hb
          omega
        -- the attribute count byte followed by the records
        have Ed : Emits sb sd ([recs.length % 256] ++ recs.flatten) := by
          obtain ⟨p1, p2, p3, p4⟩ := EP
          have hpcc : (emit sb e.attrs.length).pc = sb.pc + 1 := rfl
          refine ⟨p1.trans Ec.1, by rw [p2, hpcc]; simp; omega, fun k hk => ?_, ?_⟩
          · rw [p3 k (by rw [hpcc]; omega) (by omega)]
            exact Ec.2.2.1 k hk
          · rw [hpcc] at p4
            show segN sd.buffer sb.pc (recs.flatten.length + 1) = recs.length % 256 :: recs.flatten
            simp only [segN]
            rw [hac, p4]
        have Ee := (Eb.trans Ed).trans (Emits.emit sd e.children.length)
        have hshe : shapeOf (emit sd e.children.length).doc = shapeOf s.doc := Ee.1
        rcases compileChildren_spec (shapeOf s.doc) fuel
            (fun s' ei' hs' hok' => by
              have := ih s' ei' (by rw [hs']; exact hok')
              rw [hs'] at this; exact this)
            e.children (emit sd e.children.length) hshe
            (fun c hc => hkids c (by rw [← hech]; exact hc)) with h | ⟨s1, kids, h, Ek, Lk⟩
        · exact Or.inl h
        · refine Or.inr ⟨s1, _, h, Ee.trans Ek, ?_⟩
          have := Layout.mk ei tag content keys children recs kids hsh htag hF
            (by rw [← hech]; exact Lk)
          rw [hec, hech]
          simpa using this

theorem Frame.refl (s : CState) : Frame s s := ⟨rfl, le_refl _, fun _ _ => rfl⟩

theorem Frame.comp {s s1 s2 : CState} (h1 : Frame s s1) (h2 : Frame s1 s2) : Frame s s2 :=
  ⟨h2.1.trans h1.1, le_trans h1.2.1 h2.2.1,
   fun k hk => by rw [h2.2.2 k (lt_of_lt_of_le hk h1.2.1), h1.2.2 k hk]⟩

theorem Emits.frame {s s1 : CState} {out : List Nat} (h : Emits s s1 out) : Frame s s1 :=
  ⟨h.1, by rw [h.2.1]; omega, h.2.2.1⟩

theorem compileChildren_frame (fuel : Nat)
    (IH : ∀ (s : CState) (ei c : Nat) (s1 : CState),
      compileElement fuel s ei = .ret c s1 → Frame s s1) :
    ∀ (cs : List Nat) (s : CState) (c : Nat) (s1 : CState),
      compileChildren (compileElement fuel) cs s = .ret c s1 → Frame s s1 := by
  intro cs
  induction cs with
  | nil =>
    intro s c s1 h
    simp only [compileChildren, Res.ret.injEq] at h
    rw [← h.2]; exact Frame.refl s
  | cons x cs ih =>
    intro s c s1 h
    simp only [compileChildren] at h
    cases hx : compileElement fuel s x with
    | ub => rw [hx] at h; cases h
    | nofuel => rw [hx] at h; cases h
    | ret c2 s2 =>
      rw [hx] at h
      exact (IH s x c2 s2 hx).comp (ih s2 c s1 h)

theorem compileElement_frame (fuel : Nat) :
    ∀ (s : CState) (ei c : Nat) (s1 : CState),
      compileElement fuel s ei = .ret c s1 → Frame s s1 := by
  induction fuel with
  | zero => intro s ei c s1 h; simp [compileElement] at h
  | succ fuel ih =>
    intro s ei c s1 h
    unfold compileElement at h
    cases he : s.doc.elements[ei]? with
    | none => rw [he] at h; cases h
    | some e =>
      rw [he] at h
      simp only at h
      split at h
      · simp only [Res.ret.injEq] at h
        rw [← h.2]; exact Frame.refl s
      · have Eb := (Emits.emit s (findTag e.tag)).trans
          (Emits.emitBytes (emit s (findTag e.tag)) (e.content.getD [] ++ [0]))
        generalize hsb : emitBytes (emit s (findTag e.tag)) (e.content.getD [] ++ [0]) = sb
          at Eb h
        have Ec := Emits.emit sb e.attrs.length
        cases hca : compileAttrs ei sb.pc e.attrs.length 0 (emit sb e.attrs.length) with
        | none => rw [hca] at h; cases h
        | some sd =>
          rw [hca] at h
          simp only at h
          have hshc : (shapeOf (emit sb e.attrs.length).doc)[ei]? =
              some (e.tag, e.content, e.attrs.map (fun a => a.key), e.children) := by
            rw [Ec.1, Eb.1, shapeOf_get, he]; rfl
          obtain ⟨recs, u, EP, _, _, _, _⟩ := compileAttrs_spec ei sb.pc _ _ _ _
            e.attrs.length 0 (emit sb e.attrs.length) sd hshc (by simp)
            (by simp [emit]) hca
          have Fd : Frame sb sd := by
            obtain ⟨p1, p2, p3, _⟩ := EP
            have hpcc : (emit sb e.attrs.length).pc = sb.pc + 1 := rfl
            refine ⟨p1.trans Ec.1, by rw [p2, hpcc]; omega, fun k hk => ?_⟩
            rw [p3 k (by rw [hpcc]; omega) (by omega)]
            exact Ec.2.2.1 k hk
          exact ((Eb.frame.comp Fd).comp (Emits.emit sd e.children.length).frame).comp
            (compileChildren_frame fuel ih _ _ _ _ h)

theorem compileBitmap_frame (bmp : HDL_Bitmap) (s s1 : CState)
    (h : compileBitmap bmp s = some s1) : Frame s s1 := by
  unfold compileBitmap at h
  have E := (((Emits.emitBytes s (leBytes 2 bmp.size)).trans (Emits.emitBytes _ (leBytes 2 bmp.width))).trans
    (Emits.emitBytes _ (leBytes 2 bmp.height))).trans (Emits.emit _ bmp.colorMode)
  simp only at h
  split at h
  · simp only [Option.some.injEq] at h; rw [← h]; exact E.frame
  · split at h
    · cases h
    · split at h
      · simp only [Option.some.injEq] at h; rw [← h]
        exact (E.trans (Emits.emitBytes _ _)).frame
      · cases h

theorem compileBitmaps_frame (bs : List HDL_Bitmap) (s s1 : CState)
    (h : compileBitmaps bs s = some s1) : Frame s s1 := by
  induction bs generalizing s with
  | nil => simp only [compileBitmaps, Option.some.injEq] at h; rw [← h]; exact Frame.refl s
  | cons b bs ih =>
    simp only [compileBitmaps] at h
    cases hb : compileBitmap b s with
    | none => rw [hb] at h; cases h
    | some s2 =>
      rw [hb] at h
      exact (compileBitmap_frame b s s2 hb).comp (ih s2 h)

/-- Claim C1: when `compile` is entered with cursor 0 and returns 0, the
output bytes 0..15 are 0x00 (major), 0x01 (minor), the bitmap count as one
byte, 0x00 (variable-table count), the element count as a little-endian
16-bit value and ten zero bytes; the cursor ends at or after 16, and the first
bitmap or element record is written from offset 16: the run is the bitmap loop
from a state whose cursor is 16, followed by `compileElement` on the root. -/
theorem compile_header (fuel : Nat) (doc : HDL_Document) (buffer : Nat → Nat) (s1 : CState)
    (h : compile fuel ⟨doc, buffer, 0⟩ = .ret 0 s1) :
    seg s1.buffer 0 16 =
      [0, 1, doc.bitmaps.length % 256, 0, doc.elements.length % 256,
       doc.elements.length / 256 % 256, 0, 0, 0, 0, 0, 0, 0, 0, 0, 0] ∧
    16 ≤ s1.pc ∧
    ∃ s0 sb, s0.pc = 16 ∧ compileBitmaps doc.bitmaps s0 = some sb ∧
      compileElement fuel sb 0 = .ret 0 s1 := by
  unfold compile at h
  simp only at h
  generalize hs0 : compileHeader { doc := doc, buffer := buffer, pc := 0 } = s0 at h
  have hpc0 : s0.pc = 16 := by rw [← hs0]; rfl
  have hdoc0 : s0.doc = doc := by rw [← hs0]; rfl
  have hhdr : seg s0.buffer 0 16 =
      [0, 1, doc.bitmaps.length % 256, 0, doc.elements.length % 256,
       doc.elements.length / 256 % 256, 0, 0, 0, 0, 0, 0, 0, 0, 0, 0] := by
    rw [← hs0]
    simp [compileHeader, seg, segN, emit, emitBytes, setBytes, setB, leBytes, List.replicate]
  rw [hdoc0] at h
  cases hb : compileBitmaps doc.bitmaps s0 with
  | none => rw [hb] at h; cases h
  | some sb =>
    rw [hb] at h
    simp only at h
    cases he : compileElement fuel sb 0 with
    | ub => rw [he] at h; cases h
    | nofuel => rw [he] at h; cases h
    | ret c s2 =>
      rw [he] at h
      have hc : c = 0 ∧ s2 = s1 := by
        cases c with
        | zero => simp only [Res.ret.injEq, true_and] at h; exact ⟨rfl, h⟩
        | succ n => simp at h
      obtain ⟨hc0, hs2⟩ := hc
      subst hc0; subst hs2
      have F := (compileBitmaps_frame _ _ _ hb).comp (compileElement_frame fuel _ _ _ _ he)
      refine ⟨?_, by have := F.2.1; omega, s0, sb, hpc0, hb, he⟩
      rw [← hhdr]
      unfold seg
      apply segN_congr
      intro k _ hk
      exact F.2.2 k (by omega)

/-- Witness of claim C1 on the document of `<box/>` and the zero buffer. -/
theorem compile_header_witness :
    ∃ s1, compile 1 ⟨boxDoc, zeroBuf, 0⟩ = .ret 0 s1 ∧
      seg s1.buffer 0 16 = [0, 1, 0, 0, 1, 0, 0, 0, 0, 0, 0, 0, 0, 0, 0, 0] :=
  ⟨_, rfl, (compile_header 1 boxDoc zeroBuf _ rfl).1⟩

/-- Claim C2: for an element all of whose descendants (itself included) have
a recognized tag, with a subtree at most `fuel` levels deep, `compileElement`
never runs out of fuel and never returns 1: unless the C run has undefined
behaviour, it returns 0, leaves the buffer below the entry cursor unchanged and
the bytes it wrote from the entry cursor to the final cursor have the layout
`Layout`: the tag index, the content and one zero byte (a single zero byte when
there is no content), the attribute-count byte, one record (key index, type
byte, count byte, payload) per recognized attribute in source order, the
child-count byte, then the records of the children in children-list order,
recursively. -/
theorem compileElement_layout (fuel : Nat) (s : CState) (ei : Nat)
    (h : subtreeOK (shapeOf s.doc) fuel ei = true) :
    compileElement fuel s ei = .ub ∨
    ∃ s1, compileElement fuel s ei = .ret 0 s1 ∧
      Layout (shapeOf s.doc) ei (seg s1.buffer s.pc s1.pc) ∧
      ∀ k, k < s.pc → s1.buffer k = s.buffer k := by
  rcases compileElement_spec fuel s ei h with h1 | ⟨s1, out, h1, E, L⟩
  · exact Or.inl h1
  · exact Or.inr ⟨s1, h1, by rw [E.seg]; exact L, E.2.2.1⟩

/-- Witness of claim C2 on a tree with attributes (one unknown), content and
two children: the run returns 0 and the bytes are listed. -/
theorem compileElement_layout_witness :
    subtreeOK (shapeOf treeDoc) 2 0 = true ∧
    ∃ s1, compileElement 2 ⟨treeDoc, zeroBuf, 16⟩ 0 = .ret 0 s1 ∧
      Layout (shapeOf treeDoc) 0 (seg s1.buffer 16 s1.pc) ∧
      seg s1.buffer 16 s1.pc =
        [0, 0, 2, 0, 4, 1, 5, 5, 4, 1, 2, 2, 1, 104, 105, 0, 0, 0, 0, 0, 0, 0] := by
  refine ⟨by decide, ?_⟩
  rcases compileElement_layout 2 ⟨treeDoc, zeroBuf, 16⟩ 0 (by decide) with h | ⟨s1, h, L, _⟩
  · have hu : (compileElement 2 ⟨treeDoc, zeroBuf, 16⟩ 0).isUb = true := by rw [h]; rfl
    exact absurd hu (by decide)
  · refine ⟨s1, h, L, ?_⟩
    have h2 : compileElement 2 ⟨treeDoc, zeroBuf, 16⟩ 0 = .ret 0 _ := rfl
    rw [h2] at h
    simp only [Res.ret.injEq, true_and] at h
    rw [← h]
    decide

theorem parse_box (L : Loader) (fuel : Nat) :
    HDL_Parse L (fuel + 2) (str "<box/>") = .ret 0 boxDoc := by
  rfl

/-- Claim C3: an element with a recognized tag, no content (or empty
content), no attributes and no children is written as exactly the four bytes
tag index, 0, 0, 0; and for every loader and every fuel above the minimum,
parsing `<box/>` returns 0 and encoding the result returns 0 with cursor 20 and
the bytes 00 01 00 00 01 00, ten zero bytes, 00 00 00 00. -/
theorem compileElement_leaf :
    (∀ (fuel : Nat) (s : CState) (ei : Nat) (e : HDL_Element),
      s.doc.elements[ei]? = some e → findTag e.tag ≠ 0xFF →
      (e.content = none ∨ e.content = some []) → e.attrs = [] → e.children = [] →
      ∃ s1, compileElement (fuel + 1) s ei = .ret 0 s1 ∧ s1.pc = s.pc + 4 ∧
        seg s1.buffer s.pc s1.pc = [findTag e.tag, 0, 0, 0]) ∧
    (∀ (L : Loader) (fuel : Nat) (buffer : Nat → Nat),
      ∃ doc s1, HDL_Parse L (fuel + 2) (str "<box/>") = .ret 0 doc ∧
        compile (fuel + 1) ⟨doc, buffer, 0⟩ = .ret 0 s1 ∧ s1.pc = 20 ∧
        seg s1.buffer 0 20 = [0, 1, 0, 0, 1, 0, 0, 0, 0, 0, 0, 0, 0, 0, 0, 0, 0, 0, 0, 0]) := by
  have leaf : ∀ (fuel : Nat) (s : CState) (ei : Nat) (e : HDL_Element),
      s.doc.elements[ei]? = some e → findTag e.tag ≠ 0xFF →
      (e.content = none ∨ e.content = some []) → e.attrs = [] → e.children = [] →
      ∃ s1, compileElement (fuel + 1) s ei = .ret 0 s1 ∧ s1.pc = s.pc + 4 ∧
        seg s1.buffer s.pc s1.pc = [findTag e.tag, 0, 0, 0] := by
    intro fuel s ei e he ht hc ha hch
    have hmod : findTag e.tag % 256 = findTag e.tag := by
      rcases findTag_le e.tag with h1 | h1
      · exact absurd h1 ht
      · omega
    have hcont : e.content.getD [] ++ [0] = [0] := by
      rcases hc with h | h <;> simp [h]
    have E := (((Emits.emit s (findTag e.tag)).trans (Emits.emitBytes _ [0])).trans
      (Emits.emit _ 0)).trans (Emits.emit _ 0)
    refine ⟨_, ?_, E.2.1, ?_⟩
    · unfold compileElement
      rw [he]
      simp only [if_neg ht, hcont, ha, hch, List.length_nil, compileAttrs, compileChildren]
    · have := E.seg
      rw [hmod] at this
      simpa using this
  refine ⟨leaf, fun L fuel buffer => ?_⟩
  refine ⟨boxDoc, _, parse_box L fuel, rfl, rfl, ?_⟩
  simp [compile, compileHeader, compileBitmaps, compileElement, compileAttrs, compileChildren,
    boxDoc, seg, segN, emit, emitBytes, setBytes, setB, leBytes, List.replicate]
  decide

/-- Witness of claim C3 on the document of `<box/>`. -/
theorem compileElement_leaf_witness :
    ∃ s1, compileElement 1 ⟨boxDoc, zeroBuf, 16⟩ 0 = .ret 0 s1 ∧ s1.pc = 16 + 4 ∧
      seg s1.buffer 16 s1.pc = [findTag (str "box"), 0, 0, 0] :=
  compileElement_leaf.1 0 ⟨boxDoc, zeroBuf, 16⟩ 0 ⟨str "box", none, [], -1, []⟩ rfl (by decide)
    (Or.inl rfl) rfl rfl

theorem readF32_zero (b : Nat → Nat) (p : Nat) (h : ∀ k, p ≤ k → b k = 0) : readF32 b p = 0 := by
  have h0 := h p (le_refl _)
  have h1 := h (p + 1) (by omega)
  have h2 := h (p + 1 + 1) (by omega)
  have h3 := h (p + 1 + 1 + 1) (by omega)
  simp [readF32, seg, segN, leValue, h0, h1, h2, h3]

theorem narrowType_zero (b : Nat → Nat) (p : Nat) (h : ∀ k, p ≤ k → b k = 0) :
    narrowType b p = .I8 := by
  unfold narrowType
  rw [readF32_zero b p h]
  decide

theorem leValue_leBytes4 (f : Nat) (h : f < 2 ^ 32) : leValue (leBytes 4 f) = f := by
  simp only [leBytes, leValue]
  omega

theorem leBytes4_length (f : Nat) : (leBytes 4 f).length = 4 := rfl

theorem valF32_append (pre rest : List Nat) (f z : Nat) (hp : pre.length = 4 * z)
    (h : f < 2 ^ 32) : valF32 (pre ++ (leBytes 4 f ++ rest)) z = some f := by
  unfold valF32
  have hl : 4 * z + 4 ≤ (pre ++ (leBytes 4 f ++ rest)).length := by
    simp [leBytes4_length]; omega
  rw [if_pos hl]
  have hd : (pre ++ (leBytes 4 f ++ rest)).drop (4 * z) = leBytes 4 f ++ rest := by
    rw [← hp]; simp
  rw [hd]
  have ht : (leBytes 4 f ++ rest).take 4 = leBytes 4 f := by
    simp [leBytes]
  rw [ht, leValue_leBytes4 f h]

theorem floatsPayload_bind (nt : HDL_Type) (fs : List Nat) :
    ∀ (pre : List Nat) (z : Nat), pre.length = 4 * z → (∀ f ∈ fs, f < 2 ^ 32) →
      floatsPayload nt (pre ++ fs.flatMap (leBytes 4)) fs.length z =
        some ((fs.map (narrowBytes nt)).flatten) := by
  induction fs with
  | nil => intro pre z _ _; rfl
  | cons f fs ih =>
    intro pre z hp hf
    simp only [List.flatMap_cons, List.length_cons, floatsPayload, List.map_cons, List.flatten_cons]
    rw [valF32_append pre _ f z hp (hf f (List.mem_cons_self _ _))]
    simp only
    have := ih (pre ++ leBytes 4 f) (z + 1) (by simp [leBytes4_length]; omega)
      (fun g hg => hf g (List.mem_cons_of_mem _ hg))
    rw [List.append_assoc] at this
    rw [this]
    rfl

/-- The FLOAT branch of `compilePayload` on a fresh buffer: the type byte is
I8 and every element is stored as one byte. -/
theorem compilePayload_float_fresh (s : CState) (a : HDL_Attr) (val : List Nat) (p : List Nat)
    (ht : a.type = .FLOAT) (hz : ∀ k, s.pc + 2 ≤ k → s.buffer k = 0)
    (hp : floatsPayload .I8 val a.count 0 = some p) :
    ∃ s1, compilePayload s a (some val) = some s1 ∧ Emits s s1 (4 :: (a.count % 256) :: p) := by
  have hfresh : ∀ k, (emit (emit s a.type.toNat) a.count).pc ≤ k →
      (emit (emit s a.type.toNat) a.count).buffer k = 0 := by
    intro k hk
    have h1 : (emit (emit s a.type.toNat) a.count).pc = s.pc + 2 := rfl
    rw [h1] at hk
    simp only [emit, setB]
    rw [if_neg (by omega), if_neg (by omega)]
    exact hz k hk
  have hn := narrowType_zero _ _ hfresh
  have E2 : Emits s (emit (emit s a.type.toNat) a.count) [a.type.toNat % 256, a.count % 256] :=
    (Emits.emit s _).trans (Emits.emit _ _)
  unfold compilePayload
  simp only [ht]
  rw [ht] at hn E2
  rw [hn, emitFloats_eq, hp]
  refine ⟨_, rfl, ?_⟩
  exact Emits.patchHead _ (E2.trans (Emits.emitBytes _ p))

theorem parse_x5 (L : Loader) (fuel : Nat) :
    HDL_Parse L (fuel + 3) (str "<box x=5/>") = .ret 0 x5Doc := by
  rfl

theorem compileAttr_plain (s : CState) (ei addr i : Nat) (e : HDL_Element) (a : HDL_Attr)
    (he : s.doc.elements[ei]? = some e) (ha : e.attrs[i]? = some a)
    (hk : findAttr a.key ≠ 0xFF) (ht : a.type ≠ .STRING) :
    compileAttr s ei addr i =
      compilePayload (emit s (findAttr a.key)) a (deref s.doc a.value) := by
  unfold compileAttr
  rw [he]
  simp only [ha, if_neg hk, ht, and_false, if_false]
  rfl

theorem twos8_lt (v : Int) : twos 8 v < 256 := by
  unfold twos
  have h1 : v % (2 : Int) ^ 8 < (2 : Int) ^ 8 := Int.emod_lt_of_pos v (by norm_num)
  have h2 : 0 ≤ v % (2 : Int) ^ 8 := Int.emod_nonneg v (by norm_num)
  omega

theorem narrowBytes_I8 (f : Nat) : narrowBytes .I8 f = [twos 8 (f32ToI32 f)] := by
  simp only [narrowBytes, leBytes]
  rw [Nat.mod_eq_of_lt (twos8_lt _)]

theorem emit_fresh (s : CState) (v : Nat) (hz : ∀ k, s.pc ≤ k → s.buffer k = 0) :
    ∀ k, (emit s v).pc + 2 ≤ k → (emit s v).buffer k = 0 := by
  intro k hk
  have h1 : (emit s v).pc = s.pc + 1 := rfl
  rw [h1] at hk
  simp only [emit, setB]
  rw [if_neg (by omega)]
  exact hz k (by omega)

theorem findAttr_mod (k : List Nat) (h : findAttr k ≠ 0xFF) : findAttr k % 256 = findAttr k := by
  rcases findAttr_le k with h1 | h1
  · exact absurd h1 h
  · omega

/-- Claim C5: on a fresh output buffer (zero from the cursor on, as the
program's static `output_buffer` is), a recognized FLOAT attribute whose
elements are the floats `fs` with integer values `vs`, each strictly between
-128 and 128, is written as key index, type byte I8 (4), the count byte
`fs.length` and one byte per element, the two's-complement byte of its value;
and parsing and encoding `<box x=5/>` gives the element record
00 00 01 00 04 01 05 00. -/
theorem float_attr_I8 :
    (∀ (s : CState) (ei addr i : Nat) (e : HDL_Element) (a : HDL_Attr) (fs : List Nat)
        (vs : List Int),
      s.doc.elements[ei]? = some e → e.attrs[i]? = some a → findAttr a.key ≠ 0xFF →
      a.type = .FLOAT → a.count = fs.length → fs.length < 256 →
      deref s.doc a.value = some (fs.flatMap (leBytes 4)) →
      List.Forall₂ (fun f v => f < 2 ^ 32 ∧ fmodf1IsZero f = true ∧ f32ToI32 f = v ∧
        -128 < v ∧ v < 128) fs vs →
      (∀ k, s.pc ≤ k → s.buffer k = 0) →
      ∃ s1, compileAttr s ei addr i = some s1 ∧
        seg s1.buffer s.pc s1.pc = findAttr a.key :: 4 :: fs.length :: vs.map (twos 8)) ∧
    (∀ (L : Loader) (fuel : Nat),
      ∃ doc s1, HDL_Parse L (fuel + 3) (str "<box x=5/>") = .ret 0 doc ∧
        compile (fuel + 1) ⟨doc, zeroBuf, 0⟩ = .ret 0 s1 ∧
        seg s1.buffer 16 s1.pc = [0, 0, 1, 0, 4, 1, 5, 0]) := by
  constructor
  · intro s ei addr i e a fs vs he ha hk ht hc hlen hv hF hz
    have hlt : ∀ f ∈ fs, f < 2 ^ 32 := by
      intro f hf
      clear hv hc hlen
      induction hF with
      | nil => cases hf
      | cons h _ ih =>
        rcases List.mem_cons.1 hf with h1 | h1
        · rw [h1]; exact h.1
        · exact ih h1
    have hbytes : (fs.map (narrowBytes .I8)).flatten = vs.map (twos 8) := by
      clear hv hc hlen hlt
      induction hF with
      | nil => rfl
      | cons h _ ih =>
        simp only [List.map_cons, List.flatten_cons, narrowBytes_I8, h.2.2.1, ih]
        rfl
    have hp : floatsPayload .I8 (fs.flatMap (leBytes 4)) a.count 0 = some (vs.map (twos 8)) := by
      rw [hc, ← hbytes]
      exact floatsPayload_bind .I8 fs [] 0 rfl hlt
    obtain ⟨s1, h1, E1⟩ := compilePayload_float_fresh (emit s (findAttr a.key)) a _ _ ht
      (emit_fresh s _ hz) hp
    refine ⟨s1, ?_, ?_⟩
    · rw [compileAttr_plain s ei addr i e a he ha hk (by rw [ht]; decide), hv]
      exact h1
    · have E := (Emits.emit s (findAttr a.key)).trans E1
      rw [findAttr_mod _ hk, hc, Nat.mod_eq_of_lt hlen] at E
      exact E.seg
  · intro L fuel
    refine ⟨x5Doc, _, parse_x5 L fuel, rfl, ?_⟩
    decide

/-- After a STRING rewrite the value is the local `ftemp`: on a fresh buffer the
record is the key, I8, the count byte and the low byte of `(int32_t)ftemp`. -/
theorem compilePayload_ftemp (s : CState) (a : HDL_Attr) (ft : Nat)
    (ht : a.type = .FLOAT) (hc : a.count = 1) (hft : ft < 2 ^ 32)
    (hz : ∀ k, s.pc + 2 ≤ k → s.buffer k = 0) :
    ∃ s1, compilePayload s a (some (leBytes 4 ft)) = some s1 ∧
      Emits s s1 [4, 1, twos 8 (f32ToI32 ft)] := by
  have hp : floatsPayload .I8 (leBytes 4 ft) a.count 0 = some [twos 8 (f32ToI32 ft)] := by
    have := floatsPayload_bind .I8 [ft] [] 0 rfl (by simpa using hft)
    rw [hc]
    simpa [narrowBytes_I8] using this
  obtain ⟨s1, h1, E1⟩ := compilePayload_float_fresh s a _ _ ht hz hp
  rw [hc] at E1
  exact ⟨s1, h1, E1⟩

theorem parse_flexdir_foo (L : Loader) (fuel : Nat) :
    HDL_Parse L (fuel + 3) (str "<box flexdir='foo'/>") =
      .ret 0 (boxWith [stringAttr "flexdir" "foo"]) := by
  rfl

/-- The `flexdir` rewrite on the two known words: the record is key 5, type I8,
count 1 and the byte `b`, which is 1 for `col` and 2 for `row`. -/
theorem flexdir_known (s : CState) (ei addr i : Nat) (e : HDL_Element) (a : HDL_Attr)
    (mem : List Nat) (b : Nat)
    (he : s.doc.elements[ei]? = some e) (ha : e.attrs[i]? = some a)
    (hk : a.key = str "flexdir") (ht : a.type = .STRING) (hc : a.count = 1)
    (hv : deref s.doc a.value = some mem)
    (hb : b = 1 ∨ b = 2) (hft : flexdirTemp (some mem) = some (f32OfNat b))
    (hz : ∀ k, s.pc ≤ k → s.buffer k = 0) :
    ∃ s1, compileAttr s ei addr i = some s1 ∧
      seg s1.buffer s.pc s1.pc = [5, 4, 1, b] := by
  have hf : findAttr a.key = 5 := by rw [hk]; decide
  have hlt : f32OfNat b < 2 ^ 32 := by
    rcases hb with h | h <;> subst h <;> decide
  have hval : twos 8 (f32ToI32 (f32OfNat b)) = b := by
    rcases hb with h | h <;> subst h <;> decide
  obtain ⟨s1, h1, E1⟩ := compilePayload_ftemp
    { emit s 5 with doc := setAttr (emit s 5).doc ei i { a with type := HDL_Type.FLOAT } }
    { a with type := HDL_Type.FLOAT } _ rfl hc hlt (emit_fresh s 5 hz)
  refine ⟨s1, ?_, ?_⟩
  · unfold compileAttr
    rw [he]
    simp only [ha, hf]
    rw [if_neg (by decide), if_pos ⟨rfl, ht⟩]
    have hd : deref (emit s 5).doc a.value = some mem := hv
    rw [hd, hft]
    exact h1
  · have E0 : Emits s { emit s 5 with
        doc := setAttr (emit s 5).doc ei i { a with type := HDL_Type.FLOAT } } [5] :=
      (Emits.emit s 5).of_doc _ rfl rfl (shapeOf_setAttr s.doc ei i e a _ he ha rfl)
    have E := E0.trans E1
    rw [hval] at E
    exact E.seg

/-- Claim C8, the code and the failing input: on a fresh output buffer, a
`flexdir` attribute of type STRING and count 1 whose value is the string `v`
is encoded as key 5, type I8 (4), count 1 and the value byte 2 when `v` is
`row`, and the value byte 1 when `v` is `col`, as claimed; for every other word
the encoder reaches the `printf` of line 136, whose `%s` conversion has no
argument, so the behaviour is undefined and no record is guaranteed.  In
particular `<box flexdir='foo'/>` parses and `compile` has undefined behaviour
on its document, whatever the buffer holds. -/
theorem flexdir_string (s : CState) (ei addr i : Nat) (e : HDL_Element) (a : HDL_Attr)
    (mem v : List Nat)
    (he : s.doc.elements[ei]? = some e) (ha : e.attrs[i]? = some a)
    (hk : a.key = str "flexdir") (ht : a.type = .STRING) (hc : a.count = 1)
    (hv : deref s.doc a.value = some mem) (hs : cstrAt mem 0 = some v)
    (hz : ∀ k, s.pc ≤ k → s.buffer k = 0) :
    (v = str "row" → ∃ s1, compileAttr s ei addr i = some s1 ∧
      seg s1.buffer s.pc s1.pc = [5, 4, 1, 2]) ∧
    (v = str "col" → ∃ s1, compileAttr s ei addr i = some s1 ∧
      seg s1.buffer s.pc s1.pc = [5, 4, 1, 1]) ∧
    (v ≠ str "row" → v ≠ str "col" → compileAttr s ei addr i = none) ∧
    ∀ (L : Loader) (fuel : Nat) (buffer : Nat → Nat),
      HDL_Parse L (fuel + 3) (str "<box flexdir='foo'/>") =
        .ret 0 (boxWith [stringAttr "flexdir" "foo"]) ∧
      compile (fuel + 1) ⟨boxWith [stringAttr "flexdir" "foo"], buffer, 0⟩ = .ub := by
  have hf : findAttr a.key = 5 := by rw [hk]; decide
  refine ⟨fun hr => ?_, fun hcol => ?_, fun h1 h2 => ?_, fun L fuel buffer => ?_⟩
  · refine flexdir_known s ei addr i e a mem 2 he ha hk ht hc hv (Or.inr rfl) ?_ hz
    simp only [flexdirTemp, Option.bind, hs]
    have h2 : ¬ v = str "col" := by rw [hr]; decide
    rw [if_neg h2, if_pos hr]
  · refine flexdir_known s ei addr i e a mem 1 he ha hk ht hc hv (Or.inl rfl) ?_ hz
    simp only [flexdirTemp, Option.bind, hs]
    rw [if_pos hcol]
  · unfold compileAttr
    rw [he]
    simp only [ha, hf]
    rw [if_neg (by decide), if_pos ⟨rfl, ht⟩]
    have hd : deref (emit s 5).doc a.value = some mem := hv
    rw [hd]
    simp only [flexdirTemp, Option.bind, hs]
    rw [if_neg h2, if_neg h1]
  · exact ⟨parse_flexdir_foo L fuel, rfl⟩

/-- Claim C9: on a fresh output buffer, an `align` attribute of type STRING
and count 1 whose value is the word of index `iy` in (middle, top, bottom), one
space, and the word of index `ix` in (center, left, right) is encoded as the
record key 9, type I8 (4), count 1 and the value byte `iy | (ix << 4)`. -/
theorem align_string (s : CState) (ei addr i : Nat) (e : HDL_Element) (a : HDL_Attr)
    (iy ix : Nat) (y x : List Nat)
    (he : s.doc.elements[ei]? = some e) (ha : e.attrs[i]? = some a)
    (hk : a.key = str "align") (ht : a.type = .STRING) (hc : a.count = 1)
    (hy : alignment_y[iy]? = some y) (hx : alignment_x[ix]? = some x)
    (hv : deref s.doc a.value = some (y ++ [32] ++ x ++ [0]))
    (hz : ∀ k, s.pc ≤ k → s.buffer k = 0) :
    ∃ s1, compileAttr s ei addr i = some s1 ∧
      seg s1.buffer s.pc s1.pc = [9, 4, 1, iy ||| (ix <<< 4)] := by
  have hf : findAttr a.key = 9 := by rw [hk]; decide
  have hiy : iy < 3 := by
    rcases Nat.lt_or_ge iy 3 with h | h
    · exact h
    · rw [List.getElem?_eq_none (by simpa [alignment_y] using h)] at hy; cases hy
  have hix : ix < 3 := by
    rcases Nat.lt_or_ge ix 3 with h | h
    · exact h
    · rw [List.getElem?_eq_none (by simpa [alignment_x] using h)] at hx; cases hx
  have hall : alignTemp (y ++ [32] ++ x ++ [0]) =
        some ((y ++ [32] ++ x ++ [0]).set y.length 0, f32OfNat (iy ||| (ix <<< 4))) ∧
      f32OfNat (iy ||| (ix <<< 4)) < 2 ^ 32 ∧
      twos 8 (f32ToI32 (f32OfNat (iy ||| (ix <<< 4)))) = iy ||| (ix <<< 4) := by
    interval_cases iy <;> interval_cases ix <;>
      simp only [alignment_y, alignment_x, List.getElem?_cons_zero, List.getElem?_cons_succ,
        Option.some.injEq] at hy hx <;>
      subst hy <;> subst hx <;> decide
  generalize hmem1 : (y ++ [32] ++ x ++ [0]).set y.length 0 = mem1 at hall
  generalize hftd : f32OfNat (iy ||| (ix <<< 4)) = ft at hall
  obtain ⟨hat, hlt, hval⟩ := hall
  obtain ⟨s1, h1, E1⟩ := compilePayload_ftemp
    { emit s 9 with doc := writeBack (setAttr (emit s 9).doc ei i
        { a with type := HDL_Type.FLOAT }) ei i { a with type := HDL_Type.FLOAT } mem1 }
    { a with type := HDL_Type.FLOAT } ft rfl hc hlt (emit_fresh s 9 hz)
  have hca : compileAttr s ei addr i = some s1 := by
    unfold compileAttr
    rw [he]
    simp only [ha, hf]
    rw [if_neg (by decide), if_neg (fun h => absurd h.1 (by decide)), if_pos ⟨rfl, ht⟩]
    have hd : deref (emit s 9).doc a.value = some (y ++ [32] ++ x ++ [0]) := hv
    rw [hd]
    simp only [Option.bind, hat]
    exact h1
  refine ⟨s1, hca, ?_⟩
  have hs1 := shapeOf_setAttr s.doc ei i e a { a with type := HDL_Type.FLOAT } he ha rfl
  have E0 : Emits s { emit s 9 with doc := writeBack (setAttr (emit s 9).doc ei i
        { a with type := HDL_Type.FLOAT }) ei i { a with type := HDL_Type.FLOAT } mem1 } [9] := by
    obtain ⟨_, hr⟩ := compileAttr_spec s s1 ei addr i e a he ha hca
    obtain ⟨r, _, E⟩ := hr (by rw [hf]; decide)
    exact (Emits.emit s 9).of_doc _ rfl rfl (E1.1.symm.trans E.1)
  have E := E0.trans E1
  rw [hval] at E
  exact E.seg

theorem parse_x128 (L : Loader) (fuel : Nat) :
    HDL_Parse L (fuel + 3) (str "<box x=128/>") = .ret 0 (boxWith [floatAttr "x" [0x43000000]]) := by
  rfl

theorem parse_x127 (L : Loader) (fuel : Nat) :
    HDL_Parse L (fuel + 3) (str "<box x=127/>") = .ret 0 (boxWith [floatAttr "x" [0x42fe0000]]) := by
  rfl

theorem parse_xarr (L : Loader) (fuel : Nat) :
    HDL_Parse L (fuel + 5) (str "<box x=[1.5, 2, 3]/>") =
      .ret 0 (boxWith [floatAttr "x" [0x3fc00000, 0x40000000, 0x40400000]]) := by
  rfl

theorem parse_x1_300 (L : Loader) (fuel : Nat) :
    HDL_Parse L (fuel + 4) (str "<box x=[1, 300]/>") =
      .ret 0 (boxWith [floatAttr "x" [0x3f800000, 0x43960000]]) := by
  rfl

theorem parse_align_top (L : Loader) (fuel : Nat) :
    HDL_Parse L (fuel + 3) (str "<box align='top'/>") =
      .ret 0 (boxWith [stringAttr "align" "top"]) := by
  rfl

/-- Claim C6, the code at the failing inputs: on the program's zero buffer
`<box x=128/>` is emitted with type byte I8 (4) and the one-byte payload 0x80
(the claim: I16 with a two-byte payload), and `<box x=[1.5, 2, 3]/>` with type
byte I8 and the three bytes 1, 2, 3 (the claim: FLOAT with a twelve-byte
payload); `<box x=127/>` is emitted as I8 with payload 0x7F, as claimed. -/
theorem narrowing_reads_buffer :
    (∀ (L : Loader) (fuel : Nat), ∃ doc s1,
      HDL_Parse L (fuel + 3) (str "<box x=128/>") = .ret 0 doc ∧
      compile (fuel + 1) ⟨doc, zeroBuf, 0⟩ = .ret 0 s1 ∧
      seg s1.buffer 16 s1.pc = [0, 0, 1, 0, 4, 1, 128, 0]) ∧
    (∀ (L : Loader) (fuel : Nat), ∃ doc s1,
      HDL_Parse L (fuel + 5) (str "<box x=[1.5, 2, 3]/>") = .ret 0 doc ∧
      compile (fuel + 1) ⟨doc, zeroBuf, 0⟩ = .ret 0 s1 ∧
      seg s1.buffer 16 s1.pc = [0, 0, 1, 0, 4, 3, 1, 2, 3, 0]) ∧
    (∀ (L : Loader) (fuel : Nat), ∃ doc s1,
      HDL_Parse L (fuel + 3) (str "<box x=127/>") = .ret 0 doc ∧
      compile (fuel + 1) ⟨doc, zeroBuf, 0⟩ = .ret 0 s1 ∧
      seg s1.buffer 16 s1.pc = [0, 0, 1, 0, 4, 1, 127, 0]) := by
  refine ⟨fun L fuel => ⟨_, _, parse_x128 L fuel, rfl, ?_⟩,
    fun L fuel => ⟨_, _, parse_xarr L fuel, rfl, ?_⟩,
    fun L fuel => ⟨_, _, parse_x127 L fuel, rfl, ?_⟩⟩
  · decide
  · decide
  · decide

theorem parse_align_bad (L : Loader) (fuel : Nat) :
    HDL_Parse L (fuel + 3) (str "<box align='foo left'/>") =
        .ret 0 (boxWith [stringAttr "align" "foo left"]) ∧
    HDL_Parse L (fuel + 3) (str "<box align='top foo'/>") =
        .ret 0 (boxWith [stringAttr "align" "top foo"]) ∧
    HDL_Parse L (fuel + 3) (str "<box align='top '/>") =
        .ret 0 (boxWith [stringAttr "align" "top "]) ∧
    HDL_Parse L (fuel + 3) (str "<box align=''/>") =
        .ret 0 (boxWith [stringAttr "align" ""]) :=
  ⟨rfl, rfl, rfl, rfl⟩

/-- Claim C10, the code at the failing input: for `<box align='top'/>`
(a non-empty value without a space) parsing returns 0 and `compile` has
undefined behaviour for every buffer, because the scan for the space never
stops at the end of the string; for an unknown y word (`foo left`), an unknown
x word (`top foo`), a missing x word (`top `) and the empty string, encoding
returns 0 and the record is key 9, type I8, count 1, value 0, as claimed. -/
theorem align_without_space_ub :
    (∀ (L : Loader) (fuel : Nat), ∃ doc,
      HDL_Parse L (fuel + 3) (str "<box align='top'/>") = .ret 0 doc ∧
      ∀ buffer, compile (fuel + 1) ⟨doc, buffer, 0⟩ = .ub) ∧
    (∀ (L : Loader) (fuel : Nat), ∃ doc s1,
      HDL_Parse L (fuel + 3) (str "<box align='foo left'/>") = .ret 0 doc ∧
      compile (fuel + 1) ⟨doc, zeroBuf, 0⟩ = .ret 0 s1 ∧
      seg s1.buffer 16 s1.pc = [0, 0, 1, 9, 4, 1, 0, 0]) ∧
    (∀ (L : Loader) (fuel : Nat), ∃ doc s1,
      HDL_Parse L (fuel + 3) (str "<box align='top foo'/>") = .ret 0 doc ∧
      compile (fuel + 1) ⟨doc, zeroBuf, 0⟩ = .ret 0 s1 ∧
      seg s1.buffer 16 s1.pc = [0, 0, 1, 9, 4, 1, 0, 0]) ∧
    (∀ (L : Loader) (fuel : Nat), ∃ doc s1,
      HDL_Parse L (fuel + 3) (str "<box align='top '/>") = .ret 0 doc ∧
      compile (fuel + 1) ⟨doc, zeroBuf, 0⟩ = .ret 0 s1 ∧
      seg s1.buffer 16 s1.pc = [0, 0, 1, 9, 4, 1, 0, 0]) ∧
    (∀ (L : Loader) (fuel : Nat), ∃ doc s1,
      HDL_Parse L (fuel + 3) (str "<box align=''/>") = .ret 0 doc ∧
      compile (fuel + 1) ⟨doc, zeroBuf, 0⟩ = .ret 0 s1 ∧
      seg s1.buffer 16 s1.pc = [0, 0, 1, 9, 4, 1, 0, 0]) :=
  ⟨fun L fuel => ⟨_, parse_align_top L fuel, fun _ => rfl⟩,
   fun L fuel => ⟨_, _, (parse_align_bad L fuel).1, rfl, by decide⟩,
   fun L fuel => ⟨_, _, (parse_align_bad L fuel).2.1, rfl, by decide⟩,
   fun L fuel => ⟨_, _, (parse_align_bad L fuel).2.2.1, rfl, by decide⟩,
   fun L fuel => ⟨_, _, (parse_align_bad L fuel).2.2.2, rfl, by decide⟩⟩

/-- Counterexample to claim C7 as stated: on the program's zero buffer
`<box x=[1, 300]/>` is emitted with type byte I8 (4) and the payload bytes 1
and 44, not as I16 with the values 1 and 300. -/
theorem narrowing_not_lossless :
    ∃ doc s1, HDL_Parse noLoader 4 (str "<box x=[1, 300]/>") = .ret 0 doc ∧
      compile 1 ⟨doc, zeroBuf, 0⟩ = .ret 0 s1 ∧
      seg s1.buffer 16 s1.pc = [0, 0, 1, 0, 4, 2, 1, 44, 0] ∧
      seg s1.buffer 16 s1.pc ≠ [0, 0, 1, 0, 5, 2, 1, 0, 44, 1, 0] :=
  ⟨_, _, parse_x1_300 noLoader 0, rfl, by decide, by decide⟩

theorem narrowType_cases (b : Nat → Nat) (p : Nat) :
    narrowType b p = .I8 ∨ narrowType b p = .I16 ∨ narrowType b p = .I32 ∨
      narrowType b p = .FLOAT := by
  unfold narrowType
  split
  · simp only
    split
    · exact Or.inl rfl
    · split
      · exact Or.inr (Or.inl rfl)
      · exact Or.inr (Or.inr (Or.inl rfl))
  · exact Or.inr (Or.inr (Or.inr rfl))

/-- The FLOAT branch of `compilePayload`: the type byte is the one type chosen
from the buffer before the loop, and every element is stored in that type. -/
theorem compilePayload_float (s : CState) (a : HDL_Attr) (val : List Nat) (p : List Nat)
    (ht : a.type = .FLOAT)
    (hp : floatsPayload (narrowType (emit (emit s 2) a.count).buffer (s.pc + 2)) val a.count 0
      = some p) :
    ∃ s1, compilePayload s a (some val) = some s1 ∧
      Emits s s1 ((narrowType (emit (emit s 2) a.count).buffer (s.pc + 2)).toNat ::
        (a.count % 256) :: p) := by
  have E2 : Emits s (emit (emit s a.type.toNat) a.count) [a.type.toNat % 256, a.count % 256] :=
    (Emits.emit s _).trans (Emits.emit _ _)
  unfold compilePayload
  simp only [ht]
  rw [ht] at E2
  have h2 : HDL_Type.FLOAT.toNat = 2 := rfl
  have hpc : (emit (emit s 2) a.count).pc = s.pc + 2 := rfl
  rw [h2, hpc, emitFloats_eq, hp]
  refine ⟨_, rfl, ?_⟩
  exact Emits.patchHead _ (E2.trans (Emits.emitBytes _ p))

theorem f32ToI32_range (f : Nat) : -(2 : Int) ^ 31 ≤ f32ToI32 f ∧ f32ToI32 f < (2 : Int) ^ 31 := by
  unfold f32ToI32
  generalize (if f32Neg f = true then -(f32TruncMag f : Int) else (f32TruncMag f : Int)) = t
  simp only
  by_cases h1 : f32Exp f = 255
  · rw [if_pos h1]; norm_num
  · rw [if_neg h1]
    by_cases h2 : -(2 : Int) ^ 31 ≤ t ∧ t < (2 : Int) ^ 31
    · rw [if_pos h2]; exact h2
    · rw [if_neg h2]; norm_num

theorem sval_I8 (v : Int) (h1 : -128 ≤ v) (h2 : v < 128) :
    sval 8 (leBytes 1 (twos 8 v)) = v := by
  unfold sval twos
  simp only [leBytes, leValue]
  have e : ((2 : Int) ^ 8) = 256 := by norm_num
  rw [e]
  norm_num
  omega

theorem sval_I16 (v : Int) (h1 : -32768 ≤ v) (h2 : v < 32768) :
    sval 16 (leBytes 2 (twos 16 v)) = v := by
  unfold sval twos
  simp only [leBytes, leValue]
  have e : ((2 : Int) ^ 16) = 65536 := by norm_num
  rw [e]
  norm_num
  omega

theorem sval_I32 (v : Int) (h1 : -(2 : Int) ^ 31 ≤ v) (h2 : v < (2 : Int) ^ 31) :
    sval 32 (leBytes 4 (twos 32 v)) = v := by
  unfold sval twos
  simp only [leBytes, leValue]
  have e : ((2 : Int) ^ 32) = 4294967296 := by norm_num
  rw [e]
  norm_num at h1 h2 ⊢
  omega

/-- Claim C7 as amended: for a FLOAT attribute holding the floats `fs`, one
emitted type `nt` among I8, I16, I32 and FLOAT is chosen for the whole
attribute; the record is that type byte, the count byte and every element
converted to `nt`; an array `gs` of the same length that agrees with `fs` on
its first element gets the same type byte, so the elements after the first do
not widen the type; and an element decodes to exactly its source value when
`nt` is FLOAT, or when `nt` is an integer type whose range contains the
element's integer value. -/
theorem narrowing_one_type (s : CState) (a : HDL_Attr) (fs gs : List Nat)
    (ht : a.type = .FLOAT) (hc : a.count = fs.length) (hlen : fs.length < 256)
    (hfs : ∀ f ∈ fs, f < 2 ^ 32) (hgs : ∀ g ∈ gs, g < 2 ^ 32)
    (hg : gs.length = fs.length) (_hhead : gs.head? = fs.head?) :
    ∃ nt s1 s2, (nt = .I8 ∨ nt = .I16 ∨ nt = .I32 ∨ nt = .FLOAT) ∧
      compilePayload s a (some (fs.flatMap (leBytes 4))) = some s1 ∧
      seg s1.buffer s.pc s1.pc = nt.toNat :: fs.length :: (fs.map (narrowBytes nt)).flatten ∧
      compilePayload s a (some (gs.flatMap (leBytes 4))) = some s2 ∧
      seg s2.buffer s.pc s2.pc = nt.toNat :: gs.length :: (gs.map (narrowBytes nt)).flatten ∧
      ∀ f ∈ fs,
        (nt = .FLOAT → leValue (narrowBytes nt f) = f) ∧
        (nt = .I8 → -128 ≤ f32ToI32 f → f32ToI32 f < 128 →
          sval 8 (narrowBytes nt f) = f32ToI32 f) ∧
        (nt = .I16 → -32768 ≤ f32ToI32 f → f32ToI32 f < 32768 →
          sval 16 (narrowBytes nt f) = f32ToI32 f) ∧
        (nt = .I32 → sval 32 (narrowBytes nt f) = f32ToI32 f) := by
  obtain ⟨s1, h1, E1⟩ := compilePayload_float s a (fs.flatMap (leBytes 4)) _ ht
    (by rw [hc]; exact floatsPayload_bind _ fs [] 0 rfl hfs)
  obtain ⟨s2, h2, E2⟩ := compilePayload_float s a (gs.flatMap (leBytes 4)) _ ht
    (by rw [hc, ← hg]; exact floatsPayload_bind _ gs [] 0 rfl hgs)
  rw [hc] at E1 E2
  rw [hg] at E2
  refine ⟨narrowType (emit (emit s 2) fs.length).buffer (s.pc + 2), s1, s2,
    narrowType_cases _ _, h1, ?_, h2, ?_, ?_⟩
  · have := E1.seg
    rw [Nat.mod_eq_of_lt hlen] at this
    exact this
  · have := E2.seg
    rw [Nat.mod_eq_of_lt hlen] at this
    rw [hg]
    exact this
  · intro f hf
    refine ⟨fun h => ?_, fun h l u => ?_, fun h l u => ?_, fun h => ?_⟩
    · rw [h]; exact leValue_leBytes4 f (hfs f hf)
    · rw [h]; exact sval_I8 _ l u
    · rw [h]; exact sval_I16 _ l u
    · rw [h]; exact sval_I32 _ (f32ToI32_range f).1 (f32ToI32_range f).2

/-- Witness of the amended claim C7 on the arrays `[1, 300]` and `[1, 2]`. -/
theorem narrowing_one_type_witness :
    ∃ nt s1 s2, (nt = .I8 ∨ nt = .I16 ∨ nt = .I32 ∨ nt = .FLOAT) ∧
      compilePayload ⟨boxDoc, zeroBuf, 20⟩ (floatAttr "x" [0x3f800000, 0x43960000])
        (some ([0x3f800000, 0x43960000].flatMap (leBytes 4))) = some s1 ∧
      seg s1.buffer 20 s1.pc =
        nt.toNat :: 2 :: ([0x3f800000, 0x43960000].map (narrowBytes nt)).flatten ∧
      compilePayload ⟨boxDoc, zeroBuf, 20⟩ (floatAttr "x" [0x3f800000, 0x43960000])
        (some ([0x3f800000, 0x40000000].flatMap (leBytes 4))) = some s2 ∧
      seg s2.buffer 20 s2.pc =
        nt.toNat :: 2 :: ([0x3f800000, 0x40000000].map (narrowBytes nt)).flatten ∧
      ∀ f ∈ [0x3f800000, 0x43960000],
        (nt = .FLOAT → leValue (narrowBytes nt f) = f) ∧
        (nt = .I8 → -128 ≤ f32ToI32 f → f32ToI32 f < 128 →
          sval 8 (narrowBytes nt f) = f32ToI32 f) ∧
        (nt = .I16 → -32768 ≤ f32ToI32 f → f32ToI32 f < 32768 →
          sval 16 (narrowBytes nt f) = f32ToI32 f) ∧
        (nt = .I32 → sval 32 (narrowBytes nt f) = f32ToI32 f) :=
  narrowing_one_type ⟨boxDoc, zeroBuf, 20⟩ (floatAttr "x" [0x3f800000, 0x43960000])
    [0x3f800000, 0x43960000] [0x3f800000, 0x40000000] rfl rfl (by decide) (by decide) (by decide)
    rfl rfl

/-- Witness of claim C5 on the attribute `x=5`. -/
theorem float_attr_I8_witness :
    ∃ s1, compileAttr ⟨x5Doc, zeroBuf, 19⟩ 0 18 0 = some s1 ∧
      seg s1.buffer 19 s1.pc = [0, 4, 1, 5] :=
  float_attr_I8.1 ⟨x5Doc, zeroBuf, 19⟩ 0 18 0 _ _ [0x40a00000] [5] rfl rfl (by decide) rfl rfl
    (by decide) rfl (List.Forall₂.cons (by decide) List.Forall₂.nil) (fun _ _ => rfl)

/-- Witness of claim C8 on the attribute `flexdir="row"`. -/
theorem flexdir_string_witness :
    ∃ s1, compileAttr ⟨boxWith [stringAttr "flexdir" "row"], zeroBuf, 19⟩ 0 18 0 = some s1 ∧
      seg s1.buffer 19 s1.pc = [5, 4, 1, 2] :=
  (flexdir_string ⟨boxWith [stringAttr "flexdir" "row"], zeroBuf, 19⟩ 0 18 0 _ _
    (str "row" ++ [0]) (str "row") rfl rfl rfl rfl rfl rfl (by decide) (fun _ _ => rfl)).1 rfl

/-- Witness of claim C9 on the attribute `align="top right"`. -/
theorem align_string_witness :
    ∃ s1, compileAttr ⟨boxWith [stringAttr "align" "top right"], zeroBuf, 19⟩ 0 18 0 = some s1 ∧
      seg s1.buffer 19 s1.pc = [9, 4, 1, 0x21] :=
  align_string ⟨boxWith [stringAttr "align" "top right"], zeroBuf, 19⟩ 0 18 0 _ _ 1 2
    (str "top") (str "right") rfl rfl rfl rfl rfl rfl rfl rfl (fun _ _ => rfl)

theorem splitLoop_cons (dalloc : Nat) (c : Nat) (rest : List Nat) (st st1 : SplitState)
    (hcap : st.data.length + 2 < dalloc) (h : splitChar st c = some st1) :
    splitLoop dalloc (c :: rest) st = splitLoop dalloc rest st1 := by
  simp only [splitLoop]
  rw [if_neg (by omega), h]

theorem plainChar_facts (c : Nat) (h : plainChar c = true) :
    c ≠ 0 ∧ isDelimiter c = false ∧ isWhitespace c = false ∧ c ≠ 39 ∧ c ≠ 34 ∧ c ≠ 92 ∧
      c ≠ 60 ∧ c ≠ 62 ∧ c ≠ 10 ∧ c ≠ 32 := by
  simp only [plainChar, Bool.and_eq_true, decide_eq_true_eq, Bool.not_eq_true', ne_eq] at h
  obtain ⟨⟨⟨⟨h0, hd⟩, h1⟩, h2⟩, h3⟩ := h
  have hd' := hd
  simp only [isDelimiter, delimiters, List.contains_cons, List.contains_nil, Bool.or_false,
    Bool.or_eq_false_iff, beq_eq_false_iff_ne, ne_eq] at hd'
  refine ⟨h0, hd, ?_, h1, h2, h3, ?_, ?_, ?_, ?_⟩
  · simp only [isWhitespace, Bool.or_eq_false_iff, decide_eq_false_iff_not]
    omega
  all_goals omega

/-- In text-content mode a text character is stored unchanged. -/
theorem splitChar_text (st : SplitState) (c : Nat) (hq : st.inquotes = 3)
    (hl : st.lastChar ≠ 92)
    (hc : plainChar c = true ∨ (c = 32 ∧ plainChar st.lastChar = true)) :
    splitChar st c = some { st with data := st.data ++ [c], blocklen := st.blocklen + 1,
                                    lastChar := c } := by
  rcases hc with hc | ⟨hc, hp⟩
  · obtain ⟨h0, hd, hw, h39, h34, h92, h60, h62, h10, h32⟩ := plainChar_facts c hc
    simp [splitChar, quoteStep, splitFinish, hq, hl, hd, hw, h39, h34, h60, h62]
  · obtain ⟨_, hd, hw, _, _, _, _, _, h10, h32⟩ := plainChar_facts _ hp
    subst hc
    have hw2 : ¬ (isWhitespace 32 = true ∧ isWhitespace st.lastChar = true) := by
      rw [hw]; simp
    simp only [splitChar, quoteStep, hl, ne_eq, not_false_eq_true, if_true, hq]
    rw [if_neg (by simpa using hw2)]
    simp [splitFinish, isWhitespace, isDelimiter, delimiters]

theorem splitLoop_text (dalloc : Nat) (rest : List Nat) :
    ∀ (s : List Nat) (st : SplitState), st.inquotes = 3 → st.lastChar ≠ 92 →
      textFrom st.lastChar s = true ∨ (∃ c t, s = c :: t ∧ plainChar c = true ∧ textFrom c t = true)
        ∨ s = [] →
      st.data.length + s.length + 2 ≤ dalloc →
      splitLoop dalloc (s ++ rest) st =
        splitLoop dalloc rest
          { st with data := st.data ++ s, blocklen := st.blocklen + s.length,
                    lastChar := (s.getLast?).getD st.lastChar } := by
  intro s
  induction s with
  | nil => intro st _ _ _ _; simp
  | cons c t ih =>
    intro st hq hl ht hcap
    have hc : (plainChar c = true ∨ (c = 32 ∧ plainChar st.lastChar = true)) ∧
        textFrom c t = true := by
      rcases ht with h | ⟨c', t', he, hp, hr⟩ | h
      · simp only [textFrom, Bool.and_eq_true, Bool.or_eq_true, decide_eq_true_eq] at h
        exact h
      · simp only [List.cons.injEq] at he
        obtain ⟨h1, h2⟩ := he
        subst h1; subst h2
        exact ⟨Or.inl hp, hr⟩
      · cases h
    have hstep := splitChar_text st c hq hl hc.1
    have hne : c ≠ 92 := by
      rcases hc.1 with h | ⟨h, _⟩
      · exact (plainChar_facts c h).2.2.2.2.2.1
      · omega
    simp only [List.cons_append, List.length_cons] at hcap ⊢
    rw [splitLoop_cons dalloc c (t ++ rest) st _ (by omega) hstep]
    rw [ih { st with data := st.data ++ [c], blocklen := st.blocklen + 1, lastChar := c }
      hq hne (Or.inl hc.2)
      (by simp only [List.length_append, List.length_singleton]; omega)]
    congr 1
    simp only [SplitState.mk.injEq]
    refine ⟨by simp, trivial, trivial, ?_, by omega, trivial⟩
    cases t with
    | nil => rfl
    | cons d u =>
      have hx : (d :: u).getLast? = some ((d :: u).getLast (by simp)) :=
        List.getLast?_eq_getLast _ (by simp)
      simp only [List.getLast?_cons_cons, hx, Option.getD_some]

theorem cstrAt_append (p l : List Nat) (k : Nat) : cstrAt (p ++ l) (p.length + k) = cstrAt l k := by
  induction p with
  | nil => simp
  | cons b p ih =>
    have : (b :: p).length + k = (p.length + k) + 1 := by simp; omega
    rw [this]
    simp only [List.cons_append, cstrAt]
    exact ih

theorem cstrAt_term (w rest : List Nat) (h : ∀ c ∈ w, c ≠ 0) :
    cstrAt (w ++ 0 :: rest) 0 = some w := by
  induction w with
  | nil => simp [cstrAt]
  | cons b w ih =>
    have hb : b ≠ 0 := h b (List.mem_cons_self _ _)
    have := ih (fun c hc => h c (List.mem_cons_of_mem _ hc))
    show cstrAt (b :: (w ++ 0 :: rest)) 0 = some (b :: w)
    simp only [cstrAt, if_neg hb, this, Option.map_some']

theorem getElem?_append_length (p l : List Nat) (k : Nat) : (p ++ l)[p.length + k]? = l[k]? := by
  rw [List.getElem?_append_right (by omega)]
  congr 1
  omega

theorem mkBlocks_aux (ws : List (List Nat)) :
    ∀ (pre : List Nat) (i : Nat) (w : List Nat), ws[i]? = some w → (∀ c ∈ w, c ≠ 0) →
      ∃ o, (offsets pre.length ws)[i]? = some o ∧
        cstrAt (pre ++ (joinZ ws ++ [0])) o = some w ∧
        (pre ++ (joinZ ws ++ [0]))[o]? = some (c0 w) := by
  induction ws with
  | nil => intro pre i w h; simp at h
  | cons v ws ih =>
    intro pre i w h hz
    cases i with
    | zero =>
      simp only [List.getElem?_cons_zero, Option.some.injEq] at h
      subst h
      refine ⟨pre.length, by simp [offsets], ?_, ?_⟩
      · have := cstrAt_append pre (joinZ (v :: ws) ++ [0]) 0
        rw [Nat.add_zero] at this
        rw [this]
        simp only [joinZ, List.append_assoc, List.cons_append]
        exact cstrAt_term v _ hz
      · have := getElem?_append_length pre (joinZ (v :: ws) ++ [0]) 0
        rw [Nat.add_zero] at this
        rw [this]
        cases v with
        | nil => simp [joinZ, c0]
        | cons b v => simp [joinZ, c0]
    | succ i =>
      simp only [List.getElem?_cons_succ] at h
      obtain ⟨o, h1, h2, h3⟩ := ih (pre ++ v ++ [0]) i w h hz
      refine ⟨o, ?_, ?_, ?_⟩
      · simp only [offsets, List.getElem?_cons_succ]
        have e : (pre ++ v ++ [0]).length = pre.length + v.length + 1 := by simp; omega
        rw [← e]; exact h1
      · simpa [joinZ, List.append_assoc] using h2
      · simpa [joinZ, List.append_assoc] using h3

theorem mkBlocks_last_aux (ws : List (List Nat)) :
    ∀ (pre : List Nat),
      ∃ o, (offsets pre.length ws)[ws.length]? = some o ∧
        cstrAt (pre ++ (joinZ ws ++ [0])) o = some [] ∧
        (pre ++ (joinZ ws ++ [0]))[o]? = some 0 := by
  induction ws with
  | nil =>
    intro pre
    refine ⟨pre.length, by simp [offsets], ?_, ?_⟩
    · have := cstrAt_append pre (joinZ [] ++ [0]) 0
      rw [Nat.add_zero] at this
      rw [this]; simp [joinZ, cstrAt]
    · have := getElem?_append_length pre (joinZ [] ++ [0]) 0
      rw [Nat.add_zero] at this
      rw [this]; simp [joinZ]
  | cons v ws ih =>
    intro pre
    obtain ⟨o, h1, h2, h3⟩ := ih (pre ++ v ++ [0])
    refine ⟨o, ?_, ?_, ?_⟩
    · simp only [offsets, List.length_cons, List.getElem?_cons_succ]
      have e : (pre ++ v ++ [0]).length = pre.length + v.length + 1 := by simp; omega
      rw [← e]; exact h1
    · simpa [joinZ, List.append_assoc] using h2
    · simpa [joinZ, List.append_assoc] using h3

theorem mkBlocks_get (ws : List (List Nat)) (i : Nat) (w : List Nat) (h : ws[i]? = some w)
    (hz : ∀ c ∈ w, c ≠ 0) : (mkBlocks ws).get i = some w ∧ (mkBlocks ws).c0 i = some (c0 w) := by
  obtain ⟨o, h1, h2, h3⟩ := mkBlocks_aux ws [] i w h hz
  simp only [List.length_nil, List.nil_append] at h1 h2 h3
  simp [Blocks.get, Blocks.c0, Blocks.ptr, mkBlocks, h1, h2, h3]

theorem mkBlocks_last (ws : List (List Nat)) :
    (mkBlocks ws).get ws.length = some [] ∧ (mkBlocks ws).c0 ws.length = some 0 := by
  obtain ⟨o, h1, h2, h3⟩ := mkBlocks_last_aux ws []
  simp only [List.length_nil, List.nil_append] at h1 h2 h3
  simp [Blocks.get, Blocks.c0, Blocks.ptr, mkBlocks, h1, h2, h3]

theorem textFrom_mem (s : List Nat) : ∀ prev, textFrom prev s = true →
    ∀ c ∈ s, c ≠ 0 ∧ c ≠ 92 := by
  induction s with
  | nil => intro _ _ c hc; cases hc
  | cons d t ih =>
    intro prev h c hc
    simp only [textFrom, Bool.and_eq_true, Bool.or_eq_true, decide_eq_true_eq] at h
    rcases List.mem_cons.1 hc with h1 | h1
    · subst h1
      rcases h.1 with h2 | ⟨h2, _⟩
      · have := plainChar_facts c h2
        exact ⟨this.1, this.2.2.2.2.2.1⟩
      · omega
    · exact ih d h.2 c h1

theorem textOK_facts (s : List Nat) (h : textOK s = true) :
    (∃ c t, s = c :: t ∧ plainChar c = true ∧ textFrom c t = true) ∧
    (∀ c ∈ s, c ≠ 0 ∧ c ≠ 92) := by
  cases s with
  | nil => simp [textOK] at h
  | cons c t =>
    simp only [textOK, Bool.and_eq_true] at h
    refine ⟨⟨c, t, rfl, h.1, h.2⟩, ?_⟩
    intro d hd
    rcases List.mem_cons.1 hd with h1 | h1
    · subst h1
      have := plainChar_facts d h.1
      exact ⟨this.1, this.2.2.2.2.2.1⟩
    · exact textFrom_mem t c h.2 d h1

/-- The split of the opening tag `<text>`. -/
theorem split_open (dalloc : Nat) (rest : List Nat) (hd : 9 ≤ dalloc) :
    splitLoop dalloc (str "<text>" ++ rest) ⟨[], [0], HDL_BLOCKBUFFER_REALLOC_SIZE, 32, 0, 0⟩ =
      splitLoop dalloc rest ⟨[60, 0, 116, 101, 120, 116, 0, 62, 0], [0, 2, 7, 9], 32, 62, 0, 3⟩ := by
  have e : str "<text>" = [60, 116, 101, 120, 116, 62] := by decide
  rw [e]
  simp only [List.cons_append, List.nil_append]
  rw [splitLoop_cons dalloc _ _ _ ⟨[60, 0], [0, 2], 32, 60, 0, 0⟩ (by simp; omega) (by decide)]
  rw [splitLoop_cons dalloc _ _ _ ⟨[60, 0, 116], [0, 2], 32, 116, 1, 0⟩ (by simp; omega)
    (by decide)]
  rw [splitLoop_cons dalloc _ _ _ ⟨[60, 0, 116, 101], [0, 2], 32, 101, 2, 0⟩ (by simp; omega)
    (by decide)]
  rw [splitLoop_cons dalloc _ _ _ ⟨[60, 0, 116, 101, 120], [0, 2], 32, 120, 3, 0⟩
    (by simp; omega) (by decide)]
  rw [splitLoop_cons dalloc _ _ _ ⟨[60, 0, 116, 101, 120, 116], [0, 2], 32, 116, 4, 0⟩
    (by simp; omega) (by decide)]
  rw [splitLoop_cons dalloc _ _ _ ⟨[60, 0, 116, 101, 120, 116, 0, 62, 0], [0, 2, 7, 9], 32, 62, 0, 3⟩
    (by simp; omega) (by decide)]

/-- The split of the closing tag `</text>` after a text block. -/
theorem split_close (dalloc : Nat) (d : List Nat) (lc bl : Nat) (hl : lc ≠ 92) (hb : 0 < bl)
    (hd : d.length + 12 ≤ dalloc) :
    splitLoop dalloc (str "</text>") ⟨d, [0, 2, 7, 9], 32, lc, bl, 3⟩ =
      .ret 0 ⟨d ++ [0, 60, 0, 47, 0, 116, 101, 120, 116, 0, 62, 0],
        [0, 2, 7, 9, d.length + 1, d.length + 3, d.length + 5, d.length + 10, d.length + 12],
        32, 62, 0, 3⟩ := by
  have e : str "</text>" = [60, 47, 116, 101, 120, 116, 62] := by decide
  rw [e]
  have h1 : splitChar ⟨d, [0, 2, 7, 9], 32, lc, bl, 3⟩ 60 =
      some ⟨d ++ [0, 60, 0], [0, 2, 7, 9, d.length + 1, d.length + 3], 32, 60, 0, 0⟩ := by
    have hb' : bl > 0 := hb
    simp [splitChar, quoteStep, splitFinish, pushBlock, isWhitespace, isDelimiter, delimiters,
      hl, hb', HDL_BLOCKBUFFER_REALLOC_SIZE]
  rw [splitLoop_cons dalloc _ _ _ _ (by simp; omega) h1]
  have h2 : splitChar ⟨d ++ [0, 60, 0], [0, 2, 7, 9, d.length + 1, d.length + 3], 32, 60, 0, 0⟩ 47
      = some ⟨d ++ [0, 60, 0, 47, 0],
          [0, 2, 7, 9, d.length + 1, d.length + 3, d.length + 5], 32, 47, 0, 0⟩ := by
    simp [splitChar, quoteStep, splitFinish, pushBlock, isWhitespace, isDelimiter, delimiters,
      HDL_BLOCKBUFFER_REALLOC_SIZE]
  rw [splitLoop_cons dalloc _ _ _ _ (by simp; omega) h2]
  have h3 : ∀ (dd : List Nat) (l b c : Nat), l ≠ 92 → plainChar c = true →
      splitChar ⟨dd, [0, 2, 7, 9, d.length + 1, d.length + 3, d.length + 5], 32, l, b, 0⟩ c
      = some ⟨dd ++ [c], [0, 2, 7, 9, d.length + 1, d.length + 3, d.length + 5], 32, c, b + 1, 0⟩
      := by
    intro dd l b c hl hc
    obtain ⟨h0, hdl, hw, h39, h34, h92, h60, h62, h10, h32⟩ := plainChar_facts c hc
    simp [splitChar, quoteStep, splitFinish, hl, hdl, hw, h39, h34, h60, h62]
  rw [splitLoop_cons dalloc _ _ _ _ (by simp; omega) (h3 _ _ _ 116 (by decide) (by decide))]
  rw [splitLoop_cons dalloc _ _ _ _ (by simp; omega) (h3 _ _ _ 101 (by decide) (by decide))]
  rw [splitLoop_cons dalloc _ _ _ _ (by simp; omega) (h3 _ _ _ 120 (by decide) (by decide))]
  rw [splitLoop_cons dalloc _ _ _ _ (by simp; omega) (h3 _ _ _ 116 (by decide) (by decide))]
  have h4 : splitChar ⟨d ++ [0, 60, 0, 47, 0] ++ [116] ++ [101] ++ [120] ++ [116],
      [0, 2, 7, 9, d.length + 1, d.length + 3, d.length + 5], 32, 116, 0 + 1 + 1 + 1 + 1, 0⟩ 62
      = some ⟨d ++ [0, 60, 0, 47, 0, 116, 101, 120, 116, 0, 62, 0],
          [0, 2, 7, 9, d.length + 1, d.length + 3, d.length + 5, d.length + 10, d.length + 12],
          32, 62, 0, 3⟩ := by
    simp [splitChar, quoteStep, splitFinish, pushBlock, isWhitespace, isDelimiter, delimiters,
      HDL_BLOCKBUFFER_REALLOC_SIZE]
  rw [splitLoop_cons dalloc _ _ _ _ (by simp; omega) h4]
  rfl

/-- The splitter on `<text>s</text>`. -/
theorem split_text (s : List Nat) (h : textOK s = true) :
    _HDL_ParseDataToBlocks (str "<text>" ++ s ++ str "</text>") =
      .ret 0 (mkBlocks (textWords s)) := by
  obtain ⟨⟨c, t, hs, hp, hr⟩, hmem⟩ := textOK_facts s h
  have hlen : (str "<text>" ++ s ++ str "</text>").length = s.length + 13 := by
    have e1 : (str "<text>").length = 6 := by decide
    have e2 : (str "</text>").length = 7 := by decide
    simp only [List.length_append, e1, e2]; omega
  unfold _HDL_ParseDataToBlocks
  simp only [hlen]
  rw [List.append_assoc, split_open _ _ (by omega)]
  rw [splitLoop_text _ _ s _ rfl (by decide) (Or.inr (Or.inl ⟨c, t, hs, hp, hr⟩))
    (by simp; omega)]
  have hlast : (s.getLast?).getD 62 ≠ 92 := by
    have hne : s ≠ [] := by rw [hs]; simp
    rw [List.getLast?_eq_getLast _ hne]
    exact (hmem _ (List.getLast_mem hne)).2
  have hbl : 0 < 0 + s.length := by rw [hs]; simp
  rw [split_close _ _ _ _ hlast hbl (by simp; omega)]
  simp only
  rw [if_pos (by simp; omega)]
  simp only [if_true, mkBlocks, textWords, joinZ, offsets, Res.ret.injEq, Blocks.mk.injEq,
    true_and]
  have e1 : str "<" = [60] := by decide
  have e2 : str "text" = [116, 101, 120, 116] := by decide
  have e3 : str ">" = [62] := by decide
  have e4 : str "/" = [47] := by decide
  simp only [e1, e2, e3, e4]
  refine ⟨by simp, ?_, by simp⟩
  simp
  omega

theorem str_nonzero_text : ∀ c ∈ str "text", c ≠ 0 := by decide

/-- The parser on the blocks of `<text>s</text>`. -/
theorem parseBlocks_text (L : Loader) (fuel : Nat) (s : List Nat) (h : textOK s = true) :
    _HDL_ParseBlocks L (mkBlocks (textWords s)) (fuel + 3) ⟨[], [], []⟩ =
      .ret 0 ⟨textDoc s, 8⟩ := by
  obtain ⟨⟨c, t, hs, hp, hr⟩, hmem⟩ := textOK_facts s h
  obtain ⟨hc0, hcd, hcw, _, _, _, hc60, hc62, _, _⟩ := plainChar_facts c hp
  have g0 := mkBlocks_get (textWords s) 0 (str "<") rfl (by decide)
  have g1 := mkBlocks_get (textWords s) 1 (str "text") rfl (by decide)
  have g2 := mkBlocks_get (textWords s) 2 (str ">") rfl (by decide)
  have g3 := mkBlocks_get (textWords s) 3 s rfl (fun d hd => (hmem d hd).1)
  have g4 := mkBlocks_get (textWords s) 4 (str "<") rfl (by decide)
  have g5 := mkBlocks_get (textWords s) 5 (str "/") rfl (by decide)
  have g6 := mkBlocks_get (textWords s) 6 (str "text") rfl (by decide)
  have g7 := mkBlocks_get (textWords s) 7 (str ">") rfl (by decide)
  have hcount : (mkBlocks (textWords s)).block_count = 8 := rfl
  have hcs : c0 s = c := by rw [hs]; rfl
  rw [hcs] at g3
  have e1 : c0 (str "<") = 60 := by decide
  have e2 : c0 (str "text") = 116 := by decide
  have e3 : c0 (str ">") = 62 := by decide
  have e4 : c0 (str "/") = 47 := by decide
  rw [e1] at g0 g4
  rw [e2] at g1 g6
  rw [e3] at g2 g7
  rw [e4] at g5
  generalize mkBlocks (textWords s) = B at *
  have d116 : isDelimiter 116 = false := by decide
  have d62 : isDelimiter 62 = true := by decide
  have d60 : isDelimiter 60 = true := by decide
  have d47 : isDelimiter 47 = true := by decide
  have l4 : (str "text").length = 4 := by decide
  simp [_HDL_ParseBlocks, parseBlocksLoop, _HDL_ParseElement, attrLoop, bodyLoop, updElem,
    hcount, g0, g1, g2, g3, g4, g5, g6, g7, d116, d62, d60, d47, l4, hcd, hc60, textDoc]

/-- An element without attributes and children: tag index, content and
terminator, two zero counts. -/
theorem compileElement_noattr (fuel : Nat) (s : CState) (ei : Nat) (e : HDL_Element)
    (he : s.doc.elements[ei]? = some e) (ht : findTag e.tag ≠ 0xFF)
    (ha : e.attrs = []) (hch : e.children = []) :
    ∃ s1, compileElement (fuel + 1) s ei = .ret 0 s1 ∧
      Emits s s1 (findTag e.tag :: (e.content.getD [] ++ [0]) ++ [0, 0]) := by
  have hmod : findTag e.tag % 256 = findTag e.tag := by
    rcases findTag_le e.tag with h1 | h1
    · exact absurd h1 ht
    · omega
  have E := (((Emits.emit s (findTag e.tag)).trans
    (Emits.emitBytes _ (e.content.getD [] ++ [0]))).trans (Emits.emit _ 0)).trans (Emits.emit _ 0)
  refine ⟨emit (emit (emitBytes (emit s (findTag e.tag)) (e.content.getD [] ++ [0])) 0) 0,
    ?_, ?_⟩
  · unfold compileElement
    rw [he]
    simp only [if_neg ht, ha, hch, List.length_nil, compileAttrs, compileChildren]
  · rw [hmod] at E
    simpa using E

/-- Claim C4: for every text `s` that starts with a plain character (neither
NUL, whitespace, a delimiter, a quote nor a backslash) and continues with plain
characters and single spaces, and whose encoding fits the output buffer, the
source `<text>s</text>` is split into the eight blocks `<`, `text`, `>`, `s`,
`<`, `/`, `text`, `>`; `HDL_Parse` returns 0 with a single element `text` whose
content is exactly `s`; and `compile` returns 0 with the element record 01, the
bytes of `s`, 00, 00, 00. -/
theorem text_element (L : Loader) (fuel : Nat) (s : List Nat) (h : textOK s = true)
    (hsize : s.length + 20 ≤ HDL_COMPILER_OUTPUT_BUFFER_SIZE) :
    ∃ B doc, _HDL_ParseDataToBlocks (str "<text>" ++ s ++ str "</text>") = .ret 0 B ∧
      B.list = [some (str "<"), some (str "text"), some (str ">"), some s, some (str "<"),
        some (str "/"), some (str "text"), some (str ">")] ∧
      HDL_Parse L (fuel + 3) (str "<text>" ++ s ++ str "</text>") = .ret 0 doc ∧
      doc.elements = [⟨str "text", some s, [], -1, []⟩] ∧
      ∀ buffer, ∃ s1, compile (fuel + 1) ⟨doc, buffer, 0⟩ = .ret 0 s1 ∧
        s1.pc ≤ HDL_COMPILER_OUTPUT_BUFFER_SIZE ∧
        seg s1.buffer 16 s1.pc = 1 :: s ++ [0, 0, 0] := by
  obtain ⟨_, hmem⟩ := textOK_facts s h
  refine ⟨mkBlocks (textWords s), textDoc s, split_text s h, ?_, ?_, rfl, ?_⟩
  · have g0 := (mkBlocks_get (textWords s) 0 (str "<") rfl (by decide)).1
    have g1 := (mkBlocks_get (textWords s) 1 (str "text") rfl (by decide)).1
    have g2 := (mkBlocks_get (textWords s) 2 (str ">") rfl (by decide)).1
    have g3 := (mkBlocks_get (textWords s) 3 s rfl (fun d hd => (hmem d hd).1)).1
    have g4 := (mkBlocks_get (textWords s) 4 (str "<") rfl (by decide)).1
    have g5 := (mkBlocks_get (textWords s) 5 (str "/") rfl (by decide)).1
    have g6 := (mkBlocks_get (textWords s) 6 (str "text") rfl (by decide)).1
    have g7 := (mkBlocks_get (textWords s) 7 (str ">") rfl (by decide)).1
    have hcount : (mkBlocks (textWords s)).block_count = 8 := rfl
    have hr : List.range 8 = [0, 1, 2, 3, 4, 5, 6, 7] := by decide
    simp only [Blocks.list, hcount, hr, List.map_cons, List.map_nil, g0, g1, g2, g3, g4, g5, g6,
      g7]
  · unfold HDL_Parse
    rw [split_text s h]
    simp only [parseBlocks_text L fuel s h]
    rfl
  · intro buffer
    obtain ⟨s1, h1, E⟩ := compileElement_noattr fuel
      (compileHeader ⟨textDoc s, buffer, 0⟩) 0 ⟨str "text", some s, [], -1, []⟩ rfl
      (show findTag (str "text") ≠ 0xFF by decide) rfl rfl
    have hft : findTag (str "text") = 1 := by decide
    have hpc : (compileHeader ⟨textDoc s, buffer, 0⟩).pc = 16 := rfl
    refine ⟨s1, ?_, ?_, ?_⟩
    · unfold compile
      simp only
      have hb : compileBitmaps (compileHeader ⟨textDoc s, buffer, 0⟩).doc.bitmaps
          (compileHeader ⟨textDoc s, buffer, 0⟩) = some (compileHeader ⟨textDoc s, buffer, 0⟩) :=
        rfl
      rw [hb]
      simp only [h1]
    · have := E.2.1
      rw [hpc] at this
      simp only [List.length_cons, List.length_append, Option.getD_some, List.length_nil] at this
      simp only [HDL_COMPILER_OUTPUT_BUFFER_SIZE] at hsize ⊢
      omega
    · have := E.seg
      rw [hpc, hft] at this
      simpa using this

/-- Witness of claim C4 on `<text>hello</text>`. -/
theorem text_element_witness :
    ∃ B doc, _HDL_ParseDataToBlocks (str "<text>" ++ str "hello" ++ str "</text>") = .ret 0 B ∧
      B.list = [some (str "<"), some (str "text"), some (str ">"), some (str "hello"),
        some (str "<"), some (str "/"), some (str "text"), some (str ">")] ∧
      HDL_Parse noLoader (0 + 3) (str "<text>" ++ str "hello" ++ str "</text>") = .ret 0 doc ∧
      doc.elements = [⟨str "text", some (str "hello"), [], -1, []⟩] ∧
      ∀ buffer, ∃ s1, compile (0 + 1) ⟨doc, buffer, 0⟩ = .ret 0 s1 ∧
        s1.pc ≤ HDL_COMPILER_OUTPUT_BUFFER_SIZE ∧
        seg s1.buffer 16 s1.pc = 1 :: str "hello" ++ [0, 0, 0] :=
  text_element noLoader 0 (str "hello") (by decide) (by decide)

theorem compileBitmap_emits (bmp : HDL_Bitmap) (s s1 : CState)
    (h : compileBitmap bmp s = some s1) :
    Emits s s1 (bitmapRecord bmp) ∧ (bitmapRecord bmp).length = 7 + bmp.size := by
  unfold compileBitmap at h
  have E := (((Emits.emitBytes s (leBytes 2 bmp.size)).trans (Emits.emitBytes _ (leBytes 2 bmp.width))).trans
    (Emits.emitBytes _ (leBytes 2 bmp.height))).trans (Emits.emit _ bmp.colorMode)
  simp only at h
  split at h
  · next hz =>
    simp only [Option.some.injEq] at h; rw [← h]
    constructor
    · have : bitmapRecord bmp = leBytes 2 bmp.size ++ leBytes 2 bmp.width ++
          leBytes 2 bmp.height ++ [bmp.colorMode % 256] := by
        simp [bitmapRecord, leBytes, hz]
      rw [this]; exact E
    · simp [bitmapRecord, hz]
  · split at h
    · cases h
    · next d hd =>
      split at h
      · next hle =>
        simp only [Option.some.injEq] at h; rw [← h]
        constructor
        · have : bitmapRecord bmp = leBytes 2 bmp.size ++ leBytes 2 bmp.width ++
              leBytes 2 bmp.height ++ [bmp.colorMode % 256] ++ d.take bmp.size := by
            simp [bitmapRecord, leBytes, hd]
          rw [this]; exact E.trans (Emits.emitBytes _ _)
        · simp [bitmapRecord, hd]; omega
      · cases h

theorem compileBitmaps_emits (bs : List HDL_Bitmap) (s s1 : CState)
    (h : compileBitmaps bs s = some s1) :
    Emits s s1 (bs.map bitmapRecord).flatten ∧
      ∀ bmp ∈ bs, (bitmapRecord bmp).length = 7 + bmp.size := by
  induction bs generalizing s with
  | nil =>
    simp only [compileBitmaps, Option.some.injEq] at h; rw [← h]
    exact ⟨Emits.nil s, by simp⟩
  | cons b bs ih =>
    simp only [compileBitmaps] at h
    cases hb : compileBitmap b s with
    | none => rw [hb] at h; cases h
    | some s2 =>
      rw [hb] at h
      obtain ⟨E1, l1⟩ := compileBitmap_emits b s s2 hb
      obtain ⟨E2, l2⟩ := ih s2 h
      refine ⟨by simpa using E1.trans E2, ?_⟩
      intro bmp hm
      rcases List.mem_cons.1 hm with h1 | h1
      · rw [h1]; exact l1
      · exact l2 bmp h1

theorem parse_im (L : Loader) (fuel : Nat) :
    HDL_Parse L (fuel + 3) (str "#img im (3,2) 101 010 ;\n<box img=im/>") =
      .ret 0 ⟨[⟨str "box", none, [⟨str "img", .own [0], .IMG, 1⟩], -1, []⟩], [], [imBitmap]⟩ := by
  rfl

/-- Claim C17: `compileBitmap` succeeds on every bitmap whose pixel block
holds at least `size` bytes (or whose size is 0) and appends exactly the record
`bitmapRecord`: size, width and height as little-endian 16-bit values, the
colour-mode byte, then the `size` data bytes unchanged, 7 + size bytes in all;
and when `compile` returns 0 the records of the bitmaps stand in table order
from offset 0x10 up to the cursor from which the root element is encoded. -/
theorem bitmap_records (fuel : Nat) (doc : HDL_Document) (buffer : Nat → Nat) :
    (∀ (bmp : HDL_Bitmap) (s : CState),
      (bmp.size = 0 ∨ ∃ d, bmp.data = some d ∧ bmp.size ≤ d.length) →
      ∃ s1, compileBitmap bmp s = some s1 ∧ s1.pc = s.pc + 7 + bmp.size ∧
        seg s1.buffer s.pc s1.pc = bitmapRecord bmp ∧
        (∀ k, k < s.pc → s1.buffer k = s.buffer k)) ∧
    (∀ s1, compile fuel ⟨doc, buffer, 0⟩ = .ret 0 s1 →
      (∀ bmp ∈ doc.bitmaps, (bitmapRecord bmp).length = 7 + bmp.size) ∧
      ∃ sb, sb.pc = 16 + ((doc.bitmaps.map bitmapRecord).flatten).length ∧
        seg s1.buffer 16 sb.pc = (doc.bitmaps.map bitmapRecord).flatten ∧
        compileElement fuel sb 0 = .ret 0 s1) := by
  constructor
  · intro bmp s hd
    have hex : ∃ s1, compileBitmap bmp s = some s1 := by
      unfold compileBitmap
      simp only
      rcases hd with hz | ⟨d, hd, hle⟩
      · rw [if_pos hz]; exact ⟨_, rfl⟩
      · rw [hd]
        simp only [if_pos hle]
        split
        · exact ⟨_, rfl⟩
        · exact ⟨_, rfl⟩
    obtain ⟨s1, h1⟩ := hex
    obtain ⟨E, hl⟩ := compileBitmap_emits bmp s s1 h1
    exact ⟨s1, h1, by rw [E.2.1, hl]; omega, E.seg, E.2.2.1⟩
  · intro s1 h
    unfold compile at h
    simp only at h
    generalize hs0 : compileHeader { doc := doc, buffer := buffer, pc := 0 } = s0 at h
    have hpc0 : s0.pc = 16 := by rw [← hs0]; rfl
    have hdoc0 : s0.doc = doc := by rw [← hs0]; rfl
    rw [hdoc0] at h
    cases hb : compileBitmaps doc.bitmaps s0 with
    | none => rw [hb] at h; cases h
    | some sb =>
      rw [hb] at h
      simp only at h
      cases he : compileElement fuel sb 0 with
      | ub => rw [he] at h; cases h
      | nofuel => rw [he] at h; cases h
      | ret c s2 =>
        rw [he] at h
        have hc : c = 0 ∧ s2 = s1 := by
          cases c with
          | zero => simp only [Res.ret.injEq, true_and] at h; exact ⟨rfl, h⟩
          | succ n => simp at h
        obtain ⟨hc0, hs2⟩ := hc
        subst hc0; subst hs2
        obtain ⟨E, hl⟩ := compileBitmaps_emits _ _ _ hb
        have F := compileElement_frame fuel _ _ _ _ he
        refine ⟨hl, sb, by rw [E.2.1, hpc0], ?_, he⟩
        have hs := E.seg
        rw [hpc0] at hs
        rw [← hs]
        unfold seg
        apply segN_congr
        intro k _ hk
        exact F.2.2 k (by omega)

/-- Witness of claim C17 on `#img im (3,2) 101 010 ;` followed by
`<box img=im/>`: the bitmap record 02 00 03 00 02 00 01 A0 40 stands at offsets
16..24 and the root element is encoded from offset 25. -/
theorem bitmap_records_witness :
    (∃ s1, compileBitmap imBitmap ⟨⟨[], [], []⟩, zeroBuf, 16⟩ = some s1 ∧ s1.pc = 16 + 7 + 2 ∧
      seg s1.buffer 16 s1.pc = [2, 0, 3, 0, 2, 0, 1, 160, 64]) ∧
    ∃ doc s1 sb, HDL_Parse noLoader 3 (str "#img im (3,2) 101 010 ;\n<box img=im/>") = .ret 0 doc ∧
      compile 1 ⟨doc, zeroBuf, 0⟩ = .ret 0 s1 ∧ sb.pc = 25 ∧
      seg s1.buffer 16 sb.pc = [2, 0, 3, 0, 2, 0, 1, 160, 64] ∧
      compileElement 1 sb 0 = .ret 0 s1 := by
  constructor
  · obtain ⟨s1, h1, h2, h3, _⟩ := (bitmap_records 0 ⟨[], [], []⟩ zeroBuf).1 imBitmap
      ⟨⟨[], [], []⟩, zeroBuf, 16⟩ (Or.inr ⟨_, rfl, by decide⟩)
    exact ⟨s1, h1, h2, h3⟩
  · obtain ⟨_, sb, h1, h2, h3⟩ := (bitmap_records 1 _ zeroBuf).2 _
      (show compile 1 ⟨⟨[⟨str "box", none, [⟨str "img", .own [0], .IMG, 1⟩], -1, []⟩], [],
        [imBitmap]⟩, zeroBuf, 0⟩ = .ret 0 _ from rfl)
    exact ⟨_, _, sb, parse_im noLoader 0, rfl, h1, h2, h3⟩

theorem segN_get (b : Nat → Nat) (n lo i : Nat) (h : i < n) : (segN b lo n)[i]? = some (b (lo + i)) := by
  induction n generalizing lo i with
  | zero => omega
  | succ n ih =>
    cases i with
    | zero => simp [segN]
    | succ i =>
      simp only [segN, List.getElem?_cons_succ]
      rw [ih (lo + 1) i (by omega)]
      congr 2; omega

/-- The run of `compileElement` on an element with a recognized tag, cut at
the attribute loop: the count byte, the records and the child count. -/
theorem compileElement_attrs (fuel : Nat) (s : CState) (ei : Nat) (e : HDL_Element) (c : Nat)
    (s1 : CState) (he : s.doc.elements[ei]? = some e) (ht : findTag e.tag ≠ 0xFF)
    (hlen : e.attrs.length < 256) (h : compileElement fuel s ei = .ret c s1) :
    ∃ recs, List.Forall₂ IsRecord ((e.attrs.map (fun a => a.key)).filter
        (fun k => findAttr k ≠ 0xFF)) recs ∧
      s.pc + (e.content.getD []).length + 3 + recs.flatten.length ≤ s1.pc ∧
      segN s1.buffer (s.pc + (e.content.getD []).length + 2) (1 + recs.flatten.length + 1) =
        [recs.length] ++ recs.flatten ++ [e.children.length % 256] := by
  cases fuel with
  | zero => simp [compileElement] at h
  | succ fuel =>
    unfold compileElement at h
    rw [he] at h
    simp only at h
    rw [if_neg ht] at h
    have Eb := (Emits.emit s (findTag e.tag)).trans
      (Emits.emitBytes (emit s (findTag e.tag)) (e.content.getD [] ++ [0]))
    generalize hsb : emitBytes (emit s (findTag e.tag)) (e.content.getD [] ++ [0]) = sb
      at Eb h
    have Ec := Emits.emit sb e.attrs.length
    cases hca : compileAttrs ei sb.pc e.attrs.length 0 (emit sb e.attrs.length) with
    | none => rw [hca] at h; cases h
    | some sd =>
      rw [hca] at h
      simp only at h
      have hshc : (shapeOf (emit sb e.attrs.length).doc)[ei]? =
          some (e.tag, e.content, e.attrs.map (fun a => a.key), e.children) := by
        rw [Ec.1, Eb.1, shapeOf_get, he]; rfl
      obtain ⟨recs, u, EP, hF, hu, hb, hlt⟩ := compileAttrs_spec ei sb.pc _ _ _ _
        e.attrs.length 0 (emit sb e.attrs.length) sd hshc (by simp)
        (by simp [emit]) hca
      have hcb : (emit sb e.attrs.length).buffer sb.pc = e.attrs.length % 256 := by
        simp [emit, setB]
      have hac : sd.buffer sb.pc = recs.length := by
        have h1 := hlt (by rw [hcb]; omega)
        rw [hcb] at hb
        omega
      have Ed : Emits sb sd ([recs.length] ++ recs.flatten) := by
        obtain ⟨p1, p2, p3, p4⟩ := EP
        have hpcc : (emit sb e.attrs.length).pc = sb.pc + 1 := rfl
        refine ⟨p1.trans Ec.1, by rw [p2, hpcc]; simp; omega, fun k hk => ?_, ?_⟩
        · rw [p3 k (by rw [hpcc]; omega) (by omega)]
          exact Ec.2.2.1 k hk
        · rw [hpcc] at p4
          show segN sd.buffer sb.pc (recs.flatten.length + 1) = recs.length :: recs.flatten
          simp only [segN]
          rw [hac, p4]
      have Ee := Ed.trans (Emits.emit sd e.children.length)
      have F := compileChildren_frame fuel (compileElement_frame fuel) _ _ _ _ h
      have hpcb : sb.pc = s.pc + (e.content.getD []).length + 2 := by
        have := Eb.2.1
        simp at this; omega
      have hpce := Ee.2.1
      simp only [List.length_append, List.length_cons, List.length_nil] at hpce
      refine ⟨recs, by simpa using hF, by have := F.2.1; omega, ?_⟩
      rw [← hpcb]
      have hseg := Ee.2.2.2
      simp only [List.length_append, List.length_cons, List.length_nil] at hseg
      have e1 : 1 + recs.flatten.length + 1 = 0 + 1 + recs.flatten.length + (0 + 1) := by omega
      rw [e1, ← hseg]
      apply segN_congr
      intro k _ hk
      exact F.2.2 k (by omega)

theorem parse_unk (L : Loader) (fuel : Nat) :
    HDL_Parse L (fuel + 5) (str "<box foo=1 x=5 bar=2/>") = .ret 0 unkDoc := by
  rfl

/-- Claim C11: for an element with a recognized tag and fewer than 256
attributes, (1) the loop step on an attribute whose key is not in the attribute
table always succeeds, leaves the cursor where it was and only lowers the
attribute-count byte by one (modulo 256); (2) when `compileElement` returns, the
attribute-count byte (right after the content terminator) equals the number of
attributes with a recognized key, that is the attribute count minus the number
of unknown keys, and the bytes between it and the child-count byte are exactly
one record per recognized attribute, in source order. -/
theorem attr_count_byte (fuel : Nat) (s : CState) (ei : Nat) (e : HDL_Element)
    (he : s.doc.elements[ei]? = some e) (ht : findTag e.tag ≠ 0xFF)
    (hlen : e.attrs.length < 256) :
    (∀ (t : CState) (addr i : Nat) (e1 : HDL_Element) (a : HDL_Attr),
      t.doc.elements[ei]? = some e1 → e1.attrs[i]? = some a → findAttr a.key = 0xFF →
      compileAttr t ei addr i =
        some { t with buffer := setB t.buffer addr ((t.buffer addr + 255) % 256) }) ∧
    (∀ (c : Nat) (s1 : CState), compileElement fuel s ei = .ret c s1 →
      s1.buffer (s.pc + (e.content.getD []).length + 2) =
        (e.attrs.filter (fun a => findAttr a.key ≠ 0xFF)).length ∧
      s1.buffer (s.pc + (e.content.getD []).length + 2) +
        (e.attrs.filter (fun a => findAttr a.key = 0xFF)).length = e.attrs.length ∧
      ∃ recs, List.Forall₂ IsRecord
          ((e.attrs.map (fun a => a.key)).filter (fun k => findAttr k ≠ 0xFF)) recs ∧
        s.pc + (e.content.getD []).length + 3 + recs.flatten.length ≤ s1.pc ∧
        segN s1.buffer (s.pc + (e.content.getD []).length + 3) (recs.flatten.length + 1) =
          recs.flatten ++ [e.children.length % 256]) := by
  constructor
  · intro t addr i e1 a h1 h2 h3
    unfold compileAttr
    rw [h1]
    simp only [h2, if_pos h3]
  · intro c s1 h
    obtain ⟨recs, hF, hpc, hseg⟩ := compileElement_attrs fuel s ei e c s1 he ht hlen h
    have e1 : 1 + recs.flatten.length + 1 = (recs.flatten.length + 1) + 1 := by omega
    rw [e1] at hseg
    simp only [segN, List.singleton_append, List.cons_append, List.cons.injEq] at hseg
    obtain ⟨hb, hs⟩ := hseg
    have hl : recs.length = (e.attrs.filter (fun a => findAttr a.key ≠ 0xFF)).length := by
      rw [← hF.length_eq, List.filter_map, List.length_map]
      rfl
    have hsum : (e.attrs.filter (fun a => findAttr a.key ≠ 0xFF)).length +
        (e.attrs.filter (fun a => findAttr a.key = 0xFF)).length = e.attrs.length := by
      have := List.length_eq_countP_add_countP (fun a : HDL_Attr => decide (findAttr a.key ≠ 0xFF))
        e.attrs
      rw [List.countP_eq_length_filter, List.countP_eq_length_filter] at this
      rw [this]
      congr 3
      funext a
      simp
    refine ⟨by rw [hb, hl], by rw [hb, hl]; exact hsum, recs, hF, hpc, ?_⟩
    have e2 : s.pc + (e.content.getD []).length + 3 = s.pc + (e.content.getD []).length + 2 + 1 := by
      omega
    rw [e2]; exact hs

/-- Witness of claim C11 on `<box foo=1 x=5 bar=2/>`: two unknown keys, the
count byte at offset 18 is 1 and the record of `x` follows it. -/
theorem attr_count_byte_witness :
    ∃ doc s1, HDL_Parse noLoader 5 (str "<box foo=1 x=5 bar=2/>") = .ret 0 doc ∧
      compileElement 1 ⟨doc, zeroBuf, 16⟩ 0 = .ret 0 s1 ∧ s1.buffer 18 = 1 ∧
      seg s1.buffer 16 s1.pc = [0, 0, 1, 0, 4, 1, 5, 0] := by
  have h := (attr_count_byte 1 ⟨unkDoc, zeroBuf, 16⟩ 0 _ rfl (by decide) (by decide)).2 0 _ rfl
  exact ⟨unkDoc, _, parse_unk noLoader 0, rfl, h.1, by decide⟩

theorem textFrom_replicate (n : Nat) : textFrom 97 (List.replicate n 97) = true := by
  induction n with
  | zero => rfl
  | succ n ih =>
    simp only [List.replicate, textFrom, ih, Bool.and_true]
    decide

theorem textOK_replicate (n : Nat) : textOK (List.replicate (n + 1) 97) = true := by
  simp only [List.replicate, textOK, textFrom_replicate, Bool.and_true]
  decide

theorem compileChildren_code (rec : CState → Nat → Res CState) (cs : List Nat) (s : CState)
    (c : Nat) (s1 : CState) (h : compileChildren rec cs s = .ret c s1) : c = 0 := by
  induction cs generalizing s with
  | nil => simp only [compileChildren, Res.ret.injEq] at h; exact h.1.symm
  | cons x cs ih =>
    simp only [compileChildren] at h
    cases hx : rec s x with
    | ub => rw [hx] at h; cases h
    | nofuel => rw [hx] at h; cases h
    | ret c2 s2 => rw [hx] at h; exact ih s2 h

/-- The return value of `compileElement` tells whether the tag of the element
itself was found, nothing else. -/
theorem compileElement_code (fuel : Nat) (s : CState) (ei c : Nat) (s1 : CState)
    (h : compileElement fuel s ei = .ret c s1) :
    ∃ e, s.doc.elements[ei]? = some e ∧
      ((findTag e.tag = 0xFF ∧ c = 1 ∧ s1 = s) ∨ (findTag e.tag ≠ 0xFF ∧ c = 0)) := by
  cases fuel with
  | zero => simp [compileElement] at h
  | succ fuel =>
    unfold compileElement at h
    cases he : s.doc.elements[ei]? with
    | none => rw [he] at h; cases h
    | some e =>
      rw [he] at h
      simp only at h
      refine ⟨e, rfl, ?_⟩
      split at h
      · next hf =>
        simp only [Res.ret.injEq] at h
        exact Or.inl ⟨hf, h.1.symm, h.2.symm⟩
      · next hf =>
        right
        refine ⟨hf, ?_⟩
        split at h
        · cases h
        · exact compileChildren_code _ _ _ _ _ h

theorem compile_text (fuel : Nat) (s : List Nat) (buffer : Nat → Nat) :
    ∃ s1, compile (fuel + 1) ⟨textDoc s, buffer, 0⟩ = .ret 0 s1 ∧ s1.pc = s.length + 20 ∧
      seg s1.buffer 16 s1.pc = 1 :: s ++ [0, 0, 0] := by
  obtain ⟨s1, h1, E⟩ := compileElement_noattr fuel
    (compileHeader ⟨textDoc s, buffer, 0⟩) 0 ⟨str "text", some s, [], -1, []⟩ rfl
    (show findTag (str "text") ≠ 0xFF by decide) rfl rfl
  have hft : findTag (str "text") = 1 := by decide
  have hpc : (compileHeader ⟨textDoc s, buffer, 0⟩).pc = 16 := rfl
  refine ⟨s1, ?_, ?_, ?_⟩
  · unfold compile
    simp only
    have hb : compileBitmaps (compileHeader ⟨textDoc s, buffer, 0⟩).doc.bitmaps
        (compileHeader ⟨textDoc s, buffer, 0⟩) = some (compileHeader ⟨textDoc s, buffer, 0⟩) :=
      rfl
    rw [hb]
    simp only [h1]
  · have := E.2.1
    rw [hpc] at this
    simp only [List.length_cons, List.length_append, Option.getD_some, List.length_nil] at this
    omega
  · have := E.seg
    rw [hpc, hft] at this
    simpa using this

theorem parse_text (L : Loader) (fuel : Nat) (s : List Nat) (h : textOK s = true) :
    HDL_Parse L (fuel + 3) (str "<text>" ++ s ++ str "</text>") = .ret 0 (textDoc s) := by
  unfold HDL_Parse
  rw [split_text s h]
  simp only [parseBlocks_text L fuel s h]
  rfl

theorem compile_long_text (fuel n k : Nat) (buffer : Nat → Nat) (hk : k ≤ n) :
    ∃ s1, compile (fuel + 1) ⟨textDoc (List.replicate (n + 1) 97), buffer, 0⟩ = .ret 0 s1 ∧
      s1.pc = n + 21 ∧ s1.buffer (17 + k) = 97 := by
  obtain ⟨s1, h1, h2, h3⟩ := compile_text fuel (List.replicate (n + 1) 97) buffer
  have hpc : s1.pc = n + 21 := by rw [h2, List.length_replicate]
  refine ⟨s1, h1, hpc, ?_⟩
  have hg := segN_get s1.buffer (s1.pc - 16) 16 (k + 1) (by rw [hpc]; omega)
  unfold seg at h3
  rw [h3] at hg
  have e1 : (1 :: List.replicate (n + 1) 97 ++ [0, 0, 0])[k + 1]? = some 97 := by
    rw [List.cons_append, List.getElem?_cons_succ,
      List.getElem?_append_left (by rw [List.length_replicate]; omega),
      List.getElem?_replicate, if_pos (by omega)]
  rw [e1] at hg
  have e2 : 16 + (k + 1) = 17 + k := by omega
  rw [e2] at hg
  exact (Option.some.inj hg).symm

/-- Claim C15, counterexample: the source `<text>` + 4100 letters `a` +
`</text>` parses, and `compile` returns 0 on its document with the cursor at
4120, beyond the bound 4096, having stored the letter at offset 4100 of the
zero buffer. -/
theorem compile_past_bound :
    ∃ doc s1,
      HDL_Parse noLoader (0 + 3) (str "<text>" ++ List.replicate 4100 97 ++ str "</text>") =
        .ret 0 doc ∧
      compile (0 + 1) ⟨doc, zeroBuf, 0⟩ = .ret 0 s1 ∧
      HDL_COMPILER_OUTPUT_BUFFER_SIZE < s1.pc ∧ s1.pc = 4120 ∧ s1.buffer 4100 = 97 := by
  obtain ⟨s1, h1, h2, h3⟩ := compile_long_text 0 4099 4083 zeroBuf (by decide)
  exact ⟨_, s1, parse_text noLoader 0 _ (textOK_replicate 4099), h1, by rw [h2]; decide, h2, h3⟩

/-- Claim C15, amended: `compile` never compares the cursor with a bound.
Whenever it returns, the return value is 0 exactly when the tag of the root
element is in the tag table (and 1 otherwise), whatever the length of the
output; in particular the document of `<text>s</text>` is encoded in full for
every `s`, with return value 0 and the cursor at `s.length + 20`. -/
theorem compile_no_bound_check (fuel : Nat) (s : CState) (c : Nat) (s1 : CState)
    (h : compile fuel s = .ret c s1) :
    (∃ e, s.doc.elements[0]? = some e ∧ (c = 0 ↔ findTag e.tag ≠ 0xFF) ∧ (c = 0 ∨ c = 1)) ∧
    ∀ (t : List Nat) (buffer : Nat → Nat), ∃ s2,
      compile (fuel + 1) ⟨textDoc t, buffer, 0⟩ = .ret 0 s2 ∧ s2.pc = t.length + 20 ∧
      seg s2.buffer 16 s2.pc = 1 :: t ++ [0, 0, 0] := by
  refine ⟨?_, fun t buffer => compile_text fuel t buffer⟩
  unfold compile at h
  simp only at h
  have hdoc0 : (compileHeader s).doc = s.doc := rfl
  rw [hdoc0] at h
  cases hb : compileBitmaps s.doc.bitmaps (compileHeader s) with
  | none => rw [hb] at h; cases h
  | some sb =>
    rw [hb] at h
    simp only at h
    have F := compileBitmaps_frame _ _ _ hb
    cases he : compileElement fuel sb 0 with
    | ub => rw [he] at h; cases h
    | nofuel => rw [he] at h; cases h
    | ret c2 s2 =>
      rw [he] at h
      obtain ⟨e, hel, hcase⟩ := compileElement_code fuel sb 0 c2 s2 he
      have hsh : (shapeOf s.doc)[0]? =
          some (e.tag, e.content, e.attrs.map (fun a => a.key), e.children) := by
        have : shapeOf sb.doc = shapeOf s.doc := F.1
        rw [← this, shapeOf_get, hel]; rfl
      obtain ⟨e0, he0, ht0, _⟩ := shapeOf_elem hsh
      refine ⟨e0, he0, ?_⟩
      rw [ht0]
      rcases hcase with ⟨hf, hc, _⟩ | ⟨hf, hc⟩
      · subst hc
        simp only [Res.ret.injEq] at h
        refine ⟨?_, Or.inr h.1.symm⟩
        rw [← h.1]
        simp [hf]
      · subst hc
        simp only [Res.ret.injEq] at h
        refine ⟨?_, Or.inl h.1.symm⟩
        rw [← h.1]
        simp [hf]

/-- Witness of claim C15 (amended) on the document of `<box/>`. -/
theorem compile_no_bound_check_witness :
    (∃ e, boxDoc.elements[0]? = some e ∧ ((0 : Nat) = 0 ↔ findTag e.tag ≠ 0xFF) ∧
      ((0 : Nat) = 0 ∨ (0 : Nat) = 1)) ∧
    ∀ (t : List Nat) (buffer : Nat → Nat), ∃ s2,
      compile (1 + 1) ⟨textDoc t, buffer, 0⟩ = .ret 0 s2 ∧ s2.pc = t.length + 20 ∧
      seg s2.buffer 16 s2.pc = 1 :: t ++ [0, 0, 0] :=
  compile_no_bound_check 1 ⟨boxDoc, zeroBuf, 0⟩ 0 _ rfl

theorem parse_bools (L : Loader) (fuel : Nat) :
    HDL_Parse L (fuel + 4) (str "<box x=[true, false]/>") =
      .ret 0 (boxWith [boolAttr "x" [1, 0]]) := by
  rfl

theorem parse_empty_array (L : Loader) (fuel : Nat) :
    HDL_Parse L (fuel + 3) (str "<box x=[]/>") =
      .ret 0 (boxWith [⟨str "x", .null, .NULL, 0⟩]) := by
  rfl

theorem parse_foo (L : Loader) (fuel : Nat) :
    HDL_Parse L (fuel + 4) (str "<box><foo/></box>") = .ret 0 fooDoc := by
  rfl

/-- Claim C12, the code at the failing inputs: `<box x=[true, false]/>` is
emitted as the record key 0, type BOOL (1), count 2 followed by one payload
byte (the claim: two), and `<box x=[]/>` as key 0, type NULL (0), count 0
followed by one payload byte (the claim: none); in both runs the element record
ends eight bytes after offset 16. -/
theorem payload_size_mismatch :
    (∀ (L : Loader) (fuel : Nat), ∃ doc s1,
      HDL_Parse L (fuel + 4) (str "<box x=[true, false]/>") = .ret 0 doc ∧
      compile (fuel + 1) ⟨doc, zeroBuf, 0⟩ = .ret 0 s1 ∧ s1.pc = 24 ∧
      seg s1.buffer 16 s1.pc = [0, 0, 1, 0, 1, 2, 1, 0]) ∧
    (∀ (L : Loader) (fuel : Nat), ∃ doc s1,
      HDL_Parse L (fuel + 3) (str "<box x=[]/>") = .ret 0 doc ∧
      compile (fuel + 1) ⟨doc, zeroBuf, 0⟩ = .ret 0 s1 ∧ s1.pc = 24 ∧
      seg s1.buffer 16 s1.pc = [0, 0, 1, 0, 0, 0, 0, 0]) :=
  ⟨fun L fuel => ⟨_, _, parse_bools L fuel, rfl, rfl, by decide⟩,
   fun L fuel => ⟨_, _, parse_empty_array L fuel, rfl, rfl, by decide⟩⟩

/-- Claim C14, the code at the failing input: `<box><foo/></box>` parses, and
`compile` returns 0 although the element `foo` has no tag index: the root
record says one child and no child record follows. -/
theorem unknown_child_tag_succeeds :
    ∀ (L : Loader) (fuel : Nat), ∃ doc s1,
      HDL_Parse L (fuel + 4) (str "<box><foo/></box>") = .ret 0 doc ∧
      (∃ e, doc.elements[1]? = some e ∧ findTag e.tag = 0xFF) ∧
      compile (fuel + 2) ⟨doc, zeroBuf, 0⟩ = .ret 0 s1 ∧ s1.pc = 20 ∧
      seg s1.buffer 16 s1.pc = [0, 0, 0, 1] :=
  fun L fuel => ⟨_, _, parse_foo L fuel, ⟨_, rfl, by decide⟩, rfl, rfl, by decide⟩

/-- The function `compile` on a buffer the program never builds: the
document of `<box x=5/>` encoded into the zero buffer gives the record
00 00 01 00 04 01 05 00, and encoded into a buffer that differs only in the
byte at offset 25 (so that the four bytes at 22..25 are the float 0.5) gives
00 00 01 00 02 01 00 00 A0 40 00.  The program itself passes its static array,
which is zero beyond the cursor at every moment of its one call. -/
theorem output_depends_on_buffer :
    ∀ (L : Loader) (fuel : Nat), ∃ doc s1 s2,
      HDL_Parse L (fuel + 3) (str "<box x=5/>") = .ret 0 doc ∧
      compile (fuel + 1) ⟨doc, zeroBuf, 0⟩ = .ret 0 s1 ∧
      compile (fuel + 1) ⟨doc, setB zeroBuf 25 63, 0⟩ = .ret 0 s2 ∧
      seg s1.buffer 16 s1.pc = [0, 0, 1, 0, 4, 1, 5, 0] ∧
      seg s2.buffer 16 s2.pc = [0, 0, 1, 0, 2, 1, 0, 0, 160, 64, 0] :=
  fun L fuel => ⟨_, _, _, parse_x5 L fuel, rfl, rfl, by decide, by decide⟩

theorem keptQ_length (body : List Nat) : ∀ prev, (keptQ prev body).length ≤ body.length := by
  induction body with
  | nil => intro _; simp [keptQ]
  | cons c t ih =>
    intro prev
    simp only [keptQ]
    split
    · have := ih c; simp only [List.length_cons]; omega
    · have := ih c; simp only [List.length_cons]; omega

theorem keptQ_single (body : List Nat) : ∀ prev, singleSpaced prev body = true →
    keptQ prev body = body := by
  induction body with
  | nil => intro _ _; rfl
  | cons c t ih =>
    intro prev h
    simp only [singleSpaced, Bool.and_eq_true, Bool.not_eq_true'] at h
    simp only [keptQ, h.1, Bool.false_eq_true, if_false, ih c h.2]

/-- One character inside a quoted literal. -/
theorem splitChar_quoted (st : SplitState) (q c : Nat)
    (hm : (st.inquotes = 1 ∧ q = 39) ∨ (st.inquotes = 2 ∧ q = 34))
    (hl : st.lastChar ≠ 92) (hc : c ≠ q) :
    splitChar st c = some
      (if (isWhitespace c && isWhitespace st.lastChar) || c = 10 then { st with lastChar := c }
       else { st with data := st.data ++ [c], blocklen := st.blocklen + 1, lastChar := c }) := by
  have hqs : quoteStep st.lastChar st.inquotes c = st.inquotes := by
    rcases hm with ⟨h1, h2⟩ | ⟨h1, h2⟩
    · subst h2
      simp only [quoteStep, hl, ne_eq, not_false_eq_true, if_true, h1, if_neg hc]
      simp
    · subst h2
      simp only [quoteStep, hl, ne_eq, not_false_eq_true, if_true, h1, if_neg hc]
      simp
  have hq0 : st.inquotes ≠ 0 := by rcases hm with ⟨h1, _⟩ | ⟨h1, _⟩ <;> omega
  unfold splitChar
  simp only [hqs]
  have hstid : { st with inquotes := st.inquotes } = st := rfl
  by_cases hww : isWhitespace c = true ∧ isWhitespace st.lastChar = true
  · rw [if_pos hww]
    simp [hww.1, hww.2]
  · rw [if_neg hww]
    rw [if_neg (fun h => hq0 h.2)]
    by_cases h10 : c = 10
    · subst h10
      have hw10 : isWhitespace 10 = true := by decide
      simp [hw10, splitFinish, hq0]
    · have hcond : (isWhitespace c && isWhitespace st.lastChar) = false := by
        cases h1 : isWhitespace c <;> cases h2 : isWhitespace st.lastChar <;> simp_all
      simp [hcond, h10, hq0, hl, splitFinish]

theorem splitLoop_quoted (dalloc : Nat) (q : Nat) (rest : List Nat) :
    ∀ (body : List Nat) (st : SplitState),
      ((st.inquotes = 1 ∧ q = 39) ∨ (st.inquotes = 2 ∧ q = 34)) → st.lastChar ≠ 92 →
      (∀ c ∈ body, c ≠ 92 ∧ c ≠ q) → st.data.length + body.length + 2 ≤ dalloc →
      splitLoop dalloc (body ++ rest) st =
        splitLoop dalloc rest
          { st with data := st.data ++ keptQ st.lastChar body,
                    blocklen := st.blocklen + (keptQ st.lastChar body).length,
                    lastChar := (body.getLast?).getD st.lastChar } := by
  intro body
  induction body with
  | nil => intro st _ _ _ _; simp [keptQ]
  | cons c t ih =>
    intro st hm hl hb hcap
    have hc := hb c (List.mem_cons_self _ _)
    have hstep := splitChar_quoted st q c hm hl hc.2
    simp only [List.cons_append, List.length_cons] at hcap ⊢
    rw [splitLoop_cons dalloc c (t ++ rest) st _ (by omega) hstep]
    have hlast : ((c :: t).getLast?).getD st.lastChar = (t.getLast?).getD c := by
      cases t with
      | nil => rfl
      | cons d u =>
        have hx : (d :: u).getLast? = some ((d :: u).getLast (by simp)) :=
          List.getLast?_eq_getLast _ (by simp)
        simp only [List.getLast?_cons_cons, hx, Option.getD_some]
    rw [hlast]
    by_cases hdrop : ((isWhitespace c && isWhitespace st.lastChar) || decide (c = 10)) = true
    · simp only [hdrop, if_true]
      rw [ih { st with lastChar := c } hm hc.1
        (fun d hd => hb d (List.mem_cons_of_mem _ hd)) (by simp only; omega)]
      simp only [keptQ, hdrop, if_true]
    · simp only [hdrop, Bool.false_eq_true, if_false]
      rw [ih { st with data := st.data ++ [c], blocklen := st.blocklen + 1, lastChar := c } hm
        hc.1 (fun d hd => hb d (List.mem_cons_of_mem _ hd))
        (by simp only [List.length_append, List.length_singleton]; omega)]
      simp only [keptQ, hdrop, Bool.false_eq_true, if_false]
      congr 1
      simp only [SplitState.mk.injEq]
      refine ⟨by simp, trivial, trivial, trivial, by simp only [List.length_cons]; omega, trivial⟩

/-- A whole literal, from the opening to the closing quote. -/
theorem splitLoop_literal (dalloc : Nat) (q : Nat) (body rest : List Nat) (st : SplitState)
    (hq : q = 39 ∨ q = 34) (h0 : st.inquotes = 0) (hl : st.lastChar ≠ 92)
    (hb : ∀ c ∈ body, c ≠ 92 ∧ c ≠ q) (hcap : st.data.length + body.length + 4 ≤ dalloc) :
    splitLoop dalloc (q :: body ++ q :: rest) st =
      splitLoop dalloc rest
        { st with data := st.data ++ (q :: keptQ q body ++ [q]),
                  blocklen := st.blocklen + ((keptQ q body).length + 2),
                  lastChar := q, inquotes := 0 } := by
  have hq92 : q ≠ 92 := by omega
  have hqw : isWhitespace q = false := by rcases hq with h | h <;> subst h <;> decide
  have hqd : isDelimiter q = false := by rcases hq with h | h <;> subst h <;> decide
  have hq62 : q ≠ 62 := by omega
  have hq60 : q ≠ 60 := by omega
  -- the opening quote
  have hopen : splitChar st q = some
      { st with data := st.data ++ [q], blocklen := st.blocklen + 1, lastChar := q,
                inquotes := (if q = 39 then 1 else 2) } := by
    rcases hq with h | h <;> subst h <;>
      simp [splitChar, quoteStep, splitFinish, hl, h0, isWhitespace, isDelimiter, delimiters]
  rw [List.cons_append, splitLoop_cons dalloc q _ st _ (by omega) hopen]
  have hm : ((if q = 39 then 1 else 2) = 1 ∧ q = 39) ∨ ((if q = 39 then 1 else 2) = 2 ∧ q = 34) := by
    rcases hq with h | h <;> subst h <;> simp
  rw [splitLoop_quoted dalloc q (q :: rest) body _ hm hq92 hb
    (by simp only [List.length_append, List.length_singleton]; omega)]
  -- the closing quote
  have hlast : ∀ (l : Nat), l ≠ 92 → ∀ (d : List Nat) (bl : Nat),
      splitChar ⟨d, st.blocks, st.blocks_allocated, l, bl, if q = 39 then 1 else 2⟩ q =
        some ⟨d ++ [q], st.blocks, st.blocks_allocated, q, bl + 1, 0⟩ := by
    intro l hl2 d bl
    rcases hq with h | h <;> subst h <;>
      simp [splitChar, quoteStep, splitFinish, hl2, isWhitespace, isDelimiter, delimiters]
  have hl3 : (body.getLast?).getD q ≠ 92 := by
    cases body with
    | nil => simpa using hq92
    | cons d u =>
      have hx : (d :: u).getLast? = some ((d :: u).getLast (by simp)) :=
        List.getLast?_eq_getLast _ (by simp)
      rw [hx]
      exact (hb _ (List.getLast_mem _)).1
  have hk := keptQ_length body q
  rw [splitLoop_cons dalloc q rest _ _
    (by simp only [List.length_append, List.length_singleton]; omega) (hlast _ hl3 _ _)]
  congr 1
  simp only [SplitState.mk.injEq]
  refine ⟨by simp, trivial, trivial, trivial, by omega, trivial⟩

theorem split_box_x (dalloc : Nat) (rest : List Nat) (hd : 13 ≤ dalloc) :
    splitLoop dalloc (str "<box x=" ++ rest) ⟨[], [0], HDL_BLOCKBUFFER_REALLOC_SIZE, 32, 0, 0⟩ =
      splitLoop dalloc rest
        ⟨[60, 0, 98, 111, 120, 0, 120, 0, 61, 0], [0, 2, 6, 8, 10], 32, 61, 0, 0⟩ := by
  have e : str "<box x=" = [60, 98, 111, 120, 32, 120, 61] := by decide
  rw [e]
  simp only [List.cons_append, List.nil_append]
  rw [splitLoop_cons dalloc _ _ _ ⟨[60, 0], [0, 2], 32, 60, 0, 0⟩ (by simp; omega) (by decide)]
  rw [splitLoop_cons dalloc _ _ _ ⟨[60, 0, 98], [0, 2], 32, 98, 1, 0⟩ (by simp; omega)
    (by decide)]
  rw [splitLoop_cons dalloc _ _ _ ⟨[60, 0, 98, 111], [0, 2], 32, 111, 2, 0⟩ (by simp; omega)
    (by decide)]
  rw [splitLoop_cons dalloc _ _ _ ⟨[60, 0, 98, 111, 120], [0, 2], 32, 120, 3, 0⟩
    (by simp; omega) (by decide)]
  rw [splitLoop_cons dalloc _ _ _ ⟨[60, 0, 98, 111, 120, 0], [0, 2, 6], 32, 32, 0, 0⟩
    (by simp; omega) (by decide)]
  rw [splitLoop_cons dalloc _ _ _ ⟨[60, 0, 98, 111, 120, 0, 120], [0, 2, 6], 32, 120, 1, 0⟩
    (by simp; omega) (by decide)]
  rw [splitLoop_cons dalloc _ _ _
    ⟨[60, 0, 98, 111, 120, 0, 120, 0, 61, 0], [0, 2, 6, 8, 10], 32, 61, 0, 0⟩
    (by simp; omega) (by decide)]

theorem split_slash_gt (dalloc : Nat) (d : List Nat) (lc bl : Nat) (hb : 0 < bl)
    (hd : d.length + 7 ≤ dalloc) :
    splitLoop dalloc (str "/>") ⟨d, [0, 2, 6, 8, 10], 32, lc, bl, 0⟩ =
      .ret 0 ⟨d ++ [0, 47, 0, 62, 0],
        [0, 2, 6, 8, 10, d.length + 1, d.length + 3, d.length + 5], 32, 62, 0, 3⟩ := by
  have e : str "/>" = [47, 62] := by decide
  rw [e]
  have h1 : splitChar ⟨d, [0, 2, 6, 8, 10], 32, lc, bl, 0⟩ 47 =
      some ⟨d ++ [0, 47, 0], [0, 2, 6, 8, 10, d.length + 1, d.length + 3], 32, 47, 0, 0⟩ := by
    have hb' : bl > 0 := hb
    by_cases hl : lc = 92
    · simp [splitChar, quoteStep, splitFinish, pushBlock, isWhitespace, isDelimiter, delimiters,
        hl, hb', HDL_BLOCKBUFFER_REALLOC_SIZE]
    · simp [splitChar, quoteStep, splitFinish, pushBlock, isWhitespace, isDelimiter, delimiters,
        hl, hb', HDL_BLOCKBUFFER_REALLOC_SIZE]
  rw [splitLoop_cons dalloc _ _ _ _ (by simp; omega) h1]
  have h2 : splitChar ⟨d ++ [0, 47, 0], [0, 2, 6, 8, 10, d.length + 1, d.length + 3], 32, 47, 0, 0⟩
      62 = some ⟨d ++ [0, 47, 0, 62, 0],
        [0, 2, 6, 8, 10, d.length + 1, d.length + 3, d.length + 5], 32, 62, 0, 3⟩ := by
    simp [splitChar, quoteStep, splitFinish, pushBlock, isWhitespace, isDelimiter, delimiters,
      HDL_BLOCKBUFFER_REALLOC_SIZE]
  rw [splitLoop_cons dalloc _ _ _ _ (by simp; omega) h2]
  rfl

/-- The splitter on `<box x=` + quoted literal + `/>`. -/
theorem split_literal (q : Nat) (body : List Nat) (hq : q = 39 ∨ q = 34)
    (hb : ∀ c ∈ body, c ≠ 92 ∧ c ≠ q) :
    _HDL_ParseDataToBlocks (str "<box x=" ++ (q :: body ++ q :: str "/>")) =
      .ret 0 (mkBlocks (litWords (q :: keptQ q body ++ [q]))) := by
  have hk := keptQ_length body q
  have hlen : (str "<box x=" ++ (q :: body ++ q :: str "/>")).length = body.length + 11 := by
    have e1 : (str "<box x=").length = 7 := by decide
    have e2 : (str "/>").length = 2 := by decide
    simp only [List.length_append, List.length_cons, e1, e2]; omega
  unfold _HDL_ParseDataToBlocks
  simp only [hlen]
  rw [split_box_x _ _ (by omega)]
  rw [splitLoop_literal _ q body (str "/>") _ hq rfl (by decide) hb (by simp; omega)]
  rw [split_slash_gt _ _ _ _ (by omega) (by simp; omega)]
  simp only
  rw [if_pos (by simp; omega)]
  simp only [if_true, mkBlocks, litWords, joinZ, offsets, Res.ret.injEq, Blocks.mk.injEq,
    true_and]
  have e1 : str "<" = [60] := by decide
  have e2 : str "box" = [98, 111, 120] := by decide
  have e3 : str ">" = [62] := by decide
  have e4 : str "/" = [47] := by decide
  have e5 : str "x" = [120] := by decide
  have e6 : str "=" = [61] := by decide
  simp only [e1, e2, e3, e4, e5, e6]
  refine ⟨by simp, ?_, by simp⟩
  simp
  omega

theorem keptQ_mem (body : List Nat) : ∀ prev, ∀ c ∈ keptQ prev body, c ∈ body := by
  induction body with
  | nil => intro _ c h; simp [keptQ] at h
  | cons d t ih =>
    intro prev c h
    simp only [keptQ] at h
    split at h
    · exact List.mem_cons_of_mem _ (ih d c h)
    · rcases List.mem_cons.1 h with h1 | h1
      · rw [h1]; exact List.mem_cons_self _ _
      · exact List.mem_cons_of_mem _ (ih d c h1)

/-- Claim C20, counterexample: in `<box x='a  b'/>` the literal `'a  b'` is
opened outside any quoted region and has no backslash, yet the block holds
`'a b'` (the second space is dropped); in `<box x="a` newline `b"/>` the block
holds `"ab"` (the newline is dropped). No block holds the original literal. -/
theorem quoted_whitespace_dropped :
    (∃ B, _HDL_ParseDataToBlocks (str "<box x='a  b'/>") = .ret 0 B ∧
      B.list = [some (str "<"), some (str "box"), some (str "x"), some (str "="),
        some (str "'a b'"), some (str "/"), some (str ">")] ∧
      some (str "'a  b'") ∉ B.list) ∧
    (∃ B, _HDL_ParseDataToBlocks (str "<box x=\"a\nb\"/>") = .ret 0 B ∧
      B.list = [some (str "<"), some (str "box"), some (str "x"), some (str "="),
        some (str "\"ab\""), some (str "/"), some (str ">")] ∧
      some (str "\"a\nb\"") ∉ B.list) :=
  ⟨⟨_, rfl, by decide, by decide⟩, ⟨_, rfl, by decide, by decide⟩⟩

/-- Claim C20, amended: for a quoted literal (quote `q`, single or double)
whose interior `body` has no backslash, no NUL and no quote `q`, (1) from any
splitter state outside quotes and text content whose last character is not a
backslash, the loop appends to the current block the opening quote, the
interior characters kept by `keptQ` (every character except newlines and
whitespace characters that directly follow a whitespace character; delimiters
are kept) and the closing quote, and is outside quotes again; (2) the source
`<box x=` + literal + `/>` is split into seven blocks, the literal being one
block; (3) when the interior has no newline and no two adjacent whitespace
characters the block holds the literal exactly. -/
theorem quoted_literal (q : Nat) (body : List Nat) (hq : q = 39 ∨ q = 34)
    (hb : ∀ c ∈ body, c ≠ 92 ∧ c ≠ q ∧ c ≠ 0) :
    (∀ (dalloc : Nat) (rest : List Nat) (st : SplitState), st.inquotes = 0 → st.lastChar ≠ 92 →
      st.data.length + body.length + 4 ≤ dalloc →
      splitLoop dalloc (q :: body ++ q :: rest) st =
        splitLoop dalloc rest
          { st with data := st.data ++ (q :: keptQ q body ++ [q]),
                    blocklen := st.blocklen + ((keptQ q body).length + 2),
                    lastChar := q, inquotes := 0 }) ∧
    (∃ B, _HDL_ParseDataToBlocks (str "<box x=" ++ (q :: body ++ q :: str "/>")) = .ret 0 B ∧
      B.list = [some (str "<"), some (str "box"), some (str "x"), some (str "="),
        some (q :: keptQ q body ++ [q]), some (str "/"), some (str ">")]) ∧
    (singleSpaced q body = true → keptQ q body = body) := by
  have hb2 : ∀ c ∈ body, c ≠ 92 ∧ c ≠ q := fun c hc => ⟨(hb c hc).1, (hb c hc).2.1⟩
  refine ⟨fun dalloc rest st h0 hl hcap =>
    splitLoop_literal dalloc q body rest st hq h0 hl hb2 hcap, ?_, keptQ_single body q⟩
  refine ⟨_, split_literal q body hq hb2, ?_⟩
  have hq0 : q ≠ 0 := by omega
  have hz : ∀ c ∈ q :: keptQ q body ++ [q], c ≠ 0 := by
    intro c hc
    simp only [List.cons_append, List.mem_cons, List.mem_append, List.mem_singleton,
      List.not_mem_nil, or_false] at hc
    rcases hc with h | h | h
    · rw [h]; exact hq0
    · exact (hb c (keptQ_mem body q c h)).2.2
    · rw [h]; exact hq0
  have g0 := (mkBlocks_get (litWords (q :: keptQ q body ++ [q])) 0 (str "<") rfl (by decide)).1
  have g1 := (mkBlocks_get (litWords (q :: keptQ q body ++ [q])) 1 (str "box") rfl (by decide)).1
  have g2 := (mkBlocks_get (litWords (q :: keptQ q body ++ [q])) 2 (str "x") rfl (by decide)).1
  have g3 := (mkBlocks_get (litWords (q :: keptQ q body ++ [q])) 3 (str "=") rfl (by decide)).1
  have g4 := (mkBlocks_get (litWords (q :: keptQ q body ++ [q])) 4 (q :: keptQ q body ++ [q]) rfl hz).1
  have g5 := (mkBlocks_get (litWords (q :: keptQ q body ++ [q])) 5 (str "/") rfl (by decide)).1
  have g6 := (mkBlocks_get (litWords (q :: keptQ q body ++ [q])) 6 (str ">") rfl (by decide)).1
  have hcount : (mkBlocks (litWords (q :: keptQ q body ++ [q]))).block_count = 7 := rfl
  have hr : List.range 7 = [0, 1, 2, 3, 4, 5, 6] := by decide
  simp only [Blocks.list, hcount, hr, List.map_cons, List.map_nil, g0, g1, g2, g3, g4, g5, g6]

/-- Witness of claim C20 (amended) on the literal `'a b<c'`: a delimiter and a
single space inside the quotes are kept. -/
theorem quoted_literal_witness :
    ∃ B, _HDL_ParseDataToBlocks (str "<box x=" ++ (39 :: str "a b<c" ++ 39 :: str "/>")) =
        .ret 0 B ∧
      B.list = [some (str "<"), some (str "box"), some (str "x"), some (str "="),
        some (39 :: str "a b<c" ++ [39]), some (str "/"), some (str ">")] := by
  obtain ⟨_, ⟨B, h1, h2⟩, h3⟩ := quoted_literal 39 (str "a b<c") (Or.inl rfl) (by decide)
  rw [h3 (by decide)] at h2
  exact ⟨B, h1, h2⟩

theorem succ_coords (W n : Nat) (hW : 0 < W) :
    (n % W + 1 ≥ W → (n + 1) % W = 0 ∧ (n + 1) / W = n / W + 1) ∧
    (¬ n % W + 1 ≥ W → (n + 1) % W = n % W + 1 ∧ (n + 1) / W = n / W) := by
  have hlt := Nat.mod_lt n hW
  have hn := Nat.div_add_mod n W
  constructor
  · intro h
    have e : n + 1 = W * (n / W + 1) := by rw [Nat.mul_add]; omega
    rw [e]
    exact ⟨Nat.mul_mod_right _ _, Nat.mul_div_cancel_left _ hW⟩
  · intro h
    have e : n + 1 = W * (n / W) + (n % W + 1) := by omega
    constructor
    · rw [e, Nat.mul_add_mod, Nat.mod_eq_of_lt (show n % W + 1 < W by omega)]
    · rw [e, Nat.mul_add_div hW, Nat.div_eq_of_lt (show n % W + 1 < W by omega)]; rfl

theorem pos_unique (W a x1 y x : Nat) (h1 : x1 < W) (h2 : x < W)
    (h : a * W + x1 = y * W + x) : a = y ∧ x1 = x := by
  have hW : 0 < W := by omega
  have ha : (a * W + x1) / W = a := by
    rw [Nat.add_comm, Nat.add_mul_div_right _ _ hW, Nat.div_eq_of_lt h1]; omega
  have hy : (y * W + x) / W = y := by
    rw [Nat.add_comm, Nat.add_mul_div_right _ _ hW, Nat.div_eq_of_lt h2]; omega
  have e : a = y := by rw [← ha, h, hy]
  subst e
  exact ⟨rfl, by omega⟩

/-- The pixel of bit `k` of byte `i` is pixel number `n` exactly when `i` and
`k` are the byte and the bit that the loop addresses for `n`. -/
theorem pos_eq_iff (W n i k : Nat) (hW : 0 < W) (hk : k < 8)
    (hx : 8 * (i % ((W + 7) / 8)) + (7 - k) < W) :
    i / ((W + 7) / 8) * W + (8 * (i % ((W + 7) / 8)) + (7 - k)) = n ↔
      (i = n / W * ((W + 7) / 8) + n % W / 8 ∧ k = 7 - n % W % 8) := by
  have hp : 0 < (W + 7) / 8 := by omega
  have hlt := Nat.mod_lt n hW
  have hn := Nat.div_add_mod n W
  constructor
  · intro h
    have h' : i / ((W + 7) / 8) * W + (8 * (i % ((W + 7) / 8)) + (7 - k)) =
        n / W * W + n % W := by rw [h, Nat.mul_comm]; omega
    obtain ⟨e1, e2⟩ := pos_unique W _ _ _ _ hx hlt h'
    have hi := Nat.div_add_mod i ((W + 7) / 8)
    rw [e1, Nat.mul_comm] at hi
    constructor
    · rw [← hi]; omega
    · omega
  · rintro ⟨e1, e2⟩
    have hx8 : n % W / 8 < (W + 7) / 8 := by omega
    have hd : i / ((W + 7) / 8) = n / W := by
      rw [e1, Nat.add_comm, Nat.add_mul_div_right _ _ hp, Nat.div_eq_of_lt hx8]; omega
    have hm : i % ((W + 7) / 8) = n % W / 8 := by
      rw [e1, Nat.add_comm, Nat.add_mul_mod_self_right, Nat.mod_eq_of_lt hx8]
    rw [hd, hm, Nat.mul_comm]
    omega

theorem testBit_or_bit (v m k : Nat) :
    (v ||| 1 <<< m).testBit k = (v.testBit k || decide (m = k)) := by
  rw [Nat.testBit_or, Nat.one_shiftLeft, Nat.testBit_two_pow]

theorem getD_set (l : List Nat) (idx v i : Nat) (h : idx < l.length) :
    (l.set idx v).getD i 0 = if i = idx then v else l.getD i 0 := by
  simp only [List.getD_eq_getElem?_getD, List.getElem?_set]
  by_cases hi : i = idx
  · subst hi; simp [h]
  · simp [hi, Ne.symm hi]

theorem BitsOf_init (W H : Nat) (b : List Nat) :
    BitsOf W H b 0 (List.replicate ((W + 7) / 8 * H) 0) := by
  refine ⟨by simp, fun i k => ?_⟩
  have : (List.replicate ((W + 7) / 8 * H) 0).getD i 0 = 0 := by
    simp only [List.getD_eq_getElem?_getD, List.getElem?_replicate]
    split <;> rfl
  rw [this]
  simp

/-- One iteration of the pixel loop keeps the invariant. -/
theorem BitsOf_step (W H : Nat) (b : List Nat) (n c : Nat) (d : List Nat)
    (hn : n < W * H) (hc : b[n]? = some c) (hI : BitsOf W H b n d) :
    n / W * ((W + 7) / 8) + n % W / 8 < (W + 7) / 8 * H ∧
    BitsOf W H b (n + 1)
      (if c = 49 then
        d.set (n / W * ((W + 7) / 8) + n % W / 8)
          ((d.getD (n / W * ((W + 7) / 8) + n % W / 8) 0) ||| (1 <<< (7 - n % W % 8)))
       else d) := by
  have hW : 0 < W := by
    rcases Nat.eq_zero_or_pos W with h | h
    · subst h; simp at hn
    · exact h
  have hlt := Nat.mod_lt n hW
  have hy : n / W < H := Nat.div_lt_of_lt_mul hn
  have hidx : n / W * ((W + 7) / 8) + n % W / 8 < (W + 7) / 8 * H := by
    have h1 : (n / W + 1) * ((W + 7) / 8) ≤ H * ((W + 7) / 8) := Nat.mul_le_mul_right _ hy
    rw [Nat.add_mul, Nat.one_mul] at h1
    rw [Nat.mul_comm ((W + 7) / 8) H]
    omega
  refine ⟨hidx, ?_⟩
  obtain ⟨hl, hbits⟩ := hI
  by_cases h49 : c = 49
  · rw [if_pos h49]
    refine ⟨by rw [List.length_set]; exact hl, fun i k => ?_⟩
    rw [getD_set _ _ _ _ (by rw [hl]; exact hidx)]
    by_cases hi : i = n / W * ((W + 7) / 8) + n % W / 8
    · rw [if_pos hi, testBit_or_bit]
      simp only [Bool.or_eq_true, decide_eq_true_eq]
      rw [← hi, hbits i k]
      constructor
      · rintro (⟨h1, h2, h3, h4, h5⟩ | h)
        · exact ⟨h1, h2, h3, by omega, h5⟩
        · have hk : k < 8 := by omega
          have hx : 8 * (i % ((W + 7) / 8)) + (7 - k) < W := by
            have hx8 : n % W / 8 < (W + 7) / 8 := by omega
            have hm : i % ((W + 7) / 8) = n % W / 8 := by
              rw [hi, Nat.add_comm, Nat.add_mul_mod_self_right, Nat.mod_eq_of_lt hx8]
            rw [hm]; omega
          have hp := (pos_eq_iff W n i k hW hk hx).2 ⟨hi, h.symm⟩
          refine ⟨hk, by rw [hi]; exact hidx, hx, by omega, ?_⟩
          rw [hp, hc, h49]
      · rintro ⟨h1, h2, h3, h4, h5⟩
        by_cases hp : i / ((W + 7) / 8) * W + (8 * (i % ((W + 7) / 8)) + (7 - k)) = n
        · right
          exact ((pos_eq_iff W n i k hW h1 h3).1 hp).2.symm
        · left
          exact ⟨h1, h2, h3, by omega, h5⟩
    · rw [if_neg hi, hbits i k]
      constructor
      · rintro ⟨h1, h2, h3, h4, h5⟩
        exact ⟨h1, h2, h3, by omega, h5⟩
      · rintro ⟨h1, h2, h3, h4, h5⟩
        refine ⟨h1, h2, h3, ?_, h5⟩
        by_cases hp : i / ((W + 7) / 8) * W + (8 * (i % ((W + 7) / 8)) + (7 - k)) = n
        · exact absurd ((pos_eq_iff W n i k hW h1 h3).1 hp).1 hi
        · omega
  · rw [if_neg h49]
    refine ⟨hl, fun i k => ?_⟩
    rw [hbits i k]
    constructor
    · rintro ⟨h1, h2, h3, h4, h5⟩
      exact ⟨h1, h2, h3, by omega, h5⟩
    · rintro ⟨h1, h2, h3, h4, h5⟩
      refine ⟨h1, h2, h3, ?_, h5⟩
      by_cases hp : i / ((W + 7) / 8) * W + (8 * (i % ((W + 7) / 8)) + (7 - k)) = n
      · rw [hp, hc] at h5
        exact absurd (Option.some.inj h5) h49
      · omega

theorem bitChars_spec (W H : Nat) :
    ∀ (cs pre post : List Nat) (l : BitLocals),
      l.x = pre.length % W → l.y = pre.length / W →
      BitsOf W H (pre ++ cs ++ post) pre.length l.data →
      pre.length + cs.length ≤ W * H → (∀ c ∈ cs, c = 48 ∨ c = 49) →
      ∃ l1, bitChars W ((W + 7) / 8 * H) ((W + 7) / 8) cs l = some l1 ∧
        l1.x = (pre ++ cs).length % W ∧ l1.y = (pre ++ cs).length / W ∧
        BitsOf W H (pre ++ cs ++ post) (pre ++ cs).length l1.data := by
  intro cs
  induction cs with
  | nil =>
    intro pre post l hx hy hI _ _
    exact ⟨l, rfl, by simpa using hx, by simpa using hy, by simpa using hI⟩
  | cons c t ih =>
    intro pre post l hx hy hI hlen hbits
    simp only [List.length_cons] at hlen
    have hn : pre.length < W * H := by omega
    have hW : 0 < W := by
      rcases Nat.eq_zero_or_pos W with h | h
      · subst h; simp at hn
      · exact h
    have hc : (pre ++ c :: t ++ post)[pre.length]? = some c := by
      rw [List.append_assoc, List.getElem?_append_right (le_refl _)]
      simp
    obtain ⟨hidx, hI2⟩ := BitsOf_step W H _ pre.length c l.data hn hc hI
    have hcb := hbits c (List.mem_cons_self _ _)
    have hcoord := succ_coords W pre.length hW
    have e1 : pre ++ c :: t ++ post = (pre ++ [c]) ++ t ++ post := by simp
    have e2 : (pre ++ c :: t).length = ((pre ++ [c]) ++ t).length := by simp
    have e3 : (pre ++ [c]).length = pre.length + 1 := by simp
    unfold bitChars
    rw [hx, hy]
    rw [if_neg (by omega)]
    simp only
    rw [if_neg (by omega)]
    rw [e1] at hI2 ⊢
    rw [e2]
    rw [← e3] at hI2
    by_cases hwrap : pre.length % W + 1 ≥ W
    · rw [if_pos hwrap]
      obtain ⟨h1, h2⟩ := hcoord.1 hwrap
      exact ih (pre ++ [c]) post _ (by rw [e3, h1]) (by rw [e3, h2]) hI2
        (by rw [e3]; omega) (fun d hd => hbits d (List.mem_cons_of_mem _ hd))
    · rw [if_neg hwrap]
      obtain ⟨h1, h2⟩ := hcoord.2 hwrap
      exact ih (pre ++ [c]) post _ (by rw [e3, h1]) (by rw [e3, h2]) hI2
        (by rw [e3]; omega) (fun d hd => hbits d (List.mem_cons_of_mem _ hd))

/-- More characters than pixels: the pixel loop returns 1. -/
theorem bitChars_overflow (W H size : Nat) (hs : size ≤ (W + 7) / 8 * H) :
    ∀ (cs : List Nat) (n : Nat) (l : BitLocals),
      (0 < W → l.x = n % W ∧ l.y = n / W) → n ≤ W * H → W * H < n + cs.length →
      bitChars W size ((W + 7) / 8) cs l = none := by
  intro cs
  induction cs with
  | nil => intro n l _ h1 h2; simp at h2; omega
  | cons c t ih =>
    intro n l hco h1 h2
    unfold bitChars
    by_cases hov : l.y * ((W + 7) / 8) + l.x / 8 ≥ size
    · rw [if_pos hov]
    · rw [if_neg hov]
      simp only
      by_cases hbad : c ≠ 49 ∧ c ≠ 48
      · rw [if_pos hbad]
      · rw [if_neg hbad]
        have hW : 0 < W := by
          rcases Nat.eq_zero_or_pos W with h | h
          · subst h; simp at hs; omega
          · exact h
        obtain ⟨hx, hy⟩ := hco hW
        have hlt := Nat.mod_lt n hW
        have hyH : l.y < H := by
          rcases Nat.lt_or_ge l.y H with h | h
          · exact h
          · have := Nat.mul_le_mul_right ((W + 7) / 8) h
            rw [Nat.mul_comm H] at this
            omega
        have hnlt : n < W * H := by
          have h3 := Nat.div_add_mod n W
          have h4 : W * (n / W + 1) ≤ W * H := Nat.mul_le_mul_left W (by rw [← hy]; exact hyH)
          rw [Nat.mul_add] at h4
          omega
        have hcoord := succ_coords W n hW
        simp only [List.length_cons] at h2
        rw [hx]
        by_cases hwrap : n % W + 1 ≥ W
        · rw [if_pos hwrap]
          obtain ⟨e1, e2⟩ := hcoord.1 hwrap
          exact ih (n + 1) _ (fun _ => ⟨by rw [e1], by rw [e2, hy]⟩) (by omega) (by omega)
        · rw [if_neg hwrap]
          obtain ⟨e1, e2⟩ := hcoord.2 hwrap
          exact ih (n + 1) _ (fun _ => ⟨by rw [e1], by rw [e2, hy]⟩) (by omega) (by omega)

theorem isBitRun_facts (r : List Nat) (h : isBitRun r = true) :
    (∀ c ∈ r, c = 48 ∨ c = 49) ∧ c0 r ≠ 59 ∧ 0 < r.length := by
  simp only [isBitRun, Bool.and_eq_true, decide_eq_true_eq, List.all_eq_true, Bool.or_eq_true,
    ne_eq] at h
  obtain ⟨hne, hall⟩ := h
  refine ⟨hall, ?_, ?_⟩
  · cases r with
    | nil => exact absurd rfl hne
    | cons c t =>
      have := hall c (List.mem_cons_self _ _)
      simp only [c0, List.headD_cons]
      omega
  · cases r with
    | nil => exact absurd rfl hne
    | cons c t => simp

theorem twos_natCast (w n : Nat) : twos w (n : Int) = n % 2 ^ w := by
  unfold twos
  have : ((n : Int) % (2 : Int) ^ w) = ((n % 2 ^ w : Nat) : Int) := by
    push_cast; rfl
  rw [this, Int.toNat_natCast]

theorem set_append_last {α : Type} (l : List α) (a b : α) :
    (l ++ [a]).set l.length b = l ++ [b] := by
  induction l with
  | nil => rfl
  | cons x t ih => simp [ih]

/-- The part of `_HDL_ParseImage` before the pixel loop, for the blocks
`name ( w , h )` followed by a block that does not start with a double quote. -/
theorem parseImage_header (L : Loader) (B : Blocks) (fuel : Nat) (doc : HDL_Document) (bi : Nat)
    (name wstr hstr : List Nat) (c : Nat)
    (hB : BlocksAt B (bi + 1) [name, [40], wstr, [44], hstr, [41]])
    (hc : B.c0 (bi + 7) = some c) (hc34 : c ≠ 34)
    (hname : isDelimiter (c0 name) = false ∧ name.length < 32)
    (hbm : doc.bitmaps.length < 65528) :
    _HDL_ParseImage L B fuel ⟨doc, bi⟩ =
      match bitBlocks B (twos 16 (atoi wstr))
          (((twos 16 (atoi wstr) + 7) / 8 * twos 16 (atoi hstr)) % 65536)
          ((twos 16 (atoi wstr) + 7) / 8) fuel (bi + 7)
          ⟨0, 0, List.replicate
            (((twos 16 (atoi wstr) + 7) / 8 * twos 16 (atoi hstr)) % 65536) 0⟩ with
      | .ub => .ub
      | .nofuel => .nofuel
      | .ret code (i, l) =>
        .ret (if code ≠ 0 then 1 else 0)
          ⟨{ doc with bitmaps := doc.bitmaps ++
              [⟨name, ((twos 16 (atoi wstr) + 7) / 8 * twos 16 (atoi hstr)) % 65536,
                twos 16 (atoi wstr), twos 16 (atoi hstr), twos 16 (atoi wstr) % 256,
                twos 16 (atoi hstr) % 256, 1, some l.data⟩] }, i⟩ := by
  obtain ⟨_, hget⟩ := hB
  have g0 := hget 0 name rfl
  have g1 := hget 1 [40] rfl
  have g2 := hget 2 wstr rfl
  have g3 := hget 3 [44] rfl
  have g4 := hget 4 hstr rfl
  have g5 := hget 5 [41] rfl
  have a1 : bi + 1 + 1 = bi + 2 := rfl
  have a2 : bi + 1 + 2 = bi + 3 := rfl
  have a3 : bi + 1 + 3 = bi + 4 := rfl
  have a4 : bi + 1 + 4 = bi + 5 := rfl
  have a5 : bi + 1 + 5 = bi + 6 := rfl
  simp only [Nat.add_zero, a1, a2, a3, a4, a5] at g0 g1 g2 g3 g4 g5
  have e40 : c0 [40] = 40 := rfl
  have e44 : c0 [44] = 44 := rfl
  have e41 : c0 [41] = 41 := rfl
  rw [e40] at g1
  rw [e44] at g3
  rw [e41] at g5
  unfold _HDL_ParseImage
  simp only [Nat.not_le.2 hbm, ge_iff_le, if_false, g0.1, g0.2, Option.all_some, hname.1,
    Bool.false_eq_true, Nat.not_le.2 hname.2, a1, a2, a3, a4, a5, g1.2, g2.1, g3.2, g4.1, g5.2,
    Nat.add_assoc, Nat.reduceAdd, hc]
  have a6 : bi + 6 + 1 = bi + 7 := rfl
  simp [g5.2, a6, hc, hc34, set_append_last]

theorem bitBlocks_spec (B : Blocks) (W H : Nat) :
    ∀ (runs : List (List Nat)) (fuel bi : Nat) (pre post : List Nat) (l : BitLocals),
      (∀ k r, runs[k]? = some r → B.get (bi + k) = some r ∧ B.c0 (bi + k) = some (c0 r)) →
      bi + runs.length < B.block_count → B.c0 (bi + runs.length) = some 59 →
      (∀ r ∈ runs, isBitRun r = true) → runs.length < fuel →
      l.x = pre.length % W → l.y = pre.length / W →
      BitsOf W H (pre ++ runs.flatten ++ post) pre.length l.data →
      pre.length + runs.flatten.length ≤ W * H →
      ∃ l1, bitBlocks B W ((W + 7) / 8 * H) ((W + 7) / 8) fuel bi l =
          .ret 0 (bi + runs.length, l1) ∧
        BitsOf W H (pre ++ runs.flatten ++ post) (pre ++ runs.flatten).length l1.data := by
  intro runs
  induction runs with
  | nil =>
    intro fuel bi pre post l _ hcnt hsemi _ hfuel _ _ hI _
    cases fuel with
    | zero => simp at hfuel
    | succ n =>
      simp only [List.length_nil, Nat.add_zero] at hcnt hsemi
      refine ⟨l, ?_, by simpa using hI⟩
      simp [bitBlocks, hcnt, hsemi]
  | cons r rs ih =>
    intro fuel bi pre post l hget hcnt hsemi hruns hfuel hx hy hI hlen
    cases fuel with
    | zero => simp at hfuel
    | succ n =>
      simp only [List.length_cons] at hcnt hsemi hfuel
      simp only [List.flatten_cons, List.length_append] at hlen
      obtain ⟨hg, hc⟩ := hget 0 r (by simp)
      simp only [Nat.add_zero] at hg hc
      obtain ⟨hbits, h59, _⟩ := isBitRun_facts r (hruns r (List.mem_cons_self _ _))
      have e1 : pre ++ (r :: rs).flatten ++ post = pre ++ r ++ (rs.flatten ++ post) := by simp
      rw [e1] at hI
      obtain ⟨l1, hl1, hx1, hy1, hI1⟩ := bitChars_spec W H r pre (rs.flatten ++ post) l hx hy hI
        (by omega) hbits
      have e2 : pre ++ r ++ (rs.flatten ++ post) = (pre ++ r) ++ rs.flatten ++ post := by simp
      rw [e2] at hI1
      obtain ⟨l2, hl2, hI2⟩ := ih n (bi + 1) (pre ++ r) post l1
        (fun k w hk => by
          have := hget (k + 1) w (by simpa using hk)
          rwa [show bi + (k + 1) = bi + 1 + k by omega] at this)
        (by omega) (by rw [show bi + 1 + rs.length = bi + (rs.length + 1) by omega]; exact hsemi)
        (fun w hw => hruns w (List.mem_cons_of_mem _ hw)) (by omega) hx1 hy1 hI1
        (by simp only [List.length_append]; omega)
      refine ⟨l2, ?_, ?_⟩
      · unfold bitBlocks
        have hlt : bi < B.block_count := by omega
        simp only [hlt, not_true_eq_false, if_false, hc, h59, hg, hl1]
        rw [hl2]
        congr 2
        simp only [List.length_cons, Prod.mk.injEq, and_true]
        omega
      · have e3 : pre ++ (r :: rs).flatten ++ post = (pre ++ r) ++ rs.flatten ++ post := by simp
        have e4 : (pre ++ (r :: rs).flatten).length = ((pre ++ r) ++ rs.flatten).length := by simp
        rw [e3, e4]; exact hI2

theorem bitChars_coords (W size : Nat) :
    ∀ (cs : List Nat) (n : Nat) (l l1 : BitLocals), 0 < W →
      l.x = n % W ∧ l.y = n / W →
      bitChars W size ((W + 7) / 8) cs l = some l1 →
      l1.x = (n + cs.length) % W ∧ l1.y = (n + cs.length) / W := by
  intro cs
  induction cs with
  | nil =>
    intro n l l1 _ hco h
    simp only [bitChars, Option.some.injEq] at h
    subst h
    simpa using hco
  | cons c t ih =>
    intro n l l1 hW hco h
    unfold bitChars at h
    split at h
    · cases h
    · simp only at h
      split at h
      · cases h
      · have hcoord := succ_coords W n hW
        rw [hco.1] at h
        simp only [List.length_cons]
        rw [show n + (t.length + 1) = n + 1 + t.length by omega]
        by_cases hwrap : n % W + 1 ≥ W
        · rw [if_pos hwrap] at h
          obtain ⟨e1, e2⟩ := hcoord.1 hwrap
          exact ih (n + 1) _ l1 hW ⟨by rw [e1], by rw [e2, hco.2]⟩ h
        · rw [if_neg hwrap] at h
          obtain ⟨e1, e2⟩ := hcoord.2 hwrap
          exact ih (n + 1) _ l1 hW ⟨by rw [e1], by rw [e2, hco.2]⟩ h

theorem bitBlocks_overflow (B : Blocks) (W H size : Nat) (hs : size ≤ (W + 7) / 8 * H) :
    ∀ (runs : List (List Nat)) (fuel bi n : Nat) (l : BitLocals),
      (∀ k r, runs[k]? = some r → B.get (bi + k) = some r ∧ B.c0 (bi + k) = some (c0 r)) →
      bi + runs.length ≤ B.block_count →
      (∀ r ∈ runs, isBitRun r = true) → runs.length ≤ fuel →
      (0 < W → l.x = n % W ∧ l.y = n / W) → n ≤ W * H → W * H < n + runs.flatten.length →
      ∃ p, bitBlocks B W size ((W + 7) / 8) fuel bi l = .ret 1 p := by
  intro runs
  induction runs with
  | nil => intro fuel bi n l _ _ _ _ _ h1 h2; simp at h2; omega
  | cons r rs ih =>
    intro fuel bi n l hget hcnt hruns hfuel hco h1 h2
    cases fuel with
    | zero => simp at hfuel
    | succ m =>
      simp only [List.length_cons] at hcnt hfuel
      simp only [List.flatten_cons, List.length_append] at h2
      obtain ⟨hg, hc⟩ := hget 0 r (by simp)
      simp only [Nat.add_zero] at hg hc
      obtain ⟨hbits, h59, _⟩ := isBitRun_facts r (hruns r (List.mem_cons_self _ _))
      have hlt : bi < B.block_count := by omega
      unfold bitBlocks
      simp only [hlt, not_true_eq_false, if_false, hc, h59, hg]
      cases hb : bitChars W size ((W + 7) / 8) r l with
      | none => exact ⟨_, rfl⟩
      | some l1 =>
        simp only
        have hle : n + r.length ≤ W * H := by
          rcases Nat.lt_or_ge (W * H) (n + r.length) with h | h
          · rw [bitChars_overflow W H size hs r n l hco h1 h] at hb; cases hb
          · exact h
        exact ih m (bi + 1) (n + r.length) l1
          (fun k w hk => by
            have := hget (k + 1) w (by simpa using hk)
            rwa [show bi + (k + 1) = bi + 1 + k by omega] at this)
          (by omega) (fun w hw => hruns w (List.mem_cons_of_mem _ hw)) (by omega)
          (fun hW => bitChars_coords W size r n l l1 hW (hco hW) hb) hle (by omega)

theorem BlocksAt_append (B : Blocks) (i : Nat) (u v : List (List Nat))
    (h : BlocksAt B i (u ++ v)) : BlocksAt B i u ∧ BlocksAt B (i + u.length) v := by
  obtain ⟨h1, h2⟩ := h
  simp only [List.length_append] at h1
  refine ⟨⟨by omega, fun k w hk => h2 k w ?_⟩, ⟨by omega, fun k w hk => ?_⟩⟩
  · have hlt : k < u.length := by
      rcases Nat.lt_or_ge k u.length with h | h
      · exact h
      · rw [List.getElem?_eq_none h] at hk; cases hk
    rw [List.getElem?_append_left hlt]; exact hk
  · have := h2 (u.length + k) w (by
      rw [List.getElem?_append_right (by omega)]
      simpa using hk)
    rwa [← Nat.add_assoc] at this

theorem mkBlocks_at (pre ws post : List (List Nat)) (hz : ∀ w ∈ ws, ∀ c ∈ w, c ≠ 0) :
    BlocksAt (mkBlocks (pre ++ ws ++ post)) pre.length ws := by
  refine ⟨by simp [mkBlocks], fun k w hk => ?_⟩
  have hlt : k < ws.length := by
    rcases Nat.lt_or_ge k ws.length with h | h
    · exact h
    · rw [List.getElem?_eq_none h] at hk; cases hk
  have hm : w ∈ ws := List.mem_iff_getElem?.2 ⟨k, hk⟩
  apply mkBlocks_get _ _ _ _ (hz w hm)
  rw [List.append_assoc, List.getElem?_append_right (by omega)]
  simp only [Nat.add_sub_cancel_left]
  rw [List.getElem?_append_left hlt]
  exact hk

/-- Claim C18, counterexample: `#img im (65535,8) ;` has no bit characters and
parses, but the stored size is 0, not ceil(65535/8) * 8 = 65536. -/
theorem bitmap_size_wraps :
    (∀ (L : Loader) (fuel : Nat),
      HDL_Parse L (fuel + 2) (str "#img im (65535,8) ;") =
        .ret 0 ⟨[], [], [⟨str "im", 0, 65535, 8, 255, 8, 1, some []⟩]⟩) ∧
    (65535 + 7) / 8 * 8 = 65536 :=
  ⟨fun _ _ => rfl, rfl⟩

/-- Claim C18, amended: for the blocks `name ( w , h )`, bit runs and `;` after
`#img`, with a name shorter than 32 characters, `w` and `h` denoting `W` and
`H` below 65536 with `ceil(W/8) * H` below 65536, and at most `W * H` bit
characters in all, `_HDL_ParseImage` returns 0 with the cursor on `;` and
appends the bitmap with the given name, size `ceil(W/8) * H`, width `W`,
height `H` and a pixel block `d` of `size` bytes in which bit `7 - x mod 8` of
byte `y * ceil(W/8) + x div 8` is set exactly when character `y * W + x` of the
bit string exists and is `1`, and every set bit is such a pixel bit. -/
theorem inline_bitmap (L : Loader) (B : Blocks) (fuel : Nat) (doc : HDL_Document) (bi : Nat)
    (name wstr hstr : List Nat) (runs : List (List Nat)) (W H : Nat)
    (hB : BlocksAt B (bi + 1) ([name, [40], wstr, [44], hstr, [41]] ++ runs ++ [[59]]))
    (hname : isDelimiter (c0 name) = false ∧ name.length < 32)
    (hW : atoi wstr = (W : Int)) (hH : atoi hstr = (H : Int))
    (hr : W < 65536 ∧ H < 65536 ∧ (W + 7) / 8 * H < 65536)
    (hruns : ∀ r ∈ runs, isBitRun r = true) (hlen : runs.flatten.length ≤ W * H)
    (hbm : doc.bitmaps.length < 65528) (hfuel : runs.length < fuel) :
    ∃ d, _HDL_ParseImage L B fuel ⟨doc, bi⟩ =
        .ret 0 ⟨{ doc with bitmaps := doc.bitmaps ++
          [⟨name, (W + 7) / 8 * H, W, H, W % 256, H % 256, 1, some d⟩] },
          bi + 7 + runs.length⟩ ∧
      d.length = (W + 7) / 8 * H ∧
      (∀ x y, x < W → y < H →
        ((d.getD (y * ((W + 7) / 8) + x / 8) 0).testBit (7 - x % 8) = true ↔
          runs.flatten[y * W + x]? = some 49)) ∧
      (∀ i k, (d.getD i 0).testBit k = true →
        k < 8 ∧ i < (W + 7) / 8 * H ∧ 8 * (i % ((W + 7) / 8)) + (7 - k) < W ∧
          runs.flatten[i / ((W + 7) / 8) * W + (8 * (i % ((W + 7) / 8)) + (7 - k))]? =
            some 49) := by
  have hW16 : twos 16 (atoi wstr) = W := by
    rw [hW, twos_natCast]; exact Nat.mod_eq_of_lt hr.1
  have hH16 : twos 16 (atoi hstr) = H := by
    rw [hH, twos_natCast]; exact Nat.mod_eq_of_lt hr.2.1
  rw [List.append_assoc] at hB
  obtain ⟨hB1, hB2⟩ := BlocksAt_append B _ _ _ hB
  have e7 : bi + 1 + [name, [40], wstr, [44], hstr, [41]].length = bi + 7 := rfl
  rw [e7] at hB2
  obtain ⟨hB3, hB4⟩ := BlocksAt_append B _ _ _ hB2
  have hsemi : B.c0 (bi + 7 + runs.length) = some 59 := (hB4.2 0 [59] rfl).2
  have hcnt : bi + 7 + runs.length < B.block_count := by
    have := hB4.1
    simp only [List.length_cons, List.length_nil] at this
    omega
  -- the block after `)` does not start with a double quote
  have hnext : ∃ c, B.c0 (bi + 7) = some c ∧ c ≠ 34 := by
    cases hrs : runs with
    | nil =>
      rw [hrs] at hsemi
      exact ⟨59, by simpa using hsemi, by decide⟩
    | cons r rs =>
      have h1 := (hB3.2 0 r (by rw [hrs]; simp)).2
      obtain ⟨hb, _, _⟩ := isBitRun_facts r (hruns r (by rw [hrs]; exact List.mem_cons_self _ _))
      refine ⟨c0 r, by simpa using h1, ?_⟩
      cases r with
      | nil => simp [c0]
      | cons c t =>
        have := hb c (List.mem_cons_self _ _)
        simp only [c0, List.headD_cons]
        omega
  obtain ⟨c, hc, hc34⟩ := hnext
  rw [parseImage_header L B fuel doc bi name wstr hstr c hB1 hc hc34 hname hbm]
  rw [hW16, hH16, Nat.mod_eq_of_lt hr.2.2]
  obtain ⟨l1, hl1, hI⟩ := bitBlocks_spec B W H runs fuel (bi + 7) [] [] ⟨0, 0, _⟩ hB3.2 hcnt hsemi
    hruns hfuel (by simp) (by simp) (by simpa using BitsOf_init W H runs.flatten)
    (by simpa using hlen)
  rw [hl1]
  simp only [List.nil_append, List.append_nil] at hI
  obtain ⟨hdl, hbits⟩ := hI
  refine ⟨l1.data, by simp, hdl, ?_, ?_⟩
  · intro x y hx hy
    have hWp : 0 < W := by omega
    have hx8 : x / 8 < (W + 7) / 8 := by omega
    have hk : 7 - x % 8 < 8 := by omega
    have hm : (y * ((W + 7) / 8) + x / 8) % ((W + 7) / 8) = x / 8 := by
      rw [Nat.add_comm, Nat.add_mul_mod_self_right, Nat.mod_eq_of_lt hx8]
    have hd : (y * ((W + 7) / 8) + x / 8) / ((W + 7) / 8) = y := by
      rw [Nat.add_comm, Nat.add_mul_div_right _ _ (by omega), Nat.div_eq_of_lt hx8]; omega
    have hxx : 8 * (x / 8) + (7 - (7 - x % 8)) = x := by omega
    rw [hbits, hm, hd, hxx]
    constructor
    · rintro ⟨_, _, _, _, h5⟩; exact h5
    · intro h5
      have hi : y * ((W + 7) / 8) + x / 8 < (W + 7) / 8 * H := by
        have h1 : (y + 1) * ((W + 7) / 8) ≤ H * ((W + 7) / 8) := Nat.mul_le_mul_right _ hy
        rw [Nat.add_mul, Nat.one_mul] at h1
        rw [Nat.mul_comm ((W + 7) / 8) H]
        omega
      have hlt : y * W + x < runs.flatten.length := by
        rcases Nat.lt_or_ge (y * W + x) runs.flatten.length with h | h
        · exact h
        · rw [List.getElem?_eq_none h] at h5; cases h5
      exact ⟨hk, hi, hx, hlt, h5⟩
  · intro i k h
    obtain ⟨h1, h2, h3, _, h5⟩ := (hbits i k).1 h
    exact ⟨h1, h2, h3, h5⟩

/-- Claim C19: for the blocks `name ( w , h )` followed by bit runs after
`#img`, with `w` and `h` denoting any natural numbers `W` and `H` (0 included)
and more than `W * H` bit characters in all, `_HDL_ParseImage` returns 1. -/
theorem inline_bitmap_overflow (L : Loader) (B : Blocks) (fuel : Nat) (doc : HDL_Document)
    (bi : Nat) (name wstr hstr : List Nat) (runs : List (List Nat)) (W H : Nat)
    (hB : BlocksAt B (bi + 1) ([name, [40], wstr, [44], hstr, [41]] ++ runs))
    (hname : isDelimiter (c0 name) = false ∧ name.length < 32)
    (hW : atoi wstr = (W : Int)) (hH : atoi hstr = (H : Int))
    (hruns : ∀ r ∈ runs, isBitRun r = true) (hlen : W * H < runs.flatten.length)
    (hbm : doc.bitmaps.length < 65528) (hfuel : runs.length ≤ fuel) :
    ∃ st1, _HDL_ParseImage L B fuel ⟨doc, bi⟩ = .ret 1 st1 := by
  have hW16 : twos 16 (atoi wstr) = W % 65536 := by rw [hW, twos_natCast]; rfl
  have hH16 : twos 16 (atoi hstr) = H % 65536 := by rw [hH, twos_natCast]; rfl
  obtain ⟨hB1, hB2⟩ := BlocksAt_append B _ _ _ hB
  have e7 : bi + 1 + [name, [40], wstr, [44], hstr, [41]].length = bi + 7 := rfl
  rw [e7] at hB2
  have hnext : ∃ c, B.c0 (bi + 7) = some c ∧ c ≠ 34 := by
    cases hrs : runs with
    | nil => rw [hrs] at hlen; simp at hlen
    | cons r rs =>
      have h1 := (hB2.2 0 r (by rw [hrs]; simp)).2
      obtain ⟨hb, _, _⟩ := isBitRun_facts r (hruns r (by rw [hrs]; exact List.mem_cons_self _ _))
      refine ⟨c0 r, by simpa using h1, ?_⟩
      cases r with
      | nil => simp [c0]
      | cons c t =>
        have := hb c (List.mem_cons_self _ _)
        simp only [c0, List.headD_cons]
        omega
  obtain ⟨c, hc, hc34⟩ := hnext
  rw [parseImage_header L B fuel doc bi name wstr hstr c hB1 hc hc34 hname hbm]
  rw [hW16, hH16]
  have hprod : W % 65536 * (H % 65536) ≤ W * H :=
    Nat.mul_le_mul (Nat.mod_le _ _) (Nat.mod_le _ _)
  obtain ⟨p, hp⟩ := bitBlocks_overflow B (W % 65536) (H % 65536)
    (((W % 65536 + 7) / 8 * (H % 65536)) % 65536) (Nat.mod_le _ _) runs fuel (bi + 7) 0
    ⟨0, 0, List.replicate (((W % 65536 + 7) / 8 * (H % 65536)) % 65536) 0⟩ hB2.2 hB2.1 hruns
    hfuel (fun _ => by simp) (Nat.zero_le _) (by omega)
  rw [hp]
  exact ⟨_, rfl⟩

/-- Witness of claim C18 (amended) on `#img im (3,2) 101 010 ;`: the pixel
block is A0 40. -/
theorem inline_bitmap_witness :
    _HDL_ParseDataToBlocks (str "#img im (3,2) 101 010 ;\n") = .ret 0 (mkBlocks imWords) ∧
    ∃ d, _HDL_ParseImage noLoader (mkBlocks imWords) 3 ⟨⟨[], [], []⟩, 1⟩ =
        .ret 0 ⟨⟨[], [], [⟨str "im", 2, 3, 2, 3, 2, 1, some d⟩]⟩, 10⟩ ∧
      d.length = 2 ∧ d = [160, 64] := by
  refine ⟨rfl, ?_⟩
  obtain ⟨d, h1, h2, _, _⟩ := inline_bitmap noLoader (mkBlocks imWords) 3 ⟨[], [], []⟩ 1
    (str "im") (str "3") (str "2") [str "101", str "010"] 3 2
    (mkBlocks_at [str "#", str "img"]
      [str "im", [40], str "3", [44], str "2", [41], str "101", str "010", [59]] []
      (by decide))
    (by decide) (by decide) (by decide) (by decide) (by decide) (by decide) (by decide)
    (by decide)
  refine ⟨d, h1, h2, ?_⟩
  have h3 : _HDL_ParseImage noLoader (mkBlocks imWords) 3 ⟨⟨[], [], []⟩, 1⟩ =
      .ret 0 ⟨⟨[], [], [⟨str "im", 2, 3, 2, 3, 2, 1, some [160, 64]⟩]⟩, 10⟩ := rfl
  rw [h3] at h1
  simp at h1
  exact h1.symm

/-- Witness of claim C19 on `#img im (2,1) 101 ;`: three bit characters for
two pixels. -/
theorem inline_bitmap_overflow_witness :
    _HDL_ParseDataToBlocks (str "#img im (2,1) 101 ;\n") = .ret 0 (mkBlocks ovWords) ∧
    ∃ st1, _HDL_ParseImage noLoader (mkBlocks ovWords) 1 ⟨⟨[], [], []⟩, 1⟩ = .ret 1 st1 :=
  ⟨rfl, inline_bitmap_overflow noLoader (mkBlocks ovWords) 1 ⟨[], [], []⟩ 1
    (str "im") (str "2") (str "1") [str "101"] 2 1
    (mkBlocks_at [str "#", str "img"]
      [str "im", [40], str "2", [44], str "1", [41], str "101"] [[59]] (by decide))
    (by decide) (by decide) (by decide) (by decide) (by decide) (by decide) (by decide)⟩

theorem SpanL_le {chs : List (List Nat)} {cs : List Nat} {k j : Nat} (h : SpanL chs cs k j) :
    k ≤ j ∧ (cs ≠ [] → k < j) := by
  induction h with
  | nil k => exact ⟨le_refl _, fun h => absurd rfl h⟩
  | cons c m j cs kids h hk hr ih1 ih2 => exact ⟨by omega, fun _ => by omega⟩

theorem SpanL_congr {chs chs1 : List (List Nat)} {cs : List Nat} {k j : Nat}
    (h : SpanL chs cs k j) (he : ∀ i, k ≤ i → i < j → chs1[i]? = chs[i]?) :
    SpanL chs1 cs k j := by
  induction h with
  | nil k => exact SpanL.nil k
  | cons c m j cs kids h hk hr ih1 ih2 =>
    have l1 := (SpanL_le hk).1
    have l2 := (SpanL_le hr).1
    exact SpanL.cons c m j cs kids (by rw [he c (le_refl _) (by omega)]; exact h)
      (ih1 (fun i h1 h2 => he i (by omega) (by omega)))
      (ih2 (fun i h1 h2 => he i (by omega) h2))

theorem SpanL_append {chs : List (List Nat)} {cs ds : List Nat} {k m j : Nat}
    (h : SpanL chs cs k m) (h2 : SpanL chs ds m j) : SpanL chs (cs ++ ds) k j := by
  induction h with
  | nil k => exact h2
  | cons c m1 j1 cs kids h hk hr ih1 ih2 =>
    exact SpanL.cons c m1 j (cs ++ ds) kids h hk (ih2 h2)

theorem ccSum_add (chs : List (List Nat)) (a b : Nat) :
    ∀ k, ccSum chs k (a + b) = ccSum chs k a + ccSum chs (k + a) b := by
  induction a with
  | zero => intro k; simp [ccSum]
  | succ a ih =>
    intro k
    rw [show a + 1 + b = (a + b) + 1 by omega]
    simp only [ccSum]
    rw [ih (k + 1), show k + 1 + a = k + (a + 1) by omega]
    omega

theorem chsOf_get (sh : List (List Nat × Option (List Nat) × List (List Nat) × List Nat))
    (ei : Nat) (tag : List Nat) (content : Option (List Nat)) (keys : List (List Nat))
    (children : List Nat) (h : sh[ei]? = some (tag, content, keys, children)) :
    (chsOf sh)[ei]? = some children := by
  simp [chsOf, h]

theorem compileChildren_cc (sh : List (List Nat × Option (List Nat) × List (List Nat) × List Nat))
    (fuel : Nat)
    (IH : ∀ (s : CState) (ei c : Nat) (s1 : CState) (j : Nat), shapeOf s.doc = sh →
      compileElement fuel s ei = .ret c s1 → SpanL (chsOf sh) [ei] ei j →
      ∃ out ccs, Emits s s1 out ∧ LayoutCC sh ei (out, ccs) ∧
        ccs.sum = ccSum (chsOf sh) ei (j - ei)) :
    ∀ (cs : List Nat) (s : CState) (c : Nat) (s1 : CState) (k j : Nat), shapeOf s.doc = sh →
      compileChildren (compileElement fuel) cs s = .ret c s1 → SpanL (chsOf sh) cs k j →
      ∃ kids : List (List Nat × List Nat), Emits s s1 (kids.map Prod.fst).flatten ∧
        List.Forall₂ (LayoutCC sh) cs kids ∧
        ((kids.map Prod.snd).flatten).sum = ccSum (chsOf sh) k (j - k) := by
  intro cs
  induction cs with
  | nil =>
    intro s c s1 k j _ h hsp
    simp only [compileChildren, Res.ret.injEq] at h
    cases hsp
    rw [← h.2]
    exact ⟨[], Emits.nil s, List.Forall₂.nil, by simp [ccSum]⟩
  | cons x cs ih =>
    intro s c s1 k j hs h hsp
    simp only [compileChildren] at h
    cases hsp with
    | cons _ m _ _ kidsx hx hk hr =>
      cases hc : compileElement fuel s x with
      | ub => rw [hc] at h; cases h
      | nofuel => rw [hc] at h; cases h
      | ret c2 s2 =>
        rw [hc] at h
        simp only at h
        obtain ⟨out, ccs, E, L, hsum⟩ := IH s x c2 s2 m hs hc
          (SpanL.cons x m m [] kidsx hx hk (SpanL.nil m))
        obtain ⟨kids, E2, L2, hsum2⟩ := ih s2 c s1 m j (E.1.trans hs) h hr
        have l1 := (SpanL_le hk).1
        have l2 := (SpanL_le hr).1
        refine ⟨(out, ccs) :: kids, by simpa using E.trans E2, List.Forall₂.cons L L2, ?_⟩
        simp only [List.map_cons, List.flatten_cons, List.sum_append, hsum, hsum2]
        rw [show j - x = (m - x) + (j - m) by omega, ccSum_add,
          show x + (m - x) = m by omega]

/-- The encoder on a tree whose tags are all recognized: when `compileElement`
returns, it returned 0, the bytes it wrote have the layout `LayoutCC`, and the
child-count bytes in them add up to the sum of the child counts modulo 256 of
the elements of the subtree. -/
theorem compileElement_cc (sh : List (List Nat × Option (List Nat) × List (List Nat) × List Nat))
    (hT : ∀ p ∈ sh, findTag p.1 ≠ 0xFF) (fuel : Nat) :
    ∀ (s : CState) (ei c : Nat) (s1 : CState) (j : Nat), shapeOf s.doc = sh →
      compileElement fuel s ei = .ret c s1 → SpanL (chsOf sh) [ei] ei j →
      ∃ out ccs, Emits s s1 out ∧ LayoutCC sh ei (out, ccs) ∧
        ccs.sum = ccSum (chsOf sh) ei (j - ei) := by
  induction fuel with
  | zero => intro s ei c s1 j _ h; simp [compileElement] at h
  | succ fuel ih =>
    intro s ei c s1 j hs h hsp
    unfold compileElement at h
    cases he : s.doc.elements[ei]? with
    | none => rw [he] at h; cases h
    | some e =>
      rw [he] at h
      simp only at h
      have hsh : sh[ei]? = some (e.tag, e.content, e.attrs.map (fun a => a.key), e.children) := by
        rw [← hs, shapeOf_get, he]; rfl
      have htag : findTag e.tag ≠ 0xFF := hT _ (List.mem_iff_getElem?.2 ⟨ei, hsh⟩)
      rw [if_neg htag] at h
      have hmod : findTag e.tag % 256 = findTag e.tag := by
        rcases findTag_le e.tag with h1 | h1
        · exact absurd h1 htag
        · omega
      have Ea : Emits s (emit s (findTag e.tag)) [findTag e.tag] := by
        have := Emits.emit s (findTag e.tag); rwa [hmod] at this
      have Eb := Ea.trans (Emits.emitBytes (emit s (findTag e.tag)) (e.content.getD [] ++ [0]))
      generalize hsb : emitBytes (emit s (findTag e.tag)) (e.content.getD [] ++ [0]) = sb
        at Eb h
      have Ec := Emits.emit sb e.attrs.length
      cases hca : compileAttrs ei sb.pc e.attrs.length 0 (emit sb e.attrs.length) with
      | none => rw [hca] at h; cases h
      | some sd =>
        rw [hca] at h
        simp only at h
        have hshc : (shapeOf (emit sb e.attrs.length).doc)[ei]? =
            some (e.tag, e.content, e.attrs.map (fun a => a.key), e.children) := by
          rw [Ec.1, Eb.1, hs]; exact hsh
        obtain ⟨recs, u, EP, hF, hu, hb, hlt⟩ := compileAttrs_spec ei sb.pc _ _ _ _
          e.attrs.length 0 (emit sb e.attrs.length) sd hshc (by simp)
          (by simp [emit]) hca
        have hcb : (emit sb e.attrs.length).buffer sb.pc = e.attrs.length % 256 := by
          simp [emit, setB]
        have hac : sd.buffer sb.pc = recs.length % 256 := by
          have h1 := hlt (by rw [hcb]; omega)
          rw [hcb] at hb
          omega
        have Ed : Emits sb sd ([recs.length % 256] ++ recs.flatten) := by
          obtain ⟨p1, p2, p3, p4⟩ := EP
          have hpcc : (emit sb e.attrs.length).pc = sb.pc + 1 := rfl
          refine ⟨p1.trans Ec.1, by rw [p2, hpcc]; simp; omega, fun k hk => ?_, ?_⟩
          · rw [p3 k (by rw [hpcc]; omega) (by omega)]
            exact Ec.2.2.1 k hk
          · rw [hpcc] at p4
            show segN sd.buffer sb.pc (recs.flatten.length + 1) = recs.length % 256 :: recs.flatten
            simp only [segN]
            rw [hac, p4]
        have Ee := (Eb.trans Ed).trans (Emits.emit sd e.children.length)
        have hshe : shapeOf (emit sd e.children.length).doc = sh := Ee.1.trans hs
        cases hsp with
        | cons _ m _ _ kidsx hx hk hr =>
          cases hr
          have hkx : kidsx = e.children := by
            have := chsOf_get sh ei _ _ _ _ hsh
            rw [hx] at this
            exact Option.some.inj this
          subst hkx
          obtain ⟨kids, Ek, Lk, hsum⟩ := compileChildren_cc sh fuel ih e.children
            (emit sd e.children.length) c s1 (ei + 1) j hshe h hk
          have l1 := (SpanL_le hk).1
          have L := LayoutCC.mk ei e.tag e.content _ e.children recs kids hsh htag
            (by simpa using hF) Lk
          have E := Ee.trans Ek
          have eo : [findTag e.tag] ++ (e.content.getD [] ++ [0]) ++
              ([recs.length % 256] ++ recs.flatten) ++ [e.children.length % 256] ++
              (kids.map Prod.fst).flatten =
              findTag e.tag :: (e.content.getD [] ++ [0]) ++ [recs.length % 256] ++
                recs.flatten ++ [e.children.length % 256] ++ (kids.map Prod.fst).flatten := by
            simp
          rw [eo] at E
          refine ⟨_, _, E, L, ?_⟩
          rw [List.sum_cons, hsum, show j - ei = (j - (ei + 1)) + 1 by omega]
          simp only [ccSum]
          rw [hx]
          rfl

theorem chsOf_shapeOf (doc : HDL_Document) : chsOf (shapeOf doc) = chOf doc := by
  simp [chsOf, shapeOf, chOf, List.map_map, Function.comp_def]

theorem SpanL_count {chs : List (List Nat)} {cs : List Nat} {k j : Nat} (h : SpanL chs cs k j)
    (h256 : ∀ l ∈ chs, l.length < 256) : ccSum chs k (j - k) + cs.length = j - k := by
  induction h with
  | nil k => simp [ccSum]
  | cons c m j cs kids h hk hr ih1 ih2 =>
    have l1 := (SpanL_le hk).1
    have l2 := (SpanL_le hr).1
    have hlen : kids.length < 256 := h256 kids (List.mem_iff_getElem?.2 ⟨c, h⟩)
    rw [show j - c = 1 + ((m - (c + 1)) + (j - m)) by omega, ccSum_add, ccSum_add]
    have e1 : ccSum chs c 1 = kids.length := by
      simp only [ccSum, h, Option.getD_some]
      omega
    rw [e1, show c + 1 + (m - (c + 1)) = m by omega]
    simp only [List.length_cons]
    omega

theorem chOf_updElem_same (doc : HDL_Document) (ei : Nat) (f : HDL_Element → HDL_Element)
    (hf : ∀ e, (f e).children = e.children) :
    chOf (updElem doc ei f) = chOf doc ∧
      (updElem doc ei f).elements.length = doc.elements.length := by
  unfold updElem
  cases he : doc.elements[ei]? with
  | none => exact ⟨rfl, rfl⟩
  | some e =>
    simp only [chOf, List.length_set, and_true]
    apply List.ext_getElem?
    intro i
    simp only [List.getElem?_map, List.getElem?_set]
    by_cases hi : ei = i
    · subst hi
      simp only [if_true]
      split
      · simp [he, hf]
      · rename_i hlt
        rw [List.getElem?_eq_none (by omega)]
    · simp [hi]

theorem chOf_updElem_child (doc : HDL_Document) (p n : Nat) :
    (updElem doc p (fun e => { e with children := e.children ++ [n] })).elements.length =
      doc.elements.length ∧
    (∀ i, i ≠ p →
      (chOf (updElem doc p (fun e => { e with children := e.children ++ [n] })))[i]? =
        (chOf doc)[i]?) ∧
    (chOf (updElem doc p (fun e => { e with children := e.children ++ [n] })))[p]? =
      ((chOf doc)[p]?).map (fun l => l ++ [n]) := by
  unfold updElem
  cases he : doc.elements[p]? with
  | none =>
    refine ⟨rfl, fun _ _ => rfl, ?_⟩
    simp [chOf, he]
  | some e =>
    have hlt : p < doc.elements.length := by
      rcases Nat.lt_or_ge p doc.elements.length with h | h
      · exact h
      · rw [List.getElem?_eq_none h] at he; cases he
    refine ⟨by simp, fun i hi => ?_, ?_⟩
    · simp [chOf, List.getElem?_set, Ne.symm hi]
    · have hge : doc.elements[p] = e := by
        have := List.getElem?_eq_getElem hlt
        rw [this] at he
        exact Option.some.inj he
      simp [chOf, List.getElem?_set, hlt, he, hge]

theorem parseAttribute_chOf (B : Blocks) (fuel : Nat) (st : PState) (ei c : Nat) (st1 : PState)
    (h : _HDL_ParseAttribute B fuel st ei = .ret c st1) :
    chOf st1.doc = chOf st.doc ∧ st1.doc.elements.length = st.doc.elements.length := by
  unfold _HDL_ParseAttribute at h
  have hput : ∀ a : HDL_Attr,
      chOf (updElem st.doc ei (fun e => { e with attrs := e.attrs ++ [a] })) = chOf st.doc ∧
      (updElem st.doc ei (fun e => { e with attrs := e.attrs ++ [a] })).elements.length =
        st.doc.elements.length :=
    fun a => chOf_updElem_same st.doc ei _ (fun _ => rfl)
  split at h
  · cases h
  · split at h
    · simp only [Res.ret.injEq] at h; rw [← h.2]; exact ⟨rfl, rfl⟩
    · split at h
      · split at h
        · cases h
        · simp only at h
          split at h
          · cases h
          · split at h
            · simp only [Res.ret.injEq] at h; rw [← h.2]; exact hput _
            · split at h
              · split at h
                · cases h
                · cases h
                · simp only [Res.ret.injEq] at h; rw [← h.2]; exact hput _
              · simp only [Res.ret.injEq] at h; rw [← h.2]; exact hput _
      · cases h

theorem attrLoop_chOf (B : Blocks) (fuel ei : Nat) :
    ∀ (k : Nat) (st : PState) (c : Nat) (st1 : PState) (t : Nat),
      attrLoop B fuel ei k st = .ret c (st1, t) →
      chOf st1.doc = chOf st.doc ∧ st1.doc.elements.length = st.doc.elements.length := by
  intro k
  induction k with
  | zero => intro st c st1 t h; simp [attrLoop] at h
  | succ k ih =>
    intro st c st1 t h
    unfold attrLoop at h
    split at h
    · simp only [Res.ret.injEq, Prod.mk.injEq] at h; rw [← h.2.1]; exact ⟨rfl, rfl⟩
    · split at h
      · cases h
      · split at h
        · split at h
          · split at h
            · cases h
            · split at h
              · simp only [Res.ret.injEq, Prod.mk.injEq] at h; rw [← h.2.1]; exact ⟨rfl, rfl⟩
              · simp only [Res.ret.injEq, Prod.mk.injEq] at h; rw [← h.2.1]; exact ⟨rfl, rfl⟩
          · split at h
            · simp only [Res.ret.injEq, Prod.mk.injEq] at h; rw [← h.2.1]; exact ⟨rfl, rfl⟩
            · simp only [Res.ret.injEq, Prod.mk.injEq] at h; rw [← h.2.1]; exact ⟨rfl, rfl⟩
        · split at h
          · cases h
          · cases h
          · rename_i code st2 hpa
            have h2 := parseAttribute_chOf B fuel st ei code st2 hpa
            split at h
            · simp only [Res.ret.injEq, Prod.mk.injEq] at h; rw [← h.2.1]; exact h2
            · have h3 := ih _ c st1 t h
              exact ⟨h3.1.trans h2.1, h3.2.trans h2.2⟩

theorem bodyLoop_span (B : Blocks) (ei : Nat) (rec : PState → Res PState)
    (hrec : ∀ st st1, rec st = .ret 0 st1 → ei < st.doc.elements.length →
      ElemSpec (some ei) st st1) :
    ∀ (k : Nat) (st st1 : PState), bodyLoop rec B ei k st = .ret 0 st1 →
      ei < st.doc.elements.length →
      ∀ cs, (chOf st.doc)[ei]? = some cs →
      SpanL (chOf st.doc) cs (ei + 1) st.doc.elements.length →
      st.doc.elements.length ≤ st1.doc.elements.length ∧
      (∀ i, i < ei → (chOf st1.doc)[i]? = (chOf st.doc)[i]?) ∧
      ∃ cs1, (chOf st1.doc)[ei]? = some cs1 ∧
        SpanL (chOf st1.doc) cs1 (ei + 1) st1.doc.elements.length := by
  intro k
  induction k with
  | zero => intro st st1 h; simp [bodyLoop] at h
  | succ k ih =>
    intro st st1 h hei cs hcs hsp
    have triv : st.doc.elements.length ≤ st.doc.elements.length ∧
        (∀ i, i < ei → (chOf st.doc)[i]? = (chOf st.doc)[i]?) ∧
        ∃ cs1, (chOf st.doc)[ei]? = some cs1 ∧
          SpanL (chOf st.doc) cs1 (ei + 1) st.doc.elements.length :=
      ⟨le_refl _, fun _ _ => rfl, cs, hcs, hsp⟩
    unfold bodyLoop at h
    simp only at h
    split at h
    · simp only [Res.ret.injEq, true_and] at h; rw [← h]; exact triv
    · split at h
      · cases h
      · split at h
        · split at h
          · cases h
          · split at h
            · split at h
              · split at h
                · split at h
                  · cases h
                  · split at h
                    · simp only [Res.ret.injEq, true_and] at h; rw [← h]; exact triv
                    · simp at h
                · simp at h
              · cases h
            · split at h
              · simp at h
              · split at h
                · rename_i st2 hr
                  obtain ⟨hlen, hpre, hpar, hspn⟩ := hrec st st2 hr hei
                  have hcs2 : (chOf st2.doc)[ei]? = some (cs ++ [st.doc.elements.length]) := by
                    rw [hpar ei rfl, hcs]; rfl
                  have hsp2 : SpanL (chOf st2.doc) (cs ++ [st.doc.elements.length]) (ei + 1)
                      st2.doc.elements.length :=
                    SpanL_append
                      (SpanL_congr hsp (fun i h1 h2 => hpre i h2 (by
                        intro hh; have := Option.some.inj hh; omega)))
                      hspn
                  obtain ⟨g1, g2, g3⟩ := ih st2 st1 h (by omega) _ hcs2 hsp2
                  refine ⟨by omega, fun i hi => ?_, g3⟩
                  rw [g2 i hi]
                  exact hpre i (by omega) (by
                    intro hh; have := Option.some.inj hh; omega)
                · simp at h
                · cases h
                · cases h
        · split at h
          · split at h
            · split at h
              · rename_i blk element hg he hcn
                have hu := chOf_updElem_same st.doc ei
                  (fun e => { e with content := some blk }) (fun _ => rfl)
                obtain ⟨g1, g2, g3⟩ := ih _ st1 h (by simp only; rw [hu.2]; exact hei) cs
                  (by simp only; rw [hu.1]; exact hcs)
                  (by simp only; rw [hu.1, hu.2]; exact hsp)
                simp only [hu.1, hu.2] at g1 g2 g3
                exact ⟨g1, g2, g3⟩
              · simp at h
            · cases h
          · simp at h

theorem chOf_append_new (doc : HDL_Document) (e : HDL_Element) :
    chOf { doc with elements := doc.elements ++ [e] } = chOf doc ++ [e.children] := by
  simp [chOf]

/-- The end of `_HDL_ParseElement`, after the parent was updated. -/
theorem parseElement_tail (B : Blocks) (fuel : Nat) (parent : Option Nat) (st st1 : PState)
    (ih : ∀ (parent : Option Nat) (st st1 : PState),
      _HDL_ParseElement B fuel parent st = .ret 0 st1 →
      (∀ p, parent = some p → p < st.doc.elements.length) → ElemSpec parent st st1)
    (hpar : ∀ p, parent = some p → p < st.doc.elements.length)
    (doc1 : HDL_Document) (bi tagType : Nat)
    (d1 : doc1.elements.length = st.doc.elements.length + 1)
    (d2 : ∀ i, parent ≠ some i → (chOf doc1)[i]? = (chOf st.doc ++ [[]])[i]?)
    (d3 : ∀ p, parent = some p →
      (chOf doc1)[p]? = ((chOf st.doc ++ [[]])[p]?).map (fun l => l ++ [st.doc.elements.length]))
    (h : (if tagType = 0 then Res.ret 1 (⟨doc1, bi⟩ : PState)
          else if tagType = 1 then Res.ret 0 ⟨doc1, bi⟩
          else bodyLoop (fun s => _HDL_ParseElement B fuel (some st.doc.elements.length) s)
            B st.doc.elements.length fuel ⟨doc1, bi⟩) = .ret 0 st1) :
    ElemSpec parent st st1 := by
  have hn : st.doc.elements.length = (chOf st.doc).length := by simp [chOf]
  have hnew : (chOf doc1)[st.doc.elements.length]? = some [] := by
    rw [d2 _ (fun hh => by have := hpar _ hh; omega), hn]
    simp
  have hold : ∀ i, i < st.doc.elements.length →
      (chOf st.doc ++ [[]])[i]? = (chOf st.doc)[i]? := by
    intro i hi
    rw [List.getElem?_append_left (by rw [← hn]; exact hi)]
  split at h
  · simp at h
  · split at h
    · -- short tag
      simp only [Res.ret.injEq, true_and] at h
      rw [← h]
      refine ⟨by simp only; omega, fun i hi hp => by simp only; rw [d2 i hp, hold i hi],
        fun p hp => by simp only; rw [d3 p hp, hold p (hpar p hp)], ?_⟩
      simp only
      rw [d1]
      exact SpanL.cons _ _ _ [] [] hnew (SpanL.nil _) (SpanL.nil _)
    · -- long tag
      obtain ⟨g1, g2, cs1, g3, g4⟩ := bodyLoop_span B st.doc.elements.length
        (fun s => _HDL_ParseElement B fuel (some st.doc.elements.length) s)
        (fun s s1 hs hlt => ih _ s s1 hs (fun p hp => by
          have := Option.some.inj hp; omega))
        fuel ⟨doc1, bi⟩ st1 h (by simp only; omega) [] hnew
        (by simp only; rw [d1]; exact SpanL.nil _)
      simp only at g1 g2
      refine ⟨by omega, fun i hi hp => by rw [g2 i hi, d2 i hp, hold i hi],
        fun p hp => by rw [g2 p (hpar p hp), d3 p hp, hold p (hpar p hp)], ?_⟩
      exact SpanL.cons _ _ _ [] cs1 g3 g4 (SpanL.nil _)

theorem parseElement_span (B : Blocks) (fuel : Nat) :
    ∀ (parent : Option Nat) (st st1 : PState),
      _HDL_ParseElement B fuel parent st = .ret 0 st1 →
      (∀ p, parent = some p → p < st.doc.elements.length) → ElemSpec parent st st1 := by
  induction fuel with
  | zero => intro parent st st1 h; simp [_HDL_ParseElement] at h
  | succ fuel ih =>
    intro parent st st1 h hpar
    unfold _HDL_ParseElement at h
    simp only at h
    split at h
    · cases h
    · split at h
      · simp at h
      · split at h
        · cases h
        · split at h
          · cases h
          · split at h
            · cases h
            · rename_i tag _ _
              split at h
              · cases h
              · cases h
              · rename_i code sa tagType hal
                obtain ⟨ha1, ha2⟩ := attrLoop_chOf B fuel _ fuel _ code sa tagType hal
                simp only [chOf_append_new, List.length_append, List.length_cons,
                  List.length_nil, Nat.zero_add] at ha1 ha2
                split at h
                · simp at h
                · cases parent with
                  | none =>
                    simp only at h
                    obtain ⟨u1, u2⟩ := chOf_updElem_same sa.doc st.doc.elements.length
                      (fun e => { e with parent := -1 }) (fun _ => rfl)
                    exact parseElement_tail B fuel none st st1 ih hpar _ _ tagType
                      (by rw [u2, ha2]) (fun i _ => by rw [u1, ha1])
                      (fun p hp => by cases hp) h
                  | some pi =>
                    simp only at h
                    obtain ⟨u1, u2, u3⟩ := chOf_updElem_child sa.doc pi st.doc.elements.length
                    exact parseElement_tail B fuel (some pi) st st1 ih hpar _ _ tagType
                      (by rw [u1, ha2])
                      (fun i hi => by rw [u2 i (fun hh => hi (by rw [hh])), ha1])
                      (fun p hp => by
                        have := Option.some.inj hp
                        subst this
                        rw [u3, ha1]) h

theorem syncVar_elements (doc : HDL_Document) (dst : Option Nat) (out : Slot) :
    (syncVar doc dst out).elements = doc.elements := by
  unfold syncVar
  split
  · rfl
  · split <;> rfl

theorem parseImageFromPath_elements (L : Loader) (B : Blocks) (doc : HDL_Document) (k : Nat)
    (bmp : HDL_Bitmap) (bi : Nat) :
    KeepsElems doc.elements (_HDL_ParseImageFromPath L B doc k bmp bi) := by
  intro c s h
  unfold _HDL_ParseImageFromPath at h
  split at h
  · cases h
  · split at h
    · cases h
    · split at h
      · cases h; rfl
      · cases h; rfl

theorem parseImage_elements (L : Loader) (B : Blocks) (fuel : Nat) (st : PState) :
    KeepsElems st.doc.elements (_HDL_ParseImage L B fuel st) := by
  intro c s h
  unfold _HDL_ParseImage at h
  lift_lets at h
  extract_lets bi k bmp0 src doc fin bi1 at h
  have hfin : ∀ code b i, KeepsElems st.doc.elements (fin code b i) := by
    intro code b i c s h; cases h; rfl
  have hpath : ∀ b i, KeepsElems st.doc.elements (_HDL_ParseImageFromPath L B doc k b i) :=
    fun b i => parseImageFromPath_elements L B doc k b i
  clear_value fin doc bmp0 bi bi1
  by_cases h1 : st.doc.bitmaps.length ≥ 65528
  · rw [if_pos h1] at h; cases h
  · rw [if_neg h1] at h
    generalize hA : B.c0 bi = a at h
    generalize hB : (if Option.all isDelimiter a = true then some [] else B.get bi) = b at h
    cases a with
    | none => cases h
    | some ca =>
      cases b with
      | none => cases h
      | some name =>
        simp only at h
        by_cases d1 : isDelimiter ca = true
        · rw [if_pos d1] at h; exact hfin _ _ _ c s h
        rw [if_neg d1] at h
        by_cases d2 : name.length ≥ 32
        · rw [if_pos d2] at h; cases h
        rw [if_neg d2] at h
        generalize B.c0 bi1 = x1 at h
        cases x1 with
        | none => cases h
        | some c1 =>
          simp only at h
          by_cases d3 : c1 = 34
          · rw [if_pos d3] at h; exact hpath _ _ c s h
          rw [if_neg d3] at h
          by_cases d4 : c1 ≠ 40
          · rw [if_pos d4] at h; exact hfin _ _ _ c s h
          rw [if_neg d4] at h
          generalize B.get (bi1 + 1) = x2 at h
          generalize B.c0 (bi1 + 2) = x3 at h
          cases x2 with
          | none => cases h
          | some w =>
            cases x3 with
            | none => cases h
            | some comma =>
              simp only at h
              by_cases d5 : comma ≠ 44
              · rw [if_pos d5] at h; exact hfin _ _ _ c s h
              rw [if_neg d5] at h
              generalize B.get (bi1 + 3) = x4 at h
              generalize B.c0 (bi1 + 4) = x5 at h
              cases x4 with
              | none => cases h
              | some hh =>
                cases x5 with
                | none => cases h
                | some c4 =>
                  simp only at h
                  generalize (if c4 = 44 then _ else _ : Res (HDL_Bitmap × Nat)) = sp at h
                  cases sp with
                  | ub => cases h
                  | nofuel => cases h
                  | ret code p =>
                    obtain ⟨bmp, bj⟩ := p
                    simp only at h
                    by_cases d6 : code ≠ 0
                    · rw [if_pos d6] at h; exact hfin _ _ _ c s h
                    rw [if_neg d6] at h
                    generalize B.c0 bj = x6 at h
                    cases x6 with
                    | none => cases h
                    | some c6 =>
                      simp only at h
                      by_cases d7 : c6 ≠ 41
                      · rw [if_pos d7] at h; exact hfin _ _ _ c s h
                      rw [if_neg d7] at h
                      generalize B.c0 (bj + 1) = x7 at h
                      cases x7 with
                      | none => cases h
                      | some c7 =>
                        simp only at h
                        by_cases d8 : c7 = 34
                        · rw [if_pos d8] at h; exact hpath _ _ c s h
                        rw [if_neg d8] at h
                        generalize bitBlocks B bmp.width _ _ fuel (bj + 1) _ = bb at h
                        cases bb with
                        | ub => cases h
                        | nofuel => cases h
                        | ret code2 p2 =>
                          obtain ⟨bk, l⟩ := p2
                          simp only at h
                          exact hfin _ _ _ c s h

theorem parseVariable_elements (L : Loader) (B : Blocks) (fuel : Nat) (st : PState) :
    KeepsElems st.doc.elements (_HDL_ParseVariable L B fuel st) := by
  intro c s h
  unfold _HDL_ParseVariable at h
  simp only at h
  generalize B.get (st.blockIndex + 1) = x0 at h
  cases x0 with
  | none => cases h
  | some kw =>
    simp only at h
    by_cases d1 : kw = str "const"
    · rw [if_pos d1] at h
      by_cases d2 : st.doc.vars.length ≥ 65520
      · rw [if_pos d2] at h; cases h
      rw [if_neg d2] at h
      generalize B.c0 (st.blockIndex + 1 + 1) = x1 at h
      generalize (if Option.all isDelimiter x1 = true then some []
        else B.get (st.blockIndex + 1 + 1)) = x2 at h
      cases x1 with
      | none => cases h
      | some c1 =>
        cases x2 with
        | none => cases h
        | some name =>
          simp only at h
          by_cases d3 : isDelimiter c1 = true
          · rw [if_pos d3] at h; cases h; rfl
          rw [if_neg d3] at h
          by_cases d4 : name.length ≥ 32
          · rw [if_pos d4] at h; cases h
          rw [if_neg d4] at h
          generalize _HDL_ParseValue B fuel _ _ _ _ = pv at h
          cases pv with
          | ub => cases h
          | nofuel => cases h
          | ret code p =>
            obtain ⟨bi2, out⟩ := p
            simp only at h
            by_cases d5 : code ≠ 0
            · rw [if_pos d5] at h; cases h
              simp only [syncVar_elements]
            · rw [if_neg d5] at h; cases h
              simp only [syncVar_elements]
    · rw [if_neg d1] at h
      by_cases d2 : kw = str "img"
      · rw [if_pos d2] at h
        have hk := parseImage_elements L B fuel ⟨st.doc, st.blockIndex + 1⟩
        generalize _HDL_ParseImage L B fuel ⟨st.doc, st.blockIndex + 1⟩ = pi at h hk
        cases pi with
        | ub => cases h
        | nofuel => cases h
        | ret code s2 =>
          have e := hk code s2 rfl
          cases code with
          | zero => simp only at h; cases h; exact e
          | succ n => simp only at h; cases h; exact e
      · rw [if_neg d2] at h; cases h; rfl

theorem parseBlocksLoop_tree (L : Loader) (B : Blocks) (fuel : Nat) :
    ∀ (n : Nat) (root : Bool) (st st1 : PState),
      parseBlocksLoop L B fuel n root st = .ret 0 st1 →
      (if root then IsTree st.doc else st.doc.elements = []) →
      st1.doc.elements = [] ∨ IsTree st1.doc := by
  intro n
  induction n with
  | zero => intro root st st1 h; simp [parseBlocksLoop] at h
  | succ n ih =>
    intro root st st1 h hinv
    have hfin : st.doc.elements = [] ∨ IsTree st.doc := by
      cases root with
      | false => exact Or.inl (by simpa using hinv)
      | true => exact Or.inr (by simpa using hinv)
    unfold parseBlocksLoop at h
    simp only at h
    by_cases d0 : ¬ st.blockIndex < B.block_count
    · rw [if_pos d0] at h; cases h; exact hfin
    rw [if_neg d0] at h
    generalize B.c0 st.blockIndex = x0 at h
    cases x0 with
    | none => cases h
    | some c =>
      simp only at h
      by_cases d1 : c = 35
      · rw [if_pos d1] at h
        have hk := parseVariable_elements L B fuel st
        generalize _HDL_ParseVariable L B fuel st = pv at h hk
        cases pv with
        | ub => cases h
        | nofuel => cases h
        | ret code s2 =>
          have e := hk code s2 rfl
          cases code with
          | zero =>
            simp only at h
            refine ih root s2 st1 h ?_
            unfold IsTree chOf at hinv ⊢
            rw [e]; exact hinv
          | succ k => simp only at h; cases h
      rw [if_neg d1] at h
      by_cases d2 : c = 60
      · rw [if_pos d2] at h
        cases root with
        | true => simp at h
        | false =>
          simp only [Bool.false_eq_true, if_false] at h hinv
          have hk := parseElement_span B fuel none st
          generalize _HDL_ParseElement B fuel none st = pe at h hk
          cases pe with
          | ub => cases h
          | nofuel => cases h
          | ret code s2 =>
            cases code with
            | zero =>
              simp only at h
              obtain ⟨_, _, _, hsp⟩ := hk s2 rfl (fun p hp => by cases hp)
              refine ih true s2 st1 h ?_
              simp only [if_true]
              rw [hinv] at hsp
              exact hsp
            | succ k => simp only at h; cases h
      rw [if_neg d2] at h
      generalize (if c = 47 then B.c1 st.blockIndex else some 0) = x1 at h
      cases x1 with
      | none => cases h
      | some d =>
        simp only at h
        by_cases d3 : c = 47 ∧ d = 42
        · rw [if_pos d3] at h
          generalize skipComment B (B.block_count - st.blockIndex) st.blockIndex = sk at h
          cases sk with
          | none => cases h
          | some bi1 =>
            simp only at h
            exact ih root _ st1 h hinv
        · rw [if_neg d3] at h; cases h

/-- The document of a successful parse is empty or a tree. -/
theorem parse_tree (L : Loader) (fuel : Nat) (data : List Nat) (doc : HDL_Document)
    (h : HDL_Parse L fuel data = .ret 0 doc) : doc.elements = [] ∨ IsTree doc := by
  unfold HDL_Parse at h
  generalize _HDL_ParseDataToBlocks data = sp at h
  cases sp with
  | ub => cases h
  | nofuel => cases h
  | ret e1 B =>
    simp only at h
    have hk := parseBlocksLoop_tree L B fuel fuel false ⟨⟨[], [], []⟩, 0⟩
    unfold _HDL_ParseBlocks at h
    generalize parseBlocksLoop L B fuel fuel false ⟨⟨[], [], []⟩, 0⟩ = pb at h hk
    cases pb with
    | ub => cases h
    | nofuel => cases h
    | ret e2 st =>
      simp only [Res.ret.injEq] at h
      obtain ⟨hc, hd⟩ := h
      have he2 : e2 = 0 := by
        by_contra hne
        rw [if_pos (Or.inr hne)] at hc
        cases hc
      subst he2
      rw [← hd]
      exact hk st rfl (by simp)

theorem parse_kids (L : Loader) (fuel : Nat) :
    HDL_Parse L (fuel + 4) (str "<box><box/><text>hi</text></box>") = .ret 0 kidsDoc := by
  rfl

/-- Claim C13, amended: for every source that parses (return value 0) and
whose document is encoded (`compile` returns 0), if every element's tag is in
the tag table and no element has more than 255 children, then the bytes of the
element tree (from the cursor after the bitmap records to the final cursor)
have the layout `LayoutCC`, and the child-count bytes in them add up to the
number of elements minus one. -/
theorem child_count_sum (L : Loader) (fuel : Nat) (src : List Nat) (doc : HDL_Document)
    (fuel2 : Nat) (buffer : Nat → Nat) (s1 : CState)
    (hp : HDL_Parse L fuel src = .ret 0 doc)
    (hc : compile fuel2 ⟨doc, buffer, 0⟩ = .ret 0 s1)
    (hT : ∀ e ∈ doc.elements, findTag e.tag ≠ 0xFF)
    (h256 : ∀ e ∈ doc.elements, e.children.length < 256) :
    ∃ s0 sb ccs, s0.pc = 16 ∧ compileBitmaps doc.bitmaps s0 = some sb ∧
      compileElement fuel2 sb 0 = .ret 0 s1 ∧
      LayoutCC (shapeOf doc) 0 (seg s1.buffer sb.pc s1.pc, ccs) ∧
      ccs.sum = doc.elements.length - 1 := by
  unfold compile at hc
  simp only at hc
  generalize hs0 : compileHeader { doc := doc, buffer := buffer, pc := 0 } = s0 at hc
  have hpc0 : s0.pc = 16 := by rw [← hs0]; rfl
  have hdoc0 : s0.doc = doc := by rw [← hs0]; rfl
  rw [hdoc0] at hc
  cases hb : compileBitmaps doc.bitmaps s0 with
  | none => rw [hb] at hc; cases hc
  | some sb =>
    rw [hb] at hc
    simp only at hc
    cases he : compileElement fuel2 sb 0 with
    | ub => rw [he] at hc; cases hc
    | nofuel => rw [he] at hc; cases hc
    | ret c s2 =>
      rw [he] at hc
      have hc0 : c = 0 ∧ s2 = s1 := by
        cases c with
        | zero => simp only [Res.ret.injEq, true_and] at hc; exact ⟨rfl, hc⟩
        | succ n => simp at hc
      obtain ⟨hc1, hs2⟩ := hc0
      subst hc1; subst hs2
      have hs : shapeOf sb.doc = shapeOf doc := by
        rw [(compileBitmaps_frame _ _ _ hb).1, hdoc0]
      obtain ⟨e, hel, _⟩ := compileElement_code fuel2 sb 0 0 s2 he
      have hne : doc.elements ≠ [] := by
        intro hnil
        have h1 : (shapeOf sb.doc)[0]? = none := by rw [hs]; simp [shapeOf, hnil]
        rw [shapeOf_get, hel] at h1
        cases h1
      have htree : IsTree doc := by
        rcases parse_tree L fuel src doc hp with h | h
        · exact absurd h hne
        · exact h
      have hT2 : ∀ p ∈ shapeOf doc, findTag p.1 ≠ 0xFF := by
        intro p hp
        simp only [shapeOf, List.mem_map] at hp
        obtain ⟨e1, hm, rfl⟩ := hp
        exact hT e1 hm
      have h2562 : ∀ l ∈ chOf doc, l.length < 256 := by
        intro l hl
        simp only [chOf, List.mem_map] at hl
        obtain ⟨e1, hm, rfl⟩ := hl
        exact h256 e1 hm
      unfold IsTree at htree
      obtain ⟨out, ccs, E, Lc, hsum⟩ := compileElement_cc (shapeOf doc) hT2 fuel2 sb 0 0 s2
        doc.elements.length hs he (by rw [chsOf_shapeOf]; exact htree)
      have hcount := SpanL_count htree h2562
      rw [chsOf_shapeOf] at hsum
      refine ⟨s0, sb, ccs, hpc0, hb, he, by rw [E.seg]; exact Lc, ?_⟩
      rw [hsum]
      simp only [List.length_cons, List.length_nil] at hcount
      omega

/-- Witness of claim C13 (amended) on `<box><box/><text>hi</text></box>`:
three elements, child-count bytes 2, 0 and 0. -/
theorem child_count_sum_witness :
    ∃ doc s1 s0 sb ccs,
      HDL_Parse noLoader 4 (str "<box><box/><text>hi</text></box>") = .ret 0 doc ∧
      compile 2 ⟨doc, zeroBuf, 0⟩ = .ret 0 s1 ∧ s0.pc = 16 ∧
      compileBitmaps doc.bitmaps s0 = some sb ∧ compileElement 2 sb 0 = .ret 0 s1 ∧
      LayoutCC (shapeOf doc) 0 (seg s1.buffer sb.pc s1.pc, ccs) ∧ ccs.sum = 3 - 1 := by
  obtain ⟨s0, sb, ccs, h1, h2, h3, h4, h5⟩ := child_count_sum noLoader 4
    (str "<box><box/><text>hi</text></box>") kidsDoc 2 zeroBuf _ (parse_kids noLoader 0) rfl
    (by decide) (by decide)
  exact ⟨kidsDoc, _, s0, sb, ccs, parse_kids noLoader 0, rfl, h1, h2, h3, h4, h5⟩

theorem joinZ_append (u v : List (List Nat)) : joinZ (u ++ v) = joinZ u ++ joinZ v := by
  induction u with
  | nil => rfl
  | cons x t ih => simp [joinZ, ih]

theorem offsets_length (ws : List (List Nat)) : ∀ o, (offsets o ws).length = ws.length + 1 := by
  induction ws with
  | nil => intro o; rfl
  | cons x t ih => intro o; simp [offsets, ih]

theorem offsets_snoc (ws : List (List Nat)) (w : List Nat) :
    ∀ o, offsets o (ws ++ [w]) = offsets o ws ++ [o + (joinZ ws).length + w.length + 1] := by
  induction ws with
  | nil => intro o; simp [offsets, joinZ]
  | cons x t ih =>
    intro o
    show o :: offsets (o + x.length + 1) (t ++ [w]) =
      o :: offsets (o + x.length + 1) t ++ [o + (joinZ (x :: t)).length + w.length + 1]
    rw [ih]
    have e : o + x.length + 1 + (joinZ t).length + w.length + 1 =
        o + (joinZ (x :: t)).length + w.length + 1 := by
      simp only [joinZ, List.length_append, List.length_cons]
      omega
    rw [e]
    rfl

/-- The splitter on one `<box/>` after a `>`. -/
theorem split_leaf_raw (dalloc : Nat) (rest d blks : List Nat) (alloc : Nat)
    (h4 : blks.length % 4 = 1) (ha : alloc % 4 = 0) (hlt : blks.length < alloc)
    (hcap : d.length + 12 ≤ dalloc) :
    ∃ alloc1, alloc1 % 4 = 0 ∧ blks.length + 4 < alloc1 ∧
      splitLoop dalloc (str "<box/>" ++ rest) ⟨d, blks, alloc, 62, 0, 3⟩ =
        splitLoop dalloc rest
          ⟨d ++ [60, 0, 98, 111, 120, 0, 47, 0, 62, 0],
           blks ++ [d.length + 2, d.length + 6, d.length + 8, d.length + 10], alloc1, 62, 0, 3⟩ := by
  have e : str "<box/>" = [60, 98, 111, 120, 47, 62] := by decide
  rw [e]
  simp only [List.cons_append, List.nil_append]
  have s1 : splitChar ⟨d, blks, alloc, 62, 0, 3⟩ 60 =
      some ⟨d ++ [60, 0], blks ++ [d.length + 2], alloc, 60, 0, 0⟩ := by
    simp [splitChar, quoteStep, splitFinish, pushBlock, isWhitespace, isDelimiter, delimiters,
      hlt]
  have s2 : ∀ (dd : List Nat) (l b c : Nat), l ≠ 92 → plainChar c = true →
      splitChar ⟨dd, blks ++ [d.length + 2], alloc, l, b, 0⟩ c =
        some ⟨dd ++ [c], blks ++ [d.length + 2], alloc, c, b + 1, 0⟩ := by
    intro dd l b c hl hc
    obtain ⟨h0, hdl, hw, h39, h34, h92, h60, h62, h10, h32⟩ := plainChar_facts c hc
    simp [splitChar, quoteStep, splitFinish, hl, hdl, hw, h39, h34, h60, h62]
  rw [splitLoop_cons dalloc _ _ _ _ (by simp; omega) s1]
  rw [splitLoop_cons dalloc _ _ _ _ (by simp; omega) (s2 _ _ _ 98 (by decide) (by decide))]
  rw [splitLoop_cons dalloc _ _ _ _ (by simp; omega) (s2 _ _ _ 111 (by decide) (by decide))]
  rw [splitLoop_cons dalloc _ _ _ _ (by simp; omega) (s2 _ _ _ 120 (by decide) (by decide))]
  by_cases hre : alloc - 2 ≤ blks.length + 1
  · refine ⟨alloc + 32, by omega, by omega, ?_⟩
    have s3 : splitChar ⟨d ++ [60, 0] ++ [98] ++ [111] ++ [120], blks ++ [d.length + 2], alloc,
        120, 0 + 1 + 1 + 1, 0⟩ 47 =
        some ⟨d ++ [60, 0, 98, 111, 120, 0, 47, 0],
          blks ++ [d.length + 2, d.length + 6, d.length + 8], alloc + 32, 47, 0, 0⟩ := by
      have h1 : blks.length + 1 < alloc + 32 := by omega
      have h2 : blks.length + 1 + 1 < alloc + 32 := by omega
      simp [splitChar, quoteStep, splitFinish, pushBlock, isWhitespace, isDelimiter, delimiters,
        HDL_BLOCKBUFFER_REALLOC_SIZE, hre, h1, h2]
    rw [splitLoop_cons dalloc _ _ _ _ (by simp; omega) s3]
    have s4 : splitChar ⟨d ++ [60, 0, 98, 111, 120, 0, 47, 0],
        blks ++ [d.length + 2, d.length + 6, d.length + 8], alloc + 32, 47, 0, 0⟩ 62 =
        some ⟨d ++ [60, 0, 98, 111, 120, 0, 47, 0, 62, 0],
          blks ++ [d.length + 2, d.length + 6, d.length + 8, d.length + 10], alloc + 32,
          62, 0, 3⟩ := by
      have h3 : blks.length + 3 < alloc + 32 := by omega
      simp [splitChar, quoteStep, splitFinish, pushBlock, isWhitespace, isDelimiter, delimiters,
        h3]
    rw [splitLoop_cons dalloc _ _ _ _ (by simp; omega) s4]
  · refine ⟨alloc, ha, by omega, ?_⟩
    have s3 : splitChar ⟨d ++ [60, 0] ++ [98] ++ [111] ++ [120], blks ++ [d.length + 2], alloc,
        120, 0 + 1 + 1 + 1, 0⟩ 47 =
        some ⟨d ++ [60, 0, 98, 111, 120, 0, 47, 0],
          blks ++ [d.length + 2, d.length + 6, d.length + 8], alloc, 47, 0, 0⟩ := by
      have h1 : blks.length + 1 < alloc := by omega
      have h2 : blks.length + 1 + 1 < alloc := by omega
      simp [splitChar, quoteStep, splitFinish, pushBlock, isWhitespace, isDelimiter, delimiters,
        HDL_BLOCKBUFFER_REALLOC_SIZE, hre, h1, h2]
    rw [splitLoop_cons dalloc _ _ _ _ (by simp; omega) s3]
    have s4 : splitChar ⟨d ++ [60, 0, 98, 111, 120, 0, 47, 0],
        blks ++ [d.length + 2, d.length + 6, d.length + 8], alloc, 47, 0, 0⟩ 62 =
        some ⟨d ++ [60, 0, 98, 111, 120, 0, 47, 0, 62, 0],
          blks ++ [d.length + 2, d.length + 6, d.length + 8, d.length + 10], alloc,
          62, 0, 3⟩ := by
      have h3 : blks.length + 3 < alloc := by omega
      simp [splitChar, quoteStep, splitFinish, pushBlock, isWhitespace, isDelimiter, delimiters,
        h3]
    rw [splitLoop_cons dalloc _ _ _ _ (by simp; omega) s4]

theorem flatten_replicate_length {α : Type} (n : Nat) (x : List α) :
    (List.replicate n x).flatten.length = n * x.length := by
  induction n with
  | zero => simp
  | succ n ih => simp [List.replicate_succ, ih, Nat.succ_mul]; omega

theorem joinZ_leaf (ws : List (List Nat)) :
    joinZ (ws ++ leafWords) = joinZ ws ++ [60, 0, 98, 111, 120, 0, 47, 0, 62, 0] := by
  rw [joinZ_append]
  rfl

theorem offsets_leaf (ws : List (List Nat)) :
    offsets 0 (ws ++ leafWords) = offsets 0 ws ++
      [(joinZ ws).length + 2, (joinZ ws).length + 6, (joinZ ws).length + 8,
       (joinZ ws).length + 10] := by
  have e : ws ++ leafWords = (((ws ++ [str "<"]) ++ [str "box"]) ++ [str "/"]) ++ [str ">"] := by
    simp [leafWords]
  rw [e, offsets_snoc, offsets_snoc, offsets_snoc, offsets_snoc]
  simp only [joinZ_append, List.length_append]
  have l1 : (str "<").length = 1 := rfl
  have l2 : (str "box").length = 3 := rfl
  have l3 : (str "/").length = 1 := rfl
  have l4 : (str ">").length = 1 := rfl
  have j1 : (joinZ [str "<"]).length = 2 := rfl
  have j2 : (joinZ [str "box"]).length = 4 := rfl
  have j3 : (joinZ [str "/"]).length = 2 := rfl
  simp only [l1, l2, l3, l4, j1, j2, j3, List.append_assoc, List.cons_append, List.nil_append,
    Nat.zero_add]

theorem split_leaves (dalloc : Nat) (rest : List Nat) :
    ∀ (n : Nat) (ws : List (List Nat)) (alloc : Nat),
      ws.length % 4 = 0 → alloc % 4 = 0 → ws.length + 1 < alloc →
      (joinZ ws).length + 10 * n + 2 ≤ dalloc →
      ∃ alloc1, alloc1 % 4 = 0 ∧ ws.length + 4 * n + 1 < alloc1 ∧
        splitLoop dalloc ((List.replicate n (str "<box/>")).flatten ++ rest)
            ⟨joinZ ws, offsets 0 ws, alloc, 62, 0, 3⟩ =
          splitLoop dalloc rest
            ⟨joinZ (ws ++ (List.replicate n leafWords).flatten),
             offsets 0 (ws ++ (List.replicate n leafWords).flatten), alloc1, 62, 0, 3⟩ := by
  intro n
  induction n with
  | zero =>
    intro ws alloc _ ha hlt _
    exact ⟨alloc, ha, by omega, by simp⟩
  | succ n ih =>
    intro ws alloc h4 ha hlt hcap
    obtain ⟨a1, ha1, hlt1, hs⟩ := split_leaf_raw dalloc
      ((List.replicate n (str "<box/>")).flatten ++ rest) (joinZ ws) (offsets 0 ws) alloc
      (by rw [offsets_length]; omega) ha (by rw [offsets_length]; exact hlt) (by omega)
    rw [offsets_length] at hlt1
    have hw : (ws ++ leafWords).length = ws.length + 4 := by simp [leafWords]
    obtain ⟨a2, ha2, hlt2, hs2⟩ := ih (ws ++ leafWords) a1 (by rw [hw]; omega) ha1
      (by rw [hw]; omega)
      (by rw [joinZ_leaf]; simp only [List.length_append, List.length_cons, List.length_nil]
          omega)
    refine ⟨a2, ha2, by rw [hw] at hlt2; omega, ?_⟩
    rw [List.replicate_succ, List.flatten_cons, List.append_assoc, hs, ← joinZ_leaf,
      ← offsets_leaf, hs2]
    simp [List.replicate_succ]

theorem split_box_head (dalloc : Nat) (rest : List Nat) (hd : 13 ≤ dalloc) :
    splitLoop dalloc (str "<box x>" ++ rest) ⟨[], [0], HDL_BLOCKBUFFER_REALLOC_SIZE, 32, 0, 0⟩ =
      splitLoop dalloc rest
        ⟨joinZ [str "<", str "box", str "x", str ">"],
         offsets 0 [str "<", str "box", str "x", str ">"], 32, 62, 0, 3⟩ := by
  have e : str "<box x>" = [60, 98, 111, 120, 32, 120, 62] := by decide
  rw [e]
  simp only [List.cons_append, List.nil_append]
  rw [splitLoop_cons dalloc _ _ _ ⟨[60, 0], [0, 2], 32, 60, 0, 0⟩ (by simp; omega) (by decide)]
  rw [splitLoop_cons dalloc _ _ _ ⟨[60, 0, 98], [0, 2], 32, 98, 1, 0⟩ (by simp; omega)
    (by decide)]
  rw [splitLoop_cons dalloc _ _ _ ⟨[60, 0, 98, 111], [0, 2], 32, 111, 2, 0⟩ (by simp; omega)
    (by decide)]
  rw [splitLoop_cons dalloc _ _ _ ⟨[60, 0, 98, 111, 120], [0, 2], 32, 120, 3, 0⟩
    (by simp; omega) (by decide)]
  rw [splitLoop_cons dalloc _ _ _ ⟨[60, 0, 98, 111, 120, 0], [0, 2, 6], 32, 32, 0, 0⟩
    (by simp; omega) (by decide)]
  rw [splitLoop_cons dalloc _ _ _ ⟨[60, 0, 98, 111, 120, 0, 120], [0, 2, 6], 32, 120, 1, 0⟩
    (by simp; omega) (by decide)]
  rw [splitLoop_cons dalloc _ _ _
    ⟨[60, 0, 98, 111, 120, 0, 120, 0, 62, 0], [0, 2, 6, 8, 10], 32, 62, 0, 3⟩
    (by simp; omega) (by decide)]
  rfl

/-- The splitter on the closing tag `</box>` after a `>`. -/
theorem split_box_close (dalloc : Nat) (d blks : List Nat) (alloc : Nat)
    (h4 : blks.length % 4 = 1) (ha : alloc % 4 = 0) (hlt : blks.length < alloc)
    (hcap : d.length + 12 ≤ dalloc) :
    ∃ alloc1, splitLoop dalloc (str "</box>") ⟨d, blks, alloc, 62, 0, 3⟩ =
      .ret 0 ⟨d ++ [60, 0, 47, 0, 98, 111, 120, 0, 62, 0],
        blks ++ [d.length + 2, d.length + 4, d.length + 8, d.length + 10], alloc1, 62, 0, 3⟩ := by
  have e : str "</box>" = [60, 47, 98, 111, 120, 62] := by decide
  rw [e]
  have s1 : splitChar ⟨d, blks, alloc, 62, 0, 3⟩ 60 =
      some ⟨d ++ [60, 0], blks ++ [d.length + 2], alloc, 60, 0, 0⟩ := by
    simp [splitChar, quoteStep, splitFinish, pushBlock, isWhitespace, isDelimiter, delimiters,
      hlt]
  have s2 : splitChar ⟨d ++ [60, 0], blks ++ [d.length + 2], alloc, 60, 0, 0⟩ 47 =
      some ⟨d ++ [60, 0, 47, 0], blks ++ [d.length + 2, d.length + 4], alloc, 47, 0, 0⟩ := by
    have h1 : blks.length + 1 < alloc := by omega
    simp [splitChar, quoteStep, splitFinish, pushBlock, isWhitespace, isDelimiter, delimiters,
      h1]
  have s3 : ∀ (dd : List Nat) (l b c : Nat), l ≠ 92 → plainChar c = true →
      splitChar ⟨dd, blks ++ [d.length + 2, d.length + 4], alloc, l, b, 0⟩ c =
        some ⟨dd ++ [c], blks ++ [d.length + 2, d.length + 4], alloc, c, b + 1, 0⟩ := by
    intro dd l b c hl hc
    obtain ⟨h0, hdl, hw, h39, h34, h92, h60, h62, h10, h32⟩ := plainChar_facts c hc
    simp [splitChar, quoteStep, splitFinish, hl, hdl, hw, h39, h34, h60, h62]
  rw [splitLoop_cons dalloc _ _ _ _ (by simp; omega) s1]
  rw [splitLoop_cons dalloc _ _ _ _ (by simp; omega) s2]
  rw [splitLoop_cons dalloc _ _ _ _ (by simp; omega) (s3 _ _ _ 98 (by decide) (by decide))]
  rw [splitLoop_cons dalloc _ _ _ _ (by simp; omega) (s3 _ _ _ 111 (by decide) (by decide))]
  rw [splitLoop_cons dalloc _ _ _ _ (by simp; omega) (s3 _ _ _ 120 (by decide) (by decide))]
  by_cases hre : alloc - 2 ≤ blks.length + 2
  · refine ⟨alloc + 32, ?_⟩
    have s4 : splitChar ⟨d ++ [60, 0, 47, 0] ++ [98] ++ [111] ++ [120],
        blks ++ [d.length + 2, d.length + 4], alloc, 120, 0 + 1 + 1 + 1, 0⟩ 62 =
        some ⟨d ++ [60, 0, 47, 0, 98, 111, 120, 0, 62, 0],
          blks ++ [d.length + 2, d.length + 4, d.length + 8, d.length + 10], alloc + 32,
          62, 0, 3⟩ := by
      have h1 : blks.length + 2 < alloc + 32 := by omega
      have h2 : blks.length + 2 + 1 < alloc + 32 := by omega
      simp [splitChar, quoteStep, splitFinish, pushBlock, isWhitespace, isDelimiter, delimiters,
        HDL_BLOCKBUFFER_REALLOC_SIZE, hre, h1, h2]
    rw [splitLoop_cons dalloc _ _ _ _ (by simp; omega) s4]
    rfl
  · refine ⟨alloc, ?_⟩
    have s4 : splitChar ⟨d ++ [60, 0, 47, 0] ++ [98] ++ [111] ++ [120],
        blks ++ [d.length + 2, d.length + 4], alloc, 120, 0 + 1 + 1 + 1, 0⟩ 62 =
        some ⟨d ++ [60, 0, 47, 0, 98, 111, 120, 0, 62, 0],
          blks ++ [d.length + 2, d.length + 4, d.length + 8, d.length + 10], alloc,
          62, 0, 3⟩ := by
      have h1 : blks.length + 2 < alloc := by omega
      have h2 : blks.length + 2 + 1 < alloc := by omega
      simp [splitChar, quoteStep, splitFinish, pushBlock, isWhitespace, isDelimiter, delimiters,
        HDL_BLOCKBUFFER_REALLOC_SIZE, hre, h1, h2]
    rw [splitLoop_cons dalloc _ _ _ _ (by simp; omega) s4]
    rfl

/-- The splitter on `manySrc n`. -/
theorem split_many (n : Nat) :
    _HDL_ParseDataToBlocks (manySrc n) = .ret 0 (mkBlocks (manyWords n)) := by
  have hlen : (manySrc n).length = 6 * n + 13 := by
    have e1 : (str "<box x>").length = 7 := by decide
    have e2 : (str "</box>").length = 6 := by decide
    have e3 : (str "<box/>").length = 6 := by decide
    simp only [manySrc, List.length_append, flatten_replicate_length, e1, e2, e3]
    omega
  unfold _HDL_ParseDataToBlocks
  simp only [hlen]
  unfold manySrc
  rw [split_box_head _ _ (by omega)]
  obtain ⟨a1, ha1, hlt1, hs⟩ := split_leaves (2 * (6 * n + 13)) (str "</box>") n
    [str "<", str "box", str "x", str ">"] 32 (by decide) (by decide) (by decide)
    (by have : (joinZ [str "<", str "box", str "x", str ">"]).length = 10 := by decide
        rw [this]; omega)
  rw [hs]
  have hjl : (joinZ ([str "<", str "box", str "x", str ">"] ++
      (List.replicate n leafWords).flatten)).length = 10 * n + 10 := by
    rw [joinZ_append]
    have e0 : (joinZ [str "<", str "box", str "x", str ">"]).length = 10 := by decide
    have e1 : ∀ m, (joinZ (List.replicate m leafWords).flatten).length = 10 * m := by
      intro m
      induction m with
      | zero => rfl
      | succ m ih =>
        rw [List.replicate_succ, List.flatten_cons, joinZ_append, List.length_append, ih]
        have : (joinZ leafWords).length = 10 := by decide
        omega
    rw [List.length_append, e0, e1]; omega
  have hwl : ([str "<", str "box", str "x", str ">"] ++
      (List.replicate n leafWords).flatten).length = 4 * n + 4 := by
    have : leafWords.length = 4 := rfl
    simp only [List.length_append, flatten_replicate_length, this, List.length_cons,
      List.length_nil]
    omega
  obtain ⟨a2, hs2⟩ := split_box_close (2 * (6 * n + 13)) _ _ a1
    (by rw [offsets_length _ 0, hwl]; omega) ha1
    (by rw [offsets_length _ 0, hwl]; simp only [List.length_cons, List.length_nil] at hlt1; omega)
    (by rw [hjl]; omega)
  rw [hs2]
  simp only
  rw [if_pos (by simp only [List.length_append, hjl, List.length_cons, List.length_nil]; omega)]
  simp only [if_true, mkBlocks, manyWords, Res.ret.injEq, Blocks.mk.injEq, true_and]
  generalize hW : [str "<", str "box", str "x", str ">"] ++ (List.replicate n leafWords).flatten
    = W at hjl hwl ⊢
  have ec : W ++ [str "<", str "/", str "box", str ">"] =
      (((W ++ [str "<"]) ++ [str "/"]) ++ [str "box"]) ++ [str ">"] := by simp
  have l1 : (str "<").length = 1 := rfl
  have l2 : (str "box").length = 3 := rfl
  have l3 : (str "/").length = 1 := rfl
  have l4 : (str ">").length = 1 := rfl
  have j1 : (joinZ [str "<"]).length = 2 := rfl
  have j2 : (joinZ [str "box"]).length = 4 := rfl
  have j3 : (joinZ [str "/"]).length = 2 := rfl
  refine ⟨?_, ?_, ?_⟩
  · rw [joinZ_append]
    simp only [List.append_assoc, List.append_cancel_left_eq]
    rfl
  · rw [ec, offsets_snoc _ _ 0, offsets_snoc _ _ 0, offsets_snoc _ _ 0, offsets_snoc _ _ 0]
    simp only [joinZ_append, List.length_append, List.append_assoc, List.cons_append,
      List.nil_append, Nat.zero_add, l1, l2, l3, l4, j1, j2, j3]
    have j4 : (joinZ [str "<", str "/"]).length = 4 := rfl
    have j5 : (joinZ [str "<", str "/", str "box"]).length = 8 := rfl
    rw [j4, j5]
  · simp only [List.length_append, offsets_length, List.length_cons, List.length_nil]
    omega

theorem addLeaf_many (k : Nat) : addLeaf (manyDoc k) = manyDoc (k + 1) := by
  simp only [addLeaf, manyDoc, updElem, List.cons_append, List.getElem?_cons_zero,
    List.set_cons_zero, List.length_cons, List.length_replicate]
  rw [List.range'_concat, ← List.replicate_succ']
  have e : 1 + 1 * k = k + 1 := by omega
  rw [e]

theorem addLeaves_many (m : Nat) : ∀ k, addLeaves m (manyDoc k) = manyDoc (k + m) := by
  induction m with
  | zero => intro k; rfl
  | succ m ih =>
    intro k
    simp only [addLeaves, addLeaf_many, ih]
    congr 1
    omega

theorem addLeaf_facts (doc : HDL_Document) (e : HDL_Element) (h : doc.elements[0]? = some e) :
    (addLeaf doc).elements.length = doc.elements.length + 1 ∧
    ∃ e1, (addLeaf doc).elements[0]? = some e1 ∧ e1.tag = e.tag := by
  have hlt : 0 < doc.elements.length := by
    rcases Nat.lt_or_ge 0 doc.elements.length with h1 | h1
    · exact h1
    · rw [List.getElem?_eq_none h1] at h; cases h
  have h0 : (doc.elements ++ [⟨str "box", none, [], 0, []⟩])[0]? = some e := by
    rw [List.getElem?_append_left hlt]; exact h
  simp only [addLeaf, updElem, h0, List.length_set, List.length_append, List.length_cons,
    List.length_nil, true_and]
  have hl2 : 0 < (doc.elements ++ [(⟨str "box", none, [], 0, []⟩ : HDL_Element)]).length := by
    simp
  refine ⟨{ e with children := e.children ++ [doc.elements.length] },
    by rw [List.getElem?_set]; simp only [if_true, hl2], rfl⟩

/-- `_HDL_ParseElement` on the blocks `< box / >` as a child of element 0. -/
theorem parse_leaf (B : Blocks) (fuel : Nat) (doc : HDL_Document) (bi : Nat)
    (hB : BlocksAt B bi leafWords) (hlen : doc.elements.length < 65520) :
    _HDL_ParseElement B (fuel + 2) (some 0) ⟨doc, bi⟩ = .ret 0 ⟨addLeaf doc, bi + 4⟩ := by
  obtain ⟨hcnt, hget⟩ := hB
  have g1 := hget 1 (str "box") rfl
  have g2 := (hget 2 (str "/") rfl).2
  have g3 := (hget 3 (str ">") rfl).2
  have e1 : c0 (str "box") = 98 := rfl
  have e2 : c0 (str "/") = 47 := rfl
  have e3 : c0 (str ">") = 62 := rfl
  rw [e1] at g1
  rw [e2] at g2
  rw [e3] at g3
  have hc : bi + 2 < B.block_count := by
    simp only [leafWords, List.length_cons, List.length_nil] at hcnt; omega
  have a1 : bi + 1 + 1 = bi + 2 := rfl
  have a2 : bi + 2 + 1 = bi + 3 := rfl
  have a3 : bi + 2 + 2 = bi + 4 := rfl
  have d98 : isDelimiter 98 = false := by decide
  have d47 : isDelimiter 47 = true := by decide
  have l3 : (str "box").length = 3 := rfl
  unfold _HDL_ParseElement
  simp only [g1.1, g1.2, d98, Bool.false_eq_true, if_false, Nat.not_le.2 hlen, ge_iff_le, l3, a1]
  unfold attrLoop
  simp [hc, g2, g3, d47, a2, a3, addLeaf]

theorem bodyLoop_leaves (B : Blocks) (fuel : Nat) :
    ∀ (m fuelB : Nat) (doc : HDL_Document) (bi : Nat),
      BlocksAt B bi ((List.replicate m leafWords).flatten ++
        [str "<", str "/", str "box", str ">"]) →
      m < fuelB → (∃ e, doc.elements[0]? = some e ∧ e.tag = str "box") →
      doc.elements.length + m < 65520 →
      bodyLoop (fun s => _HDL_ParseElement B (fuel + 2) (some 0) s) B 0 fuelB ⟨doc, bi⟩ =
        .ret 0 ⟨addLeaves m doc, bi + 4 * m + 4⟩ := by
  intro m
  induction m with
  | zero =>
    intro fuelB doc bi hB hf hroot _
    obtain ⟨e, he, het⟩ := hroot
    cases fuelB with
    | zero => omega
    | succ k =>
      obtain ⟨hcnt, hget⟩ := hB
      have g0 := (hget 0 (str "<") rfl).2
      have g1 := (hget 1 (str "/") rfl).2
      have g2 := (hget 2 (str "box") rfl).1
      have g3 := (hget 3 (str ">") rfl).2
      have e0 : c0 (str "<") = 60 := rfl
      have e1 : c0 (str "/") = 47 := rfl
      have e3 : c0 (str ">") = 62 := rfl
      rw [e0] at g0
      rw [e1] at g1
      rw [e3] at g3
      simp only [Nat.add_zero] at g0
      have hc : bi < B.block_count := by
        simp only [List.replicate, List.flatten_nil, List.nil_append, List.length_cons,
          List.length_nil] at hcnt
        omega
      unfold bodyLoop
      simp [hc, g0, g1, g2, g3, he, het, addLeaves]
  | succ m ih =>
    intro fuelB doc bi hB hf hroot hlen
    obtain ⟨e, he, het⟩ := hroot
    cases fuelB with
    | zero => omega
    | succ k =>
      rw [List.replicate_succ, List.flatten_cons, List.append_assoc] at hB
      obtain ⟨hB1, hB2⟩ := BlocksAt_append B _ _ _ hB
      have hl4 : leafWords.length = 4 := rfl
      rw [hl4] at hB2
      have g0 := (hB1.2 0 (str "<") rfl).2
      have g1 := (hB1.2 1 (str "box") rfl).2
      have e0 : c0 (str "<") = 60 := rfl
      have e1 : c0 (str "box") = 98 := rfl
      rw [e0] at g0
      rw [e1] at g1
      simp only [Nat.add_zero] at g0
      have hc : bi < B.block_count := by
        have := hB1.1
        rw [hl4] at this
        omega
      have d98 : isDelimiter 98 = false := by decide
      obtain ⟨f1, e2, f2, f3⟩ := addLeaf_facts doc e he
      have hstep := parse_leaf B fuel doc bi hB1 (by omega)
      have hrest := ih k (addLeaf doc) (bi + 4) hB2 (by omega) ⟨e2, f2, by rw [f3, het]⟩
        (by rw [f1]; omega)
      unfold bodyLoop
      simp only [hc, not_true_eq_false, if_false, g0, if_true, g1, d98, Bool.false_eq_true,
        hstep, hrest, addLeaves]
      simp
      omega

theorem manyWords_nonzero (n : Nat) : ∀ w ∈ manyWords n, ∀ c ∈ w, c ≠ 0 := by
  intro w hw
  simp only [manyWords, List.mem_append, List.mem_flatten, List.mem_replicate] at hw
  rcases hw with (hw | ⟨l, ⟨_, rfl⟩, hw⟩) | hw
  · revert w; decide
  · revert w; decide
  · revert w; decide

theorem manyWords_length (n : Nat) : (manyWords n).length = 4 * n + 8 := by
  have : leafWords.length = 4 := rfl
  simp only [manyWords, List.length_append, flatten_replicate_length, this, List.length_cons,
    List.length_nil]
  omega

/-- The parser on the blocks of `manySrc n`. -/
theorem parseBlocks_many (L : Loader) (F n : Nat) (hF : n ≤ F) (hn : n + 1 < 65520) :
    _HDL_ParseBlocks L (mkBlocks (manyWords n)) (F + 3) ⟨[], [], []⟩ =
      .ret 0 ⟨manyDoc n, 4 * n + 8⟩ := by
  have hall : BlocksAt (mkBlocks (manyWords n)) 0 (manyWords n) := by
    have := mkBlocks_at [] (manyWords n) [] (manyWords_nonzero n)
    simpa using this
  have hcount : (mkBlocks (manyWords n)).block_count = 4 * n + 8 := manyWords_length n
  have hw : manyWords n = [str "<", str "box", str "x", str ">"] ++
      ((List.replicate n leafWords).flatten ++ [str "<", str "/", str "box", str ">"]) := by
    simp [manyWords]
  have hall2 : BlocksAt (mkBlocks (manyWords n)) 0 ([str "<", str "box", str "x", str ">"] ++
      ((List.replicate n leafWords).flatten ++ [str "<", str "/", str "box", str ">"])) := by
    rw [← hw]; exact hall
  obtain ⟨hB0, hB4⟩ := BlocksAt_append _ _ _ _ hall2
  have hl4 : [str "<", str "box", str "x", str ">"].length = 4 := rfl
  rw [hl4] at hB4
  have g0 := (hB0.2 0 (str "<") rfl).2
  have g1 := hB0.2 1 (str "box") rfl
  have g2 := hB0.2 2 (str "x") rfl
  have g3 := (hB0.2 3 (str ">") rfl).2
  have e0 : c0 (str "<") = 60 := rfl
  have e1 : c0 (str "box") = 98 := rfl
  have e2 : c0 (str "x") = 120 := rfl
  have e3 : c0 (str ">") = 62 := rfl
  rw [e0] at g0
  rw [e1] at g1
  rw [e2] at g2
  rw [e3] at g3
  simp only [Nat.zero_add] at g0 g1 g2 g3 hB4
  have hbody := bodyLoop_leaves (mkBlocks (manyWords n)) F n (F + 2) (manyDoc 0) 4 hB4
    (by omega) ⟨_, rfl, rfl⟩ (by simp [manyDoc]; omega)
  rw [addLeaves_many, Nat.zero_add] at hbody
  generalize mkBlocks (manyWords n) = B at *
  have d98 : isDelimiter 98 = false := by decide
  have d120 : isDelimiter 120 = false := by decide
  have d62 : isDelimiter 62 = true := by decide
  have l3 : (str "box").length = 3 := rfl
  have l1 : (str "x").length = 1 := rfl
  have hroot : _HDL_ParseElement B (F + 3) none ⟨⟨[], [], []⟩, 0⟩ =
      .ret 0 ⟨manyDoc n, 4 + 4 * n + 4⟩ := by
    rw [← hbody]
    rw [_HDL_ParseElement]
    simp only [Nat.zero_add, g1.1, g1.2, d98, Bool.false_eq_true, if_false, List.length_nil,
      ge_iff_le, l3, List.nil_append]
    unfold attrLoop
    have hc2 : 2 < B.block_count := by omega
    simp only [hc2, not_true_eq_false, if_false, g2.2, d120, Bool.false_eq_true]
    unfold _HDL_ParseAttribute
    simp only [g2.1, g2.2, d120, Bool.false_eq_true, if_false, List.getElem?_cons_zero,
      List.length_nil, ge_iff_le, l1, g3, d62]
    unfold attrLoop
    have hc3 : 3 < B.block_count := by omega
    simp [updElem, hc3, g3, d62, manyDoc]
  unfold _HDL_ParseBlocks
  rw [parseBlocksLoop]
  have hc0 : 0 < B.block_count := by omega
  simp only [hc0, not_true_eq_false, if_false, g0, hroot]
  have e48 : 4 + 4 * n + 4 = 4 * n + 8 := by omega
  rw [e48]
  rw [parseBlocksLoop]
  have hnc : ¬ (4 * n + 8 < B.block_count) := by omega
  simp only [hnc, not_false_eq_true, if_true]
  rw [if_neg (by decide), if_neg (by decide)]

theorem parse_many (L : Loader) (F n : Nat) (hF : n ≤ F) (hn : n + 1 < 65520) :
    HDL_Parse L (F + 3) (manySrc n) = .ret 0 (manyDoc n) := by
  unfold HDL_Parse
  rw [split_many]
  simp only [parseBlocks_many L F n hF hn]
  rfl

theorem compileChildren_leaves (fuel : Nat) :
    ∀ (cs : List Nat) (s : CState),
      (∀ c ∈ cs, ∃ tag content, (shapeOf s.doc)[c]? = some (tag, content, [], []) ∧
        findTag tag ≠ 0xFF) →
      ∃ s1, compileChildren (compileElement (fuel + 1)) cs s = .ret 0 s1 := by
  intro cs
  induction cs with
  | nil => intro s _; exact ⟨s, rfl⟩
  | cons c cs ih =>
    intro s h
    obtain ⟨tag, content, hsh, ht⟩ := h c (List.mem_cons_self _ _)
    obtain ⟨e, he, het, _, hek, hech⟩ := shapeOf_elem hsh
    have hattrs : e.attrs = [] := by
      cases hea : e.attrs with
      | nil => rfl
      | cons a t => rw [hea] at hek; simp at hek
    obtain ⟨s1, h1, E⟩ := compileElement_noattr fuel s c e he (by rw [het]; exact ht) hattrs hech
    obtain ⟨s2, h2⟩ := ih s1 (fun d hd => by
      rw [E.1]; exact h d (List.mem_cons_of_mem _ hd))
    exact ⟨s2, by simp only [compileChildren, h1, h2]⟩

theorem manyDoc_shape (n c : Nat) (hc : c ∈ List.range' 1 n) :
    (shapeOf (manyDoc n))[c]? = some (str "box", none, [], []) := by
  rw [List.mem_range'_1] at hc
  obtain ⟨k, rfl⟩ : ∃ k, c = k + 1 := ⟨c - 1, by omega⟩
  simp only [shapeOf, manyDoc, List.map_cons, List.getElem?_cons_succ, List.map_replicate,
    List.map_nil, List.getElem?_replicate]
  rw [if_pos (by omega)]

/-- `compile` on the document of `manySrc n` returns 0. -/
theorem compile_many (fuel n : Nat) (buffer : Nat → Nat) :
    ∃ s1, compile (fuel + 2) ⟨manyDoc n, buffer, 0⟩ = .ret 0 s1 := by
  have hroot : ∃ sR, sR.doc = manyDoc n ∧
      compileElement (fuel + 2) (compileHeader ⟨manyDoc n, buffer, 0⟩) 0 =
        compileChildren (compileElement (fuel + 1)) (List.range' 1 n) sR := by
    have he0 : (compileHeader ⟨manyDoc n, buffer, 0⟩).doc.elements[0]? =
        some ⟨str "box", none, [⟨str "x", .own [1], .BOOL, 1⟩], -1, List.range' 1 n⟩ := by
      have hd : (compileHeader ⟨manyDoc n, buffer, 0⟩).doc = manyDoc n := rfl
      rw [hd]
      simp [manyDoc]
    have ht : findTag (str "box") = 0 := by decide
    have hx : findAttr (str "x") = 0 := by decide
    rw [compileElement]
    simp only [he0, ht]
    rw [if_neg (by decide)]
    simp only [List.length_cons, List.length_nil, Nat.zero_add]
    rw [compileAttrs, compileAttr]
    have he1 : ∀ (b : Nat → Nat) (p : Nat),
        (⟨(compileHeader ⟨manyDoc n, buffer, 0⟩).doc, b, p⟩ : CState).doc.elements[0]? =
        some ⟨str "box", none, [⟨str "x", .own [1], .BOOL, 1⟩], -1, List.range' 1 n⟩ :=
      fun _ _ => he0
    simp only [emit, emitBytes, he1, List.getElem?_cons_zero, hx]
    rw [if_neg (by decide), if_neg (by decide), if_neg (by decide)]
    simp only [compilePayload, deref, emit, compileAttrs]
    exact ⟨_, rfl, rfl⟩
  obtain ⟨sR, hd, hr⟩ := hroot
  obtain ⟨s1, h1⟩ := compileChildren_leaves fuel (List.range' 1 n) sR (fun c hc =>
    ⟨str "box", none, by rw [hd]; exact manyDoc_shape n c hc, by decide⟩)
  refine ⟨s1, ?_⟩
  unfold compile
  simp only
  have hb : compileBitmaps (compileHeader ⟨manyDoc n, buffer, 0⟩).doc.bitmaps
      (compileHeader ⟨manyDoc n, buffer, 0⟩) = some (compileHeader ⟨manyDoc n, buffer, 0⟩) := rfl
  rw [hb]
  simp only [hr, h1]

theorem ccSum_zero (chs : List (List Nat)) :
    ∀ (m k : Nat), (∀ i, k ≤ i → ((chs[i]?).getD []).length % 256 = 0) → ccSum chs k m = 0 := by
  intro m
  induction m with
  | zero => intro k _; rfl
  | succ m ih =>
    intro k h
    simp only [ccSum, h k (le_refl _), ih (k + 1) (fun i hi => h i (by omega))]

theorem ccSum_many (n : Nat) : ccSum (chOf (manyDoc n)) 0 (n + 1) = n % 256 := by
  simp only [ccSum]
  rw [ccSum_zero _ n 1 (fun i hi => by
    obtain ⟨k, rfl⟩ : ∃ k, i = k + 1 := ⟨i - 1, by omega⟩
    simp only [chOf, manyDoc, List.map_cons, List.getElem?_cons_succ, List.map_replicate,
      List.getElem?_replicate]
    split <;> rfl)]
  simp [chOf, manyDoc]

theorem manyDoc_tags (n : Nat) : ∀ e ∈ (manyDoc n).elements, findTag e.tag ≠ 0xFF := by
  intro e he
  simp only [manyDoc, List.mem_cons, List.mem_replicate] at he
  rcases he with rfl | ⟨_, rfl⟩
  · show findTag (str "box") ≠ 255
    decide
  · show findTag (str "box") ≠ 255
    decide

/-- The encoder on a tree whose tags are all recognized: the child-count bytes
of the output add up to the sum of the child counts modulo 256. -/
theorem compile_cc (doc : HDL_Document) (fuel2 : Nat) (buffer : Nat → Nat) (s1 : CState)
    (hc : compile fuel2 ⟨doc, buffer, 0⟩ = .ret 0 s1) (htree : IsTree doc)
    (hT : ∀ e ∈ doc.elements, findTag e.tag ≠ 0xFF) :
    ∃ s0 sb ccs, s0.pc = 16 ∧ compileBitmaps doc.bitmaps s0 = some sb ∧
      compileElement fuel2 sb 0 = .ret 0 s1 ∧
      LayoutCC (shapeOf doc) 0 (seg s1.buffer sb.pc s1.pc, ccs) ∧
      ccs.sum = ccSum (chOf doc) 0 doc.elements.length := by
  unfold compile at hc
  simp only at hc
  generalize hs0 : compileHeader { doc := doc, buffer := buffer, pc := 0 } = s0 at hc
  have hpc0 : s0.pc = 16 := by rw [← hs0]; rfl
  have hdoc0 : s0.doc = doc := by rw [← hs0]; rfl
  rw [hdoc0] at hc
  cases hb : compileBitmaps doc.bitmaps s0 with
  | none => rw [hb] at hc; cases hc
  | some sb =>
    rw [hb] at hc
    simp only at hc
    cases he : compileElement fuel2 sb 0 with
    | ub => rw [he] at hc; cases hc
    | nofuel => rw [he] at hc; cases hc
    | ret c s2 =>
      rw [he] at hc
      have hc0 : c = 0 ∧ s2 = s1 := by
        cases c with
        | zero => simp only [Res.ret.injEq, true_and] at hc; exact ⟨rfl, hc⟩
        | succ n => simp at hc
      obtain ⟨hc1, hs2⟩ := hc0
      subst hc1; subst hs2
      have hs : shapeOf sb.doc = shapeOf doc := by
        rw [(compileBitmaps_frame _ _ _ hb).1, hdoc0]
      have hT2 : ∀ p ∈ shapeOf doc, findTag p.1 ≠ 0xFF := by
        intro p hp
        simp only [shapeOf, List.mem_map] at hp
        obtain ⟨e1, hm, rfl⟩ := hp
        exact hT e1 hm
      unfold IsTree at htree
      obtain ⟨out, ccs, E, Lc, hsum⟩ := compileElement_cc (shapeOf doc) hT2 fuel2 sb 0 0 s2
        doc.elements.length hs he (by rw [chsOf_shapeOf]; exact htree)
      rw [chsOf_shapeOf] at hsum
      exact ⟨s0, sb, ccs, hpc0, hb, he, by rw [E.seg]; exact Lc, hsum⟩

theorem manyDoc_length (n : Nat) : (manyDoc n).elements.length = n + 1 := by
  simp [manyDoc]

/-- Claim C13, counterexample: the source `<box x>` followed by 256 times
`<box/>` and `</box>` parses into 257 elements, all with the tag `box`, and
`compile` returns 0; the child-count bytes of the output (the root's is
256 mod 256 = 0, the children's are 0) add up to 0, not to 256. -/
theorem child_count_wraps :
    ∃ doc s1 s0 sb ccs,
      HDL_Parse noLoader 259 (manySrc 256) = .ret 0 doc ∧
      doc.elements.length - 1 = 256 ∧ (∀ e ∈ doc.elements, findTag e.tag ≠ 0xFF) ∧
      compile 2 ⟨doc, zeroBuf, 0⟩ = .ret 0 s1 ∧ s0.pc = 16 ∧
      compileBitmaps doc.bitmaps s0 = some sb ∧ compileElement 2 sb 0 = .ret 0 s1 ∧
      LayoutCC (shapeOf doc) 0 (seg s1.buffer sb.pc s1.pc, ccs) ∧ ccs.sum = 0 := by
  have hp := parse_many noLoader 256 256 (le_refl _) (by decide)
  obtain ⟨s1, hc⟩ := compile_many 0 256 zeroBuf
  have hlen : (manyDoc 256).elements.length = 257 := manyDoc_length 256
  have htree : IsTree (manyDoc 256) := by
    rcases parse_tree _ _ _ _ hp with h | h
    · rw [h] at hlen; cases hlen
    · exact h
  obtain ⟨s0, sb, ccs, h1, h2, h3, h4, h5⟩ := compile_cc (manyDoc 256) 2 zeroBuf s1 hc htree
    (manyDoc_tags 256)
  refine ⟨manyDoc 256, s1, s0, sb, ccs, hp, by rw [hlen], manyDoc_tags 256, hc, h1, h2, h3, h4,
    ?_⟩
  rw [h5, hlen, ccSum_many 256]

theorem parseBlocksLoop_bad (L : Loader) (B : Blocks) (fuel n : Nat) (r : Bool) (st : PState)
    (h : TopBad B r st) : parseBlocksLoop L B fuel (n + 1) r st = .ret 1 st := by
  obtain ⟨hlt, c, hc, hcase⟩ := h
  rw [parseBlocksLoop]
  simp only [hlt, not_true_eq_false, if_false, hc]
  rcases hcase with ⟨h1, h2⟩ | ⟨h1, h2, h3⟩ | ⟨h1, d, hd, h2⟩
  · subst h1; subst h2; simp
  · simp [h1, h2, h3]
  · subst h1; simp [hd, h2]

theorem parseBlocksLoop_steps (L : Loader) (B : Blocks) (fuel : Nat) :
    ∀ (k : Nat) (p q : Bool × PState), TopSteps L B fuel k p q → TopBad B q.1 q.2 →
      ∀ n, k < n → parseBlocksLoop L B fuel n p.1 p.2 = .ret 1 q.2 := by
  intro k p q hs
  induction hs with
  | done p =>
    intro hb n hn
    obtain ⟨m, rfl⟩ : ∃ m, n = m + 1 := ⟨n - 1, by omega⟩
    exact parseBlocksLoop_bad L B fuel m p.1 p.2 hb
  | next k p q r hstep _ ih =>
    intro hb n hn
    obtain ⟨m, rfl⟩ : ∃ m, n = m + 1 := ⟨n - 1, by omega⟩
    have hrec := ih hb m (by omega)
    cases hstep with
    | definition r0 st st1 hlt h0 h =>
      rw [parseBlocksLoop]
      simp only [hlt, not_true_eq_false, if_false, h0, if_true, h]
      exact hrec
    | root st st1 hlt h0 h =>
      rw [parseBlocksLoop]
      simp only [hlt, not_true_eq_false, if_false, h0]
      simp only [show (60 : Nat) ≠ 35 by decide, if_false, if_true, Bool.false_eq_true, h]
      exact hrec

/-- Claim C27: when the loop of `_HDL_ParseBlocks`, after any number `k` of
successful top-level steps (definitions that parsed, and the root element),
stands on a block that starts an element although the root was parsed already,
or on a block that starts with a character other than `#` and `<` and is not the
comment opener `/*`, then the loop returns 1 at that block, and `HDL_Parse`
returns 1 (for every fuel above `k`, whatever the splitter returned). -/
theorem top_level_rejects (L : Loader) (fuel k : Nat) (data : List Nat) (e1 : Nat) (B : Blocks)
    (r : Bool) (st : PState) (hB : _HDL_ParseDataToBlocks data = .ret e1 B)
    (hs : TopSteps L B fuel k (false, ⟨⟨[], [], []⟩, 0⟩) (r, st)) (hbad : TopBad B r st)
    (hk : k < fuel) :
    _HDL_ParseBlocks L B fuel ⟨[], [], []⟩ = .ret 1 st ∧
    HDL_Parse L fuel data = .ret 1 st.doc := by
  have h := parseBlocksLoop_steps L B fuel k _ _ hs hbad fuel hk
  have h2 : _HDL_ParseBlocks L B fuel ⟨[], [], []⟩ = .ret 1 st := h
  refine ⟨h2, ?_⟩
  unfold HDL_Parse
  rw [hB]
  simp only [h2]
  simp

/-- Witness of claim C27 on `<box/><box/>` (one step, the root, then a second
`<`) and on `box` (no step, a block that starts with `b`). -/
theorem top_level_rejects_witness :
    HDL_Parse noLoader 2 (str "<box/><box/>") = .ret 1 boxDoc ∧
    HDL_Parse noLoader 1 (str "box") = .ret 1 ⟨[], [], []⟩ :=
  ⟨(top_level_rejects noLoader 2 1 (str "<box/><box/>") 0 twoRoots true ⟨boxDoc, 4⟩ rfl
      (.next 0 _ _ _ (.root ⟨⟨[], [], []⟩, 0⟩ ⟨boxDoc, 4⟩ (by decide) (by decide) rfl) (.done _))
      ⟨by decide, 60, by decide, Or.inl ⟨rfl, rfl⟩⟩ (by decide)).2,
   (top_level_rejects noLoader 1 0 (str "box") 0 ⟨[98, 111, 120, 0], [0], 1⟩ false
      ⟨⟨[], [], []⟩, 0⟩ rfl (.done _)
      ⟨by decide, 98, by decide, Or.inr (Or.inl (by decide))⟩ (by decide)).2⟩

theorem comment_loops (L : Loader) (F : Nat) :
    ∀ n, parseBlocksLoop L tailComment F n true ⟨boxDoc, 4⟩ = .nofuel := by
  intro n
  induction n with
  | zero => rfl
  | succ n ih =>
    rw [parseBlocksLoop]
    have h1 : tailComment.c0 4 = some 47 := by decide
    have h2 : tailComment.c1 4 = some 42 := by decide
    have h3 : skipComment tailComment (tailComment.block_count - 4) 4 = some 4 := by decide
    have h4 : (4 : Nat) < tailComment.block_count := by decide
    simp only [h4, not_true_eq_false, if_false, h1, h2, h3]
    simp only [show (47 : Nat) ≠ 35 by decide, show (47 : Nat) ≠ 60 by decide, if_false, if_true,
      and_self]
    exact ih

/-- Claim C29: in the loop over the body of element `ei` (lines 901-969), on a
closing tag `<` `/` `name`: (1) when `name` differs from the tag of the element
the loop returns 1 with the cursor on the name; (2) when `name` equals the tag
and the next block starts with `>` the loop returns 0 with the cursor just past
that `>`; (3) a non-zero return of the recursive call for a child makes the
loop of the parent return 1, so the failure reaches the caller at every depth. -/
theorem closing_tag_match (rec : PState → Res PState) (B : Blocks) (ei n : Nat) (st : PState)
    (element : HDL_Element) (hlt : st.blockIndex < B.block_count)
    (h0 : B.c0 st.blockIndex = some 60) (he : st.doc.elements[ei]? = some element) :
    (∀ name, B.c0 (st.blockIndex + 1) = some 47 → B.get (st.blockIndex + 2) = some name →
      name ≠ element.tag →
      bodyLoop rec B ei (n + 1) st = .ret 1 { st with blockIndex := st.blockIndex + 2 }) ∧
    (B.c0 (st.blockIndex + 1) = some 47 → B.get (st.blockIndex + 2) = some element.tag →
      B.c0 (st.blockIndex + 3) = some 62 →
      bodyLoop rec B ei (n + 1) st = .ret 0 { st with blockIndex := st.blockIndex + 4 }) ∧
    (∀ c1 code st1, B.c0 (st.blockIndex + 1) = some c1 → isDelimiter c1 = false →
      rec st = .ret code st1 → code ≠ 0 → bodyLoop rec B ei (n + 1) st = .ret 1 st1) := by
  refine ⟨?_, ?_, ?_⟩
  · intro name h1 hn hne
    rw [bodyLoop]
    simp only [hlt, not_true_eq_false, if_false, h0, if_true, h1, hn, he, if_neg hne]
  · intro h1 hn h3
    rw [bodyLoop]
    simp only [hlt, not_true_eq_false, if_false, h0, if_true, h1, hn, he, h3]
  · intro c1 code st1 h1 hd hr hc
    have h47 : c1 ≠ 47 := by
      intro h; subst h; revert hd; decide
    cases code with
    | zero => exact absurd rfl hc
    | succ k =>
      rw [bodyLoop]
      simp only [hlt, not_true_eq_false, if_false, h0, if_true, h1, if_neg h47, hd,
        Bool.false_eq_true, hr]

/-- Witness of claim C29: `<box></text>` fails at the name `text`,
`<box></box>` closes the element with the cursor past the last block. -/
theorem closing_tag_match_witness :
    (∀ rec, bodyLoop rec badClose 0 1 ⟨boxDoc, 3⟩ = .ret 1 ⟨boxDoc, 5⟩) ∧
    (∀ rec, bodyLoop rec goodClose 0 1 ⟨boxDoc, 3⟩ = .ret 0 ⟨boxDoc, 7⟩) ∧
    HDL_Parse noLoader 2 (str "<box></text>") = .ret 1 boxDoc ∧
    HDL_Parse noLoader 2 (str "<box></box>") = .ret 0 boxDoc :=
  ⟨fun rec => (closing_tag_match rec badClose 0 0 ⟨boxDoc, 3⟩ _ (by decide) (by decide) rfl).1
      (str "text") (by decide) (by decide) (by decide),
   fun rec => (closing_tag_match rec goodClose 0 0 ⟨boxDoc, 3⟩ _ (by decide) (by decide) rfl).2.1
      (by decide) (by decide) (by decide),
   rfl, rfl⟩

/-- Claim C28, what the code does: `<box/>` parses to the document of one
box, but with the comment `/* c */` in front the splitter makes `/` and `*`
two blocks and `HDL_Parse` returns 1 at the first of them, with an empty
document; with the comment after the root (where it is one block, as text
content) the loop of `_HDL_ParseBlocks` never advances: `HDL_Parse` does not
return for any fuel. -/
theorem comment_not_skipped :
    (∀ L fuel, HDL_Parse L (fuel + 2) (str "<box/>") = .ret 0 boxDoc) ∧
    (∀ L fuel, HDL_Parse L (fuel + 1) (str "/* c */<box/>") = .ret 1 ⟨[], [], []⟩) ∧
    (∀ L fuel, HDL_Parse L fuel (str "<box/>/* c */") = .nofuel) := by
  refine ⟨fun L fuel => rfl, fun L fuel => rfl, fun L fuel => ?_⟩
  have hB : _HDL_ParseDataToBlocks (str "<box/>/* c */") = .ret 0 tailComment := rfl
  unfold HDL_Parse
  rw [hB]
  simp only
  have hloop : _HDL_ParseBlocks L tailComment fuel ⟨[], [], []⟩ = .nofuel := by
    unfold _HDL_ParseBlocks
    cases fuel with
    | zero => rfl
    | succ f =>
      cases f with
      | zero => rfl
      | succ g =>
        rw [parseBlocksLoop]
        have h1 : tailComment.c0 0 = some 60 := by decide
        have h4 : (0 : Nat) < tailComment.block_count := by decide
        have hroot : _HDL_ParseElement tailComment (g + 1 + 1) none ⟨⟨[], [], []⟩, 0⟩ =
            .ret 0 ⟨boxDoc, 4⟩ := rfl
        simp only [h4, not_true_eq_false, if_false, h1, hroot]
        simp only [show (60 : Nat) ≠ 35 by decide, if_false, if_true, Bool.false_eq_true]
        exact comment_loops L _ _
  rw [hloop]

theorem findIdx_first {α : Type} (p : α → Bool) :
    ∀ (l : List α) (i : Nat) (x : α), l[i]? = some x → p x = true →
      (∀ j y, j < i → l[j]? = some y → p y = false) → l.findIdx p = i := by
  intro l
  induction l with
  | nil => intro i x h; simp at h
  | cons b l ih =>
    intro i x h hp hfirst
    cases i with
    | zero =>
      simp only [List.getElem?_cons_zero, Option.some.injEq] at h
      subst h
      simp [List.findIdx_cons, hp]
    | succ i =>
      simp only [List.getElem?_cons_succ] at h
      have hb : p b = false := hfirst 0 b (by omega) (by simp)
      rw [List.findIdx_cons, hb]
      simp only [cond_false, Nat.add_right_cancel_iff]
      exact ih i x h hp (fun j y hj hy => hfirst (j + 1) y (by omega) (by simpa using hy))

theorem findIdx_none {α : Type} (p : α → Bool) :
    ∀ (l : List α), (∀ x ∈ l, p x = false) → l.findIdx p = l.length := by
  intro l
  induction l with
  | nil => intro _; rfl
  | cons b l ih =>
    intro h
    rw [List.findIdx_cons, h b (List.mem_cons_self _ _)]
    simp only [cond_false, List.length_cons, Nat.add_right_cancel_iff]
    exact ih (fun x hx => h x (List.mem_cons_of_mem _ hx))

theorem lt_length_of_get {α : Type} (l : List α) (i : Nat) (x : α) (h : l[i]? = some x) :
    i < l.length := by
  rcases Nat.lt_or_ge i l.length with h1 | h1
  · exact h1
  · rw [List.getElem?_eq_none h1] at h; cases h

theorem findVar_first (vars : List HDL_Variable) (name : List Nat) (i : Nat) (v : HDL_Variable)
    (hv : vars[i]? = some v) (hn : v.name = name)
    (hfirst : ∀ j w, j < i → vars[j]? = some w → w.name ≠ name) :
    findVar vars name = some i := by
  unfold findVar
  have h := findIdx_first (fun v : HDL_Variable => decide (v.name = name)) vars i v hv
    (by simp [hn]) (fun j y hj hy => by simpa using hfirst j y hj hy)
  simp only [h, lt_length_of_get vars i v hv, if_true]

theorem findVar_none (vars : List HDL_Variable) (name : List Nat)
    (h : ∀ v ∈ vars, v.name ≠ name) : findVar vars name = none := by
  unfold findVar
  have h1 := findIdx_none (fun v : HDL_Variable => decide (v.name = name)) vars
    (fun x hx => by simpa using h x hx)
  simp only [h1, Nat.lt_irrefl, if_false]

theorem findBitmap_first (bitmaps : List HDL_Bitmap) (name : List Nat) (i : Nat) (b : HDL_Bitmap)
    (hv : bitmaps[i]? = some b) (hn : b.name = name)
    (hfirst : ∀ j w, j < i → bitmaps[j]? = some w → w.name ≠ name) :
    findBitmap bitmaps name = some i := by
  unfold findBitmap
  have h := findIdx_first (fun v : HDL_Bitmap => decide (v.name = name)) bitmaps i b hv
    (by simp [hn]) (fun j y hj hy => by simpa using hfirst j y hj hy)
  simp only [h, lt_length_of_get bitmaps i b hv, if_true]

theorem findBitmap_none (bitmaps : List HDL_Bitmap) (name : List Nat)
    (h : ∀ v ∈ bitmaps, v.name ≠ name) : findBitmap bitmaps name = none := by
  unfold findBitmap
  have h1 := findIdx_none (fun v : HDL_Bitmap => decide (v.name = name)) bitmaps
    (fun x hx => by simpa using h x hx)
  simp only [h1, Nat.lt_irrefl, if_false]

theorem parseScalar_ident (B : Blocks) (doc : HDL_Document) (bi : Nat) (out : Slot)
    (blk : List Nat) (hid : isIdentBlock blk = true) (hnull : out.val = .null) :
    (∀ i v, findVar doc.vars blk = some i → doc.vars[i]? = some v →
      parseScalar B doc bi out blk = .ret 0 (bi, ⟨v.count, v.type, aliasOf v i⟩)) ∧
    (∀ i, findVar doc.vars blk = none → findBitmap doc.bitmaps blk = some i →
      parseScalar B doc bi out blk = .ret 0 (bi, ⟨1, .IMG, .heap [i % 256] 1⟩)) ∧
    (findVar doc.vars blk = none → findBitmap doc.bitmaps blk = none →
      parseScalar B doc bi out blk = .ret 1 (bi, out)) := by
  simp only [isIdentBlock, Bool.and_eq_true, decide_eq_true_eq, Bool.not_eq_true',
    ne_eq] at hid
  obtain ⟨⟨⟨⟨⟨⟨h91, h34⟩, h39⟩, h36⟩, hnum⟩, ht⟩, hf⟩ := hid
  refine ⟨?_, ?_, ?_⟩
  · intro i v h1 h2
    unfold parseScalar
    simp only [h34, h39, or_self, if_false, hnum, Bool.false_eq_true, if_neg ht, if_neg hf,
      if_neg h36, h1, h2, hnull, if_true]
  · intro i h1 h2
    unfold parseScalar
    simp only [h34, h39, or_self, if_false, hnum, Bool.false_eq_true, if_neg ht, if_neg hf,
      if_neg h36, h1, h2, hnull, storeVal]
    simp
  · intro h1 h2
    unfold parseScalar
    simp only [h34, h39, or_self, if_false, hnum, Bool.false_eq_true, if_neg ht, if_neg hf,
      if_neg h36, h1, h2]

theorem parseValue_scalar (B : Blocks) (fuel : Nat) (doc : HDL_Document) (dst : Option Nat)
    (bi : Nat) (out : Slot) (blk : List Nat) (hget : B.get bi = some blk)
    (hc : B.c0 bi = some (c0 blk)) (h91 : c0 blk ≠ 91) :
    _HDL_ParseValue B (fuel + 1) doc dst bi out = parseScalar B doc bi out blk := by
  rw [_HDL_ParseValue]
  simp only [hc, if_neg h91, hget]

theorem deref_aliasOf (doc : HDL_Document) (i : Nat) (v : HDL_Variable)
    (h : doc.vars[i]? = some v) : deref doc (aliasOf v i).toPtr = deref doc v.value := by
  unfold aliasOf
  cases hv : v.value with
  | null => rfl
  | own m => simp [VPtr.toPtr, deref, h, hv]
  | var j => rfl

theorem findBitmap_many (n : Nat) : findBitmap (manyBitmaps n).bitmaps (str "b") = some n := by
  have hb : (manyBitmaps n).bitmaps[n]? = some (bmNamed (str "b")) := by
    show (List.replicate n (bmNamed (str "a")) ++ [bmNamed (str "b")])[n]? = _
    rw [List.getElem?_append_right (by simp)]
    simp
  have hfirst : ∀ (j : Nat) (w : HDL_Bitmap), j < n → (manyBitmaps n).bitmaps[j]? = some w →
      w.name ≠ str "b" := by
    intro j w hj hw
    have hw2 : (List.replicate n (bmNamed (str "a")) ++ [bmNamed (str "b")])[j]? = some w := hw
    rw [List.getElem?_append_left (by simp; omega)] at hw2
    have hm : w ∈ List.replicate n (bmNamed (str "a")) := List.mem_iff_getElem?.2 ⟨j, hw2⟩
    rw [List.eq_of_mem_replicate hm]
    decide
  exact findBitmap_first (manyBitmaps n).bitmaps (str "b") n _ hb rfl hfirst

/-- Claim C30, counterexample: in a document with 257 bitmaps of which only
the last (index 256) is called `b`, the identifier `b` in value position gets
the payload byte 0, not the index 256. -/
theorem bitmap_index_wraps :
    findBitmap (manyBitmaps 256).bitmaps (str "b") = some 256 ∧
    _HDL_ParseValue (mkBlocks [str "b"]) 1 (manyBitmaps 256) none 0 ⟨0, .NULL, .null⟩ =
      .ret 0 (0, ⟨1, .IMG, .heap [0] 1⟩) := by
  have hf := findBitmap_many 256
  refine ⟨hf, ?_⟩
  rw [parseValue_scalar (mkBlocks [str "b"]) 0 (manyBitmaps 256) none 0 ⟨0, .NULL, .null⟩
    (str "b") (by decide) (by decide) (by decide)]
  exact (parseScalar_ident (mkBlocks [str "b"]) (manyBitmaps 256) 0 ⟨0, .NULL, .null⟩ (str "b")
    (by decide) rfl).2.1 256 (findVar_none _ _ (fun v hv => by cases hv)) hf

/-- Claim C30, amended: for a block `blk` in the last branch of
`_HDL_ParseValue` (an identifier) and an empty value slot (the value position
of an attribute or of a constant definition): (1) when `i` is the first
constant called `blk`, the call returns 0 with that constant's count and type
and a pointer to that constant's payload, whatever the bitmaps are called;
(2) when no constant is called `blk` and `i` is the first bitmap called `blk`,
the call returns 0 with (IMG, 1, one byte holding `i` modulo 256); (3) when
neither a constant nor a bitmap is called `blk` the call returns 1.  The cursor
stays on the block in all three cases. -/
theorem identifier_lookup (B : Blocks) (fuel : Nat) (doc : HDL_Document) (dst : Option Nat)
    (bi : Nat) (out : Slot) (blk : List Nat) (hget : B.get bi = some blk)
    (hc : B.c0 bi = some (c0 blk)) (hid : isIdentBlock blk = true) (hnull : out.val = .null) :
    (∀ (i : Nat) (v : HDL_Variable), doc.vars[i]? = some v → v.name = blk →
      (∀ (j : Nat) (w : HDL_Variable), j < i → doc.vars[j]? = some w → w.name ≠ blk) →
      ∃ p, _HDL_ParseValue B (fuel + 1) doc dst bi out = .ret 0 (bi, ⟨v.count, v.type, p⟩) ∧
        deref doc p.toPtr = deref doc v.value) ∧
    (∀ (i : Nat) (b : HDL_Bitmap), (∀ v ∈ doc.vars, v.name ≠ blk) →
      doc.bitmaps[i]? = some b → b.name = blk →
      (∀ (j : Nat) (w : HDL_Bitmap), j < i → doc.bitmaps[j]? = some w → w.name ≠ blk) →
      _HDL_ParseValue B (fuel + 1) doc dst bi out =
        .ret 0 (bi, ⟨1, .IMG, .heap [i % 256] 1⟩)) ∧
    ((∀ v ∈ doc.vars, v.name ≠ blk) → (∀ b ∈ doc.bitmaps, b.name ≠ blk) →
      _HDL_ParseValue B (fuel + 1) doc dst bi out = .ret 1 (bi, out)) := by
  have h91 : c0 blk ≠ 91 := by
    simp only [isIdentBlock, Bool.and_eq_true, decide_eq_true_eq, ne_eq] at hid
    exact hid.1.1.1.1.1.1
  have hs := parseValue_scalar B fuel doc dst bi out blk hget hc h91
  obtain ⟨p1, p2, p3⟩ := parseScalar_ident B doc bi out blk hid hnull
  refine ⟨?_, ?_, ?_⟩
  · intro i v hv hn hfirst
    refine ⟨aliasOf v i, ?_, deref_aliasOf doc i v hv⟩
    rw [hs]
    exact p1 i v (findVar_first doc.vars blk i v hv hn hfirst) hv
  · intro i b hno hb hn hfirst
    rw [hs]
    exact p2 i (findVar_none doc.vars blk hno) (findBitmap_first doc.bitmaps blk i b hb hn hfirst)
  · intro hno hnob
    rw [hs]
    exact p3 (findVar_none doc.vars blk hno) (findBitmap_none doc.bitmaps blk hnob)

/-- Witness of claim C30 (amended): with a constant `a` and the bitmaps `im`
and `a`, the identifier `a` is the constant, `im` is bitmap 0 and `zz` fails. -/
theorem identifier_lookup_witness :
    (∃ p, _HDL_ParseValue (mkBlocks [str "a"]) 1 lookupDoc none 0 ⟨0, .NULL, .null⟩ =
        .ret 0 (0, ⟨1, .FLOAT, p⟩) ∧ deref lookupDoc p.toPtr = some [0, 0, 160, 64]) ∧
    _HDL_ParseValue (mkBlocks [str "im"]) 1 lookupDoc none 0 ⟨0, .NULL, .null⟩ =
      .ret 0 (0, ⟨1, .IMG, .heap [0] 1⟩) ∧
    _HDL_ParseValue (mkBlocks [str "zz"]) 1 lookupDoc none 0 ⟨0, .NULL, .null⟩ =
      .ret 1 (0, ⟨0, .NULL, .null⟩) :=
  ⟨(identifier_lookup (mkBlocks [str "a"]) 0 lookupDoc none 0 ⟨0, .NULL, .null⟩ (str "a")
      (by decide) (by decide) (by decide) rfl).1 0 _ rfl rfl (fun j w hj => by omega),
   (identifier_lookup (mkBlocks [str "im"]) 0 lookupDoc none 0 ⟨0, .NULL, .null⟩ (str "im")
      (by decide) (by decide) (by decide) rfl).2.1 0 imBitmap (by decide) rfl rfl
      (fun j w hj => by omega),
   (identifier_lookup (mkBlocks [str "zz"]) 0 lookupDoc none 0 ⟨0, .NULL, .null⟩ (str "zz")
      (by decide) (by decide) (by decide) rfl).2.2 (by decide) (by decide)⟩

/-- Claim C26, what the code does: a block that opens with a quote and has at
least two characters is handled as the claim says (return value 0 exactly when
the last character is the same quote, the stored string being the characters
between the first and the last), but on the one-character block `"` or `'`
(an unterminated quote at the very end of the input, as in `<box x="`) the
copy of line 434 is called with the length -1: the behaviour is undefined, no
error is returned. -/
theorem lone_quote_ub :
    (∀ (B : Blocks) (doc : HDL_Document) (bi : Nat) (body : List Nat) (e : Nat),
      parseScalar B doc bi ⟨0, .NULL, .null⟩ (34 :: body ++ [e]) =
        .ret (if e = 34 then 0 else 1)
          (bi, ⟨1, .STRING, .heap (body ++ [0]) (body.length + 1)⟩)) ∧
    (∀ (B : Blocks) (doc : HDL_Document) (bi : Nat) (body : List Nat) (e : Nat),
      parseScalar B doc bi ⟨0, .NULL, .null⟩ (39 :: body ++ [e]) =
        .ret (if e = 39 then 0 else 1)
          (bi, ⟨1, .STRING, .heap (body ++ [0]) (body.length + 1)⟩)) ∧
    (∀ (B : Blocks) (doc : HDL_Document) (bi : Nat) (out : Slot),
      parseScalar B doc bi out [34] = .ub ∧ parseScalar B doc bi out [39] = .ub) ∧
    (∃ B, _HDL_ParseDataToBlocks (str "<box x=\"") = .ret 0 B ∧
      B.list = [some (str "<"), some (str "box"), some (str "x"), some (str "="),
        some (str "\"")]) ∧
    (∀ L fuel, HDL_Parse L (fuel + 2) (str "<box x=\"") = .ub) := by
  refine ⟨?_, ?_, ?_, ⟨_, rfl, by decide⟩, fun L fuel => rfl⟩
  · intro B doc bi body e
    unfold parseScalar
    have hl : ¬ (34 :: body ++ [e]).length < 2 := by simp
    have hd : ((34 :: body ++ [e]).drop 1).dropLast = body := by simp
    have hg : (34 :: body ++ [e]).getLast? = some e := by
      rw [show 34 :: body ++ [e] = (34 :: body) ++ [e] from rfl, List.getLast?_append]
      simp
    simp only [c0, List.headD_cons, true_or, if_true, hl, if_false, hd, storeVal, hg]
    simp
    by_cases h : e = 34 <;> simp [h]
  · intro B doc bi body e
    unfold parseScalar
    have hl : ¬ (39 :: body ++ [e]).length < 2 := by simp
    have hd : ((39 :: body ++ [e]).drop 1).dropLast = body := by simp
    have hg : (39 :: body ++ [e]).getLast? = some e := by
      rw [show 39 :: body ++ [e] = (39 :: body) ++ [e] from rfl, List.getLast?_append]
      simp
    simp only [c0, List.headD_cons, or_true, if_true, hl, if_false, hd, storeVal, hg]
    simp
    by_cases h : e = 39 <;> simp [h]
  · intro B doc bi out
    constructor <;> simp [parseScalar, c0]

/-- Claim C24: when the block under the cursor is a key (its first character
is no delimiter, it has fewer than 32 characters and the element has room for
one more attribute) and the following block starts with a character that is no
delimiter (another key), with `>` or with `/`, then (1) `_HDL_ParseAttribute`
returns 0, has appended to the element the attribute with that key, type BOOL,
count 1 and the one-byte value 1, and leaves the cursor on the key; (2) the
attribute loop of `_HDL_ParseElement` goes on with the block that follows the
key; (3) for a key of the attribute table the encoder appends for this
attribute exactly the four bytes key index, 1 (BOOL), 1, 1. -/
theorem bare_key_attribute (B : Blocks) (fuel : Nat) (st : PState) (ei : Nat)
    (element : HDL_Element) (key : List Nat) (c1 : Nat)
    (hk0 : isDelimiter (c0 key) = false) (hc : B.c0 st.blockIndex = some (c0 key))
    (hget : B.get st.blockIndex = some key) (he : st.doc.elements[ei]? = some element)
    (hlen : element.attrs.length < 248) (hkl : key.length < 32)
    (h1 : B.c0 (st.blockIndex + 1) = some c1)
    (hnext : isDelimiter c1 = false ∨ c1 = 62 ∨ c1 = 47) :
    _HDL_ParseAttribute B fuel st ei =
      .ret 0 ⟨updElem st.doc ei (fun e => { e with attrs := e.attrs ++ [bareAttr key] }),
        st.blockIndex⟩ ∧
    (∀ n, st.blockIndex < B.block_count →
      attrLoop B fuel ei (n + 1) st =
        attrLoop B fuel ei n
          ⟨updElem st.doc ei (fun e => { e with attrs := e.attrs ++ [bareAttr key] }),
            st.blockIndex + 1⟩) ∧
    (∀ (s : CState) (addr i : Nat) (e : HDL_Element), s.doc.elements[ei]? = some e →
      e.attrs[i]? = some (bareAttr key) → findAttr key ≠ 0xFF →
      ∃ s1, compileAttr s ei addr i = some s1 ∧ Emits s s1 [findAttr key, 1, 1, 1]) := by
  have hpa : _HDL_ParseAttribute B fuel st ei =
      .ret 0 ⟨updElem st.doc ei (fun e => { e with attrs := e.attrs ++ [bareAttr key] }),
        st.blockIndex⟩ := by
    unfold _HDL_ParseAttribute
    simp only [hc, hk0, Bool.false_eq_true, if_false, he, hget, h1]
    rw [if_neg (by omega)]
    have hcond : ¬ isDelimiter c1 = true ∨ c1 = 62 ∨ c1 = 47 := by
      rcases hnext with h | h | h
      · left; simp [h]
      · right; left; exact h
      · right; right; exact h
    rw [if_pos hcond]
    rfl
  refine ⟨hpa, ?_, ?_⟩
  · intro n hlt
    rw [attrLoop]
    simp only [hlt, not_true_eq_false, if_false, hc, hk0, Bool.false_eq_true, hpa]
    simp
  · intro s addr i e hse hsa hf
    have hplain := compileAttr_plain s ei addr i e (bareAttr key) hse hsa hf (fun h => by cases h)
    have hd : deref s.doc (bareAttr key).value = some [1] := rfl
    rw [hd] at hplain
    refine ⟨_, hplain.trans rfl, ?_⟩
    have hk : findAttr key % 256 = findAttr key := by
      rcases findAttr_le key with h | h
      · exact absurd h hf
      · omega
    have E := (((Emits.emit s (findAttr key)).trans (Emits.emit _ 1)).trans
      (Emits.emit _ 1)).trans (Emits.emit _ 1)
    simp only [hk, List.cons_append, List.nil_append, List.singleton_append] at E
    exact E

/-- Witness of claim C24 on `<box x y/>`: the key `x` (followed by the key
`y`) and the key `y` (followed by `/`) become BOOL attributes, and the encoder
writes 00 01 01 01 for `x` and 01 01 01 01 for `y`. -/
theorem bare_key_attribute_witness :
    _HDL_ParseAttribute bareBlocks 0 ⟨boxWith [], 2⟩ 0 =
      .ret 0 ⟨boxWith [bareAttr (str "x")], 2⟩ ∧
    _HDL_ParseAttribute bareBlocks 0 ⟨boxWith [bareAttr (str "x")], 3⟩ 0 =
      .ret 0 ⟨boxWith [bareAttr (str "x"), bareAttr (str "y")], 3⟩ ∧
    (∃ s1, compileAttr ⟨boxWith [bareAttr (str "x"), bareAttr (str "y")], zeroBuf, 19⟩ 0 18 1 =
        some s1 ∧
      Emits ⟨boxWith [bareAttr (str "x"), bareAttr (str "y")], zeroBuf, 19⟩ s1 [1, 1, 1, 1]) ∧
    HDL_Parse noLoader 4 (str "<box x y/>") =
      .ret 0 (boxWith [bareAttr (str "x"), bareAttr (str "y")]) ∧
    (∃ s1, compile 1 ⟨boxWith [bareAttr (str "x"), bareAttr (str "y")], zeroBuf, 0⟩ = .ret 0 s1 ∧
      seg s1.buffer 16 s1.pc = [0, 0, 2, 0, 1, 1, 1, 1, 1, 1, 1, 0]) :=
  ⟨(bare_key_attribute bareBlocks 0 ⟨boxWith [], 2⟩ 0 _ (str "x") 121 (by decide) (by decide)
      (by decide) rfl (by decide) (by decide) (by decide) (Or.inl (by decide))).1,
   (bare_key_attribute bareBlocks 0 ⟨boxWith [bareAttr (str "x")], 3⟩ 0 _ (str "y") 47
      (by decide) (by decide) (by decide) rfl (by decide) (by decide) (by decide)
      (Or.inr (Or.inr rfl))).1,
   (bare_key_attribute bareBlocks 0 ⟨boxWith [bareAttr (str "x")], 3⟩ 0 _ (str "y") 47
      (by decide) (by decide) (by decide) rfl (by decide) (by decide) (by decide)
      (Or.inr (Or.inr rfl))).2.2
      ⟨boxWith [bareAttr (str "x"), bareAttr (str "y")], zeroBuf, 19⟩ 18 1 _ rfl rfl (by decide),
   rfl, ⟨_, rfl, by decide⟩⟩

theorem isWhitespace_isDelimiter (c : Nat) (h : isWhitespace c = true) : isDelimiter c = true := by
  simp only [isWhitespace, Bool.or_eq_true, decide_eq_true_eq] at h
  rcases h with ((h | h) | h) | h <;> subst h <;> decide

theorem pushBlock_data (st st1 : SplitState) (h : pushBlock st = some st1) :
    st1.data = st.data ∧ st1.inquotes = st.inquotes ∧ st1.lastChar = st.lastChar := by
  unfold pushBlock at h
  split at h
  · simp only [Option.some.injEq] at h
    subst h
    exact ⟨rfl, rfl, rfl⟩
  · cases h

/-- A whitespace character met outside quotes and text content is not stored:
the step leaves `data_buffer` as it was, or only terminates the current block. -/
theorem splitChar_whitespace (st st1 : SplitState) (c : Nat) (hw : isWhitespace c = true)
    (h0 : st.inquotes = 0) (h : splitChar st c = some st1) :
    (st1.data = st.data ∨ st1.data = st.data ++ [0]) ∧ st1.inquotes = 0 := by
  have hd := isWhitespace_isDelimiter c hw
  have hq : quoteStep st.lastChar st.inquotes c = 0 := by
    have h39 : c ≠ 39 := by intro e; subst e; revert hw; decide
    have h34 : c ≠ 34 := by intro e; subst e; revert hw; decide
    have h60 : c ≠ 60 := by intro e; subst e; revert hw; decide
    unfold quoteStep
    simp only [h39, h34, h60, if_false, h0, ite_self]
  have h62 : c ≠ 62 := by intro e; subst e; revert hw; decide
  unfold splitChar at h
  simp only [hq, hw, true_and, hd, and_self, if_true, not_true_eq_false, if_false] at h
  by_cases hl : isWhitespace st.lastChar = true
  · simp only [hl, if_true, Option.some.injEq] at h
    subst h
    exact ⟨Or.inl rfl, rfl⟩
  · simp only [hl, Bool.false_eq_true, if_false] at h
    by_cases hb : st.blocklen > 0
    · simp only [hb, if_true] at h
      generalize hp : pushBlock _ = p at h
      cases p with
      | none => simp at h
      | some s2 =>
        simp only [Option.some.injEq] at h
        have := pushBlock_data _ _ hp
        subst h
        simp only [splitFinish, h62, false_and, if_false]
        refine ⟨Or.inr ?_, ?_⟩
        · rw [this.1]; split <;> rfl
        · rw [this.2.1]; split <;> rfl
    · simp only [hb, if_false, Option.some.injEq] at h
      subst h
      exact ⟨Or.inl rfl, by simp [splitFinish, h62]⟩

theorem splitChar_plain (st st1 : SplitState) (c : Nat) (hinv : PlainSplit st)
    (hc : c ≠ 39 ∧ c ≠ 34 ∧ c ≠ 62 ∧ c ≠ 92) (h : splitChar st c = some st1) :
    PlainSplit st1 := by
  obtain ⟨h0, hl, hdata⟩ := hinv
  obtain ⟨h39, h34, h62, h92⟩ := hc
  by_cases hw : isWhitespace c = true
  · obtain ⟨h1, h2⟩ := splitChar_whitespace st st1 c hw h0 h
    have hlast : st1.lastChar = c := by
      have hd := isWhitespace_isDelimiter c hw
      have hq : quoteStep st.lastChar st.inquotes c = 0 := by
        have h60 : c ≠ 60 := by intro e; subst e; revert hw; decide
        unfold quoteStep
        simp only [h39, h34, h60, if_false, h0, ite_self]
      unfold splitChar at h
      simp only [hq, hw, true_and, hd, and_self, if_true, not_true_eq_false, if_false] at h
      by_cases hl2 : isWhitespace st.lastChar = true
      · simp only [hl2, if_true, Option.some.injEq] at h
        subst h; rfl
      · simp only [hl2, Bool.false_eq_true, if_false] at h
        by_cases hb : st.blocklen > 0
        · simp only [hb, if_true] at h
          generalize hp : pushBlock _ = p at h
          cases p with
          | none => simp at h
          | some s2 =>
            simp only [Option.some.injEq] at h
            subst h; rfl
        · simp only [hb, if_false, Option.some.injEq] at h
          subst h; rfl
    refine ⟨h2, by rw [hlast]; exact h92, ?_⟩
    rcases h1 with h1 | h1
    · rw [h1]; exact hdata
    · rw [h1]
      intro x hx
      rcases List.mem_append.1 hx with hx | hx
      · exact hdata x hx
      · simp only [List.mem_singleton] at hx; subst hx; decide
  · have hwf : isWhitespace c = false := by simpa using hw
    have hq : quoteStep st.lastChar st.inquotes c = 0 := by
      unfold quoteStep
      simp only [h39, h34, if_false, h0]
      split <;> (try split) <;> simp
    unfold splitChar at h
    simp only [hq, hwf, Bool.false_eq_true, false_and, if_false, and_true, not_false_eq_true,
      true_or, if_true, if_neg hl] at h
    by_cases hd : isDelimiter c = true
    · simp only [hd, if_true] at h
      by_cases hb : st.blocklen > 0
      · simp only [hb, if_true] at h
        generalize hp : pushBlock _ = p at h
        cases p with
        | none => simp at h
        | some s2 =>
          simp only [Option.map_eq_some'] at h
          obtain ⟨s3, hp3, h3⟩ := h
          have d2 := pushBlock_data _ _ hp
          have d3 := pushBlock_data _ _ hp3
          subst h3
          simp only [splitFinish, h62, false_and, if_false]
          refine ⟨?_, h92, ?_⟩
          · rw [d3.2.1]; simp only; rw [d2.2.1]; split <;> rfl
          · rw [d3.1]
            simp only
            rw [d2.1]
            intro x hx
            have hx2 : x ∈ st.data ∨ x = 0 ∨ x = c := by
              revert hx
              split <;> simp <;> tauto
            rcases hx2 with hx2 | hx2 | hx2
            · exact hdata x hx2
            · subst hx2; decide
            · subst hx2; exact hwf
      · simp only [hb, if_false, Option.map_eq_some'] at h
        obtain ⟨s3, hp3, h3⟩ := h
        have d3 := pushBlock_data _ _ hp3
        subst h3
        simp only [splitFinish, h62, false_and, if_false]
        refine ⟨by rw [d3.2.1], h92, ?_⟩
        rw [d3.1]
        intro x hx
        simp only [List.mem_append, List.mem_cons, List.mem_singleton, List.not_mem_nil,
          or_false] at hx
        rcases hx with hx | hx | hx
        · exact hdata x hx
        · subst hx; exact hwf
        · subst hx; decide
    · simp only [hd, Bool.false_eq_true, if_false, Option.some.injEq] at h
      subst h
      simp only [splitFinish, h62, false_and, if_false]
      refine ⟨rfl, h92, ?_⟩
      intro x hx
      rcases List.mem_append.1 hx with hx | hx
      · exact hdata x hx
      · simp only [List.mem_singleton] at hx; subst hx; exact hwf

theorem splitLoop_plain (dalloc : Nat) :
    ∀ (data : List Nat) (st : SplitState), (∀ c ∈ data, c ≠ 39 ∧ c ≠ 34 ∧ c ≠ 62 ∧ c ≠ 92) →
      PlainSplit st → ∀ code st1, splitLoop dalloc data st = .ret code st1 →
      ∀ c ∈ st1.data, isWhitespace c = false := by
  intro data
  induction data with
  | nil =>
    intro st _ hinv code st1 h
    simp only [splitLoop, Res.ret.injEq] at h
    rw [← h.2]; exact hinv.2.2
  | cons c rest ih =>
    intro st hd hinv code st1 h
    rw [splitLoop] at h
    by_cases hcap : (dalloc : Int) - 2 ≤ (st.data.length : Int)
    · rw [if_pos hcap] at h
      simp only [Res.ret.injEq] at h
      rw [← h.2]; exact hinv.2.2
    · rw [if_neg hcap] at h
      generalize hs : splitChar st c = r at h
      cases r with
      | none => simp at h
      | some s2 =>
        simp only at h
        exact ih s2 (fun x hx => hd x (List.mem_cons_of_mem _ hx))
          (splitChar_plain st s2 c hinv (hd c (List.mem_cons_self _ _)) hs) code st1 h

theorem cstrAt_mem : ∀ (l : List Nat) (off : Nat) (w : List Nat), cstrAt l off = some w →
    ∀ c ∈ w, c ∈ l := by
  intro l
  induction l with
  | nil => intro off w h; simp [cstrAt] at h
  | cons b rest ih =>
    intro off w h c hc
    cases off with
    | zero =>
      simp only [cstrAt] at h
      by_cases hb : b = 0
      · simp only [hb, if_true, Option.some.injEq] at h
        subst h; cases hc
      · simp only [hb, if_false, Option.map_eq_some'] at h
        obtain ⟨t, ht, hw⟩ := h
        subst hw
        rcases List.mem_cons.1 hc with h1 | h1
        · rw [h1]; exact List.mem_cons_self _ _
        · exact List.mem_cons_of_mem _ (ih 0 t ht c h1)
    | succ k =>
      simp only [cstrAt] at h
      exact List.mem_cons_of_mem _ (ih k w h c hc)

/-- Claim C21, counterexample: in `<box> <box/></box>` the space between `>`
and `<` is emitted as the block `" "`. -/
theorem whitespace_block_emitted :
    ∃ B, _HDL_ParseDataToBlocks (str "<box> <box/></box>") = .ret 0 B ∧
      B.list = [some (str "<"), some (str "box"), some (str ">"), some (str " "),
        some (str "<"), some (str "box"), some (str "/"), some (str ">"),
        some (str "<"), some (str "/"), some (str "box"), some (str ">")] :=
  ⟨_, rfl, by decide⟩

/-- Claim C21, amended: (1) a whitespace character met while the splitter is
outside quotes and outside text content is never stored: the step leaves
`data_buffer` unchanged or only writes the terminator of the current block;
(2) hence for every input without a quote character, `>` and backslash (no
quoted string, no text content, no escape) and every block the splitter emits,
no character of the block is a whitespace character. -/
theorem whitespace_not_stored (data : List Nat)
    (hd : ∀ c ∈ data, c ≠ 39 ∧ c ≠ 34 ∧ c ≠ 62 ∧ c ≠ 92) :
    (∀ (st st1 : SplitState) (c : Nat), isWhitespace c = true → st.inquotes = 0 →
      splitChar st c = some st1 → st1.data = st.data ∨ st1.data = st.data ++ [0]) ∧
    (∀ (code : Nat) (B : Blocks), _HDL_ParseDataToBlocks data = .ret code B →
      ∀ (i : Nat) (w : List Nat), B.get i = some w → ∀ c ∈ w, isWhitespace c = false) := by
  refine ⟨fun st st1 c hw h0 h => (splitChar_whitespace st st1 c hw h0 h).1, ?_⟩
  intro code B hB i w hw c hc
  have hinit : PlainSplit ⟨[], [0], HDL_BLOCKBUFFER_REALLOC_SIZE, 32, 0, 0⟩ :=
    ⟨rfl, by decide, fun x hx => by cases hx⟩
  have hall : ∀ x ∈ B.data, isWhitespace x = false := by
    unfold _HDL_ParseDataToBlocks at hB
    simp only at hB
    generalize hr : splitLoop (2 * data.length) data
      ⟨[], [0], HDL_BLOCKBUFFER_REALLOC_SIZE, 32, 0, 0⟩ = r at hB
    cases r with
    | ub => simp at hB
    | nofuel => simp at hB
    | ret k st =>
      have hst := splitLoop_plain _ data _ hd hinit k st hr
      cases k with
      | zero =>
        simp only at hB
        split at hB
        · simp only [Res.ret.injEq] at hB
          rw [← hB.2]
          intro x hx
          rcases List.mem_append.1 hx with hx | hx
          · exact hst x hx
          · simp only [List.mem_singleton] at hx; subst hx; decide
        · cases hB
      | succ k =>
        simp only [Res.ret.injEq] at hB
        rw [← hB.2]
        exact hst
  unfold Blocks.get at hw
  cases hp : B.ptr i with
  | none => rw [hp] at hw; simp at hw
  | some off =>
    rw [hp] at hw
    simp only [Option.some_bind] at hw
    exact hall c (cstrAt_mem B.data off w hw c hc)

/-- Witness of claim C21 (amended) on `#const a  [1,\t2]`: the whitespace
separates the blocks and is in none of them. -/
theorem whitespace_not_stored_witness :
    ∃ B, _HDL_ParseDataToBlocks (str "#const a  [1,\t2]") = .ret 0 B ∧
      B.list = [some (str "#"), some (str "const"), some (str "a"), some (str "["),
        some (str "1"), some (str ","), some (str "2"), some (str "]")] ∧
      ∀ (i : Nat) (w : List Nat), B.get i = some w → ∀ c ∈ w, isWhitespace c = false :=
  ⟨_, rfl, by decide,
    (whitespace_not_stored (str "#const a  [1,\t2]") (by decide)).2 0 _ rfl⟩

theorem qVal_length (ts : List QTok) : ∀ prev, (qVal prev ts).length ≤ (qSrc ts).length := by
  induction ts with
  | nil => intro _; simp [qVal]
  | cons t rest ih =>
    intro prev
    cases t with
    | ch c =>
      simp only [qVal, qSrc]
      split
      · have := ih c; simp only [List.length_cons]; omega
      · have := ih c; simp only [List.length_cons]; omega
    | nl => have := ih 110; simp only [qVal, qSrc, List.length_cons]; omega
    | tab => have := ih 116; simp only [qVal, qSrc, List.length_cons]; omega

theorem qVal_single (ts : List QTok) : ∀ prev, qSingle prev ts = true →
    qVal prev ts = qPlain ts := by
  induction ts with
  | nil => intro _ _; rfl
  | cons t rest ih =>
    intro prev h
    cases t with
    | ch c =>
      simp only [qSingle, Bool.and_eq_true, Bool.not_eq_true'] at h
      simp only [qVal, qPlain, h.1, Bool.false_eq_true, if_false, ih c h.2]
    | nl => simp only [qSingle] at h; simp only [qVal, qPlain, ih 110 h]
    | tab => simp only [qSingle] at h; simp only [qVal, qPlain, ih 116 h]

theorem qVal_nonzero (q : Nat) (ts : List QTok) : ∀ prev, qOK q ts = true →
    ∀ c ∈ qVal prev ts, c ≠ 0 := by
  induction ts with
  | nil => intro _ _ c hc; simp [qVal] at hc
  | cons t rest ih =>
    intro prev h c hc
    cases t with
    | ch d =>
      simp only [qOK, Bool.and_eq_true, decide_eq_true_eq] at h
      simp only [qVal] at hc
      split at hc
      · exact ih d h.2 c hc
      · rcases List.mem_cons.1 hc with h1 | h1
        · rw [h1]; exact h.1.2
        · exact ih d h.2 c h1
    | nl =>
      simp only [qOK] at h
      simp only [qVal] at hc
      rcases List.mem_cons.1 hc with h1 | h1
      · rw [h1]; decide
      · exact ih 110 h c h1
    | tab =>
      simp only [qOK] at h
      simp only [qVal] at hc
      rcases List.mem_cons.1 hc with h1 | h1
      · rw [h1]; decide
      · exact ih 116 h c h1

theorem qLast_ne (q : Nat) (ts : List QTok) : ∀ prev, prev ≠ 92 → qOK q ts = true →
    qLast prev ts ≠ 92 := by
  induction ts with
  | nil => intro prev hp _; exact hp
  | cons t rest ih =>
    intro prev hp h
    cases t with
    | ch d =>
      simp only [qOK, Bool.and_eq_true, decide_eq_true_eq] at h
      exact ih d h.1.1.1 h.2
    | nl => exact ih 110 (by decide) h
    | tab => exact ih 116 (by decide) h

/-- The letter after a backslash inside a quoted literal: `n` or `t` replaces
the stored backslash by a newline or tab byte. -/
theorem splitChar_escape (d bs : List Nat) (ba bl iq c : Nat) (hq : iq = 1 ∨ iq = 2)
    (hc : c = 110 ∨ c = 116) :
    splitChar ⟨d ++ [92], bs, ba, 92, bl, iq⟩ c =
      some ⟨d ++ [if c = 110 then 10 else 9], bs, ba, c, bl, iq⟩ := by
  have hiq : iq ≠ 0 := by omega
  rcases hc with h | h <;> subst h <;>
    simp [splitChar, quoteStep, splitFinish, isWhitespace, isDelimiter, delimiters, hiq]

theorem splitLoop_qtoks (dalloc : Nat) (q : Nat) (rest : List Nat) :
    ∀ (ts : List QTok) (st : SplitState),
      ((st.inquotes = 1 ∧ q = 39) ∨ (st.inquotes = 2 ∧ q = 34)) → st.lastChar ≠ 92 →
      qOK q ts = true → st.data.length + (qSrc ts).length + 2 ≤ dalloc →
      splitLoop dalloc (qSrc ts ++ rest) st =
        splitLoop dalloc rest
          { st with data := st.data ++ qVal st.lastChar ts,
                    blocklen := st.blocklen + (qVal st.lastChar ts).length,
                    lastChar := qLast st.lastChar ts } := by
  intro ts
  induction ts with
  | nil => intro st _ _ _ _; simp [qVal, qSrc, qLast]
  | cons t ts ih =>
    intro st hm hl hok hcap
    cases t with
    | ch c =>
      simp only [qOK, Bool.and_eq_true, decide_eq_true_eq] at hok
      obtain ⟨⟨⟨hc92, hcq⟩, _⟩, hok2⟩ := hok
      have hstep := splitChar_quoted st q c hm hl hcq
      simp only [qSrc, List.cons_append, List.length_cons] at hcap ⊢
      rw [splitLoop_cons dalloc c (qSrc ts ++ rest) st _ (by omega) hstep]
      by_cases hdrop : ((isWhitespace c && isWhitespace st.lastChar) || decide (c = 10)) = true
      · simp only [hdrop, if_true]
        rw [ih { st with lastChar := c } hm hc92 hok2 (by simp only; omega)]
        simp only [qVal, hdrop, if_true, qLast]
      · simp only [hdrop, Bool.false_eq_true, if_false]
        rw [ih { st with data := st.data ++ [c], blocklen := st.blocklen + 1, lastChar := c } hm
          hc92 hok2 (by simp only [List.length_append, List.length_singleton]; omega)]
        simp only [qVal, hdrop, Bool.false_eq_true, if_false, qLast]
        congr 1
        simp only [SplitState.mk.injEq]
        refine ⟨by simp, trivial, trivial, trivial, by simp only [List.length_cons]; omega,
          trivial⟩
    | nl =>
      simp only [qOK] at hok
      have hq92 : (92 : Nat) ≠ q := by rcases hm with ⟨_, h⟩ | ⟨_, h⟩ <;> omega
      have hstep := splitChar_quoted st q 92 hm hl hq92
      have hnw : ((isWhitespace 92 && isWhitespace st.lastChar) || decide ((92 : Nat) = 10))
          = false := by simp [isWhitespace]
      simp only [hnw, Bool.false_eq_true, if_false] at hstep
      simp only [qSrc, List.cons_append, List.length_cons] at hcap ⊢
      rw [splitLoop_cons dalloc 92 _ st _ (by omega) hstep]
      have hiq : st.inquotes = 1 ∨ st.inquotes = 2 := by
        rcases hm with ⟨h, _⟩ | ⟨h, _⟩ <;> omega
      have hesc : splitChar ⟨st.data ++ [92], st.blocks, st.blocks_allocated, 92,
          st.blocklen + 1, st.inquotes⟩ 110 =
          some ⟨st.data ++ [10], st.blocks, st.blocks_allocated, 110, st.blocklen + 1,
            st.inquotes⟩ := by
        have := splitChar_escape st.data st.blocks st.blocks_allocated (st.blocklen + 1)
          st.inquotes 110 hiq (Or.inl rfl)
        simpa using this
      rw [splitLoop_cons dalloc 110 _ _ _
        (by simp only [List.length_append, List.length_singleton]; omega) hesc]
      rw [ih ⟨st.data ++ [10], st.blocks, st.blocks_allocated, 110, st.blocklen + 1,
        st.inquotes⟩ hm (by simp) hok
        (by simp only [List.length_append, List.length_singleton]; omega)]
      simp only [qVal, qLast]
      congr 1
      simp only [SplitState.mk.injEq]
      refine ⟨by simp, trivial, trivial, trivial, by simp only [List.length_cons]; omega,
        trivial⟩
    | tab =>
      simp only [qOK] at hok
      have hq92 : (92 : Nat) ≠ q := by rcases hm with ⟨_, h⟩ | ⟨_, h⟩ <;> omega
      have hstep := splitChar_quoted st q 92 hm hl hq92
      have hnw : ((isWhitespace 92 && isWhitespace st.lastChar) || decide ((92 : Nat) = 10))
          = false := by simp [isWhitespace]
      simp only [hnw, Bool.false_eq_true, if_false] at hstep
      simp only [qSrc, List.cons_append, List.length_cons] at hcap ⊢
      rw [splitLoop_cons dalloc 92 _ st _ (by omega) hstep]
      have hiq : st.inquotes = 1 ∨ st.inquotes = 2 := by
        rcases hm with ⟨h, _⟩ | ⟨h, _⟩ <;> omega
      have hesc : splitChar ⟨st.data ++ [92], st.blocks, st.blocks_allocated, 92,
          st.blocklen + 1, st.inquotes⟩ 116 =
          some ⟨st.data ++ [9], st.blocks, st.blocks_allocated, 116, st.blocklen + 1,
            st.inquotes⟩ := by
        have := splitChar_escape st.data st.blocks st.blocks_allocated (st.blocklen + 1)
          st.inquotes 116 hiq (Or.inr rfl)
        simpa using this
      rw [splitLoop_cons dalloc 116 _ _ _
        (by simp only [List.length_append, List.length_singleton]; omega) hesc]
      rw [ih ⟨st.data ++ [9], st.blocks, st.blocks_allocated, 116, st.blocklen + 1,
        st.inquotes⟩ hm (by simp) hok
        (by simp only [List.length_append, List.length_singleton]; omega)]
      simp only [qVal, qLast]
      congr 1
      simp only [SplitState.mk.injEq]
      refine ⟨by simp, trivial, trivial, trivial, by simp only [List.length_cons]; omega,
        trivial⟩

/-- A whole literal with escapes, from the opening to the closing quote. -/
theorem splitLoop_esc_literal (dalloc : Nat) (q : Nat) (ts : List QTok) (rest : List Nat)
    (st : SplitState) (hq : q = 39 ∨ q = 34) (h0 : st.inquotes = 0) (hl : st.lastChar ≠ 92)
    (hok : qOK q ts = true) (hcap : st.data.length + (qSrc ts).length + 4 ≤ dalloc) :
    splitLoop dalloc (q :: qSrc ts ++ q :: rest) st =
      splitLoop dalloc rest
        { st with data := st.data ++ (q :: qVal q ts ++ [q]),
                  blocklen := st.blocklen + ((qVal q ts).length + 2),
                  lastChar := q, inquotes := 0 } := by
  have hq92 : q ≠ 92 := by omega
  have hopen : splitChar st q = some
      { st with data := st.data ++ [q], blocklen := st.blocklen + 1, lastChar := q,
                inquotes := (if q = 39 then 1 else 2) } := by
    rcases hq with h | h <;> subst h <;>
      simp [splitChar, quoteStep, splitFinish, hl, h0, isWhitespace, isDelimiter, delimiters]
  rw [List.cons_append, splitLoop_cons dalloc q _ st _ (by omega) hopen]
  have hm : ((if q = 39 then 1 else 2) = 1 ∧ q = 39) ∨ ((if q = 39 then 1 else 2) = 2 ∧ q = 34) := by
    rcases hq with h | h <;> subst h <;> simp
  rw [splitLoop_qtoks dalloc q (q :: rest) ts _ hm hq92 hok
    (by simp only [List.length_append, List.length_singleton]; omega)]
  have hlast : ∀ (l : Nat), l ≠ 92 → ∀ (d : List Nat) (bl : Nat),
      splitChar ⟨d, st.blocks, st.blocks_allocated, l, bl, if q = 39 then 1 else 2⟩ q =
        some ⟨d ++ [q], st.blocks, st.blocks_allocated, q, bl + 1, 0⟩ := by
    intro l hl2 d bl
    rcases hq with h | h <;> subst h <;>
      simp [splitChar, quoteStep, splitFinish, hl2, isWhitespace, isDelimiter, delimiters]
  have hl3 : qLast q ts ≠ 92 := qLast_ne q ts q hq92 hok
  have hk := qVal_length ts q
  rw [splitLoop_cons dalloc q rest _ _
    (by simp only [List.length_append, List.length_singleton]; omega) (hlast _ hl3 _ _)]
  congr 1
  simp only [SplitState.mk.injEq]
  refine ⟨by simp, trivial, trivial, trivial, by omega, trivial⟩

/-- The splitter on `<box x=` + quoted literal with escapes + `/>`. -/
theorem split_esc_literal (q : Nat) (ts : List QTok) (hq : q = 39 ∨ q = 34)
    (hok : qOK q ts = true) :
    _HDL_ParseDataToBlocks (str "<box x=" ++ (q :: qSrc ts ++ q :: str "/>")) =
      .ret 0 (mkBlocks (litWords (q :: qVal q ts ++ [q]))) := by
  have hk := qVal_length ts q
  have hlen : (str "<box x=" ++ (q :: qSrc ts ++ q :: str "/>")).length =
      (qSrc ts).length + 11 := by
    have e1 : (str "<box x=").length = 7 := by decide
    have e2 : (str "/>").length = 2 := by decide
    simp only [List.length_append, List.length_cons, e1, e2]; omega
  unfold _HDL_ParseDataToBlocks
  simp only [hlen]
  rw [split_box_x _ _ (by omega)]
  rw [splitLoop_esc_literal _ q ts (str "/>") _ hq rfl (by decide) hok (by simp; omega)]
  rw [split_slash_gt _ _ _ _ (by omega) (by simp; omega)]
  simp only
  rw [if_pos (by simp; omega)]
  simp only [if_true, mkBlocks, litWords, joinZ, offsets, Res.ret.injEq, Blocks.mk.injEq,
    true_and]
  have e1 : str "<" = [60] := by decide
  have e2 : str "box" = [98, 111, 120] := by decide
  have e3 : str ">" = [62] := by decide
  have e4 : str "/" = [47] := by decide
  have e5 : str "x" = [120] := by decide
  have e6 : str "=" = [61] := by decide
  simp only [e1, e2, e3, e4, e5, e6]
  refine ⟨by simp, ?_, by simp⟩
  simp
  omega

theorem litWords_list (lit : List Nat) (hz : ∀ c ∈ lit, c ≠ 0) :
    (mkBlocks (litWords lit)).list =
      [some (str "<"), some (str "box"), some (str "x"), some (str "="), some lit,
        some (str "/"), some (str ">")] := by
  have g0 := (mkBlocks_get (litWords lit) 0 (str "<") rfl (by decide)).1
  have g1 := (mkBlocks_get (litWords lit) 1 (str "box") rfl (by decide)).1
  have g2 := (mkBlocks_get (litWords lit) 2 (str "x") rfl (by decide)).1
  have g3 := (mkBlocks_get (litWords lit) 3 (str "=") rfl (by decide)).1
  have g4 := (mkBlocks_get (litWords lit) 4 lit rfl hz).1
  have g5 := (mkBlocks_get (litWords lit) 5 (str "/") rfl (by decide)).1
  have g6 := (mkBlocks_get (litWords lit) 6 (str ">") rfl (by decide)).1
  have hcount : (mkBlocks (litWords lit)).block_count = 7 := rfl
  have hr : List.range 7 = [0, 1, 2, 3, 4, 5, 6] := by decide
  simp only [Blocks.list, hcount, hr, List.map_cons, List.map_nil, g0, g1, g2, g3, g4, g5, g6]

/-- Claim C22, counterexample: in `<box x="a\xb"/>` the character `x` after
the backslash is not kept (the block is `"a\b"`), and in `<box x="a  b\nc"/>`
the escape becomes a newline byte but the second space is not kept (the block
is `"a b` newline `c"`). -/
theorem escaped_char_dropped :
    (∃ B, _HDL_ParseDataToBlocks (str "<box x=\"a\\xb\"/>") = .ret 0 B ∧
      B.list = [some (str "<"), some (str "box"), some (str "x"), some (str "="),
        some (str "\"a\\b\""), some (str "/"), some (str ">")]) ∧
    (∃ B, _HDL_ParseDataToBlocks (str "<box x=\"a  b\\nc\"/>") = .ret 0 B ∧
      B.list = [some (str "<"), some (str "box"), some (str "x"), some (str "="),
        some (str "\"a b\nc\""), some (str "/"), some (str ">")]) :=
  ⟨⟨_, rfl, by decide⟩, ⟨_, rfl, by decide⟩⟩

/-- Claim C22, amended: for a quoted literal (quote `q`, single or double)
whose interior is a sequence of characters other than backslash, `q` and NUL
and of the escapes backslash + `n` and backslash + `t`, (1) from any splitter
state outside quotes and text content whose last character is not a backslash,
the loop appends to the current block the opening quote, the bytes `qVal` of
the interior (one newline byte per backslash + `n`, one tab byte per
backslash + `t`, and the other characters in order except newline characters
and whitespace characters that directly follow a whitespace character) and
the closing quote; (2) the source `<box x=` + literal + `/>` is split into
seven blocks, the literal being one block with those bytes; (3) when the
interior has no newline character and no two adjacent whitespace characters,
the block holds every character of the interior in order, each escape
replaced by its byte. -/
theorem escapes_replaced (q : Nat) (ts : List QTok) (hq : q = 39 ∨ q = 34)
    (hok : qOK q ts = true) :
    (∀ (dalloc : Nat) (rest : List Nat) (st : SplitState), st.inquotes = 0 → st.lastChar ≠ 92 →
      st.data.length + (qSrc ts).length + 4 ≤ dalloc →
      splitLoop dalloc (q :: qSrc ts ++ q :: rest) st =
        splitLoop dalloc rest
          { st with data := st.data ++ (q :: qVal q ts ++ [q]),
                    blocklen := st.blocklen + ((qVal q ts).length + 2),
                    lastChar := q, inquotes := 0 }) ∧
    (∃ B, _HDL_ParseDataToBlocks (str "<box x=" ++ (q :: qSrc ts ++ q :: str "/>")) = .ret 0 B ∧
      B.list = [some (str "<"), some (str "box"), some (str "x"), some (str "="),
        some (q :: qVal q ts ++ [q]), some (str "/"), some (str ">")]) ∧
    (qSingle q ts = true → qVal q ts = qPlain ts) := by
  refine ⟨fun dalloc rest st h0 hl hcap =>
    splitLoop_esc_literal dalloc q ts rest st hq h0 hl hok hcap, ?_, qVal_single ts q⟩
  refine ⟨_, split_esc_literal q ts hq hok, ?_⟩
  have hq0 : q ≠ 0 := by omega
  apply litWords_list
  intro c hc
  simp only [List.cons_append, List.mem_cons, List.mem_append, List.mem_singleton,
    List.not_mem_nil, or_false] at hc
  rcases hc with h | h | h
  · rw [h]; exact hq0
  · exact qVal_nonzero q ts q hok c h
  · rw [h]; exact hq0

/-- Witness of claim C22 (amended) on `"a\nb c\t"`: the block holds `a`,
newline, `b c`, tab between the quotes. -/
theorem escapes_replaced_witness :
    ∃ B, _HDL_ParseDataToBlocks (str "<box x=\"a\\nb c\\t\"/>") = .ret 0 B ∧
      B.list = [some (str "<"), some (str "box"), some (str "x"), some (str "="),
        some (str "\"a\nb c\t\""), some (str "/"), some (str ">")] := by
  obtain ⟨_, ⟨B, h1, h2⟩, h3⟩ := escapes_replaced 34
    [.ch 97, .nl, .ch 98, .ch 32, .ch 99, .tab] (Or.inr rfl) (by decide)
  rw [h3 (by decide)] at h2
  exact ⟨B, h1, h2⟩

/-- An escaped quote: the step changes nothing but `lastChar`. -/
theorem splitChar_escaped_quote (st : SplitState) (c : Nat) (hl : st.lastChar = 92)
    (hc : c = 39 ∨ c = 34) : splitChar st c = some { st with lastChar := c } := by
  obtain ⟨d, bs, ba, l, bl, iq⟩ := st
  simp only at hl
  subst hl
  rcases hc with h | h <;> subst h <;>
    simp [splitChar, quoteStep, splitFinish, isWhitespace, isDelimiter, delimiters]

/-- A delimiter other than `>` outside quotes: the step after a backslash is
the step after any other character that is no whitespace. -/
theorem splitChar_escaped_delimiter (st : SplitState) (d l : Nat) (h0 : st.inquotes = 0)
    (hd : isDelimiter d = true) (h62 : d ≠ 62) (hl : isWhitespace l = false) :
    splitChar { st with lastChar := 92 } d = splitChar { st with lastChar := l } d := by
  obtain ⟨dt, bs, ba, l0, bl, iq⟩ := st
  simp only at h0
  subst h0
  have h39 : d ≠ 39 := by intro e; subst e; revert hd; decide
  have h34 : d ≠ 34 := by intro e; subst e; revert hd; decide
  have hq1 : quoteStep 92 0 d = 0 := by simp [quoteStep]
  have hq2 : quoteStep l 0 d = 0 := by
    unfold quoteStep
    simp only [h39, h34, if_false]
    split <;> (try split) <;> simp
  have hw92 : isWhitespace 92 = false := by decide
  unfold splitChar
  simp only [hq1, hq2, hw92, hl, Bool.false_eq_true, and_false, if_false, hd, and_self, if_true]
  simp only [splitFinish, h62, false_and, if_false]
  simp only [pushBlock]
  split_ifs <;> (try simp only []) <;> (try split_ifs) <;> (try simp)

/-- A literal with one escaped quote inside. -/
theorem splitLoop_quote_inside (dalloc : Nat) (q : Nat) (u v rest : List Nat) (st : SplitState)
    (hq : q = 39 ∨ q = 34) (h0 : st.inquotes = 0) (hl : st.lastChar ≠ 92)
    (hu : ∀ c ∈ u, c ≠ 92 ∧ c ≠ q) (hv : ∀ c ∈ v, c ≠ 92 ∧ c ≠ q)
    (hcap : st.data.length + u.length + v.length + 6 ≤ dalloc) :
    splitLoop dalloc (q :: u ++ 92 :: q :: v ++ q :: rest) st =
      splitLoop dalloc rest
        { st with data := st.data ++ (q :: keptQ q u ++ 92 :: keptQ q v ++ [q]),
                  blocklen := st.blocklen + ((keptQ q u).length + (keptQ q v).length + 3),
                  lastChar := q, inquotes := 0 } := by
  have hq92 : q ≠ 92 := by omega
  have hopen : splitChar st q = some
      { st with data := st.data ++ [q], blocklen := st.blocklen + 1, lastChar := q,
                inquotes := (if q = 39 then 1 else 2) } := by
    rcases hq with h | h <;> subst h <;>
      simp [splitChar, quoteStep, splitFinish, hl, h0, isWhitespace, isDelimiter, delimiters]
  have hm : ((if q = 39 then 1 else 2) = 1 ∧ q = 39) ∨ ((if q = 39 then 1 else 2) = 2 ∧ q = 34) := by
    rcases hq with h | h <;> subst h <;> simp
  have hku := keptQ_length u q
  have hkv := keptQ_length v q
  have e : q :: u ++ 92 :: q :: v ++ q :: rest = q :: (u ++ (92 :: q :: (v ++ q :: rest))) := by
    simp
  rw [e, splitLoop_cons dalloc q _ st _ (by omega) hopen]
  rw [splitLoop_quoted dalloc q _ u _ hm hq92 hu
    (by simp only [List.length_append, List.length_singleton]; omega)]
  -- the backslash
  have hlu : (u.getLast?).getD q ≠ 92 := by
    cases u with
    | nil => simpa using hq92
    | cons d t =>
      have hx : (d :: t).getLast? = some ((d :: t).getLast (by simp)) :=
        List.getLast?_eq_getLast _ (by simp)
      rw [hx]
      exact (hu _ (List.getLast_mem _)).1
  have hb := splitChar_quoted
    ⟨st.data ++ [q] ++ keptQ q u, st.blocks, st.blocks_allocated, (u.getLast?).getD q,
      st.blocklen + 1 + (keptQ q u).length, if q = 39 then 1 else 2⟩ q 92 hm hlu
    (by omega)
  have hnw : ((isWhitespace 92 && isWhitespace ((u.getLast?).getD q)) || decide ((92 : Nat) = 10))
      = false := by simp [isWhitespace]
  simp only [hnw, Bool.false_eq_true, if_false] at hb
  rw [splitLoop_cons dalloc 92 _ _ _
    (by simp only [List.length_append, List.length_singleton]; omega) hb]
  -- the escaped quote
  have hesc := splitChar_escaped_quote
    ⟨st.data ++ [q] ++ keptQ q u ++ [92], st.blocks, st.blocks_allocated, 92,
      st.blocklen + 1 + (keptQ q u).length + 1, if q = 39 then 1 else 2⟩ q rfl hq
  rw [splitLoop_cons dalloc q _ _ _
    (by simp only [List.length_append, List.length_singleton]; omega) hesc]
  rw [splitLoop_quoted dalloc q (q :: rest) v
    ⟨st.data ++ [q] ++ keptQ q u ++ [92], st.blocks, st.blocks_allocated, q,
      st.blocklen + 1 + (keptQ q u).length + 1, if q = 39 then 1 else 2⟩ hm hq92 hv
    (by simp only [List.length_append, List.length_singleton]; omega)]
  have hlast : ∀ (l : Nat), l ≠ 92 → ∀ (d : List Nat) (bl : Nat),
      splitChar ⟨d, st.blocks, st.blocks_allocated, l, bl, if q = 39 then 1 else 2⟩ q =
        some ⟨d ++ [q], st.blocks, st.blocks_allocated, q, bl + 1, 0⟩ := by
    intro l hl2 d bl
    rcases hq with h | h <;> subst h <;>
      simp [splitChar, quoteStep, splitFinish, hl2, isWhitespace, isDelimiter, delimiters]
  have hlv : (v.getLast?).getD q ≠ 92 := by
    cases v with
    | nil => simpa using hq92
    | cons d t =>
      have hx : (d :: t).getLast? = some ((d :: t).getLast (by simp)) :=
        List.getLast?_eq_getLast _ (by simp)
      rw [hx]
      exact (hv _ (List.getLast_mem _)).1
  rw [splitLoop_cons dalloc q rest _ _
    (by simp only [List.length_append, List.length_singleton]; omega) (hlast _ hlv _ _)]
  congr 1
  simp only [SplitState.mk.injEq]
  refine ⟨by simp, trivial, trivial, trivial, by omega, trivial⟩

/-- Claim C23, counterexample: in `<box x=a\=b/>` the escaped delimiter `=`
ends the block `a\` and is emitted as a block of its own. -/
theorem escaped_delimiter_splits :
    ∃ B, _HDL_ParseDataToBlocks (str "<box x=a\\=b/>") = .ret 0 B ∧
      B.list = [some (str "<"), some (str "box"), some (str "x"), some (str "="),
        some (str "a\\"), some (str "="), some (str "b"), some (str "/"), some (str ">")] :=
  ⟨_, rfl, by decide⟩

/-- The delimiter `>` outside quotes: the step after a backslash is the step
after any other character that is no whitespace, except that text content is
not entered. -/
theorem splitChar_escaped_gt (st : SplitState) (l : Nat) (h0 : st.inquotes = 0)
    (hl : isWhitespace l = false) :
    splitChar { st with lastChar := 92 } 62 =
      (splitChar { st with lastChar := l } 62).map (fun s => { s with inquotes := 0 }) := by
  obtain ⟨dt, bs, ba, l0, bl, iq⟩ := st
  simp only at h0
  subst h0
  have hq1 : quoteStep 92 0 62 = 0 := by simp [quoteStep]
  have hq2 : quoteStep l 0 62 = 0 := by simp [quoteStep]
  have hw92 : isWhitespace 92 = false := by decide
  have hw62 : isWhitespace 62 = false := by decide
  have hd62 : isDelimiter 62 = true := by decide
  unfold splitChar
  simp only [hq1, hq2, hw92, hw62, hl, Bool.false_eq_true, and_false, false_and, if_false, hd62,
    and_self, if_true, not_false_eq_true]
  simp only [splitFinish, ne_eq, not_true_eq_false, not_false_eq_true, and_false, and_true,
    if_true, if_false]
  simp only [pushBlock]
  split_ifs <;> (try simp only []) <;> (try split_ifs) <;> (try simp)

/-- Claim C23, amended: (1) on a quote character that directly follows a
backslash the splitter changes nothing but `lastChar`: the quote state stays
as it was, so the escaped quote neither opens nor closes a quoted region;
(2) a literal `q u \q v q` whose parts `u` and `v` have no backslash and no
quote `q` stays one block from the first to the last quote (in which the
backslash is stored and the escaped quote is not); (3) outside quotes a
backslash does not suppress a delimiter: on a delimiter other than `>` the
step after a backslash equals the step after any other character that is no
whitespace, so the delimiter ends the current block and is emitted as usual;
(4) on `>` the two steps differ only in that text content is not entered
after the backslash. -/
theorem escaped_quote_kept_closed (q : Nat) (u v : List Nat) (hq : q = 39 ∨ q = 34)
    (hu : ∀ c ∈ u, c ≠ 92 ∧ c ≠ q) (hv : ∀ c ∈ v, c ≠ 92 ∧ c ≠ q) :
    (∀ (st : SplitState), st.lastChar = 92 → splitChar st q = some { st with lastChar := q }) ∧
    (∀ (dalloc : Nat) (rest : List Nat) (st : SplitState), st.inquotes = 0 → st.lastChar ≠ 92 →
      st.data.length + u.length + v.length + 6 ≤ dalloc →
      splitLoop dalloc (q :: u ++ 92 :: q :: v ++ q :: rest) st =
        splitLoop dalloc rest
          { st with data := st.data ++ (q :: keptQ q u ++ 92 :: keptQ q v ++ [q]),
                    blocklen := st.blocklen + ((keptQ q u).length + (keptQ q v).length + 3),
                    lastChar := q, inquotes := 0 }) ∧
    (∀ (st : SplitState) (d l : Nat), st.inquotes = 0 → isDelimiter d = true → d ≠ 62 →
      isWhitespace l = false →
      splitChar { st with lastChar := 92 } d = splitChar { st with lastChar := l } d) ∧
    (∀ (st : SplitState) (l : Nat), st.inquotes = 0 → isWhitespace l = false →
      splitChar { st with lastChar := 92 } 62 =
        (splitChar { st with lastChar := l } 62).map (fun s => { s with inquotes := 0 })) :=
  ⟨fun st hl => splitChar_escaped_quote st q hl hq,
   fun dalloc rest st h0 hl hcap => splitLoop_quote_inside dalloc q u v rest st hq h0 hl hu hv hcap,
   fun st d l h0 hd h62 hl => splitChar_escaped_delimiter st d l h0 hd h62 hl,
   fun st l h0 hl => splitChar_escaped_gt st l h0 hl⟩

/-- Witness of claim C23 (amended): in `<box x="a\"b c"/>` the literal is one
block, `"a\b c"`; and on `=` after `a\` the step is the step on `=` after
`ab`. -/
theorem escaped_quote_kept_closed_witness :
    (∃ B, _HDL_ParseDataToBlocks (str "<box x=\"a\\\"b c\"/>") = .ret 0 B ∧
      B.list = [some (str "<"), some (str "box"), some (str "x"), some (str "="),
        some (str "\"a\\b c\""), some (str "/"), some (str ">")]) ∧
    splitLoop 40 (str "\"a\\\"b c\"") ⟨[], [0], 32, 61, 0, 0⟩ =
      .ret 0 ⟨str "\"a\\b c\"", [0], 32, 34, 7, 0⟩ ∧
    splitChar ⟨[97, 92], [0], 32, 92, 2, 0⟩ 61 = splitChar ⟨[97, 92], [0], 32, 98, 2, 0⟩ 61 :=
  ⟨⟨_, rfl, by decide⟩,
   ((escaped_quote_kept_closed 34 (str "a") (str "b c") (Or.inr rfl) (by decide)
      (by decide)).2.1 40 [] ⟨[], [0], 32, 61, 0, 0⟩ rfl (by decide) (by decide)).trans rfl,
   (escaped_quote_kept_closed 34 [] [] (Or.inr rfl) (by decide) (by decide)).2.2.1
      ⟨[97, 92], [0], 32, 92, 2, 0⟩ 61 98 rfl (by decide) (by decide) (by decide)⟩

theorem isNumLit_facts (v : List Nat) (h : isNumLit v = true) :
    isNumberString v = true ∧ c0 v ≠ 91 ∧ c0 v ≠ 93 ∧ c0 v ≠ 34 ∧ c0 v ≠ 39 ∧
      ∀ c ∈ v, c ≠ 0 := by
  simp only [isNumLit, Bool.and_eq_true, List.all_eq_true, decide_eq_true_eq,
    Bool.not_eq_true', ne_eq] at h
  obtain ⟨hn, hall⟩ := h
  have hz : ∀ c ∈ v, c ≠ 0 := fun c hc => (hall c hc).1.1.1
  cases v with
  | nil => revert hn; decide
  | cons a t =>
    have ha := hall a (List.mem_cons_self _ _)
    obtain ⟨⟨⟨_, hd⟩, h34⟩, h39⟩ := ha
    refine ⟨hn, ?_, ?_, h34, h39, hz⟩
    · intro e; simp only [c0, List.headD_cons] at e; subst e; revert hd; decide
    · intro e; simp only [c0, List.headD_cons] at e; subst e; revert hd; decide

theorem isLit_facts (w : List Nat) (h : isLit w = true) :
    c0 w ≠ 91 ∧ c0 w ≠ 93 ∧ c0 w ≠ 34 ∧ c0 w ≠ 39 ∧
      (litBytes w).length = HDL_TYPE_SIZES (litType w) ∧ litType w ≠ .STRING := by
  simp only [isLit, Bool.or_eq_true, decide_eq_true_eq] at h
  rcases h with (h | h) | h
  · obtain ⟨hn, h1, h2, h3, h4, _⟩ := isNumLit_facts w h
    refine ⟨h1, h2, h3, h4, ?_, ?_⟩
    · simp only [litBytes, litType, hn, if_true, leBytes4_length]; rfl
    · simp only [litType, hn, if_true]; decide
  · subst h; decide
  · subst h; decide

/-- The scalar parse of a literal that is no string into the scratch array. -/
theorem parseValue_lit (B : Blocks) (F : Nat) (d : HDL_Document) (bi l : Nat) (ty : HDL_Type)
    (m w : List Nat) (hlit : isLit w = true) (hget : B.get bi = some w)
    (hc : B.c0 bi = some (c0 w)) :
    _HDL_ParseValue B (F + 1) d none bi ⟨l, ty, .tmp m⟩ =
      .ret 0 (bi, ⟨1, litType w, .tmp (litBytes w ++ m.drop (litBytes w).length)⟩) := by
  obtain ⟨h91, _, h34, h39, hlen, _⟩ := isLit_facts w hlit
  rw [parseValue_scalar B F d none bi _ w hget hc h91]
  unfold parseScalar
  simp only [h34, h39, or_self, if_false]
  by_cases hn : isNumberString w = true
  · have h4 : (leBytes 4 (atofF32 w)).length ≤ 64 := by rw [leBytes4_length]; decide
    simp only [hn, if_true, storeVal, h4, litType, litBytes]
  · have hnf : isNumberString w = false := by simpa using hn
    simp only [isLit, isNumLit, hnf, Bool.false_and, Bool.false_or, Bool.or_eq_true,
      decide_eq_true_eq] at hlit
    rcases hlit with h | h
    · subst h
      simp [storeVal, litType, litBytes, hnf]
    · subst h
      have hne : str "false" ≠ str "true" := by decide
      simp [storeVal, litType, litBytes, hnf, hne]

theorem arrayLoop_lit (B : Blocks) (F : Nat) (doc : HDL_Document) (dst : Option Nat)
    (n bi : Nat) (out : Slot) (loc : ArrLocals) (t : HDL_Type) (k : Nat) (p w : List Nat)
    (hinv : ArrInv t k p out loc) (hk : k < 255) (hlit : isLit w = true)
    (ht : k = 0 ∨ litType w = t) (hlt : bi < B.block_count) (hget : B.get bi = some w)
    (hc : B.c0 bi = some (c0 w)) :
    ∃ out1 loc1, ArrInv (litType w) (k + 1) (p ++ litBytes w) out1 loc1 ∧
      (B.c0 (bi + 1) = some 44 →
        arrayLoop (fun d b s => _HDL_ParseValue B (F + 1) d none b s) B doc dst (n + 1) bi out loc =
          arrayLoop (fun d b s => _HDL_ParseValue B (F + 1) d none b s) B doc dst n (bi + 2)
            out1 loc1) ∧
      (B.c0 (bi + 1) = some 93 →
        arrayLoop (fun d b s => _HDL_ParseValue B (F + 1) d none b s) B doc dst (n + 1) bi out loc =
          .ret 0 (bi + 1, out1)) := by
  obtain ⟨hlen, hp0, hpos, m, hm, hmlen⟩ := hinv
  obtain ⟨h91, h93, h34, h39, hsz, hns⟩ := isLit_facts w hlit
  have hdrop : m.drop (litBytes w).length = [] := by
    rcases hmlen with h | ⟨hk0, h⟩
    · rw [h]; simp
    · have : litType w = t := by rcases ht with h1 | h1; · omega
                                 · exact h1
      apply List.drop_eq_nil_of_le
      rw [hsz, this, h]
  have hrec := parseValue_lit B F (syncVar doc dst out) bi loc.tmp_len loc.tmp_type m w hlit hget hc
  rw [hdrop, List.append_nil] at hrec
  have hnomis : ¬ (out.len > 0 ∧ out.type ≠ litType w) := by
    rintro ⟨h1, h2⟩
    rcases ht with h | h
    · omega
    · exact h2 (by rw [h]; exact (hpos (by omega)).1)
  have htake : (litBytes w).take (HDL_TYPE_SIZES (litType w)) = litBytes w := by
    rw [← hsz]; exact List.take_length _
  have hmod : (out.len + 1) % 256 = k + 1 := by rw [hlen]; omega
  refine ⟨⟨k + 1, litType w, .heap (p ++ litBytes w)
      (HDL_TYPE_SIZES (litType w) *
        (if out.len ≠ 0 ∧ out.len ≥ loc.alloc_len then loc.alloc_len + 8 else loc.alloc_len))⟩,
    ⟨1, litType w, litBytes w, .tmp (litBytes w),
      (if out.len ≠ 0 ∧ out.len ≥ loc.alloc_len then loc.alloc_len + 8 else loc.alloc_len)⟩,
    ⟨rfl, fun h => by omega, fun _ => ⟨rfl, _, rfl⟩, litBytes w, rfl, Or.inr ⟨by omega, hsz⟩⟩,
    ?_, ?_⟩
  · intro h44
    rw [arrayLoop]
    simp only [hlt, not_true_eq_false, if_false, hc, if_neg h93, hm, hrec, ne_eq,
      not_true_eq_false, if_neg hns, if_neg hnomis, h44,
      show (44 : Nat) ≠ 93 by decide, if_true, hmod]
    by_cases h0 : k = 0
    · have hl0 : out.len = 0 := by rw [hlen]; exact h0
      have hp := hp0 h0
      subst hp
      simp only [hl0, not_true_eq_false, false_and, if_false, if_true, hsz, Nat.lt_irrefl, htake,
        List.nil_append]
    · obtain ⟨_, cap, hv⟩ := hpos (by omega)
      have hl0 : ¬ out.len = 0 := by rw [hlen]; exact h0
      by_cases hc1 : out.len ≥ loc.alloc_len
      · simp only [hl0, not_false_eq_true, hc1, and_self, if_true, if_false, hsz, Nat.lt_irrefl,
          htake, hv]
      · simp only [hl0, not_false_eq_true, hc1, and_false, if_false, hsz, Nat.lt_irrefl,
          htake, hv]
  · intro h93b
    rw [arrayLoop]
    simp only [hlt, not_true_eq_false, if_false, hc, if_neg h93, hm, hrec, ne_eq,
      not_true_eq_false, if_neg hns, if_neg hnomis, h93b, if_true, hmod]
    by_cases h0 : k = 0
    · have hl0 : out.len = 0 := by rw [hlen]; exact h0
      have hp := hp0 h0
      subst hp
      simp only [hl0, not_true_eq_false, false_and, if_false, if_true, hsz, Nat.lt_irrefl, htake,
        List.nil_append]
    · obtain ⟨_, cap, hv⟩ := hpos (by omega)
      have hl0 : ¬ out.len = 0 := by rw [hlen]; exact h0
      by_cases hc1 : out.len ≥ loc.alloc_len
      · simp only [hl0, not_false_eq_true, hc1, and_self, if_true, if_false, hsz, Nat.lt_irrefl,
          htake, hv]
      · simp only [hl0, not_false_eq_true, hc1, and_false, if_false, hsz, Nat.lt_irrefl,
          htake, hv]

theorem arrayLoop_mismatch (B : Blocks) (F : Nat) (doc : HDL_Document) (dst : Option Nat)
    (n bi : Nat) (out : Slot) (loc : ArrLocals) (t : HDL_Type) (k : Nat) (p w : List Nat)
    (hinv : ArrInv t k p out loc) (hk : 0 < k) (hlit : isLit w = true)
    (ht : litType w ≠ t) (hlt : bi < B.block_count) (hget : B.get bi = some w)
    (hc : B.c0 bi = some (c0 w)) :
    arrayLoop (fun d b s => _HDL_ParseValue B (F + 1) d none b s) B doc dst (n + 1) bi out loc =
      .ret 1 (bi, out) := by
  obtain ⟨hlen, hp0, hpos, m, hm, hmlen⟩ := hinv
  obtain ⟨h91, h93, h34, h39, hsz, hns⟩ := isLit_facts w hlit
  have hrec := parseValue_lit B F (syncVar doc dst out) bi loc.tmp_len loc.tmp_type m w hlit hget hc
  have hmis : out.len > 0 ∧ out.type ≠ litType w := by
    refine ⟨by omega, ?_⟩
    rw [(hpos hk).1]
    exact fun h => ht h.symm
  rw [arrayLoop]
  simp only [hlt, not_true_eq_false, if_false, hc, if_neg h93, hm, hrec, ne_eq,
    not_true_eq_false, if_neg hns, if_pos hmis]

theorem parseValue_quoted (B : Blocks) (F : Nat) (d : HDL_Document) (bi l : Nat) (ty : HDL_Type)
    (m w : List Nat) (hq : isShortQuoted w = true) (hget : B.get bi = some w)
    (hc : B.c0 bi = some (c0 w)) :
    ∃ code v, _HDL_ParseValue B (F + 1) d none bi ⟨l, ty, .tmp m⟩ =
      .ret code (bi, ⟨1, .STRING, v⟩) := by
  simp only [isShortQuoted, Bool.and_eq_true, Bool.or_eq_true, decide_eq_true_eq] at hq
  obtain ⟨⟨hq1, h2⟩, h65⟩ := hq
  have h91 : c0 w ≠ 91 := by rcases hq1 with h | h <;> omega
  rw [parseValue_scalar B F d none bi _ w hget hc h91]
  unfold parseScalar
  have hl : ¬ w.length < 2 := by omega
  have hfit : ((w.drop 1).dropLast ++ [0]).length ≤ 64 := by
    simp only [List.length_append, List.length_dropLast, List.length_drop, List.length_singleton]
    omega
  simp only [hq1, if_true, hl, if_false, storeVal, hfit]
  split_ifs <;> exact ⟨_, _, rfl⟩

theorem arrayLoop_string (B : Blocks) (F : Nat) (doc : HDL_Document) (dst : Option Nat)
    (n bi : Nat) (out : Slot) (loc : ArrLocals) (m w : List Nat)
    (hm : loc.val_addr = .tmp m) (hq : isShortQuoted w = true)
    (hlt : bi < B.block_count) (hget : B.get bi = some w) (hc : B.c0 bi = some (c0 w)) :
    arrayLoop (fun d b s => _HDL_ParseValue B (F + 1) d none b s) B doc dst (n + 1) bi out loc =
      .ret 1 (bi, out) := by
  obtain ⟨code, v, hrec⟩ :=
    parseValue_quoted B F (syncVar doc dst out) bi loc.tmp_len loc.tmp_type m w hq hget hc
  have h93 : c0 w ≠ 93 := by
    simp only [isShortQuoted, Bool.and_eq_true, Bool.or_eq_true, decide_eq_true_eq] at hq
    rcases hq.1.1 with h | h <;> omega
  rw [arrayLoop]
  simp only [hlt, not_true_eq_false, if_false, hc, if_neg h93, hm, hrec]
  by_cases h0 : code = 0
  · subst h0
    simp only [ne_eq, not_true_eq_false, if_false, if_true]
  · simp only [ne_eq, h0, not_false_eq_true, if_true]

theorem BlocksAt_head (B : Blocks) (bi : Nat) (w : List Nat) (rest : List (List Nat))
    (h : BlocksAt B bi (w :: rest)) :
    bi < B.block_count ∧ B.get bi = some w ∧ B.c0 bi = some (c0 w) ∧ BlocksAt B (bi + 1) rest := by
  have h2 := BlocksAt_append B bi [w] rest h
  obtain ⟨hlen, hall⟩ := h
  simp only [List.length_cons] at hlen
  have h0 := hall 0 w (by simp)
  exact ⟨by omega, h0.1, h0.2, h2.2⟩

theorem arrayLoop_prefix (B : Blocks) (F : Nat) (doc : HDL_Document) (dst : Option Nat)
    (t : HDL_Type) :
    ∀ (pre : List (List Nat)) (k : Nat) (p : List Nat) (out : Slot) (loc : ArrLocals)
      (bi N : Nat), ArrInv t k p out loc → k + pre.length ≤ 255 →
      (∀ w ∈ pre, isLit w = true ∧ litType w = t) → BlocksAt B bi (commaSep pre) →
      pre.length ≤ N →
      ∃ out1 loc1, ArrInv t (k + pre.length) (p ++ litPayload pre) out1 loc1 ∧
        arrayLoop (fun d b s => _HDL_ParseValue B (F + 1) d none b s) B doc dst N bi out loc =
          arrayLoop (fun d b s => _HDL_ParseValue B (F + 1) d none b s) B doc dst
            (N - pre.length) (bi + 2 * pre.length) out1 loc1 := by
  intro pre
  induction pre with
  | nil =>
    intro k p out loc bi N hinv _ _ _ _
    exact ⟨out, loc, by simpa [litPayload] using hinv, by simp⟩
  | cons w rest ih =>
    intro k p out loc bi N hinv hk hall hB hN
    simp only [List.length_cons] at hk hN
    obtain ⟨N1, rfl⟩ : ∃ N1, N = N1 + 1 := ⟨N - 1, by omega⟩
    obtain ⟨hw1, hw2⟩ := hall w (List.mem_cons_self _ _)
    obtain ⟨hlt, hget, hc, hB1⟩ := BlocksAt_head B bi w _ hB
    obtain ⟨_, _, hcomma, hB2⟩ := BlocksAt_head B (bi + 1) (str ",") _ hB1
    have h44 : B.c0 (bi + 1) = some 44 := hcomma
    obtain ⟨out1, loc1, hinv1, hstep, _⟩ :=
      arrayLoop_lit B F doc dst N1 bi out loc t k p w hinv (by omega) hw1 (Or.inr hw2) hlt hget hc
    rw [hw2] at hinv1
    obtain ⟨out2, loc2, hinv2, hrest⟩ := ih (k + 1) (p ++ litBytes w) out1 loc1 (bi + 2) N1
      hinv1 (by omega) (fun x hx => hall x (List.mem_cons_of_mem _ hx)) hB2 (by omega)
    refine ⟨out2, loc2, ?_, ?_⟩
    · have e1 : k + (rest.length + 1) = k + 1 + rest.length := by omega
      simp only [List.length_cons, litPayload, e1]
      rw [← List.append_assoc]
      exact hinv2
    · rw [hstep h44, hrest]
      have e2 : N1 + 1 - (w :: rest).length = N1 - rest.length := by
        simp only [List.length_cons]; omega
      have e3 : bi + 2 * (w :: rest).length = bi + 2 + 2 * rest.length := by
        simp only [List.length_cons]; omega
      rw [e2, e3]

theorem ArrInv_init (t : HDL_Type) (v : VPtr) :
    ArrInv t 0 [] ⟨0, .NULL, v⟩ ⟨0, .NULL, [], .tmp [], 8⟩ :=
  ⟨rfl, fun _ => rfl, fun h => by omega, [], rfl, Or.inl rfl⟩

theorem BlocksAt_drop (B : Blocks) (bi : Nat) (u v : List (List Nat))
    (h : BlocksAt B bi (u ++ v)) : BlocksAt B (bi + u.length) v :=
  (BlocksAt_append B bi u v h).2

theorem commaSep_length (pre : List (List Nat)) : (commaSep pre).length = 2 * pre.length := by
  induction pre with
  | nil => rfl
  | cons w rest ih => simp only [commaSep, List.length_cons, ih]; omega

theorem litPayload_snoc (l : List (List Nat)) (x : List Nat) :
    litPayload (l ++ [x]) = litPayload l ++ litBytes x := by
  induction l with
  | nil => simp [litPayload]
  | cons a l ih =>
    show litBytes a ++ litPayload (l ++ [x]) = litBytes a ++ litPayload l ++ litBytes x
    rw [ih, List.append_assoc]

/-- An array of literals of one type that are no strings. -/
theorem parseValue_array_ok (B : Blocks) (fuel : Nat) (doc : HDL_Document) (dst : Option Nat)
    (bi : Nat) (out : Slot) (t : HDL_Type) (pre : List (List Nat)) (v : List Nat)
    (hall : ∀ w ∈ pre ++ [v], isLit w = true ∧ litType w = t) (hn : pre.length + 1 ≤ 255)
    (hfuel : pre.length + 1 ≤ fuel)
    (hB : BlocksAt B bi (str "[" :: (commaSep pre ++ [v, str "]"]))) :
    ∃ slot, _HDL_ParseValue B (fuel + 1) doc dst bi out =
        .ret 0 (bi + 2 * pre.length + 2, slot) ∧
      slot.len = pre.length + 1 ∧ slot.type = t ∧
      slot.val.toPtr = .own (litPayload (pre ++ [v])) := by
  obtain ⟨F, rfl⟩ : ∃ F, fuel = F + 1 := ⟨fuel - 1, by omega⟩
  obtain ⟨_, _, hc, hB1⟩ := BlocksAt_head B bi _ _ hB
  have h91 : B.c0 bi = some 91 := hc
  obtain ⟨hBpre, hBv⟩ := BlocksAt_append B (bi + 1) (commaSep pre) [v, str "]"] hB1
  rw [commaSep_length] at hBv
  obtain ⟨hlt, hget, hcv, hB3⟩ := BlocksAt_head B _ v _ hBv
  obtain ⟨_, _, hclose, _⟩ := BlocksAt_head B _ (str "]") _ hB3
  have h93 : B.c0 (bi + 1 + 2 * pre.length + 1) = some 93 := hclose
  obtain ⟨out1, loc1, hinv1, hrun⟩ := arrayLoop_prefix B F doc dst t pre 0 []
    ⟨0, .NULL, out.val⟩ ⟨0, .NULL, [], .tmp [], 8⟩ (bi + 1) (F + 1) (ArrInv_init t out.val)
    (by omega) (fun w hw => hall w (List.mem_append_left _ hw)) hBpre (by omega)
  obtain ⟨N1, hN1⟩ : ∃ N1, F + 1 - pre.length = N1 + 1 := ⟨F - pre.length, by omega⟩
  obtain ⟨hv1, hv2⟩ := hall v (List.mem_append_right _ (List.mem_singleton_self _))
  have hk0 : pre.length = 0 ∨ litType v = t := Or.inr hv2
  simp only [Nat.zero_add, List.nil_append] at hinv1
  obtain ⟨out2, loc2, hinv2, _, hfin⟩ :=
    arrayLoop_lit B F doc dst N1 (bi + 1 + 2 * pre.length) out1 loc1 t pre.length
      (litPayload pre) v hinv1 (by omega) hv1 hk0 hlt hget hcv
  refine ⟨out2, ?_, ?_⟩
  · rw [_HDL_ParseValue]
    simp only [h91, if_true]
    rw [hrun, hN1, hfin h93]
    congr 2
    omega
  · obtain ⟨hlen, _, hpos, _⟩ := hinv2
    obtain ⟨hty, cap, hval⟩ := hpos (by omega)
    refine ⟨hlen, by rw [hty, hv2], ?_⟩
    rw [hval]
    have := litPayload_snoc
    rw [this]
    rfl

/-- An array whose element after a run of literals of one type is a short
string, or a literal of another type. -/
theorem parseValue_array_bad (B : Blocks) (fuel : Nat) (doc : HDL_Document) (dst : Option Nat)
    (bi : Nat) (out : Slot) (t : HDL_Type) (pre : List (List Nat)) (w : List Nat)
    (hall : ∀ x ∈ pre, isLit x = true ∧ litType x = t) (hn : pre.length + 1 ≤ 255)
    (hfuel : pre.length + 1 ≤ fuel)
    (hw : isShortQuoted w = true ∨ (pre ≠ [] ∧ isLit w = true ∧ litType w ≠ t))
    (hB : BlocksAt B bi (str "[" :: (commaSep pre ++ [w]))) :
    ∃ slot, _HDL_ParseValue B (fuel + 1) doc dst bi out =
      .ret 1 (bi + 2 * pre.length + 1, slot) := by
  obtain ⟨F, rfl⟩ : ∃ F, fuel = F + 1 := ⟨fuel - 1, by omega⟩
  obtain ⟨_, _, hc, hB1⟩ := BlocksAt_head B bi _ _ hB
  have h91 : B.c0 bi = some 91 := hc
  obtain ⟨hBpre, hBv⟩ := BlocksAt_append B (bi + 1) (commaSep pre) [w] hB1
  rw [commaSep_length] at hBv
  obtain ⟨hlt, hget, hcv, _⟩ := BlocksAt_head B _ w _ hBv
  obtain ⟨out1, loc1, hinv1, hrun⟩ := arrayLoop_prefix B F doc dst t pre 0 []
    ⟨0, .NULL, out.val⟩ ⟨0, .NULL, [], .tmp [], 8⟩ (bi + 1) (F + 1) (ArrInv_init t out.val)
    (by omega) hall hBpre (by omega)
  obtain ⟨N1, hN1⟩ : ∃ N1, F + 1 - pre.length = N1 + 1 := ⟨F - pre.length, by omega⟩
  simp only [Nat.zero_add, List.nil_append] at hinv1
  refine ⟨out1, ?_⟩
  rw [_HDL_ParseValue]
  simp only [h91, if_true]
  rw [hrun, hN1]
  have e : bi + 2 * pre.length + 1 = bi + 1 + 2 * pre.length := by omega
  rw [e]
  rcases hw with hq | ⟨hne, hlit, hty⟩
  · obtain ⟨_, _, _, m, hm, _⟩ := hinv1
    exact arrayLoop_string B F doc dst N1 _ out1 loc1 m w hm hq hlt hget hcv
  · have hpos : 0 < pre.length := by
      cases pre with
      | nil => exact absurd rfl hne
      | cons a l => simp
    exact arrayLoop_mismatch B F doc dst N1 _ out1 loc1 t pre.length (litPayload pre) w hinv1
      hpos hlit hty hlt hget hcv

theorem litPayload_nums (vs : List (List Nat)) (h : ∀ w ∈ vs, isNumLit w = true) :
    litPayload vs = (vs.map (fun w => leBytes 4 (atofF32 w))).flatten := by
  induction vs with
  | nil => rfl
  | cons a l ih =>
    have ha := (isNumLit_facts a (h a (List.mem_cons_self _ _))).1
    simp only [litPayload, List.map_cons, List.flatten_cons, litBytes, ha, if_true,
      ih (fun w hw => h w (List.mem_cons_of_mem _ hw))]

theorem isNumLit_isLit (w : List Nat) (h : isNumLit w = true) :
    isLit w = true ∧ litType w = .FLOAT := by
  refine ⟨by simp [isLit, h], ?_⟩
  simp only [litType, (isNumLit_facts w h).1, if_true]

set_option maxRecDepth 100000 in
theorem parse_long_string_array (L : Loader) (fuel : Nat) :
    HDL_Parse L (fuel + 3) (str "<box x=[\"" ++ List.replicate 64 97 ++ str "\"]/>") = .ub := by
  rfl

/-- Claim C25, what the code does.  For an array `[v1, ..., vn]` of number
blocks with 1 <= n <= 255 (written here as `pre` followed by the last element
`v`) and enough fuel: (1) `_HDL_ParseValue` returns 0 with the cursor on the
closing `]`, count n, type FLOAT and the payload made of the four bytes of each
`atof` value in order.  For an array that starts with a run `pre2` of literals
of one type `t` (number blocks, or `true`/`false`), fewer than 255 of them:
(2) when the next element is a quoted block of at most 65 characters, or when
the run is not empty and the next element is a literal of another type, the
call returns 1 with the cursor on that element.  (3) But a quoted element of
more than 65 characters is first copied into the 64-byte array `tmp_val`: on
`<box x=["` + 64 letters + `"]/>` the behaviour is undefined, no error is
returned. -/
theorem array_of_literals (B : Blocks) (fuel : Nat) (doc : HDL_Document) (dst : Option Nat)
    (bi : Nat) (out : Slot) (pre : List (List Nat)) (v : List Nat)
    (hnum : ∀ w ∈ pre ++ [v], isNumLit w = true) (hn : pre.length + 1 ≤ 255)
    (hfuel : pre.length + 1 ≤ fuel) :
    (BlocksAt B bi (str "[" :: (commaSep pre ++ [v, str "]"])) →
      ∃ slot, _HDL_ParseValue B (fuel + 1) doc dst bi out =
          .ret 0 (bi + 2 * pre.length + 2, slot) ∧
        slot.len = pre.length + 1 ∧ slot.type = .FLOAT ∧
        slot.val.toPtr =
          .own (((pre ++ [v]).map (fun w => leBytes 4 (atofF32 w))).flatten)) ∧
    (∀ (t : HDL_Type) (pre2 : List (List Nat)) (w : List Nat),
      (∀ x ∈ pre2, isLit x = true ∧ litType x = t) → pre2.length + 1 ≤ 255 →
      pre2.length + 1 ≤ fuel →
      isShortQuoted w = true ∨ (pre2 ≠ [] ∧ isLit w = true ∧ litType w ≠ t) →
      BlocksAt B bi (str "[" :: (commaSep pre2 ++ [w])) →
      ∃ slot, _HDL_ParseValue B (fuel + 1) doc dst bi out =
        .ret 1 (bi + 2 * pre2.length + 1, slot)) ∧
    (∀ L fuel2, HDL_Parse L (fuel2 + 3)
      (str "<box x=[\"" ++ List.replicate 64 97 ++ str "\"]/>") = .ub) := by
  refine ⟨fun hB => ?_, fun t pre2 w hall h1 h2 hw hB =>
    parseValue_array_bad B fuel doc dst bi out t pre2 w hall h1 h2 hw hB, fun L fuel2 => parse_long_string_array L fuel2⟩
  obtain ⟨slot, h1, h2, h3, h4⟩ := parseValue_array_ok B fuel doc dst bi out .FLOAT pre v
    (fun w hw => isNumLit_isLit w (hnum w hw)) hn hfuel hB
  exact ⟨slot, h1, h2, h3, by rw [h4, litPayload_nums _ hnum]⟩

/-- Witness of claim C25 on `<box x=[1, 2.5, -3]/>` (three floats, cursor on
`]`, block 10) and on `[1, 2.5, true]` (return value 1 at `true`, block 9). -/
theorem array_of_literals_witness :
    (∃ slot, _HDL_ParseValue arrBlocks 4 ⟨[], [], []⟩ none 4 ⟨0, .NULL, .null⟩ =
        .ret 0 (10, slot) ∧ slot.len = 3 ∧ slot.type = .FLOAT ∧
      slot.val.toPtr = .own [0, 0, 128, 63, 0, 0, 32, 64, 0, 0, 64, 192]) ∧
    (∃ slot, _HDL_ParseValue mixBlocks 4 ⟨[], [], []⟩ none 4 ⟨0, .NULL, .null⟩ =
      .ret 1 (9, slot)) ∧
    HDL_Parse noLoader 6 (str "<box x=[1, 2.5, -3]/>") =
      .ret 0 (boxWith [floatAttr "x" [0x3f800000, 0x40200000, 0xc0400000]]) := by
  have hA := (array_of_literals arrBlocks 3 ⟨[], [], []⟩ none 4 ⟨0, .NULL, .null⟩
    [str "1", str "2.5"] (str "-3") (by decide) (by decide) (by decide)).1
    (mkBlocks_at [str "<", str "box", str "x", str "="]
      (str "[" :: (commaSep [str "1", str "2.5"] ++ [str "-3", str "]"])) [str "/", str ">"]
      (by decide))
  have hB := (array_of_literals mixBlocks 3 ⟨[], [], []⟩ none 4 ⟨0, .NULL, .null⟩
    [str "1", str "2.5"] (str "-3") (by decide) (by decide) (by decide)).2.1 .FLOAT
    [str "1", str "2.5"] (str "true") (by decide) (by decide) (by decide)
    (Or.inr (by decide))
    (BlocksAt_append mixBlocks 4 (str "[" :: (commaSep [str "1", str "2.5"] ++ [str "true"]))
      [str "]"]
      (mkBlocks_at [str "<", str "box", str "x", str "="]
        (str "[" :: (commaSep [str "1", str "2.5"] ++ [str "true"]) ++ [str "]"])
        [str "/", str ">"] (by decide))).1
  refine ⟨?_, hB, rfl⟩
  obtain ⟨slot, h1, h2, h3, h4⟩ := hA
  exact ⟨slot, h1, h2, h3, by rw [h4]; decide⟩

/-- Claim C35, what the code does: (1) every one-character input makes the
splitter return 1, because the capacity test of line 223 (`dalloc - 2 <= dbi`,
with `dalloc` twice the length) holds before the first character is read;
(2) `<>`, an input of two non-whitespace delimiters, returns 1 at its last
character, when the four bytes stored for the two delimiters have reached
`dalloc - 2`; (3) on `<a<` the test passes for every character but the final
terminator is stored at offset 6 of a 6-byte buffer: the behaviour is
undefined; (4) `ab` is split into the one block `ab`. -/
theorem split_not_total :
    (∀ c, ∃ B, _HDL_ParseDataToBlocks [c] = .ret 1 B) ∧
    (∃ B, _HDL_ParseDataToBlocks (str "<>") = .ret 1 B) ∧
    _HDL_ParseDataToBlocks (str "<a<") = .ub ∧
    (∃ B, _HDL_ParseDataToBlocks (str "ab") = .ret 0 B ∧ B.list = [some (str "ab")]) :=
  ⟨fun _ => ⟨_, rfl⟩, ⟨_, rfl⟩, rfl, ⟨_, rfl, by decide⟩⟩

/-- Claim C38, what the code does: on `<box x=` the parser returns 1, but on
`<box x`, `#const a` and `<box x=[1` it reads the pointer `blocks[i]` of a slot
past the last block that the splitter never wrote (slot 3, 3 and 6): the
behaviour is undefined, no failure is returned.  (`x=[1` returns 1 at its first
block.) -/
theorem reads_past_last_block :
    (∀ L fuel, ∃ doc, HDL_Parse L (fuel + 2) (str "<box x=") = .ret 1 doc) ∧
    (∀ L fuel, HDL_Parse L (fuel + 2) (str "<box x") = .ub) ∧
    (∀ L fuel, HDL_Parse L (fuel + 2) (str "#const a") = .ub) ∧
    (∀ L fuel, HDL_Parse L (fuel + 3) (str "<box x=[1") = .ub) ∧
    (∀ L fuel, ∃ doc, HDL_Parse L (fuel + 1) (str "x=[1") = .ret 1 doc) ∧
    (∃ B, _HDL_ParseDataToBlocks (str "<box x") = .ret 0 B ∧ B.block_count = 3 ∧
      B.ptr 3 = none) :=
  ⟨fun _ _ => ⟨_, rfl⟩, fun _ _ => rfl, fun _ _ => rfl, fun _ _ => rfl, fun _ _ => ⟨_, rfl⟩,
   ⟨_, rfl, rfl, rfl⟩⟩

/-- Claim C40, what the code does: with a newline, or a newline and
indentation, between `<box/>` and `<box/>` the source parses to a box with two
children; with a single space, or with carriage return + newline, the
whitespace character becomes a block of its own and `HDL_Parse` returns 1. -/
theorem space_between_tags_fails :
    (∀ L fuel, HDL_Parse L (fuel + 4) (str "<box><box/>\n<box/></box>") =
      .ret 0 ⟨[⟨str "box", none, [], -1, [1, 2]⟩, ⟨str "box", none, [], 0, []⟩,
        ⟨str "box", none, [], 0, []⟩], [], []⟩) ∧
    (∀ L fuel, HDL_Parse L (fuel + 4) (str "<box><box/>\n  <box/></box>") =
      .ret 0 ⟨[⟨str "box", none, [], -1, [1, 2]⟩, ⟨str "box", none, [], 0, []⟩,
        ⟨str "box", none, [], 0, []⟩], [], []⟩) ∧
    (∀ L fuel, HDL_Parse L (fuel + 4) (str "<box><box/> <box/></box>") =
      .ret 1 ⟨[⟨str "box", none, [], -1, [1]⟩, ⟨str "box", none, [], 0, []⟩], [], []⟩) ∧
    (∀ L fuel, HDL_Parse L (fuel + 4) (str "<box><box/>\r\n<box/></box>") =
      .ret 1 ⟨[⟨str "box", none, [], -1, [1]⟩, ⟨str "box", none, [], 0, []⟩], [], []⟩) ∧
    (∃ B, _HDL_ParseDataToBlocks (str "<box><box/> <box/></box>") = .ret 0 B ∧
      B.get 7 = some (str " ")) :=
  ⟨fun _ _ => rfl, fun _ _ => rfl, fun _ _ => rfl, fun _ _ => rfl, ⟨_, rfl, by decide⟩⟩

/-- Claim C37, what the code does: when the block under the cursor begins with
`/*`, the inner loop of line 1006 leaves the cursor where it is (its condition
asks for a `/` as second character), so the iteration neither advances nor
stops, and the loop of `_HDL_ParseBlocks` does not return for any fuel. -/
theorem comment_opener_spins (L : Loader) (B : Blocks) (fuel : Nat) (r : Bool) (st : PState)
    (hlt : st.blockIndex < B.block_count) (h0 : B.c0 st.blockIndex = some 47)
    (h1 : B.c1 st.blockIndex = some 42) :
    (∀ k, skipComment B k st.blockIndex = some st.blockIndex) ∧
    (∀ n, parseBlocksLoop L B fuel n r st = .nofuel) := by
  have hskip : ∀ k, skipComment B k st.blockIndex = some st.blockIndex := by
    intro k
    cases k with
    | zero => rfl
    | succ k =>
      rw [skipComment]
      simp only [hlt, not_true_eq_false, if_false, h0, h1]
      simp
  refine ⟨hskip, fun n => ?_⟩
  induction n with
  | zero => rfl
  | succ n ih =>
    rw [parseBlocksLoop]
    simp only [hlt, not_true_eq_false, if_false, h0, h1, hskip]
    simp only [show (47 : Nat) ≠ 35 by decide, show (47 : Nat) ≠ 60 by decide, if_false, if_true,
      and_self]
    exact ih

/-- Witness of claim C37 on the blocks of `<box/>/* c */` after the root was
parsed: the cursor stays on block 4 and the loop does not return. -/
theorem comment_opener_spins_witness :
    _HDL_ParseDataToBlocks (str "<box/>/* c */") = .ret 0 tailComment ∧
    skipComment tailComment 1 4 = some 4 ∧
    ∀ n, parseBlocksLoop noLoader tailComment 2 n true ⟨boxDoc, 4⟩ = .nofuel :=
  ⟨rfl, (comment_opener_spins noLoader tailComment 2 true ⟨boxDoc, 4⟩ (by decide) (by decide)
      (by decide)).1 1,
   (comment_opener_spins noLoader tailComment 2 true ⟨boxDoc, 4⟩ (by decide) (by decide)
      (by decide)).2⟩

set_option maxRecDepth 100000 in
theorem atoi_decimal : ∀ n, n < 256 → isIntString (decimal n) = true ∧
    twos 8 (atoi (decimal n)) = n := by
  decide

theorem parseScalar_bind (B : Blocks) (doc : HDL_Document) (bi : Nat) (out : Slot)
    (nb : List Nat) (hnull : out.val = .null) (hnext : B.get (bi + 1) = some nb) :
    (isIntString nb = true →
      parseScalar B doc bi out (str "$") =
        .ret 0 (bi + 1, ⟨1, .BIND, .heap [twos 8 (atoi nb)] 1⟩)) ∧
    (∀ (i : Nat) (v : HDL_Variable) (m : List Nat) (f : Nat), isIntString nb = false →
      findVar doc.vars nb = some i → doc.vars[i]? = some v → deref doc v.value = some m →
      valF32 m 0 = some f →
      parseScalar B doc bi out (str "$") =
        .ret 0 (bi + 1, ⟨v.count, .BIND, .heap [twos 8 (f32ToI32 f)] 1⟩)) ∧
    (isIntString nb = false → findVar doc.vars nb = none →
      parseScalar B doc bi out (str "$") = .ret 0 (bi + 1, ⟨1, .BIND, .heap [255] 1⟩)) := by
  have h34 : c0 (str "$") ≠ 34 := by decide
  have h39 : c0 (str "$") ≠ 39 := by decide
  have hnum : isNumberString (str "$") = false := by decide
  have ht : str "$" ≠ str "true" := by decide
  have hf : str "$" ≠ str "false" := by decide
  have h36 : c0 (str "$") = 36 := by decide
  refine ⟨?_, ?_, ?_⟩
  · intro hint
    unfold parseScalar
    simp only [h34, h39, or_self, if_false, hnum, Bool.false_eq_true, if_neg ht, if_neg hf,
      h36, if_true, hnext, hint, not_true_eq_false, hnull, storeVal]
    simp
  · intro i v m f hint hfind hv hd hval
    unfold parseScalar
    simp only [h34, h39, or_self, if_false, hnum, Bool.false_eq_true, if_neg ht, if_neg hf,
      h36, if_true, hnext, hint, not_false_eq_true, hfind, hv, hd, Option.some_bind, hval,
      hnull, storeVal]
    simp
  · intro hint hfind
    unfold parseScalar
    simp only [h34, h39, or_self, if_false, hnum, Bool.false_eq_true, if_neg ht, if_neg hf,
      h36, if_true, hnext, hint, not_false_eq_true, hfind, hnull, storeVal]
    simp

/-- Claim C31: for a value that is the block `$` followed by the block `nb`,
parsed into an empty value slot: (1) when `nb` is an integer string
(`isIntString`), the call returns 0 with (BIND, count 1, one payload byte
holding `atoi(nb)` as a `uint8_t`), which for the decimal digits of every
n < 256 is the byte n; (2) when `nb` is no integer string and names a constant
whose block starts with the float `f`, the call returns 0 with type BIND, the
constant's count and one payload byte holding `f` converted to `uint8_t`;
(3) when `nb` is no integer string and names no constant, the call returns 0
with (BIND, count 1, payload byte 0xFF).  The cursor is left on `nb`. -/
theorem bind_value (B : Blocks) (fuel : Nat) (doc : HDL_Document) (dst : Option Nat)
    (bi : Nat) (out : Slot) (nb : List Nat) (hget : B.get bi = some (str "$"))
    (hc : B.c0 bi = some 36) (hnull : out.val = .null) (hnext : B.get (bi + 1) = some nb) :
    (isIntString nb = true →
      _HDL_ParseValue B (fuel + 1) doc dst bi out =
        .ret 0 (bi + 1, ⟨1, .BIND, .heap [twos 8 (atoi nb)] 1⟩)) ∧
    (∀ n, n < 256 → isIntString (decimal n) = true ∧ twos 8 (atoi (decimal n)) = n) ∧
    (∀ (i : Nat) (v : HDL_Variable) (m : List Nat) (f : Nat), isIntString nb = false →
      doc.vars[i]? = some v → v.name = nb →
      (∀ (j : Nat) (w : HDL_Variable), j < i → doc.vars[j]? = some w → w.name ≠ nb) →
      deref doc v.value = some m → valF32 m 0 = some f →
      _HDL_ParseValue B (fuel + 1) doc dst bi out =
        .ret 0 (bi + 1, ⟨v.count, .BIND, .heap [twos 8 (f32ToI32 f)] 1⟩)) ∧
    (isIntString nb = false → (∀ v ∈ doc.vars, v.name ≠ nb) →
      _HDL_ParseValue B (fuel + 1) doc dst bi out =
        .ret 0 (bi + 1, ⟨1, .BIND, .heap [255] 1⟩)) := by
  have hs := parseValue_scalar B fuel doc dst bi out (str "$") hget hc (by decide)
  obtain ⟨p1, p2, p3⟩ := parseScalar_bind B doc bi out nb hnull hnext
  refine ⟨fun h => by rw [hs]; exact p1 h, atoi_decimal, ?_, ?_⟩
  · intro i v m f hint hv hn hfirst hd hval
    rw [hs]
    exact p2 i v m f hint (findVar_first doc.vars nb i v hv hn hfirst) hv hd hval
  · intro hint hno
    rw [hs]
    exact p3 hint (findVar_none doc.vars nb hno)

/-- Witness of claim C31: `$5` gives the byte 5; with the constant `a` = 7,
`$a` gives the byte 7; `$zz` gives 0xFF; and `<box x=$5/>` parses to a BIND
attribute with the byte 5. -/
theorem bind_value_witness :
    _HDL_ParseValue (mkBlocks [str "$", str "5"]) 1 sevenDoc none 0 ⟨0, .NULL, .null⟩ =
      .ret 0 (1, ⟨1, .BIND, .heap [5] 1⟩) ∧
    _HDL_ParseValue (mkBlocks [str "$", str "a"]) 1 sevenDoc none 0 ⟨0, .NULL, .null⟩ =
      .ret 0 (1, ⟨1, .BIND, .heap [7] 1⟩) ∧
    _HDL_ParseValue (mkBlocks [str "$", str "zz"]) 1 sevenDoc none 0 ⟨0, .NULL, .null⟩ =
      .ret 0 (1, ⟨1, .BIND, .heap [255] 1⟩) ∧
    HDL_Parse noLoader 3 (str "<box x=$5/>") =
      .ret 0 (boxWith [⟨str "x", .own [5], .BIND, 1⟩]) :=
  ⟨(bind_value (mkBlocks [str "$", str "5"]) 0 sevenDoc none 0 ⟨0, .NULL, .null⟩ (str "5")
      (by decide) (by decide) rfl (by decide)).1 (by decide),
   (bind_value (mkBlocks [str "$", str "a"]) 0 sevenDoc none 0 ⟨0, .NULL, .null⟩ (str "a")
      (by decide) (by decide) rfl (by decide)).2.2.1 0 _ [0, 0, 224, 64] 0x40e00000 (by decide)
      rfl rfl (fun j w hj => by omega) rfl (by decide),
   (bind_value (mkBlocks [str "$", str "zz"]) 0 sevenDoc none 0 ⟨0, .NULL, .null⟩ (str "zz")
      (by decide) (by decide) rfl (by decide)).2.2.2 (by decide) (by decide),
   rfl⟩

theorem occSum_add (chs : List (List Nat)) (x a b : Nat) :
    ∀ k, occSum chs x k (a + b) = occSum chs x k a + occSum chs x (k + a) b := by
  induction a with
  | zero => intro k; simp [occSum]
  | succ a ih =>
    intro k
    rw [show a + 1 + b = (a + b) + 1 by omega]
    simp only [occSum]
    rw [ih (k + 1), show k + 1 + a = k + (a + 1) by omega]
    omega

theorem SpanL_occ {chs : List (List Nat)} {cs : List Nat} {k j : Nat} (h : SpanL chs cs k j)
    (x : Nat) : cs.count x + occSum chs x k (j - k) = if k ≤ x ∧ x < j then 1 else 0 := by
  induction h with
  | nil k =>
    have : ¬ (k ≤ x ∧ x < k) := by omega
    simp [occSum, this]
  | cons c m j cs kids h hk hr ih1 ih2 =>
    have b1 := (SpanL_le hk).1
    have b2 := (SpanL_le hr).1
    have e : j - c = 1 + ((m - (c + 1)) + (j - m)) := by omega
    rw [e, occSum_add chs x 1 _ c, occSum_add chs x (m - (c + 1)) (j - m) (c + 1)]
    have e2 : c + 1 + (m - (c + 1)) = m := by omega
    rw [e2]
    have e3 : occSum chs x c 1 = kids.count x := by simp [occSum, h]
    rw [e3, List.count_cons]
    by_cases hx : c = x
    · subst hx
      have h1 : ¬ (c + 1 ≤ c ∧ c < m) := by omega
      have h2 : ¬ (m ≤ c ∧ c < j) := by omega
      have h3 : c ≤ c ∧ c < j := by omega
      rw [if_neg h1] at ih1
      rw [if_neg h2] at ih2
      rw [if_pos h3]
      simp only [beq_self_eq_true, if_true]
      omega
    · have hb : (c == x) = false := by simpa using hx
      simp only [hb, Bool.false_eq_true, if_false, Nat.add_zero]
      by_cases h1 : c + 1 ≤ x ∧ x < m
      · have h2 : ¬ (m ≤ x ∧ x < j) := by omega
        have h3 : c ≤ x ∧ x < j := by omega
        rw [if_pos h1] at ih1
        rw [if_neg h2] at ih2
        rw [if_pos h3]
        omega
      · rw [if_neg h1] at ih1
        by_cases h2 : m ≤ x ∧ x < j
        · have h3 : c ≤ x ∧ x < j := by omega
          rw [if_pos h2] at ih2
          rw [if_pos h3]
          omega
        · have h3 : ¬ (c ≤ x ∧ x < j) := by omega
          rw [if_neg h2] at ih2
          rw [if_neg h3]
          omega

theorem occSum_total (x : Nat) : ∀ (l pre : List (List Nat)),
    occSum (pre ++ l) x pre.length l.length = (l.map (fun kids => kids.count x)).sum := by
  intro l
  induction l with
  | nil => intro pre; rfl
  | cons a l ih =>
    intro pre
    simp only [List.length_cons, occSum, List.map_cons, List.sum_cons]
    have h1 : (pre ++ a :: l)[pre.length]? = some a := by
      rw [List.getElem?_append_right (by omega)]
      simp
    rw [h1]
    have h2 := ih (pre ++ [a])
    simp only [List.append_assoc, List.singleton_append, List.length_append,
      List.length_singleton] at h2
    rw [h2]
    rfl

theorem SpanL_bounds {chs : List (List Nat)} {cs : List Nat} {k j : Nat}
    (h : SpanL chs cs k j) :
    (∀ c ∈ cs, k ≤ c ∧ c < j) ∧ cs.Pairwise (fun a b => a < b) ∧
    ∀ i, k ≤ i → i < j → ∀ kids, chs[i]? = some kids →
      (∀ c ∈ kids, i < c ∧ c < j) ∧ kids.Pairwise (fun a b => a < b) := by
  induction h with
  | nil k =>
    refine ⟨?_, List.Pairwise.nil, ?_⟩
    · intro c hc; cases hc
    · intro i h1 h2; omega
  | cons c m j cs kids h hk hr ih1 ih2 =>
    have b1 := (SpanL_le hk).1
    have b2 := (SpanL_le hr).1
    obtain ⟨k1, k2, k3⟩ := ih1
    obtain ⟨r1, r2, r3⟩ := ih2
    refine ⟨?_, ?_, ?_⟩
    · intro x hx
      rcases List.mem_cons.1 hx with h1 | h1
      · subst h1; omega
      · have := r1 x h1; omega
    · exact List.Pairwise.cons (fun x hx => by have := r1 x hx; omega) r2
    · intro i hi1 hi2 kids2 hk2
      by_cases hic : i = c
      · subst hic
        rw [h] at hk2
        simp only [Option.some.injEq] at hk2
        subst hk2
        exact ⟨fun x hx => by have := k1 x hx; omega, k2⟩
      · by_cases him : i < m
        · obtain ⟨p1, p2⟩ := k3 i (by omega) him kids2 hk2
          exact ⟨fun x hx => by have := p1 x hx; omega, p2⟩
        · exact r3 i (by omega) hi2 kids2 hk2

/-- Claim C33: after every successful parse, (1) for every element `i` every
index `c` in its children list satisfies `i < c < elementCount`, and the list
is strictly increasing; (2) every index from 1 to `elementCount - 1` stands
exactly once in the children lists, all lists taken together (so it stands in
exactly one list, once), and the index 0 stands in none. -/
theorem children_well_formed (L : Loader) (fuel : Nat) (data : List Nat) (doc : HDL_Document)
    (h : HDL_Parse L fuel data = .ret 0 doc) :
    (∀ (i : Nat) (e : HDL_Element), doc.elements[i]? = some e →
      (∀ c ∈ e.children, i < c ∧ c < doc.elements.length) ∧
      e.children.Pairwise (fun a b => a < b)) ∧
    (∀ x, 1 ≤ x → x < doc.elements.length → childOcc doc x = 1) ∧
    childOcc doc 0 = 0 := by
  rcases parse_tree L fuel data doc h with h0 | ht
  · refine ⟨fun i e he => ?_, fun x h1 h2 => ?_, ?_⟩
    · rw [h0] at he; simp at he
    · rw [h0] at h2; simp at h2
    · simp [childOcc, h0]
  · have hocc : ∀ x, childOcc doc x = occSum (chOf doc) x 0 doc.elements.length := by
      intro x
      have := occSum_total x (chOf doc) []
      simp only [List.nil_append, List.length_nil, chOf, List.length_map, List.map_map] at this
      rw [show occSum (chOf doc) x 0 doc.elements.length =
        occSum (List.map (fun e => e.children) doc.elements) x 0 doc.elements.length from rfl,
        this]
      rfl
    have hsum := fun x => SpanL_occ ht x
    simp only [Nat.sub_zero, Nat.zero_le, true_and] at hsum
    refine ⟨fun i e he => ?_, fun x h1 h2 => ?_, ?_⟩
    · have hlt : i < doc.elements.length := by
        rcases Nat.lt_or_ge i doc.elements.length with h1 | h1
        · exact h1
        · rw [List.getElem?_eq_none h1] at he; cases he
      have hch : (chOf doc)[i]? = some e.children := by simp [chOf, he]
      exact (SpanL_bounds ht).2.2 i (Nat.zero_le _) hlt e.children hch
    · have := hsum x
      rw [if_pos h2] at this
      have hc : [0].count x = 0 := by
        rw [List.count_cons]
        have : (0 == x) = false := by
          have : (0 : Nat) ≠ x := by omega
          simpa using this
        simp [this]
      rw [hocc]; omega
    · have := hsum 0
      rw [hocc]
      by_cases hn : 0 < doc.elements.length
      · rw [if_pos hn] at this
        simp only [List.count_cons_self, List.count_nil] at this
        omega
      · rw [if_neg hn] at this
        omega

/-- Witness of claim C33 on `<box><box/><text>hi</text></box>`: the root has
the children 1 and 2, and each of the indices 1 and 2 stands once in the
lists. -/
theorem children_well_formed_witness :
    ((∀ c ∈ [1, 2], 0 < c ∧ c < 3) ∧ [1, 2].Pairwise (fun a b => a < b)) ∧
    childOcc kidsDoc 1 = 1 ∧ childOcc kidsDoc 2 = 1 ∧ childOcc kidsDoc 0 = 0 :=
  have h := children_well_formed noLoader 4 (str "<box><box/><text>hi</text></box>") kidsDoc
    (parse_kids noLoader 0)
  ⟨h.1 0 _ rfl, h.2.1 1 (by decide) (by decide), h.2.1 2 (by decide) (by decide), h.2.2⟩

theorem parOf_updElem_same (doc : HDL_Document) (ei : Nat) (f : HDL_Element → HDL_Element)
    (hf : ∀ e, (f e).parent = e.parent) : parOf (updElem doc ei f) = parOf doc := by
  unfold updElem
  cases he : doc.elements[ei]? with
  | none => rfl
  | some e =>
    simp only [parOf]
    apply List.ext_getElem?
    intro i
    simp only [List.getElem?_map, List.getElem?_set]
    by_cases hi : ei = i
    · subst hi
      simp only [if_true]
      split
      · simp [he, hf]
      · rename_i hlt
        rw [List.getElem?_eq_none (by omega)]
    · simp [hi]

theorem parOf_updElem_root (doc : HDL_Document) (ei : Nat) (v : Int) :
    parOf (updElem doc ei (fun e => { e with parent := v })) = (parOf doc).set ei v := by
  unfold updElem
  cases he : doc.elements[ei]? with
  | none =>
    have hge : doc.elements.length ≤ ei := by
      rcases Nat.lt_or_ge ei doc.elements.length with h | h
      · rw [List.getElem?_eq_getElem h] at he; cases he
      · exact h
    simp only [parOf]
    rw [List.set_eq_of_length_le (by simpa using hge)]
  | some e =>
    simp only [parOf]
    apply List.ext_getElem?
    intro i
    simp only [List.getElem?_map, List.getElem?_set, List.length_map]
    by_cases hi : ei = i
    · subst hi
      simp only [if_true]
      split <;> simp
    · simp [hi]

theorem parseAttribute_parOf (B : Blocks) (fuel : Nat) (st : PState) (ei c : Nat) (st1 : PState)
    (h : _HDL_ParseAttribute B fuel st ei = .ret c st1) : parOf st1.doc = parOf st.doc := by
  unfold _HDL_ParseAttribute at h
  have hput : ∀ a : HDL_Attr,
      parOf (updElem st.doc ei (fun e => { e with attrs := e.attrs ++ [a] })) = parOf st.doc :=
    fun a => parOf_updElem_same st.doc ei _ (fun _ => rfl)
  split at h
  · cases h
  · split at h
    · simp only [Res.ret.injEq] at h; rw [← h.2]
    · split at h
      · split at h
        · cases h
        · simp only at h
          split at h
          · cases h
          · split at h
            · simp only [Res.ret.injEq] at h; rw [← h.2]; exact hput _
            · split at h
              · split at h
                · cases h
                · cases h
                · simp only [Res.ret.injEq] at h; rw [← h.2]; exact hput _
              · simp only [Res.ret.injEq] at h; rw [← h.2]; exact hput _
      · cases h

theorem attrLoop_parOf (B : Blocks) (fuel ei : Nat) :
    ∀ (k : Nat) (st : PState) (c : Nat) (st1 : PState) (t : Nat),
      attrLoop B fuel ei k st = .ret c (st1, t) → parOf st1.doc = parOf st.doc := by
  intro k
  induction k with
  | zero => intro st c st1 t h; simp [attrLoop] at h
  | succ k ih =>
    intro st c st1 t h
    unfold attrLoop at h
    split at h
    · simp only [Res.ret.injEq, Prod.mk.injEq] at h; rw [← h.2.1]
    · split at h
      · cases h
      · split at h
        · split at h
          · split at h
            · cases h
            · split at h
              · simp only [Res.ret.injEq, Prod.mk.injEq] at h; rw [← h.2.1]
              · simp only [Res.ret.injEq, Prod.mk.injEq] at h; rw [← h.2.1]
          · split at h
            · simp only [Res.ret.injEq, Prod.mk.injEq] at h; rw [← h.2.1]
            · simp only [Res.ret.injEq, Prod.mk.injEq] at h; rw [← h.2.1]
        · split at h
          · cases h
          · cases h
          · rename_i code st2 hpa
            have h2 := parseAttribute_parOf B fuel st ei code st2 hpa
            split at h
            · simp only [Res.ret.injEq, Prod.mk.injEq] at h; rw [← h.2.1]; exact h2
            · have h3 := ih _ c st1 t h
              exact h3.trans h2

theorem bodyLoop_par (B : Blocks) (ei : Nat) (rec : PState → Res PState)
    (hrec : ∀ st st1, rec st = .ret 0 st1 →
      ∃ zs : List Int, (∀ z ∈ zs, z = 0) ∧ parOf st1.doc = parOf st.doc ++ zs) :
    ∀ (k : Nat) (st st1 : PState), bodyLoop rec B ei k st = .ret 0 st1 →
      ∃ zs : List Int, (∀ z ∈ zs, z = 0) ∧ parOf st1.doc = parOf st.doc ++ zs := by
  intro k
  induction k with
  | zero => intro st st1 h; simp [bodyLoop] at h
  | succ k ih =>
    intro st st1 h
    have triv : ∃ zs : List Int, (∀ z ∈ zs, z = 0) ∧ parOf st.doc = parOf st.doc ++ zs := by
      refine ⟨[], ?_, ?_⟩
      · intro z hz; cases hz
      · simp
    unfold bodyLoop at h
    simp only at h
    split at h
    · simp only [Res.ret.injEq, true_and] at h; rw [← h]; exact triv
    · split at h
      · cases h
      · split at h
        · split at h
          · cases h
          · split at h
            · split at h
              · split at h
                · split at h
                  · cases h
                  · split at h
                    · simp only [Res.ret.injEq, true_and] at h; rw [← h]; exact triv
                    · simp at h
                · simp at h
              · cases h
            · split at h
              · simp at h
              · split at h
                · rename_i st2 hr
                  obtain ⟨z1, hz1, e1⟩ := hrec st st2 hr
                  obtain ⟨z2, hz2, e2⟩ := ih st2 st1 h
                  refine ⟨z1 ++ z2, fun z hz => ?_, by rw [e2, e1, List.append_assoc]⟩
                  rcases List.mem_append.1 hz with h1 | h1
                  · exact hz1 z h1
                  · exact hz2 z h1
                · simp at h
                · cases h
                · cases h
        · split at h
          · split at h
            · split at h
              · rename_i blk element hg he hcn
                have hu := parOf_updElem_same st.doc ei
                  (fun e => { e with content := some blk }) (fun _ => rfl)
                obtain ⟨z2, hz2, e2⟩ := ih _ st1 h
                simp only [hu] at e2
                exact ⟨z2, hz2, e2⟩
              · simp at h
            · cases h
          · simp at h

theorem parseElement_par (B : Blocks) (fuel : Nat) :
    ∀ (parent : Option Nat) (st st1 : PState),
      _HDL_ParseElement B fuel parent st = .ret 0 st1 →
      ∃ zs : List Int, (∀ z ∈ zs, z = 0) ∧
        parOf st1.doc = parOf st.doc ++ ((if parent = none then -1 else 0) :: zs) := by
  induction fuel with
  | zero => intro parent st st1 h; simp [_HDL_ParseElement] at h
  | succ fuel ih =>
    intro parent st st1 h
    unfold _HDL_ParseElement at h
    simp only at h
    split at h
    · cases h
    · split at h
      · simp at h
      · split at h
        · cases h
        · split at h
          · cases h
          · split at h
            · cases h
            · rename_i tag _ _
              split at h
              · cases h
              · cases h
              · rename_i code sa tagType hal
                have ha := attrLoop_parOf B fuel _ fuel _ code sa tagType hal
                have hnew : parOf sa.doc = parOf st.doc ++ [0] := by
                  rw [ha]; simp [parOf]
                have hbody : ∀ (doc1 : HDL_Document) (bi : Nat) (r : Int),
                    parOf doc1 = parOf st.doc ++ [r] →
                    (if tagType = 0 then Res.ret 1 (⟨doc1, bi⟩ : PState)
                      else if tagType = 1 then Res.ret 0 ⟨doc1, bi⟩
                      else bodyLoop
                        (fun s => _HDL_ParseElement B fuel (some st.doc.elements.length) s)
                        B st.doc.elements.length fuel ⟨doc1, bi⟩) = .ret 0 st1 →
                    ∃ zs : List Int, (∀ z ∈ zs, z = 0) ∧
                      parOf st1.doc = parOf st.doc ++ (r :: zs) := by
                  intro doc1 bi r hd hh
                  split at hh
                  · simp at hh
                  · split at hh
                    · simp only [Res.ret.injEq, true_and] at hh
                      rw [← hh]
                      refine ⟨[], ?_, hd⟩
                      intro z hz; cases hz
                    · obtain ⟨zs, hz, e⟩ := bodyLoop_par B st.doc.elements.length
                        (fun s => _HDL_ParseElement B fuel (some st.doc.elements.length) s)
                        (fun s s1 hs => by
                          obtain ⟨z1, hz1, e1⟩ := ih _ s s1 hs
                          have hif : (if (some st.doc.elements.length : Option Nat) = none
                              then (-1 : Int) else 0) = 0 := by simp
                          rw [hif] at e1
                          refine ⟨0 :: z1, fun z hz => ?_, e1⟩
                          rcases List.mem_cons.1 hz with h1 | h1
                          · exact h1
                          · exact hz1 z h1)
                        fuel ⟨doc1, bi⟩ st1 hh
                      refine ⟨zs, hz, ?_⟩
                      rw [e]
                      show parOf doc1 ++ zs = _
                      rw [hd, List.append_assoc]
                      rfl
                split at h
                · simp at h
                · cases parent with
                  | none =>
                    simp only at h
                    refine hbody _ _ (-1) ?_ h
                    rw [parOf_updElem_root, hnew]
                    have hl : st.doc.elements.length = (parOf st.doc).length := by simp [parOf]
                    rw [hl, set_append_last]
                  | some pi =>
                    simp only at h
                    have hif : (if (some pi : Option Nat) = none then (-1 : Int) else 0) = 0 := by
                      simp
                    rw [hif]
                    refine hbody _ _ 0 ?_ h
                    rw [parOf_updElem_same _ pi (fun e => { e with children := e.children ++ [st.doc.elements.length] }) (fun _ => rfl), hnew]

theorem parseBlocksLoop_par (L : Loader) (B : Blocks) (fuel : Nat) :
    ∀ (n : Nat) (root : Bool) (st st1 : PState),
      parseBlocksLoop L B fuel n root st = .ret 0 st1 →
      (if root then ∃ zs : List Int, (∀ z ∈ zs, z = 0) ∧ parOf st.doc = -1 :: zs
        else st.doc.elements = []) →
      st1.doc.elements = [] ∨
        ∃ zs : List Int, (∀ z ∈ zs, z = 0) ∧ parOf st1.doc = -1 :: zs := by
  intro n
  induction n with
  | zero => intro root st st1 h; simp [parseBlocksLoop] at h
  | succ n ih =>
    intro root st st1 h hinv
    have hfin : st.doc.elements = [] ∨
        ∃ zs : List Int, (∀ z ∈ zs, z = 0) ∧ parOf st.doc = -1 :: zs := by
      cases root with
      | false => exact Or.inl (by simpa using hinv)
      | true => exact Or.inr (by simpa using hinv)
    unfold parseBlocksLoop at h
    simp only at h
    by_cases d0 : ¬ st.blockIndex < B.block_count
    · rw [if_pos d0] at h; cases h; exact hfin
    rw [if_neg d0] at h
    generalize B.c0 st.blockIndex = x0 at h
    cases x0 with
    | none => cases h
    | some c =>
      simp only at h
      by_cases d1 : c = 35
      · rw [if_pos d1] at h
        have hk := parseVariable_elements L B fuel st
        generalize _HDL_ParseVariable L B fuel st = pv at h hk
        cases pv with
        | ub => cases h
        | nofuel => cases h
        | ret code s2 =>
          have e := hk code s2 rfl
          cases code with
          | zero =>
            simp only at h
            refine ih root s2 st1 h ?_
            unfold parOf at hinv ⊢
            rw [e]; exact hinv
          | succ k => simp only at h; cases h
      rw [if_neg d1] at h
      by_cases d2 : c = 60
      · rw [if_pos d2] at h
        cases root with
        | true => simp at h
        | false =>
          simp only [Bool.false_eq_true, if_false] at h hinv
          have hk := parseElement_par B fuel none st
          generalize _HDL_ParseElement B fuel none st = pe at h hk
          cases pe with
          | ub => cases h
          | nofuel => cases h
          | ret code s2 =>
            cases code with
            | zero =>
              simp only at h
              obtain ⟨zs, hz, e⟩ := hk s2 rfl
              refine ih true s2 st1 h ?_
              simp only [if_true]
              refine ⟨zs, hz, ?_⟩
              rw [e]
              simp [parOf, hinv]
            | succ k => simp only at h; cases h
      rw [if_neg d2] at h
      generalize (if c = 47 then B.c1 st.blockIndex else some 0) = x1 at h
      cases x1 with
      | none => cases h
      | some d =>
        simp only at h
        by_cases d3 : c = 47 ∧ d = 42
        · rw [if_pos d3] at h
          generalize skipComment B (B.block_count - st.blockIndex) st.blockIndex = sk at h
          cases sk with
          | none => cases h
          | some bi1 =>
            simp only at h
            exact ih root _ st1 h hinv
        · rw [if_neg d3] at h; cases h

/-- The parent fields of a successfully parsed document: none, or -1 at
element 0 and 0 at every other element. -/
theorem parse_par (L : Loader) (fuel : Nat) (data : List Nat) (doc : HDL_Document)
    (h : HDL_Parse L fuel data = .ret 0 doc) :
    doc.elements = [] ∨ ∃ zs : List Int, (∀ z ∈ zs, z = 0) ∧ parOf doc = -1 :: zs := by
  unfold HDL_Parse at h
  generalize _HDL_ParseDataToBlocks data = sp at h
  cases sp with
  | ub => cases h
  | nofuel => cases h
  | ret e1 B =>
    simp only at h
    have hk := parseBlocksLoop_par L B fuel fuel false ⟨⟨[], [], []⟩, 0⟩
    unfold _HDL_ParseBlocks at h
    generalize parseBlocksLoop L B fuel fuel false ⟨⟨[], [], []⟩, 0⟩ = pb at h hk
    cases pb with
    | ub => cases h
    | nofuel => cases h
    | ret e2 st =>
      simp only [Res.ret.injEq] at h
      obtain ⟨hc, hd⟩ := h
      have he2 : e2 = 0 := by
        by_contra hne
        rw [if_pos (Or.inr hne)] at hc
        cases hc
      subst he2
      rw [← hd]
      exact hk st rfl (by simp)

theorem Reach_trans {chs : List (List Nat)} {i c x : Nat} (h1 : Reach chs i c)
    (h2 : Reach chs c x) : Reach chs i x := by
  induction h1 with
  | refl i => exact h2
  | step i c y kids h hc _ ih => exact Reach.step i c x kids h hc (ih h2)

theorem SpanL_reach {chs : List (List Nat)} {cs : List Nat} {k j : Nat}
    (h : SpanL chs cs k j) : ∀ x, k ≤ x → x < j → ∃ c ∈ cs, Reach chs c x := by
  induction h with
  | nil k => intro x h1 h2; omega
  | cons c m j cs kids hc hk hr ih1 ih2 =>
    intro x h1 h2
    by_cases hx : x = c
    · subst hx
      exact ⟨x, List.mem_cons_self _ _, Reach.refl x⟩
    by_cases hm : x < m
    · obtain ⟨d, hd, hr1⟩ := ih1 x (by omega) hm
      exact ⟨c, List.mem_cons_self _ _, Reach.step c d x kids hc hd hr1⟩
    · obtain ⟨d, hd, hr1⟩ := ih2 x (by omega) h2
      exact ⟨d, List.mem_cons_of_mem _ hd, hr1⟩

/-- Claim C32, counterexample: the source `#const a 5` parses successfully
and yields no element at all, so the parsed document has no root. -/
theorem definitions_only_no_root :
    ∃ doc : HDL_Document, HDL_Parse noLoader 3 (str "#const a 5") = .ret 0 doc ∧
      doc.elements.length = 0 ∧ ¬ ∃ e ∈ doc.elements, e.parent = -1 := by
  refine ⟨_, rfl, rfl, ?_⟩
  rintro ⟨e, he, _⟩
  cases he

/-- Claim C32 (amended): after a successful parse the document has either no
element, or element 0 is the root with parent -1, no other element has the
parent -1, and every element is element 0 or a descendant of it through the
children lists. -/
theorem single_root (L : Loader) (fuel : Nat) (data : List Nat) (doc : HDL_Document)
    (h : HDL_Parse L fuel data = .ret 0 doc) :
    doc.elements = [] ∨
      ∃ (root : HDL_Element) (rest : List HDL_Element), doc.elements = root :: rest ∧
        root.parent = -1 ∧ (∀ e ∈ rest, e.parent ≠ -1) ∧
        ∀ x, x < doc.elements.length → Reach (chOf doc) 0 x := by
  rcases parse_par L fuel data doc h with h0 | ⟨zs, hz, hp⟩
  · exact Or.inl h0
  rcases parse_tree L fuel data doc h with h0 | ht
  · exact Or.inl h0
  right
  cases hd : doc.elements with
  | nil => simp [parOf, hd] at hp
  | cons root rest =>
    simp only [parOf, hd, List.map_cons, List.cons.injEq] at hp
    refine ⟨root, rest, rfl, hp.1, ?_, ?_⟩
    · intro e he hne
      have : e.parent ∈ zs := by
        rw [← hp.2]; exact List.mem_map_of_mem _ he
      have := hz _ this
      omega
    · intro x hx
      rw [← hd] at hx
      obtain ⟨c, hc, hr⟩ := SpanL_reach ht x (Nat.zero_le _) hx
      simp only [List.mem_singleton] at hc
      subst hc
      exact hr

theorem single_root_witness :
    HDL_Parse noLoader 4 (str "<box><box/><text>hi</text></box>") = .ret 0 kidsDoc ∧
    (kidsDoc.elements = [] ∨
      ∃ (root : HDL_Element) (rest : List HDL_Element), kidsDoc.elements = root :: rest ∧
        root.parent = -1 ∧ (∀ e ∈ rest, e.parent ≠ -1) ∧
        ∀ x, x < kidsDoc.elements.length → Reach (chOf kidsDoc) 0 x) :=
  ⟨rfl, single_root noLoader 4 (str "<box><box/><text>hi</text></box>") kidsDoc rfl⟩

set_option maxHeartbeats 2000000 in
theorem compile_fiveAlias :
    ∃ s1, compile 2 ⟨fiveAlias, zeroBuf, 0⟩ = .ret 0 s1 ∧
      seg s1.buffer 16 s1.pc = [0, 0, 1, 0, 4, 1, 5, 0] :=
  ⟨_, rfl, by decide⟩

/-- Claim C39: (1) a number constant used once is encoded like its literal:
`#const a 5` with `<box x=a/>` gives the same element bytes as `<box x=5/>`;
(2) with the string constant `#const a 'top left'` the source
`<box align=a><box img=a/></box>` is encoded with the `img` value `top`, while
the source with the literal written out twice is encoded with the `img` value
`top left`, five bytes more: the `align` rewrite of the first attribute has
stored a terminator into the constant's block, which the second attribute
shares; (3) with the same constant `<box align=a><box align=a/></box>` makes
the encoder scan past the end of the constant's block (undefined behaviour),
while the source with the literal written out twice is encoded with return
value 0. -/
theorem constant_alias_diverges :
    (HDL_Parse noLoader 4 (str "#const a 5\n<box x=a/>") = .ret 0 fiveAlias ∧
      HDL_Parse noLoader 4 (str "<box x=5/>") = .ret 0 x5Doc ∧
      (∃ s1, compile 2 ⟨fiveAlias, zeroBuf, 0⟩ = .ret 0 s1 ∧
        seg s1.buffer 16 s1.pc = [0, 0, 1, 0, 4, 1, 5, 0]) ∧
      ∃ s2, compile 2 ⟨x5Doc, zeroBuf, 0⟩ = .ret 0 s2 ∧
        seg s2.buffer 16 s2.pc = [0, 0, 1, 0, 4, 1, 5, 0]) ∧
    (∃ s1 s2,
      HDL_Parse noLoader 6 (str "#const a 'top left'\n<box align=a><box img=a/></box>") =
        .ret 0 (nestDoc (aliasAttr "align") (aliasAttr "img") [topLeft]) ∧
      HDL_Parse noLoader 6 (str "<box align='top left'><box img='top left'/></box>") =
        .ret 0 (nestDoc (stringAttr "align" "top left") (stringAttr "img" "top left") []) ∧
      compile 3 ⟨nestDoc (aliasAttr "align") (aliasAttr "img") [topLeft], zeroBuf, 0⟩ =
        .ret 0 s1 ∧
      compile 3 ⟨nestDoc (stringAttr "align" "top left") (stringAttr "img" "top left") [],
        zeroBuf, 0⟩ = .ret 0 s2 ∧
      seg s1.buffer 16 s1.pc =
        [0, 0, 1, 9, 4, 1, 17, 1, 0, 0, 1, 7, 3, 1] ++ str "top" ++ [0, 0] ∧
      seg s2.buffer 16 s2.pc =
        [0, 0, 1, 9, 4, 1, 17, 1, 0, 0, 1, 7, 3, 1] ++ str "top left" ++ [0, 0]) ∧
    (HDL_Parse noLoader 6 (str "#const a 'top left'\n<box align=a><box align=a/></box>") =
        .ret 0 (nestDoc (aliasAttr "align") (aliasAttr "align") [topLeft]) ∧
      HDL_Parse noLoader 6 (str "<box align='top left'><box align='top left'/></box>") =
        .ret 0 (nestDoc (stringAttr "align" "top left") (stringAttr "align" "top left") []) ∧
      compile 3 ⟨nestDoc (aliasAttr "align") (aliasAttr "align") [topLeft], zeroBuf, 0⟩ = .ub ∧
      ∃ s2, compile 3 ⟨nestDoc (stringAttr "align" "top left") (stringAttr "align" "top left") [],
          zeroBuf, 0⟩ = .ret 0 s2) :=
  ⟨⟨rfl, rfl, compile_fiveAlias, ⟨_, rfl, by decide⟩⟩,
   ⟨_, _, rfl, rfl, rfl, rfl, by decide, by decide⟩,
   ⟨rfl, rfl, rfl, ⟨_, rfl⟩⟩⟩

theorem pushBlock_eq (st st1 : SplitState) (h : pushBlock st = some st1) :
    st1 = { st with blocks := st.blocks ++ [st.data.length] } := by
  unfold pushBlock at h
  split at h
  · simp only [Option.some.injEq] at h
    exact h.symm
  · cases h

theorem joinZ_snoc (ws : List (List Nat)) (w : List Nat) :
    joinZ (ws ++ [w]) = joinZ ws ++ w ++ [0] := by
  rw [joinZ_append]
  simp [joinZ]

theorem offsets_snoc_zero (ws : List (List Nat)) (w : List Nat) :
    offsets 0 (ws ++ [w]) = offsets 0 ws ++ [(joinZ ws ++ w ++ [0]).length] := by
  rw [offsets_snoc]
  simp only [List.length_append, List.length_singleton, Nat.zero_add]

theorem isDelimiter_ne_zero (c : Nat) (h : isDelimiter c = true) : c ≠ 0 ∧ c ≠ 92 := by
  simp only [isDelimiter, delimiters, List.contains_eq_any_beq, List.any_cons, List.any_nil,
    Bool.or_false, Bool.or_eq_true, beq_iff_eq] at h
  omega

theorem splitChar_inv (st st1 : SplitState) (c : Nat) (ws : List (List Nat)) (cur : List Nat)
    (hc : c ≠ 0) (hinv : SplitAt st ws cur) (h : splitChar st c = some st1) :
    ∃ ws1 cur1, SplitAt st1 ws1 cur1 ∧ (∃ t, ws1 = ws ++ t) ∧
      (isDelimiter c = true → isWhitespace c = false → st.inquotes = 0 →
        ws1 = (if cur = [] then ws else ws ++ [cur]) ++ [[c]] ∧ cur1 = []) := by
  obtain ⟨hd, hb, hl, hws, hcur, hbs⟩ := hinv
  unfold splitChar at h
  simp only at h
  by_cases d1 : isWhitespace c = true ∧ isWhitespace st.lastChar = true
  · rw [if_pos d1] at h
    simp only [Option.some.injEq] at h
    subst h
    refine ⟨ws, cur, ⟨hd, hb, hl, hws, hcur, ?_⟩, ⟨[], by simp⟩, ?_⟩
    · intro h92
      simp only at h92
      rw [h92] at d1
      simp [isWhitespace] at d1
    · intro _ hnw; rw [d1.1] at hnw; cases hnw
  rw [if_neg d1] at h
  by_cases d2 : isDelimiter c = true ∧ quoteStep st.lastChar st.inquotes c = 0
  · rw [if_pos d2] at h
    have hdl := isDelimiter_ne_zero c d2.1
    have hws1 : ∀ w ∈ (if cur = [] then ws else ws ++ [cur]), w ≠ [] ∧ ∀ c ∈ w, c ≠ 0 := by
      intro w hw
      by_cases he : cur = []
      · rw [if_pos he] at hw; exact hws w hw
      · rw [if_neg he] at hw
        rcases List.mem_append.1 hw with h1 | h1
        · exact hws w h1
        · simp only [List.mem_singleton] at h1
          subst h1
          exact ⟨he, hcur⟩
    have hpre : ∃ t, (if cur = [] then ws else ws ++ [cur]) = ws ++ t := by
      by_cases he : cur = []
      · rw [if_pos he]; exact ⟨[], by simp⟩
      · rw [if_neg he]; exact ⟨[cur], rfl⟩
    generalize hg : (ite (st.blocklen > 0) _ _ : Option SplitState) = om at h
    cases om with
    | none => cases h
    | some sm =>
      have hmid : sm.data = joinZ (if cur = [] then ws else ws ++ [cur]) ∧
          sm.blocks = offsets 0 (if cur = [] then ws else ws ++ [cur]) := by
        by_cases hpos : st.blocklen > 0
        · rw [if_pos hpos] at hg
          have hne : cur ≠ [] := by
            intro he; rw [he] at hl; simp at hl; omega
          rw [if_neg hne]
          have := pushBlock_eq _ _ hg
          subst this
          split
          · simp only
            rw [joinZ_snoc, offsets_snoc_zero, hd, hb]
            simp
          · simp only
            rw [joinZ_snoc, offsets_snoc_zero, hd, hb]
            simp
        · rw [if_neg hpos] at hg
          simp only [Option.some.injEq] at hg
          subst hg
          have he : cur = [] := by
            cases cur with
            | nil => rfl
            | cons a t => simp at hl; omega
          rw [if_pos he]
          simp only
          rw [hd, hb, he]
          simp
      obtain ⟨m1, m2⟩ := hmid
      simp only at h
      by_cases hw : isWhitespace c = true
      · rw [if_neg (by simpa using hw)] at h
        simp only [Option.some.injEq] at h
        subst h
        refine ⟨_, [], ⟨?_, ?_, rfl, hws1, ?_, ?_⟩, hpre, ?_⟩
        · simp [splitFinish, m1]
        · simp [splitFinish, m2]
        · intro x hx; cases hx
        · intro h92
          simp only [splitFinish] at h92
          exact absurd h92 hdl.2
        · intro _ hnw; rw [hw] at hnw; cases hnw
      · rw [if_pos (by simpa using hw)] at h
        generalize hp : pushBlock _ = op at h
        cases op with
        | none => cases h
        | some sp =>
          simp only [Option.map_some', Option.some.injEq] at h
          subst h
          have := pushBlock_eq _ _ hp
          subst this
          obtain ⟨t, ht⟩ := hpre
          refine ⟨(if cur = [] then ws else ws ++ [cur]) ++ [[c]], [],
            ⟨?_, ?_, rfl, ?_, ?_, ?_⟩, ⟨t ++ [[c]], by rw [ht, List.append_assoc]⟩, ?_⟩
          · simp [splitFinish, m1, joinZ_snoc]
          · simp only [splitFinish]
            rw [offsets_snoc_zero, m2, m1]
            simp
          · intro w hw1
            rcases List.mem_append.1 hw1 with h1 | h1
            · exact hws1 w h1
            · simp only [List.mem_singleton] at h1
              subst h1
              refine ⟨by simp, ?_⟩
              intro x hx
              simp only [List.mem_singleton] at hx
              subst hx
              exact hc
          · intro x hx; cases hx
          · intro h92
            simp only [splitFinish] at h92
            exact absurd h92 hdl.2
          · intro _ _ _; exact ⟨rfl, rfl⟩
  rw [if_neg d2] at h
  have hnd : isDelimiter c = true → isWhitespace c = false → st.inquotes = 0 → False := by
    intro h1 h2 h3
    apply d2
    refine ⟨h1, ?_⟩
    have := isDelimiter_ne_zero c h1
    simp only [quoteStep, h3]
    have h39 : c ≠ 39 := by
      intro e; subst e; revert h1; decide
    have h34 : c ≠ 34 := by
      intro e; subst e; revert h1; decide
    simp [h39, h34]
  have hstore : ∀ (cur1 : List Nat) (d : List Nat) (bl : Nat),
      d = joinZ ws ++ cur1 → bl = cur1.length → (∀ x ∈ cur1, x ≠ 0) → (c = 92 → cur1 ≠ []) →
      ∃ ws1 cur2,
        SplitAt (splitFinish ⟨d, st.blocks, st.blocks_allocated, st.lastChar, bl,
          quoteStep st.lastChar st.inquotes c⟩ c) ws1 cur2 ∧
        (∃ t, ws1 = ws ++ t) ∧
        (isDelimiter c = true → isWhitespace c = false → st.inquotes = 0 →
          ws1 = (if cur = [] then ws else ws ++ [cur]) ++ [[c]] ∧ cur2 = []) := by
    intro cur1 d bl e1 e2 e3 e4
    refine ⟨ws, cur1, ⟨?_, ?_, ?_, hws, e3, ?_⟩, ⟨[], by simp⟩, fun a b c1 => (hnd a b c1).elim⟩
    · simp [splitFinish, e1]
    · simp [splitFinish, hb]
    · simp [splitFinish, e2]
    · intro h92
      simp only [splitFinish] at h92
      exact e4 h92
  by_cases d3 : ¬ isWhitespace c = true ∨ (quoteStep st.lastChar st.inquotes c ≠ 0 ∧ c ≠ 10)
  · rw [if_pos d3] at h
    by_cases d4 : st.lastChar = 92
    · rw [if_pos d4] at h
      have hne := hbs d4
      have hdrop : ∀ b : Nat, b ≠ 0 →
          st.data.dropLast ++ [b] = joinZ ws ++ (cur.dropLast ++ [b]) ∧
          st.blocklen = (cur.dropLast ++ [b]).length ∧
          (∀ x ∈ cur.dropLast ++ [b], x ≠ 0) := by
        intro b hb0
        refine ⟨?_, ?_, ?_⟩
        · rw [hd, List.dropLast_append_of_ne_nil _ hne, List.append_assoc]
        · rw [hl]
          simp only [List.length_append, List.length_dropLast, List.length_singleton]
          have : 0 < cur.length := List.length_pos.2 hne
          omega
        · intro x hx
          rcases List.mem_append.1 hx with h1 | h1
          · exact hcur x (List.mem_of_mem_dropLast h1)
          · simp only [List.mem_singleton] at h1
            rw [h1]; exact hb0
      by_cases d5 : c = 110
      · rw [if_pos d5] at h
        by_cases d6 : st.data = []
        · rw [if_pos d6] at h; cases h
        rw [if_neg d6] at h
        simp only [Option.some.injEq] at h
        subst h
        obtain ⟨a1, a2, a3⟩ := hdrop 10 (by decide)
        exact hstore _ _ _ a1 a2 a3 (fun e => by omega)
      rw [if_neg d5] at h
      by_cases d7 : c = 116
      · rw [if_pos d7] at h
        by_cases d6 : st.data = []
        · rw [if_pos d6] at h; cases h
        rw [if_neg d6] at h
        simp only [Option.some.injEq] at h
        subst h
        obtain ⟨a1, a2, a3⟩ := hdrop 9 (by decide)
        exact hstore _ _ _ a1 a2 a3 (fun e => by omega)
      rw [if_neg d7] at h
      simp only [Option.some.injEq] at h
      subst h
      exact hstore cur _ _ hd hl hcur (fun _ => hne)
    · rw [if_neg d4] at h
      simp only [Option.some.injEq] at h
      subst h
      refine hstore (cur ++ [c]) _ _ ?_ ?_ ?_ (fun _ => by simp)
      · rw [hd, List.append_assoc]
      · rw [hl]; simp
      · intro x hx
        rcases List.mem_append.1 hx with h1 | h1
        · exact hcur x h1
        · simp only [List.mem_singleton] at h1
          rw [h1]; exact hc
  · rw [if_neg d3] at h
    simp only [Option.some.injEq] at h
    subst h
    refine hstore cur _ _ hd hl hcur (fun e => ?_)
    exfalso
    apply d3
    left
    subst e
    decide

theorem splitLoop_inv (dalloc : Nat) :
    ∀ (rest : List Nat) (st stf : SplitState) (ws : List (List Nat)) (cur : List Nat),
      (∀ c ∈ rest, c ≠ 0) → SplitAt st ws cur → splitLoop dalloc rest st = .ret 0 stf →
      ∃ ws1 cur1, SplitAt stf ws1 cur1 ∧ ∃ t, ws1 = ws ++ t := by
  intro rest
  induction rest with
  | nil =>
    intro st stf ws cur _ hinv h
    simp only [splitLoop, Res.ret.injEq, true_and] at h
    subst h
    exact ⟨ws, cur, hinv, [], by simp⟩
  | cons c rest ih =>
    intro st stf ws cur hz hinv h
    rw [splitLoop] at h
    by_cases hcap : (dalloc : Int) - 2 ≤ (st.data.length : Int)
    · rw [if_pos hcap] at h; simp at h
    rw [if_neg hcap] at h
    generalize hs : splitChar st c = o at h
    cases o with
    | none => cases h
    | some st2 =>
      simp only at h
      obtain ⟨ws2, cur2, hinv2, ⟨t2, ht2⟩, _⟩ :=
        splitChar_inv st st2 c ws cur (hz c (List.mem_cons_self _ _)) hinv hs
      obtain ⟨ws3, cur3, hinv3, ⟨t3, ht3⟩⟩ :=
        ih st2 stf ws2 cur2 (fun x hx => hz x (List.mem_cons_of_mem _ hx)) hinv2 h
      exact ⟨ws3, cur3, hinv3, t2 ++ t3, by rw [ht3, ht2, List.append_assoc]⟩

theorem splitLoop_split (dalloc : Nat) :
    ∀ (pre rest : List Nat) (st0 stf : SplitState),
      splitLoop dalloc (pre ++ rest) st0 = .ret 0 stf →
      ∃ st, splitLoop dalloc pre st0 = .ret 0 st ∧ splitLoop dalloc rest st = .ret 0 stf := by
  intro pre
  induction pre with
  | nil => intro rest st0 stf h; exact ⟨st0, by simp [splitLoop], h⟩
  | cons c pre ih =>
    intro rest st0 stf h
    rw [List.cons_append, splitLoop] at h
    rw [splitLoop]
    by_cases hcap : (dalloc : Int) - 2 ≤ (st0.data.length : Int)
    · rw [if_pos hcap] at h; simp at h
    rw [if_neg hcap] at h
    rw [if_neg hcap]
    generalize splitChar st0 c = o at h
    cases o with
    | none => cases h
    | some st2 => exact ih rest st2 stf h

theorem joinZ_get (ws : List (List Nat)) :
    ∀ (pre rest : List Nat) (i : Nat) (w : List Nat), ws[i]? = some w → (∀ c ∈ w, c ≠ 0) →
      ∃ o, (offsets pre.length ws)[i]? = some o ∧
        cstrAt (pre ++ (joinZ ws ++ rest)) o = some w := by
  induction ws with
  | nil => intro pre rest i w h; simp at h
  | cons v ws ih =>
    intro pre rest i w h hz
    cases i with
    | zero =>
      simp only [List.getElem?_cons_zero, Option.some.injEq] at h
      subst h
      refine ⟨pre.length, by simp [offsets], ?_⟩
      have := cstrAt_append pre (joinZ (v :: ws) ++ rest) 0
      rw [Nat.add_zero] at this
      rw [this]
      simp only [joinZ, List.append_assoc, List.cons_append]
      exact cstrAt_term v _ hz
    | succ i =>
      simp only [List.getElem?_cons_succ] at h
      obtain ⟨o, h1, h2⟩ := ih (pre ++ v ++ [0]) rest i w h hz
      refine ⟨o, ?_, ?_⟩
      · simp only [offsets, List.getElem?_cons_succ]
        have e : (pre ++ v ++ [0]).length = pre.length + v.length + 1 := by simp; omega
        rw [← e]; exact h1
      · simpa [joinZ, List.append_assoc] using h2

/-- The blocks left by the splitter when it stops in a state described by
`SplitAt`: the completed blocks, and the current block when it is not empty. -/
theorem SplitAt_final (st : SplitState) (ws : List (List Nat)) (cur : List Nat)
    (hinv : SplitAt st ws cur) (B : Blocks)
    (hB : B = ⟨st.data ++ [0], st.blocks,
      if st.blocklen = 0 then st.blocks.length - 1 else st.blocks.length⟩) :
    B.block_count = (if cur = [] then ws else ws ++ [cur]).length ∧
    (∀ (i : Nat) (w : List Nat), (if cur = [] then ws else ws ++ [cur])[i]? = some w →
      B.get i = some w) ∧
    ∀ w ∈ (if cur = [] then ws else ws ++ [cur]), w ≠ [] ∧ ∀ c ∈ w, c ≠ 0 := by
  obtain ⟨hd, hb, hl, hws, hcur, _⟩ := hinv
  subst hB
  by_cases he : cur = []
  · simp only [if_pos he]
    have hl0 : st.blocklen = 0 := by rw [hl, he]; rfl
    refine ⟨?_, ?_, hws⟩
    · simp only [if_pos hl0, hb, offsets_length]; omega
    · intro i w hw
      obtain ⟨o, h1, h2⟩ := joinZ_get ws [] [0] i w hw
        (hws w (List.mem_iff_getElem?.2 ⟨i, hw⟩)).2
      simp only [List.length_nil, List.nil_append] at h1 h2
      simp only [Blocks.get, Blocks.ptr, hb, h1, Option.some_bind, hd, he, List.append_nil]
      exact h2
  · simp only [if_neg he]
    have hl0 : st.blocklen ≠ 0 := by
      rw [hl]
      intro h0
      exact he (List.length_eq_zero.1 h0)
    have hall : ∀ w ∈ ws ++ [cur], w ≠ [] ∧ ∀ c ∈ w, c ≠ 0 := by
      intro w hw
      rcases List.mem_append.1 hw with h1 | h1
      · exact hws w h1
      · simp only [List.mem_singleton] at h1
        subst h1
        exact ⟨he, hcur⟩
    refine ⟨?_, ?_, hall⟩
    · simp only [if_neg hl0, hb, offsets_length, List.length_append, List.length_singleton]
    · intro i w hw
      have hi : i < (ws ++ [cur]).length := by
        rcases Nat.lt_or_ge i (ws ++ [cur]).length with h | h
        · exact h
        · rw [List.getElem?_eq_none h] at hw; cases hw
      obtain ⟨o, h1, h2⟩ := joinZ_get (ws ++ [cur]) [] [] i w hw
        (hall w (List.mem_iff_getElem?.2 ⟨i, hw⟩)).2
      simp only [List.length_nil, List.nil_append, List.append_nil] at h1 h2
      rw [offsets_snoc_zero, List.getElem?_append_left
        (by rw [offsets_length]; simpa using hi)] at h1
      simp only [Blocks.get, Blocks.ptr, hb, h1, Option.some_bind, hd]
      rw [joinZ_snoc] at h2
      exact h2

theorem SplitAt_init : SplitAt ⟨[], [0], HDL_BLOCKBUFFER_REALLOC_SIZE, 32, 0, 0⟩ [] [] := by
  refine ⟨rfl, rfl, rfl, ?_, ?_, ?_⟩
  · intro w hw; cases hw
  · intro c hc; cases hc
  · intro h; simp at h

theorem parseDataToBlocks_ok (data : List Nat) (B : Blocks)
    (h : _HDL_ParseDataToBlocks data = .ret 0 B) :
    ∃ stf, splitLoop (2 * data.length) data ⟨[], [0], HDL_BLOCKBUFFER_REALLOC_SIZE, 32, 0, 0⟩ =
        .ret 0 stf ∧
      B = ⟨stf.data ++ [0], stf.blocks,
        if stf.blocklen = 0 then stf.blocks.length - 1 else stf.blocks.length⟩ := by
  unfold _HDL_ParseDataToBlocks at h
  simp only at h
  generalize splitLoop (2 * data.length) data ⟨[], [0], HDL_BLOCKBUFFER_REALLOC_SIZE, 32, 0, 0⟩ =
    r at h
  cases r with
  | ub => cases h
  | nofuel => cases h
  | ret code stf =>
    cases code with
    | zero =>
      simp only at h
      split at h
      · simp only [Res.ret.injEq, true_and] at h
        exact ⟨stf, rfl, h.symm⟩
      · cases h
    | succ k => simp at h

/-- Claim C36: for every input without a NUL character on which the splitter
succeeds, (1) every emitted block (every index below `block_count`) is a
non-empty string; (2) whenever a delimiter `c` that is no whitespace is read
while the splitter is outside quotes and outside text content (`st` is the
splitter's state after the characters before `c`), the block started at that
moment, whose index is the number of blocks emitted so far, is exactly the
one-character string `c`. -/
theorem blocks_nonempty (data : List Nat) (B : Blocks) (hz : ∀ c ∈ data, c ≠ 0)
    (h : _HDL_ParseDataToBlocks data = .ret 0 B) :
    (∀ i, i < B.block_count → ∃ w, B.get i = some w ∧ w ≠ []) ∧
    ∀ (pre post : List Nat) (c : Nat) (st : SplitState), data = pre ++ c :: post →
      splitLoop (2 * data.length) pre ⟨[], [0], HDL_BLOCKBUFFER_REALLOC_SIZE, 32, 0, 0⟩ =
        .ret 0 st →
      st.inquotes = 0 → isDelimiter c = true → isWhitespace c = false →
      (if st.blocklen = 0 then st.blocks.length - 1 else st.blocks.length) < B.block_count ∧
      B.get (if st.blocklen = 0 then st.blocks.length - 1 else st.blocks.length) = some [c] := by
  obtain ⟨stf, hrun, hB⟩ := parseDataToBlocks_ok data B h
  refine ⟨?_, ?_⟩
  · obtain ⟨ws, cur, hinv, _⟩ := splitLoop_inv _ data _ stf [] [] hz SplitAt_init hrun
    obtain ⟨f1, f2, f3⟩ := SplitAt_final stf ws cur hinv B hB
    intro i hi
    rw [f1] at hi
    have hw : (if cur = [] then ws else ws ++ [cur])[i]? =
        some ((if cur = [] then ws else ws ++ [cur])[i]) := List.getElem?_eq_getElem hi
    exact ⟨_, f2 i _ hw, (f3 _ (List.mem_iff_getElem?.2 ⟨i, hw⟩)).1⟩
  · intro pre post c st hdata hpre hq hdel hnw
    have hrun3 : splitLoop (2 * data.length) (pre ++ c :: post)
        ⟨[], [0], HDL_BLOCKBUFFER_REALLOC_SIZE, 32, 0, 0⟩ = .ret 0 stf := by
      rw [← hdata]; exact hrun
    obtain ⟨st', hp1, hp2⟩ := splitLoop_split _ pre (c :: post) _ stf hrun3
    rw [hpre] at hp1
    simp only [Res.ret.injEq, true_and] at hp1
    subst hp1
    have hzpre : ∀ x ∈ pre, x ≠ 0 := fun x hx => hz x (by rw [hdata]; simp [hx])
    have hzc : c ≠ 0 := hz c (by rw [hdata]; simp)
    have hzpost : ∀ x ∈ post, x ≠ 0 := fun x hx => hz x (by rw [hdata]; simp [hx])
    obtain ⟨ws, cur, hinv, _⟩ := splitLoop_inv _ pre _ st [] [] hzpre SplitAt_init hpre
    rw [splitLoop] at hp2
    by_cases hcap : ((2 * data.length : Nat) : Int) - 2 ≤ (st.data.length : Int)
    · rw [if_pos hcap] at hp2; simp at hp2
    rw [if_neg hcap] at hp2
    generalize hs : splitChar st c = o at hp2
    cases o with
    | none => cases hp2
    | some st2 =>
      simp only at hp2
      obtain ⟨ws2, cur2, hinv2, _, hone⟩ := splitChar_inv st st2 c ws cur hzc hinv hs
      obtain ⟨e2, _⟩ := hone hdel hnw hq
      obtain ⟨wsf, curf, hinvf, ⟨t, ht⟩⟩ := splitLoop_inv _ post st2 stf ws2 cur2 hzpost hinv2 hp2
      obtain ⟨f1, f2, _⟩ := SplitAt_final stf wsf curf hinvf B hB
      obtain ⟨_, hb, hl, _, _, _⟩ := hinv
      have hidx : (if st.blocklen = 0 then st.blocks.length - 1 else st.blocks.length) =
          (if cur = [] then ws else ws ++ [cur]).length := by
        rw [hb, hl, offsets_length]
        by_cases he : cur = []
        · rw [if_pos he, he]; simp
        · rw [if_neg he]
          have : cur.length ≠ 0 := fun h0 => he (List.length_eq_zero.1 h0)
          rw [if_neg this]; simp
      rw [hidx]
      have hget : (if curf = [] then wsf else wsf ++ [curf])[
          (if cur = [] then ws else ws ++ [cur]).length]? = some [c] := by
        have hw : wsf[(if cur = [] then ws else ws ++ [cur]).length]? = some [c] := by
          rw [ht, e2, List.append_assoc]
          rw [List.getElem?_append_right (Nat.le_refl _)]
          simp
        by_cases hef : curf = []
        · rw [if_pos hef]; exact hw
        · rw [if_neg hef]
          have hlt : (if cur = [] then ws else ws ++ [cur]).length < wsf.length := by
            rcases Nat.lt_or_ge (if cur = [] then ws else ws ++ [cur]).length wsf.length with h1 | h1
            · exact h1
            · rw [List.getElem?_eq_none h1] at hw; cases hw
          rw [List.getElem?_append_left hlt]
          exact hw
      refine ⟨?_, f2 _ _ hget⟩
      rw [f1]
      rcases Nat.lt_or_ge (if cur = [] then ws else ws ++ [cur]).length
        (if curf = [] then wsf else wsf ++ [curf]).length with h1 | h1
      · exact h1
      · rw [List.getElem?_eq_none h1] at hget; cases hget

theorem blocks_nonempty_witness :
    (∀ c ∈ str "<box/>", c ≠ 0) ∧
    _HDL_ParseDataToBlocks (str "<box/>") = .ret 0 (mkBlocks [str "<", str "box", str "/", str ">"]) ∧
    (∀ i, i < (mkBlocks [str "<", str "box", str "/", str ">"]).block_count →
      ∃ w, (mkBlocks [str "<", str "box", str "/", str ">"]).get i = some w ∧ w ≠ []) :=
  ⟨by decide, rfl,
   (blocks_nonempty (str "<box/>") (mkBlocks [str "<", str "box", str "/", str ">"])
     (by decide) rfl).1⟩

theorem Nulled_refl (m : List Nat) : Nulled m m := ⟨rfl, fun _ => Or.inl rfl⟩

theorem Nulled_trans {m m1 m2 : List Nat} (h1 : Nulled m m1) (h2 : Nulled m1 m2) :
    Nulled m m2 := by
  refine ⟨h2.1.trans h1.1, fun i => ?_⟩
  rcases h2.2 i with a | ⟨a, b⟩
  · rcases h1.2 i with c | ⟨c, d⟩
    · exact Or.inl (a.trans c)
    · exact Or.inr ⟨c, a.trans d⟩
  · rcases h1.2 i with c | ⟨c, d⟩
    · exact Or.inr ⟨c ▸ a, b⟩
    · rw [d] at a; cases a

theorem Nulled_set (m : List Nat) (i : Nat) (h : m[i]? = some 32) : Nulled m (m.set i 0) := by
  refine ⟨by simp, fun k => ?_⟩
  by_cases hk : i = k
  · subst hk
    right
    refine ⟨h, ?_⟩
    have hlt : i < m.length := by
      rcases Nat.lt_or_ge i m.length with h1 | h1
      · exact h1
      · rw [List.getElem?_eq_none h1] at h; cases h
    simp [List.getElem?_set, hlt]
  · left
    simp [List.getElem?_set, hk]

theorem get_of_length {α : Type} (l l1 : List α) (i : Nat) (a : α) (hl : l1.length = l.length)
    (h : l[i]? = some a) : ∃ b, l1[i]? = some b := by
  have hlt : i < l.length := by
    rcases Nat.lt_or_ge i l.length with h1 | h1
    · exact h1
    · rw [List.getElem?_eq_none h1] at h; cases h
  exact ⟨l1[i], List.getElem?_eq_getElem (by omega)⟩

theorem AttrKept_refl (a : HDL_Attr) : AttrKept a a := ⟨rfl, rfl, Or.inl rfl, Or.inl rfl⟩

theorem ElemKept_refl (e : HDL_Element) : ElemKept e e := by
  refine ⟨rfl, rfl, rfl, rfl, rfl, fun i a a1 h h1 => ?_⟩
  rw [h] at h1
  cases h1
  exact AttrKept_refl a

theorem VarKept_refl (d : HDL_Document) (j : Nat) (v : HDL_Variable) : VarKept d j v v :=
  ⟨rfl, rfl, rfl, rfl, Or.inl rfl⟩

theorem Kept_refl (d : HDL_Document) : Kept d d := by
  refine ⟨rfl, rfl, fun i e e1 h h1 => ?_, rfl, fun j v v1 h h1 => ?_⟩
  · rw [h] at h1; cases h1; exact ElemKept_refl e
  · rw [h] at h1; cases h1; exact VarKept_refl d j v

theorem AttrKept_trans {a a1 a2 : HDL_Attr} (h1 : AttrKept a a1) (h2 : AttrKept a1 a2) :
    AttrKept a a2 := by
  obtain ⟨k1, c1, t1, v1⟩ := h1
  obtain ⟨k2, c2, t2, v2⟩ := h2
  have hstr : a1.type = .STRING → a.type = .STRING := by
    intro hs
    rcases t1 with t | ⟨t, t', _⟩
    · rw [← t]; exact hs
    · exact t
  refine ⟨k2.trans k1, c2.trans c1, ?_, ?_⟩
  · rcases t2 with t | ⟨ta, tb, tc⟩
    · rcases t1 with u | ⟨ua, ub, uc⟩
      · exact Or.inl (t.trans u)
      · exact Or.inr ⟨ua, t.trans ub, uc⟩
    · rw [k1] at tc
      exact Or.inr ⟨hstr ta, tb, tc⟩
  · rcases v2 with w | ⟨wa, wb, m, m1, wc, wd, we⟩
    · rcases v1 with u | ⟨ua, ub, n, n1, uc, ud, ue⟩
      · exact Or.inl (w.trans u)
      · exact Or.inr ⟨ua, ub, n, n1, uc, w.trans ud, ue⟩
    · rw [k1] at wa
      rcases v1 with u | ⟨ua, ub, n, n1, uc, ud, ue⟩
      · exact Or.inr ⟨wa, hstr wb, m, m1, u ▸ wc, wd, we⟩
      · rw [ud] at wc
        cases wc
        exact Or.inr ⟨wa, ub, n, m1, uc, wd, Nulled_trans ue we⟩

theorem ElemKept_trans {e e1 e2 : HDL_Element} (h1 : ElemKept e e1) (h2 : ElemKept e1 e2) :
    ElemKept e e2 := by
  obtain ⟨a1, b1, c1, d1, l1, f1⟩ := h1
  obtain ⟨a2, b2, c2, d2, l2, f2⟩ := h2
  refine ⟨a2.trans a1, b2.trans b1, c2.trans c1, d2.trans d1, l2.trans l1, fun i a a' h h' => ?_⟩
  obtain ⟨b, hb⟩ := get_of_length e.attrs e1.attrs i a l1 h
  exact AttrKept_trans (f1 i a b h hb) (f2 i b a' hb h')

theorem AlignAlias_of_Kept {d d1 : HDL_Document} (h : Kept d d1) (j : Nat)
    (ha : AlignAlias d1 j) : AlignAlias d j := by
  obtain ⟨_, hl, he, _, _⟩ := h
  obtain ⟨e1, he1, a1, ha1, hk, ht, hv⟩ := ha
  obtain ⟨i, hi⟩ := List.mem_iff_getElem?.1 he1
  obtain ⟨e, hge⟩ := get_of_length d1.elements d.elements i e1 hl.symm hi
  obtain ⟨_, _, _, _, la, fa⟩ := he i e e1 hge hi
  obtain ⟨k, hk1⟩ := List.mem_iff_getElem?.1 ha1
  obtain ⟨a, hga⟩ := get_of_length e1.attrs e.attrs k a1 la.symm hk1
  obtain ⟨q1, _, q3, q4⟩ := fa k a a1 hga hk1
  refine ⟨e, List.mem_iff_getElem?.2 ⟨i, hge⟩, a, List.mem_iff_getElem?.2 ⟨k, hga⟩, ?_, ?_, ?_⟩
  · rw [← q1]; exact hk
  · rcases q3 with t | ⟨t, _, _⟩
    · rw [← t]; exact ht
    · exact t
  · rcases q4 with w | ⟨_, _, m, m1, _, wd, _⟩
    · rw [← w]; exact hv
    · rw [wd] at hv; cases hv

theorem Kept_trans {d d1 d2 : HDL_Document} (h1 : Kept d d1) (h2 : Kept d1 d2) : Kept d d2 := by
  have hal := AlignAlias_of_Kept h1
  obtain ⟨b1, l1, e1, m1, v1⟩ := h1
  obtain ⟨b2, l2, e2, m2, v2⟩ := h2
  refine ⟨b2.trans b1, l2.trans l1, fun i e e' h h' => ?_, m2.trans m1, fun j v v' h h' => ?_⟩
  · obtain ⟨x, hx⟩ := get_of_length d.elements d1.elements i e l1 h
    exact ElemKept_trans (e1 i e x h hx) (e2 i x e' hx h')
  · obtain ⟨x, hx⟩ := get_of_length d.vars d1.vars j v m1 h
    obtain ⟨n1, t1, c1, i1, w1⟩ := v1 j v x h hx
    obtain ⟨n2, t2, c2, i2, w2⟩ := v2 j x v' hx h'
    refine ⟨n2.trans n1, t2.trans t1, c2.trans c1, i2.trans i1, ?_⟩
    rcases w2 with w | ⟨wa, m, m', wc, wd, we⟩
    · rcases w1 with u | ⟨ua, n, n', uc, ud, ue⟩
      · exact Or.inl (w.trans u)
      · exact Or.inr ⟨ua, n, n', uc, w.trans ud, ue⟩
    · rcases w1 with u | ⟨ua, n, n', uc, ud, ue⟩
      · exact Or.inr ⟨hal j wa, m, m', u ▸ wc, wd, we⟩
      · rw [ud] at wc
        cases wc
        exact Or.inr ⟨ua, n, m', uc, wd, Nulled_trans ue we⟩

theorem alignTemp_nulled (mem mem1 : List Nat) (f : Nat) (h : alignTemp mem = some (mem1, f)) :
    Nulled mem mem1 := by
  unfold alignTemp at h
  cases hc : cstrAt mem 0 with
  | none => rw [hc] at h; cases h
  | some y0 =>
    rw [hc] at h
    simp only at h
    by_cases h0 : y0.length = 0
    · rw [if_pos h0] at h
      simp only [Option.some.injEq, Prod.mk.injEq] at h
      rw [← h.1]
      exact Nulled_refl mem
    · rw [if_neg h0] at h
      unfold scanSpace at h
      by_cases hi : mem.indexOf 32 < mem.length
      · rw [if_pos hi] at h
        simp only at h
        cases hc1 : cstrAt (mem.set (mem.indexOf 32) 0) 0 with
        | none => rw [hc1] at h; cases h
        | some ys =>
          rw [hc1] at h
          simp only [Option.map_eq_some'] at h
          obtain ⟨x, _, hx⟩ := h
          simp only [Prod.mk.injEq] at hx
          rw [← hx.1]
          apply Nulled_set
          rw [List.getElem?_eq_getElem hi, List.getElem_indexOf hi]
      · rw [if_neg hi] at h
        cases h

theorem elems_set (doc : HDL_Document) (ei i : Nat) (e : HDL_Element) (a a' : HDL_Attr)
    (he : doc.elements[ei]? = some e) (ha : e.attrs[i]? = some a) (hk : AttrKept a a') :
    (doc.elements.set ei { e with attrs := e.attrs.set i a' }).length = doc.elements.length ∧
    ∀ (k : Nat) (x x1 : HDL_Element), doc.elements[k]? = some x →
      (doc.elements.set ei { e with attrs := e.attrs.set i a' })[k]? = some x1 →
      ElemKept x x1 := by
  refine ⟨by simp, fun k x x1 hx hx1 => ?_⟩
  rw [List.getElem?_set] at hx1
  by_cases hki : ei = k
  · subst hki
    rw [if_pos rfl] at hx1
    rw [he] at hx
    cases hx
    split at hx1
    · simp only [Option.some.injEq] at hx1
      subst hx1
      refine ⟨rfl, rfl, rfl, rfl, by simp, fun n b b1 hb hb1 => ?_⟩
      simp only at hb1
      rw [List.getElem?_set] at hb1
      by_cases hn : i = n
      · subst hn
        rw [if_pos rfl] at hb1
        rw [ha] at hb
        cases hb
        split at hb1
        · simp only [Option.some.injEq] at hb1
          subst hb1
          exact hk
        · cases hb1
      · rw [if_neg hn] at hb1
        rw [hb] at hb1
        cases hb1
        exact AttrKept_refl b
    · cases hx1
  · rw [if_neg hki] at hx1
    rw [hx] at hx1
    cases hx1
    exact ElemKept_refl x

theorem vars_set (doc : HDL_Document) (j : Nat) (v : HDL_Variable) (m m1 : List Nat)
    (hv : doc.vars[j]? = some v) (hm : v.value = .own m) (hn : Nulled m m1)
    (hal : AlignAlias doc j) :
    (doc.vars.set j { v with value := .own m1 }).length = doc.vars.length ∧
    ∀ (k : Nat) (x x1 : HDL_Variable), doc.vars[k]? = some x →
      (doc.vars.set j { v with value := .own m1 })[k]? = some x1 → VarKept doc k x x1 := by
  refine ⟨by simp, fun k x x1 hx hx1 => ?_⟩
  rw [List.getElem?_set] at hx1
  by_cases hkj : j = k
  · subst hkj
    rw [if_pos rfl] at hx1
    rw [hv] at hx
    cases hx
    split at hx1
    · simp only [Option.some.injEq] at hx1
      subst hx1
      exact ⟨rfl, rfl, rfl, rfl, Or.inr ⟨hal, m, m1, hm, rfl, hn⟩⟩
    · cases hx1
  · rw [if_neg hkj] at hx1
    rw [hx] at hx1
    cases hx1
    exact VarKept_refl doc k x

theorem vars_same (doc : HDL_Document) :
    ∀ (k : Nat) (x x1 : HDL_Variable), doc.vars[k]? = some x → doc.vars[k]? = some x1 →
      VarKept doc k x x1 := by
  intro k x x1 hx hx1
  rw [hx] at hx1
  cases hx1
  exact VarKept_refl doc k x

theorem compilePayload_doc (s s1 : CState) (a : HDL_Attr) (val : Option (List Nat))
    (h : compilePayload s a val = some s1) : s1.doc = s.doc :=
  (compilePayload_emits s s1 a val h).1

/-- The attribute step of the encoder keeps the document up to `Kept`. -/
theorem compileAttr_kept (s s1 : CState) (ei addr i : Nat)
    (h : compileAttr s ei addr i = some s1) : Kept s.doc s1.doc := by
  unfold compileAttr at h
  cases he : s.doc.elements[ei]? with
  | none => rw [he] at h; cases h
  | some e =>
    rw [he] at h
    simp only at h
    cases ha : e.attrs[i]? with
    | none => rw [ha] at h; cases h
    | some a =>
      rw [ha] at h
      simp only at h
      by_cases d1 : findAttr a.key = 0xFF
      · rw [if_pos d1] at h
        simp only [Option.some.injEq] at h
        rw [← h]
        exact Kept_refl s.doc
      rw [if_neg d1] at h
      by_cases d2 : findAttr a.key = HDL_ATTR_FLEX_DIR ∧ a.type = .STRING
      · rw [if_pos d2] at h
        generalize flexdirTemp _ = ft at h
        cases ft with
        | none => cases h
        | some ftemp =>
          simp only at h
          have hd := compilePayload_doc _ _ _ _ h
          rw [hd]
          show Kept s.doc (setAttr s.doc ei i { a with type := HDL_Type.FLOAT })
          have hk : AttrKept a { a with type := HDL_Type.FLOAT } :=
            ⟨rfl, rfl, Or.inr ⟨d2.2, rfl, Or.inl d2.1⟩, Or.inl rfl⟩
          obtain ⟨q1, q2⟩ := elems_set s.doc ei i e a _ he ha hk
          simp only [setAttr, he]
          exact ⟨rfl, q1, q2, rfl, vars_same s.doc⟩
      rw [if_neg d2] at h
      by_cases d3 : findAttr a.key = HDL_ATTR_ALIGN ∧ a.type = .STRING
      · rw [if_pos d3] at h
        cases hdr : deref (emit s (findAttr a.key)).doc a.value with
        | none => rw [hdr] at h; cases h
        | some mem =>
          rw [hdr] at h
          simp only [Option.some_bind] at h
          cases hat : alignTemp mem with
          | none => rw [hat] at h; cases h
          | some p =>
            obtain ⟨mem1, ftemp⟩ := p
            rw [hat] at h
            simp only at h
            have hd := compilePayload_doc _ _ _ _ h
            rw [hd]
            have hn := alignTemp_nulled mem mem1 ftemp hat
            show Kept s.doc (writeBack (setAttr s.doc ei i { a with type := HDL_Type.FLOAT })
              ei i { a with type := HDL_Type.FLOAT } mem1)
            have hdr' : deref s.doc a.value = some mem := hdr
            cases hv : a.value with
            | null => rw [hv] at hdr'; cases hdr'
            | own m =>
              rw [hv] at hdr'
              simp only [deref, Option.some.injEq] at hdr'
              subst hdr'
              have hk : AttrKept a ⟨a.key, .own mem1, .FLOAT, a.count⟩ :=
                ⟨rfl, rfl, Or.inr ⟨d3.2, rfl, Or.inr d3.1⟩,
                  Or.inr ⟨d3.1, d3.2, m, mem1, hv, rfl, hn⟩⟩
              obtain ⟨q1, q2⟩ := elems_set s.doc ei i e a _ he ha hk
              have hlt : ei < s.doc.elements.length := by
                rcases Nat.lt_or_ge ei s.doc.elements.length with h1 | h1
                · exact h1
                · rw [List.getElem?_eq_none h1] at he; cases he
              simp only [writeBack, hv, setAttr, he, List.getElem?_set, if_true, hlt,
                List.set_set]
              exact ⟨rfl, q1, q2, rfl, vars_same s.doc⟩
            | var j =>
              rw [hv] at hdr'
              simp only [deref] at hdr'
              cases hvj : s.doc.vars[j]? with
              | none => rw [hvj] at hdr'; cases hdr'
              | some v =>
                rw [hvj] at hdr'
                simp only at hdr'
                cases hvv : v.value with
                | null => rw [hvv] at hdr'; cases hdr'
                | var _ => rw [hvv] at hdr'; cases hdr'
                | own m =>
                  rw [hvv] at hdr'
                  simp only [Option.some.injEq] at hdr'
                  subst hdr'
                  have hk : AttrKept a { a with type := HDL_Type.FLOAT } :=
                    ⟨rfl, rfl, Or.inr ⟨d3.2, rfl, Or.inr d3.1⟩, Or.inl rfl⟩
                  obtain ⟨q1, q2⟩ := elems_set s.doc ei i e a _ he ha hk
                  have hal : AlignAlias s.doc j :=
                    ⟨e, List.mem_iff_getElem?.2 ⟨ei, he⟩, a, List.mem_iff_getElem?.2 ⟨i, ha⟩,
                      d3.1, d3.2, hv⟩
                  obtain ⟨r1, r2⟩ := vars_set s.doc j v m mem1 hvj hvv hn hal
                  simp only [writeBack, hv, setAttr, he, hvj]
                  simp only [hv] at q1 q2
                  exact ⟨rfl, q1, q2, r1, r2⟩
      · rw [if_neg d3] at h
        have hd := compilePayload_doc _ _ _ _ h
        rw [hd]
        exact Kept_refl s.doc

theorem compileAttrs_kept (ei addr : Nat) :
    ∀ (n i : Nat) (s s1 : CState), compileAttrs ei addr n i s = some s1 → Kept s.doc s1.doc := by
  intro n
  induction n with
  | zero =>
    intro i s s1 h
    simp only [compileAttrs, Option.some.injEq] at h
    rw [← h]; exact Kept_refl s.doc
  | succ n ih =>
    intro i s s1 h
    simp only [compileAttrs] at h
    cases hx : compileAttr s ei addr i with
    | none => rw [hx] at h; cases h
    | some s2 =>
      rw [hx] at h
      exact Kept_trans (compileAttr_kept s s2 ei addr i hx) (ih (i + 1) s2 s1 h)

theorem compileChildren_kept (fuel : Nat)
    (IH : ∀ (s : CState) (ei c : Nat) (s1 : CState),
      compileElement fuel s ei = .ret c s1 → Kept s.doc s1.doc) :
    ∀ (cs : List Nat) (s : CState) (c : Nat) (s1 : CState),
      compileChildren (compileElement fuel) cs s = .ret c s1 → Kept s.doc s1.doc := by
  intro cs
  induction cs with
  | nil =>
    intro s c s1 h
    simp only [compileChildren, Res.ret.injEq] at h
    rw [← h.2]; exact Kept_refl s.doc
  | cons x cs ih =>
    intro s c s1 h
    simp only [compileChildren] at h
    cases hx : compileElement fuel s x with
    | ub => rw [hx] at h; cases h
    | nofuel => rw [hx] at h; cases h
    | ret c2 s2 =>
      rw [hx] at h
      exact Kept_trans (IH s x c2 s2 hx) (ih s2 c s1 h)

theorem compileElement_kept (fuel : Nat) :
    ∀ (s : CState) (ei c : Nat) (s1 : CState),
      compileElement fuel s ei = .ret c s1 → Kept s.doc s1.doc := by
  induction fuel with
  | zero => intro s ei c s1 h; simp [compileElement] at h
  | succ fuel ih =>
    intro s ei c s1 h
    unfold compileElement at h
    cases he : s.doc.elements[ei]? with
    | none => rw [he] at h; cases h
    | some e =>
      rw [he] at h
      simp only at h
      split at h
      · simp only [Res.ret.injEq] at h
        rw [← h.2]; exact Kept_refl s.doc
      · generalize hsb : emitBytes (emit s (findTag e.tag)) (e.content.getD [] ++ [0]) = sb at h
        have hsbd : sb.doc = s.doc := by rw [← hsb]; rfl
        cases hca : compileAttrs ei sb.pc e.attrs.length 0 (emit sb e.attrs.length) with
        | none => rw [hca] at h; cases h
        | some sd =>
          rw [hca] at h
          simp only at h
          have k1 := compileAttrs_kept ei sb.pc e.attrs.length 0 _ sd hca
          have k2 := compileChildren_kept fuel ih _ _ _ _ h
          have e1 : (emit sb e.attrs.length).doc = s.doc := hsbd
          have e2 : (emit sd e.children.length).doc = sd.doc := rfl
          rw [e1] at k1
          rw [e2] at k2
          exact Kept_trans k1 k2

theorem compileBitmap_doc (bmp : HDL_Bitmap) (s s1 : CState)
    (h : compileBitmap bmp s = some s1) : s1.doc = s.doc := by
  unfold compileBitmap at h
  simp only at h
  split at h
  · simp only [Option.some.injEq] at h; rw [← h]; rfl
  · split at h
    · cases h
    · split at h
      · simp only [Option.some.injEq] at h; rw [← h]; rfl
      · cases h

theorem compileBitmaps_doc (bs : List HDL_Bitmap) (s s1 : CState)
    (h : compileBitmaps bs s = some s1) : s1.doc = s.doc := by
  induction bs generalizing s with
  | nil => simp only [compileBitmaps, Option.some.injEq] at h; rw [← h]
  | cons b bs ih =>
    simp only [compileBitmaps] at h
    cases hb : compileBitmap b s with
    | none => rw [hb] at h; cases h
    | some s2 =>
      rw [hb] at h
      rw [ih s2 h, compileBitmap_doc b s s2 hb]

theorem compile_kept (fuel : Nat) (s s1 : CState) (c : Nat) (h : compile fuel s = .ret c s1) :
    Kept s.doc s1.doc := by
  unfold compile at h
  simp only at h
  cases hb : compileBitmaps (compileHeader s).doc.bitmaps (compileHeader s) with
  | none => rw [hb] at h; cases h
  | some s2 =>
    rw [hb] at h
    simp only at h
    have hd : s2.doc = s.doc := by
      rw [compileBitmaps_doc _ _ _ hb]; rfl
    cases hx : compileElement fuel s2 0 with
    | ub => rw [hx] at h; cases h
    | nofuel => rw [hx] at h; cases h
    | ret c2 s3 =>
      rw [hx] at h
      have hk := compileElement_kept fuel s2 0 c2 s3 hx
      rw [hd] at hk
      cases c2 with
      | zero => simp only [Res.ret.injEq] at h; rw [← h.2]; exact hk
      | succ n => simp only [Res.ret.injEq] at h; rw [← h.2]; exact hk

/-- Without a STRING `align` attribute, `Kept` leaves every payload as it was. -/
theorem Kept_values {d d1 : HDL_Document} (h : Kept d d1)
    (hno : ∀ e ∈ d.elements, ∀ a ∈ e.attrs,
      ¬ (findAttr a.key = HDL_ATTR_ALIGN ∧ a.type = .STRING)) :
    d1.vars = d.vars ∧
    ∀ (i : Nat) (e e1 : HDL_Element), d.elements[i]? = some e → d1.elements[i]? = some e1 →
      e1.attrs.map (fun a => a.value) = e.attrs.map (fun a => a.value) := by
  obtain ⟨_, _, he, lv, hv⟩ := h
  refine ⟨?_, fun i e e1 h1 h2 => ?_⟩
  · apply List.ext_getElem?
    intro j
    cases hj : d.vars[j]? with
    | none =>
      have : d.vars.length ≤ j := by
        rcases Nat.lt_or_ge j d.vars.length with h1 | h1
        · rw [List.getElem?_eq_getElem h1] at hj; cases hj
        · exact h1
      exact List.getElem?_eq_none (by omega)
    | some v =>
      obtain ⟨v1, hv1⟩ := get_of_length d.vars d1.vars j v lv hj
      rw [hv1]
      obtain ⟨a, b, c, e, f⟩ := hv j v v1 hj hv1
      rcases f with f | ⟨⟨x, hx, y, hy, k1, k2, _⟩, _⟩
      · cases v
        cases v1
        simp only at a b c e f
        subst a b c e f
        rfl
      · exact absurd ⟨k1, k2⟩ (hno x hx y hy)
  · obtain ⟨_, _, _, _, la, fa⟩ := he i e e1 h1 h2
    apply List.ext_getElem?
    intro k
    simp only [List.getElem?_map]
    cases hk : e.attrs[k]? with
    | none =>
      have : e.attrs.length ≤ k := by
        rcases Nat.lt_or_ge k e.attrs.length with h3 | h3
        · rw [List.getElem?_eq_getElem h3] at hk; cases hk
        · exact h3
      rw [List.getElem?_eq_none (by omega)]
    | some a =>
      obtain ⟨a1, ha1⟩ := get_of_length e.attrs e1.attrs k a la hk
      rw [ha1]
      obtain ⟨_, _, _, q⟩ := fa k a a1 hk ha1
      rcases q with q | ⟨k1, k2, _⟩
      · simp [q]
      · exact absurd ⟨k1, k2⟩ (hno e (List.mem_iff_getElem?.2 ⟨i, h1⟩) a
          (List.mem_iff_getElem?.2 ⟨k, hk⟩))

/-- Claim C34, counterexample: encoding `<box align='top left'/>` stores a
terminator over the space of the attribute's payload, which is `top left`
before and `top`, NUL, `left` after; with `#const a 'top left'` and
`<box align=a/>` the same store lands in the payload of the constant. -/
theorem align_rewrites_payload :
    HDL_Parse noLoader 3 (str "<box align='top left'/>") =
      .ret 0 (boxWith [stringAttr "align" "top left"]) ∧
    (∃ s1, compile 2 ⟨boxWith [stringAttr "align" "top left"], zeroBuf, 0⟩ = .ret 0 s1 ∧
      s1.doc = boxWith [⟨str "align", .own (str "top" ++ [0] ++ str "left" ++ [0]), .FLOAT, 1⟩]) ∧
    HDL_Parse noLoader 4 (str "#const a 'top left'\n<box align=a/>") =
      .ret 0 ⟨[⟨str "box", none, [aliasAttr "align"], -1, []⟩], [topLeft], []⟩ ∧
    ∃ s1, compile 2 ⟨⟨[⟨str "box", none, [aliasAttr "align"], -1, []⟩], [topLeft], []⟩,
        zeroBuf, 0⟩ = .ret 0 s1 ∧
      s1.doc.vars = [⟨str "a", .own (str "top" ++ [0] ++ str "left" ++ [0]), .STRING, 1, 1⟩] :=
  ⟨rfl, ⟨_, rfl, by decide⟩, rfl, ⟨_, rfl, by decide⟩⟩

/-- Claim C34 (amended): whenever `compile` returns, the document after the
call is the document before it up to `Kept`: bitmaps, tags, contents, parents,
children, attribute keys and counts and the constants' names, types and counts
are the same; an attribute's type is the same or went from STRING to FLOAT on a
`flexdir` or `align` key; a payload block is the same except that in the block
of a STRING `align` attribute (its own block, or the block of the constant it
aliases) spaces may have been replaced by terminators.  In particular, when no
attribute is a STRING `align`, every payload of every attribute and constant is
the same as before. -/
theorem payload_kept (fuel : Nat) (s s1 : CState) (c : Nat)
    (h : compile fuel s = .ret c s1) :
    Kept s.doc s1.doc ∧
    ((∀ e ∈ s.doc.elements, ∀ a ∈ e.attrs,
        ¬ (findAttr a.key = HDL_ATTR_ALIGN ∧ a.type = .STRING)) →
      s1.doc.vars = s.doc.vars ∧
      ∀ (i : Nat) (e e1 : HDL_Element), s.doc.elements[i]? = some e →
        s1.doc.elements[i]? = some e1 →
        e1.attrs.map (fun a => a.value) = e.attrs.map (fun a => a.value)) :=
  ⟨compile_kept fuel s s1 c h, Kept_values (compile_kept fuel s s1 c h)⟩

theorem payload_kept_witness :
    ∃ s1, compile 2 ⟨boxWith [stringAttr "flexdir" "row"], zeroBuf, 0⟩ = .ret 0 s1 ∧
      Kept (boxWith [stringAttr "flexdir" "row"]) s1.doc ∧
      ((∀ e ∈ (boxWith [stringAttr "flexdir" "row"]).elements, ∀ a ∈ e.attrs,
          ¬ (findAttr a.key = HDL_ATTR_ALIGN ∧ a.type = .STRING)) →
        s1.doc.vars = (boxWith [stringAttr "flexdir" "row"]).vars ∧
        ∀ (i : Nat) (e e1 : HDL_Element),
          (boxWith [stringAttr "flexdir" "row"]).elements[i]? = some e →
          s1.doc.elements[i]? = some e1 →
          e1.attrs.map (fun a => a.value) = e.attrs.map (fun a => a.value)) :=
  ⟨_, rfl, payload_kept 2 ⟨boxWith [stringAttr "flexdir" "row"], zeroBuf, 0⟩ _ 0 rfl⟩

end Hdl
